import Mathlib

/-!
# VELOCIraptor-STF: group indexing and per-group property engine

Shallow embedding of the routines of `src/stf/src/substructureproperties.cxx`,
`src/stf/src/main.cxx` and `src/stf/src/swiftinterface.cxx` that reorder the particle
buffer by group and compute per-group bulk properties.

Conventions of the embedding
* `Int_t` values are modelled by `Int` (indices and counts by `Nat`), `Double_t` values by
  exact rationals `ℚ` ("in exact arithmetic").
* An array is a `List`; an array that is only read through an index is a function.
* The library sorts (`qsort`, `gsl_heapsort`) are not stable.  Wherever the order of ties
  matters a result is stated for every sorted permutation of the input; the executable
  stand-in is insertion sort with the same comparison key.
* Library functions (`log`, `exp`, `sqrt`, `Particle::Radius()`, the tree potential) are
  parameters of the definitions that call them.
* A loop without a bound on its passes takes a number of passes allowed (`fuel`) and yields
  an `Outcome`: a result, or the fault that stopped the run.
-/

namespace Velociraptor

/-! ## Data model -/

/-- Three-component vector, the `Coordinate` of the particle library. -/
structure Coordinate where
  x : ℚ
  y : ℚ
  z : ℚ
deriving DecidableEq

/-- Particle record: the fields of `Particle` that the property routines read or write. -/
structure Particle where
  id : Int
  pid : Int
  type : Int
  pos : Coordinate
  vel : Coordinate
  mass : ℚ
  potential : ℚ
deriving DecidableEq

/-! ## Group indexing (`CalculateHaloProperties`, `SortAccordingtoBindingEnergy`) -/

/-- Loop body of the key assignment, `substructureproperties.cxx` 3198-3202 and 3281-3284:
`if (pfof[Part[i].GetID()]>ioffset) Part[i].SetPID(pfof[Part[i].GetID()]);`
`else Part[i].SetPID(nbodies+1);`  (`ioffset` is `0` in `CalculateHaloProperties`). -/
def setGroupPID (nbodies : Nat) (pfof : Int → Int) (ioffset : Int) (p : Particle) : Particle :=
  if pfof p.id > ioffset then { p with pid := pfof p.id }
  else { p with pid := (nbodies : Int) + 1 }

/-- The whole key-assignment loop `for (i=0;i<nbodies;i++)`. -/
def assignGroupPIDs (pfof : Int → Int) (ioffset : Int) (Part : List Particle) : List Particle :=
  Part.map (setGroupPID Part.length pfof ioffset)

/-- Executable stand-in for `qsort(Part, nbodies, sizeof(Particle), PIDCompare)`. -/
def sortByPID (Part : List Particle) : List Particle :=
  Part.insertionSort (fun a b => a.pid ≤ b.pid)

/-- What `qsort(..., PIDCompare)` guarantees of its output: a permutation of the input in
non-decreasing PID order (ties in any order). -/
def IsPIDSortOf (out inp : List Particle) : Prop :=
  out.Perm inp ∧ out.Sorted (fun a b => a.pid ≤ b.pid)

/-- Offset table, lines 3208-3209 and 3287-3288:
`noffset[0]=noffset[1]=0; for (i=2;i<=ngroup;i++) noffset[i]=noffset[i-1]+numingroup[i-1];` -/
def noffset (numingroup : Nat → Nat) : Nat → Nat
  | 0 => 0
  | 1 => 0
  | (i + 2) => noffset numingroup (i + 1) + numingroup (i + 1)

/-- Number of buffer indices `i < nbodies` with `pfof[i] = g` (what `BuildNumInGroup` counts). -/
def countInGroup (nbodies : Nat) (pfof : Int → Int) (g : Nat) : Nat :=
  ((List.range nbodies).filter (fun i : Nat => pfof (i : Int) = (g : Int))).length

/-- Assumptions of the contiguity contract: ids are a bijection onto `0..nbodies-1`, every
`pfof` value is at most `ngroup`, and `numingroup` counts the members of each group. -/
def GroupInput (Part : List Particle) (pfof : Int → Int) (ngroup : Nat)
    (numingroup : Nat → Nat) : Prop :=
  (Part.map (fun p => p.id)).Perm ((List.range Part.length).map (fun i : Nat => (i : Int))) ∧
  (∀ i : Nat, i < Part.length → pfof (i : Int) ≤ (ngroup : Int)) ∧
  (∀ g : Nat, 1 ≤ g → g ≤ ngroup → numingroup g = countInGroup Part.length pfof g)

/-- Contiguity of the sorted buffer `out`: offsets are prefix sums, slice `g` holds exactly
the particles of group `g`, slices are disjoint, unassigned particles fill the tail. -/
def GroupContiguity (out : List Particle) (pfof : Int → Int) (ngroup : Nat)
    (numingroup : Nat → Nat) : Prop :=
  (∀ g : Nat, 1 ≤ g → g ≤ ngroup →
      noffset numingroup g = ∑ h in Finset.Ico 1 g, numingroup h) ∧
  (∀ g : Nat, 1 ≤ g → g ≤ ngroup → ∀ (k : Nat) (hk : k < out.length),
      ((noffset numingroup g ≤ k ∧ k < noffset numingroup g + numingroup g) ↔
        pfof (out.get ⟨k, hk⟩).id = (g : Int))) ∧
  (∀ g g2 : Nat, 1 ≤ g → g < g2 → g2 ≤ ngroup →
      noffset numingroup g + numingroup g ≤ noffset numingroup g2) ∧
  (∀ (k : Nat) (hk : k < out.length),
      (pfof (out.get ⟨k, hk⟩).id ≤ 0 ↔ (∑ h in Finset.Ico 1 (ngroup + 1), numingroup h) ≤ k))

/-- A two-particle buffer with ids `0` and `1`, used to evaluate the group sort. -/
def c1Part : List Particle :=
  [ { id := 0, pid := 0, type := 0, pos := ⟨0, 0, 0⟩, vel := ⟨0, 0, 0⟩, mass := 1, potential := 0 },
    { id := 1, pid := 0, type := 0, pos := ⟨1, 0, 0⟩, vel := ⟨0, 0, 0⟩, mass := 1, potential := 0 } ]

/-- Group assignment `pfof = [5, 0]`: particle `0` in group `5`, particle `1` unassigned. -/
def c1Pfof (i : Int) : Int := if i = 0 then 5 else 0

/-- Member counts for `c1Pfof` with `ngroup = 5`: only group `5` has a member. -/
def c1Num (g : Nat) : Nat := if g = 5 then 1 else 0

/-- Group assignment `pfof = [1, 0]`: particle `0` in group `1`, particle `1` unassigned. -/
def c1PfofOk (i : Int) : Int := if i = 0 then 1 else 0

/-- Member counts for `c1PfofOk` with `ngroup = 1`. -/
def c1NumOk (g : Nat) : Nat := if g = 1 then 1 else 0

/-! ## Inclusive-halo sort values (`main`, `InvokeVelociraptor`) -/

/-- Sort value of one particle, `main.cxx` 307 and `swiftinterface.cxx` 285:
`sortvalhalos[i]=pfof[i]*(pfof[i]>0)+nbodies*(pfof[i]==0);`
(a C++ comparison converts to `1` when true and `0` when false). -/
def sortval (nbodies : Nat) (pfofi : Int) : Int :=
  pfofi * (if pfofi > 0 then 1 else 0) + (nbodies : Int) * (if pfofi = 0 then 1 else 0)

/-- The loop `for (Int_t i=0;i<nbodies;i++) sortvalhalos[i]=...` over the array `pfof`. -/
def sortvalhalos (pfof : List Int) : List Int :=
  pfof.map (sortval pfof.length)

/-- The property "every unassigned particle (`pfof ≤ 0`) has a sort value strictly greater
than every particle of a halo `1..nhalos`". -/
def UnassignedSortLast (pfof : List Int) (nhalos : Nat) : Prop :=
  ∀ i j : Nat, i < pfof.length → j < pfof.length →
    pfof.getD i 0 ≤ 0 → 1 ≤ pfof.getD j 0 → pfof.getD j 0 ≤ (nhalos : Int) →
    (sortvalhalos pfof).getD j 0 < (sortvalhalos pfof).getD i 0

/-- The same property restricted to particles with `pfof = 0`. -/
def ZeroSortLast (pfof : List Int) (nhalos : Nat) : Prop :=
  ∀ i j : Nat, i < pfof.length → j < pfof.length →
    pfof.getD i 0 = 0 → 1 ≤ pfof.getD j 0 → pfof.getD j 0 ≤ (nhalos : Int) →
    (sortvalhalos pfof).getD j 0 < (sortvalhalos pfof).getD i 0

/-! ## Centre of mass (`GetCMProp`)

`omppropnum` is a compile-time constant that is not part of the sources at hand; the two
branches it separates are embedded as two functions and it never enters a statement.
`sqrt` is avoided by carrying squared radii: `gsize2` is the square of `gsize`, and a test
`sqrt(r2) > gsize` is the test `r2 > gsize2` on non-negative numbers. -/

/-- Why a run of the embedded code stops without a result. -/
inductive Fault where
  | divByZero
  | outOfFuel
deriving DecidableEq

/-- Outcome of a run of the embedded code: a result, or the reason there is none. -/
inductive Outcome (α : Type) where
  | ok (a : α)
  | fault (f : Fault)
deriving DecidableEq

/-- Result of the centre-of-mass stage for one group. -/
structure CMState where
  gmass : ℚ
  gcm : Coordinate
  gcmvel : Coordinate
  gsize2 : ℚ
  Part : List Particle
deriving DecidableEq

/-- Componentwise sum `a + b`. -/
def Coordinate.add (a b : Coordinate) : Coordinate := ⟨a.x + b.x, a.y + b.y, a.z + b.z⟩

/-- Componentwise `c[k] *= s`. -/
def Coordinate.scale (c : Coordinate) (s : ℚ) : Coordinate := ⟨c.x * s, c.y * s, c.z * s⟩

/-- Componentwise `c[k] /= s`. -/
def Coordinate.divBy (c : Coordinate) (s : ℚ) : Coordinate := ⟨c.x / s, c.y / s, c.z / s⟩

/-- Squared distance `x*x + y*y + z*z` with `x = a.X() - b[0]` and so on. -/
def dist2 (a b : Coordinate) : ℚ :=
  (a.x - b.x) * (a.x - b.x) + (a.y - b.y) * (a.y - b.y) + (a.z - b.z) * (a.z - b.z)

/-- The square of `Particle::Radius()`: `x*x + y*y + z*z` of the stored position. -/
def radius2 (p : Particle) : ℚ := p.pos.x * p.pos.x + p.pos.y * p.pos.y + p.pos.z * p.pos.z

/-- Accumulated mass `EncMass += GetMass()` over a list of particles. -/
def totalMass (ps : List Particle) : ℚ := (ps.map (fun p => p.mass)).sum

/-- Accumulated `GetMass()*X()`, `GetMass()*Y()`, `GetMass()*Z()`. -/
def massPosSum (ps : List Particle) : Coordinate :=
  ⟨(ps.map (fun p => p.mass * p.pos.x)).sum, (ps.map (fun p => p.mass * p.pos.y)).sum,
   (ps.map (fun p => p.mass * p.pos.z)).sum⟩

/-- Accumulated `GetMass()*Vx()`, `GetMass()*Vy()`, `GetMass()*Vz()`. -/
def massVelSum (ps : List Particle) : Coordinate :=
  ⟨(ps.map (fun p => p.mass * p.vel.x)).sum, (ps.map (fun p => p.mass * p.vel.y)).sum,
   (ps.map (fun p => p.mass * p.vel.z)).sum⟩

/-- One particle of `x = X() - c[0]; ...; Pval->SetPosition(x,y,z)`. -/
def shiftBy (c : Coordinate) (p : Particle) : Particle :=
  { p with pos := ⟨p.pos.x - c.x, p.pos.y - c.y, p.pos.z - c.z⟩ }

/-- Lines 445-451: `gsize=0; for j: r2 = |gcm - x_j|^2; if (sqrt(r2)>gsize) gsize=sqrt(r2);`
carried as the square of `gsize`. -/
def maxDist2 (gcm : Coordinate) (ps : List Particle) : ℚ :=
  ps.foldl (fun g2 p => if dist2 gcm p.pos > g2 then dist2 gcm p.pos else g2) 0

/-- Executable stand-in for `qsort`/`gsl_heapsort` of a group slice with `RadCompare`. -/
def sortByRadius (ps : List Particle) : List Particle :=
  ps.insertionSort (fun a b => radius2 a ≤ radius2 b)

/-- Square of `Part[noffset[i]+numingroup[i]-1].Radius()`, the last particle of the slice. -/
def lastRadius2 (ps : List Particle) : ℚ :=
  match ps.getLast? with
  | some p => radius2 p
  | none => 0

/-- The particles counted by one pass of the aperture loop: those with
`(x*x + y*y + z*z) <= ri`, `x = X() - cmold[0]` and so on. -/
def insideAperture (ps : List Particle) (cmold : Coordinate) (ri : ℚ) : List Particle :=
  ps.filter (fun p => decide (dist2 p.pos cmold ≤ ri))

/-- The `while (true)` aperture loop of `GetCMProp` (lines 460-489 and 1086-1127), with the
iteration count bounded by `fuel`.  Each pass shrinks `ri`, counts the particles inside and,
if `Ninside > cmfrac*numingroup`, replaces the centre by `(cmx,cmy,cmz)/EncMass` and records
`rcmv = ri`; otherwise the loop is left.  It returns the last centre and `rcmv`. -/
def apertureLoop (cmfrac cmadjustfac : ℚ) (ps : List Particle) :
    Nat → Coordinate → ℚ → ℚ → Outcome (Coordinate × ℚ)
  | 0, _, _, _ => .fault .outOfFuel
  | (fuel + 1), cmold, ri, rcmv =>
    if ((insideAperture ps cmold (ri * cmadjustfac)).length : ℚ) > cmfrac * (ps.length : ℚ) then
      if totalMass (insideAperture ps cmold (ri * cmadjustfac)) = 0 then .fault .divByZero
      else apertureLoop cmfrac cmadjustfac ps fuel
        ((massPosSum (insideAperture ps cmold (ri * cmadjustfac))).divBy
          (totalMass (insideAperture ps cmold (ri * cmadjustfac))))
        (ri * cmadjustfac) (ri * cmadjustfac)
    else .ok (cmold, rcmv)

/-- Lines 490-507 and 1129-1155: shift the slice by the final centre and sum `m*v` and `m`
over the particles with `x*x+y*y+z*z <= rcmv`; `gcmvel = (cmx,cmy,cmz)/EncMass`. -/
def recentredVelocity (shifted : List Particle) (rcmv : ℚ) : Outcome Coordinate :=
  if totalMass (shifted.filter (fun p => decide (radius2 p ≤ rcmv))) = 0 then .fault .divByZero
  else .ok ((massVelSum (shifted.filter (fun p => decide (radius2 p ≤ rcmv)))).divBy
    (totalMass (shifted.filter (fun p => decide (radius2 p ≤ rcmv)))))

/-- Centre-of-mass stage of the small-group branch of `GetCMProp` (`numingroup <
omppropnum`), lines 434-524, for the slice `ps` of one group. -/
def GetCMProp_small (cmfrac cmadjustfac : ℚ) (fuel : Nat) (ps : List Particle) :
    Outcome CMState :=
  if totalMass ps = 0 then .fault .divByZero
  else
    let gcm0 := (massPosSum ps).scale (1 / totalMass ps)
    let gcmvel0 := (massVelSum ps).scale (1 / totalMass ps)
    let gsize2 := maxDist2 gcm0 ps
    if (ps.length : ℚ) * cmfrac ≥ 50 then
      match apertureLoop cmfrac cmadjustfac ps fuel gcm0 gsize2 gsize2 with
      | .fault e => .fault e
      | .ok (gcm, rcmv) =>
        match recentredVelocity (ps.map (shiftBy gcm)) rcmv with
        | .fault e => .fault e
        | .ok gcmvel =>
          .ok { gmass := totalMass ps, gcm := gcm, gcmvel := gcmvel, gsize2 := gsize2,
                Part := sortByRadius (ps.map (shiftBy gcm)) }
    else
      .ok { gmass := totalMass ps, gcm := gcm0, gcmvel := gcmvel0, gsize2 := gsize2,
            Part := sortByRadius (ps.map (shiftBy gcm0)) }

/-- Centre-of-mass stage of the large-group branch of `GetCMProp` (`numingroup >=
omppropnum`), lines 1048-1161.  The slice is first moved to the frame of the plain centre
`cmref` and sorted by radius; the aperture loop then runs unconditionally from `cmold = 0`. -/
def GetCMProp_large (cmfrac cmadjustfac : ℚ) (fuel : Nat) (ps : List Particle) :
    Outcome CMState :=
  if totalMass ps = 0 then .fault .divByZero
  else
    let cmref := (massPosSum ps).scale (1 / totalMass ps)
    let rel := sortByRadius (ps.map (shiftBy cmref))
    match apertureLoop cmfrac cmadjustfac rel fuel ⟨0, 0, 0⟩ (lastRadius2 rel) (lastRadius2 rel) with
    | .fault e => .fault e
    | .ok (cmold, rcmv) =>
      match recentredVelocity (rel.map (shiftBy cmold)) rcmv with
      | .fault e => .fault e
      | .ok gcmvel =>
        .ok { gmass := totalMass ps, gcm := cmref.add cmold, gcmvel := gcmvel,
              gsize2 := lastRadius2 (sortByRadius (rel.map (shiftBy cmold))),
              Part := sortByRadius (rel.map (shiftBy cmold)) }

/-- Plain mass-weighted centroid `sum(m_j x_j)/sum(m_j)`. -/
def plainCentroid (ps : List Particle) : Coordinate := (massPosSum ps).divBy (totalMass ps)

/-- Plain mass-weighted mean velocity `sum(m_j v_j)/sum(m_j)`. -/
def plainVelocity (ps : List Particle) : Coordinate := (massVelSum ps).divBy (totalMass ps)

/-- A particle of unit mass at `(x, 0, 0)` at rest. -/
def unitAt (i : Int) (x : ℚ) : Particle :=
  { id := i, pid := i, type := 0, pos := ⟨x, 0, 0⟩, vel := ⟨0, 0, 0⟩, mass := 1, potential := 0 }

/-- Three unit masses on a line at `x = 0, 1, 5`. -/
def c3Part : List Particle := [unitAt 0 0, unitAt 1 1, unitAt 2 5]

/-- Number of particles of the slice located exactly at position `c`. -/
def coincidentCount (ps : List Particle) (c : Coordinate) : Nat :=
  ps.countP (fun p => decide (p.pos = c))

/-- Fifty-one unit masses with distinct ids, all at the origin. -/
def c5Part : List Particle := (List.range 51).map (fun k : Nat => unitAt (k : Int) 0)

/-! ## Position reset at the end of `GetCMProp` -/

/-- Apply `f` to the element at index `k` (an update through a pointer into the slice). -/
def updateAt (f : Particle → Particle) : Nat → List Particle → List Particle
  | _, [] => []
  | 0, p :: t => f p :: t
  | (k + 1), p :: t => p :: updateAt f k t

/-- One pass of the reset loop: `x = (*Pval).X()+gcm[0]; ...; Pval->SetPosition(x,y,z);`. -/
def addPos (gcm : Coordinate) (p : Particle) : Particle :=
  { p with pos := ⟨p.pos.x + gcm.x, p.pos.y + gcm.y, p.pos.z + gcm.z⟩ }

/-- The loop "reset particle positions" of `GetCMProp`, lines 1034-1040 and 1821-1827:
`for (j=0;j<numingroup[i];j++) { x = (*Pval).X()+gcm[0]; ... Pval->SetPosition(x,y,z); }`.
`Pval` is not assigned inside the loop, so each of the `n` passes updates the particle the
pointer was left at by the preceding loops, index `pv` of the slice. -/
def resetPositions (gcm : Coordinate) (pv : Nat) : Nat → List Particle → List Particle
  | 0, Part => Part
  | (n + 1), Part => resetPositions gcm pv n (updateAt (addPos gcm) pv Part)

/-- The slice of one group when the small-group branch of `GetCMProp` returns: the
centre-of-mass stage leaves the positions relative to `gcm` and sorted by radius, the
kinematic stages only read the slice (the morphology stage rotates it to the principal frame
and back), and the reset loop runs last. -/
def GetCMProp_small_exit (cmfrac cmadjustfac : ℚ) (fuel pv : Nat) (ps : List Particle) :
    Outcome (List Particle) :=
  match GetCMProp_small cmfrac cmadjustfac fuel ps with
  | .ok r => .ok (resetPositions r.gcm pv ps.length r.Part)
  | .fault e => .fault e

/-- The slice of one group when the large-group branch of `GetCMProp` returns. -/
def GetCMProp_large_exit (cmfrac cmadjustfac : ℚ) (fuel pv : Nat) (ps : List Particle) :
    Outcome (List Particle) :=
  match GetCMProp_large cmfrac cmadjustfac fuel ps with
  | .ok r => .ok (resetPositions r.gcm pv ps.length r.Part)
  | .fault e => .fault e

/-- Every particle of the slice at exit has the position it had at entry (particles are
identified by `id`, which no stage changes). -/
def PositionsRestored (entry exit : List Particle) : Prop :=
  ∀ q ∈ exit, ∀ p ∈ entry, q.id = p.id → q.pos = p.pos

/-- No particle of the slice at exit has the position it had at entry. -/
def NoPositionRestored (entry exit : List Particle) : Prop :=
  ∀ q ∈ exit, ∀ p ∈ entry, q.id = p.id → q.pos ≠ p.pos

/-- Two particles: mass `1` at `x = 0` and mass `3` at `x = 4`. -/
def c6Part : List Particle :=
  [ { id := 0, pid := 0, type := 0, pos := ⟨0, 0, 0⟩, vel := ⟨0, 0, 0⟩, mass := 1, potential := 0 },
    { id := 1, pid := 1, type := 0, pos := ⟨4, 0, 0⟩, vel := ⟨0, 0, 0⟩, mass := 3, potential := 0 } ]

/-- The slice of `c6Part` after the centre-of-mass stage: relative to `gcm = (3,0,0)` and
sorted by radius. -/
def c6Rel : List Particle :=
  [ { id := 1, pid := 1, type := 0, pos := ⟨1, 0, 0⟩, vel := ⟨0, 0, 0⟩, mass := 3, potential := 0 },
    { id := 0, pid := 0, type := 0, pos := ⟨-3, 0, 0⟩, vel := ⟨0, 0, 0⟩, mass := 1, potential := 0 } ]

/-- The property "`gsize` is the radius of the outermost particle about the returned `gcm`",
on squares: `gsize^2` is the largest squared distance of a particle of the group from the
returned centre. -/
def GsizeIsOutermost (entry : List Particle) (r : CMState) : Prop :=
  r.gsize2 = maxDist2 r.gcm entry

/-- Fifty-one unit masses on a line at `x = 0, 1, ..., 50` and one at `x = 1000`. -/
def c8Part : List Particle :=
  (List.range 51).map (fun k : Nat => unitAt (k : Int) (k : ℚ)) ++ [unitAt 51 1000]

/-! ## Overdensity walks (`GetCMProp`, `GetInclusiveMasses`)

`log`, `exp` and `Particle::Radius()` are library functions; the walks are embedded with
them as parameters `logF`, `expF`, `Radius`, so every statement holds for whatever values the
library returns. -/

/-- The constant `M_PI` of `math.h`. -/
def M_PI : ℚ := 314159265358979323846 / 100000000000000000000

/-- The fields of `Options` read by the overdensity walks. -/
structure Options where
  iInclusiveHalo : Int
  virlevel : ℚ
  rhobg : ℚ
  Omega_m : ℚ
  virBN98 : ℚ

/-- The fields of `PropData` written by the overdensity walks and copied by `CopyMasses`. -/
structure PropData where
  hostid : Int
  gNFOF : Int
  gMFOF : ℚ
  gmass : ℚ
  gsize : ℚ
  gRhalfmass : ℚ
  gMvir : ℚ
  gRvir : ℚ
  gM200c : ℚ
  gR200c : ℚ
  gM200m : ℚ
  gR200m : ℚ
  gM500c : ℚ
  gR500c : ℚ
  gMBN98 : ℚ
  gRBN98 : ℚ
deriving DecidableEq

/-- The five log-density thresholds, locals of `GetCMProp` (lines 409-414) and of
`GetInclusiveMasses` (lines 1863-1867). -/
structure ODThresholds where
  virval : ℚ
  m200val : ℚ
  m200mval : ℚ
  mBN98val : ℚ
  m500val : ℚ

/-- Lines 409-414: `virval=log(opt.virlevel*opt.rhobg)`,
`m200val=log(opt.rhobg/opt.Omega_m*200.0)`, `m200mval=log(opt.rhobg*200.0)`,
`mBN98val=log(opt.virBN98*opt.rhobg)`, `m500val=log(opt.rhobg/opt.Omega_m*500.0)`. -/
def odThresholds (logF : ℚ → ℚ) (opt : Options) : ODThresholds :=
  { virval := logF (opt.virlevel * opt.rhobg)
    m200val := logF (opt.rhobg / opt.Omega_m * 200)
    m200mval := logF (opt.rhobg * 200)
    mBN98val := logF (opt.virBN98 * opt.rhobg)
    m500val := logF (opt.rhobg / opt.Omega_m * 500) }

/-- The five overdensity definitions. -/
inductive ODDef where
  | vir
  | c200
  | m200
  | c500
  | bn98
deriving DecidableEq

/-- Radius field of a definition: `gRvir`, `gR200c`, `gR200m`, `gR500c`, `gRBN98`. -/
def ODDef.radius (d : ODDef) (pd : PropData) : ℚ :=
  match d with
  | .vir => pd.gRvir
  | .c200 => pd.gR200c
  | .m200 => pd.gR200m
  | .c500 => pd.gR500c
  | .bn98 => pd.gRBN98

/-- Mass field of a definition: `gMvir`, `gM200c`, `gM200m`, `gM500c`, `gMBN98`. -/
def ODDef.mass (d : ODDef) (pd : PropData) : ℚ :=
  match d with
  | .vir => pd.gMvir
  | .c200 => pd.gM200c
  | .m200 => pd.gM200m
  | .c500 => pd.gM500c
  | .bn98 => pd.gMBN98

/-- Threshold of a definition: `virval`, `m200val`, `m200mval`, `m500val`, `mBN98val`. -/
def ODDef.threshold (d : ODDef) (th : ODThresholds) : ℚ :=
  match d with
  | .vir => th.virval
  | .c200 => th.m200val
  | .m200 => th.m200mval
  | .c500 => th.m500val
  | .bn98 => th.mBN98val

/-- Log mean enclosed density of a sample: `log(EncMass)-3.0*log(rc)-log(4.0*M_PI/3.0)`. -/
def logDensity (logF : ℚ → ℚ) (EncMass rc : ℚ) : ℚ :=
  logF EncMass - 3 * logF rc - logF (4 * M_PI / 3)

/-- Body of the inward walk of `GetCMProp` for one particle, lines 531-542 (and 1168-1179):
for each definition `if (gR==0 && EncMass>=0.01*gmass) if (log(EncMass)-3.0*log(rc)
-log(4.0*M_PI/3.0)>val) {gM=EncMass;gR=rc;}`.  Each of the five statements reads and writes
only the fields of its own definition, so they are written as one record update. -/
def odStep (logF : ℚ → ℚ) (Radius : Particle → ℚ) (th : ODThresholds) (pd : PropData)
    (EncMass : ℚ) (p : Particle) : PropData :=
  { pd with
    gMvir := if pd.gRvir = 0 ∧ EncMass ≥ 1 / 100 * pd.gmass ∧
        logDensity logF EncMass (Radius p) > th.virval then EncMass else pd.gMvir
    gRvir := if pd.gRvir = 0 ∧ EncMass ≥ 1 / 100 * pd.gmass ∧
        logDensity logF EncMass (Radius p) > th.virval then Radius p else pd.gRvir
    gM200c := if pd.gR200c = 0 ∧ EncMass ≥ 1 / 100 * pd.gmass ∧
        logDensity logF EncMass (Radius p) > th.m200val then EncMass else pd.gM200c
    gR200c := if pd.gR200c = 0 ∧ EncMass ≥ 1 / 100 * pd.gmass ∧
        logDensity logF EncMass (Radius p) > th.m200val then Radius p else pd.gR200c
    gM200m := if pd.gR200m = 0 ∧ EncMass ≥ 1 / 100 * pd.gmass ∧
        logDensity logF EncMass (Radius p) > th.m200mval then EncMass else pd.gM200m
    gR200m := if pd.gR200m = 0 ∧ EncMass ≥ 1 / 100 * pd.gmass ∧
        logDensity logF EncMass (Radius p) > th.m200mval then Radius p else pd.gR200m
    gM500c := if pd.gR500c = 0 ∧ EncMass ≥ 1 / 100 * pd.gmass ∧
        logDensity logF EncMass (Radius p) > th.m500val then EncMass else pd.gM500c
    gR500c := if pd.gR500c = 0 ∧ EncMass ≥ 1 / 100 * pd.gmass ∧
        logDensity logF EncMass (Radius p) > th.m500val then Radius p else pd.gR500c
    gMBN98 := if pd.gRBN98 = 0 ∧ EncMass ≥ 1 / 100 * pd.gmass ∧
        logDensity logF EncMass (Radius p) > th.mBN98val then EncMass else pd.gMBN98
    gRBN98 := if pd.gRBN98 = 0 ∧ EncMass ≥ 1 / 100 * pd.gmass ∧
        logDensity logF EncMass (Radius p) > th.mBN98val then Radius p else pd.gRBN98 }

/-- The `break` test of the walks:
`gR200m!=0&&gR200c!=0&&gRvir!=0&&gR500c!=0&&gRBN98!=0`. -/
def odAllSet (pd : PropData) : Prop :=
  pd.gR200m ≠ 0 ∧ pd.gR200c ≠ 0 ∧ pd.gRvir ≠ 0 ∧ pd.gR500c ≠ 0 ∧ pd.gRBN98 ≠ 0

instance (pd : PropData) : Decidable (odAllSet pd) := by
  unfold odAllSet
  exact inferInstance

/-- The loop `for (j=numingroup[i]-1;j>=0;j--)` of lines 530-549 over the slice in reverse
order (outermost particle first), starting from `EncMass`: the body, the `break` test, then
`EncMass-=Pval->GetMass()`. -/
def odWalk (logF : ℚ → ℚ) (Radius : Particle → ℚ) (th : ODThresholds) :
    List Particle → ℚ → PropData → PropData
  | [], _, pd => pd
  | p :: rest, EncMass, pd =>
    if odAllSet (odStep logF Radius th pd EncMass p) then odStep logF Radius th pd EncMass p
    else odWalk logF Radius th rest (EncMass - p.mass) (odStep logF Radius th pd EncMass p)

/-- The samples the loop of `odWalk` visits: each visited particle with the value of
`EncMass` at its pass. -/
def odVisited (logF : ℚ → ℚ) (Radius : Particle → ℚ) (th : ODThresholds) :
    List Particle → ℚ → PropData → List (ℚ × Particle)
  | [], _, _ => []
  | p :: rest, EncMass, pd =>
    (EncMass, p) ::
      (if odAllSet (odStep logF Radius th pd EncMass p) then []
       else odVisited logF Radius th rest (EncMass - p.mass) (odStep logF Radius th pd EncMass p))

/-- The fall-back of lines 550-554: `if (gRvir==0) {gMvir=gmass;gRvir=gsize;}` and the same
for the other four definitions. -/
def odFallback (pd : PropData) : PropData :=
  { pd with
    gMvir := if pd.gRvir = 0 then pd.gmass else pd.gMvir
    gRvir := if pd.gRvir = 0 then pd.gsize else pd.gRvir
    gM200c := if pd.gR200c = 0 then pd.gmass else pd.gM200c
    gR200c := if pd.gR200c = 0 then pd.gsize else pd.gR200c
    gM200m := if pd.gR200m = 0 then pd.gmass else pd.gM200m
    gR200m := if pd.gR200m = 0 then pd.gsize else pd.gR200m
    gM500c := if pd.gR500c = 0 then pd.gmass else pd.gM500c
    gR500c := if pd.gR500c = 0 then pd.gsize else pd.gR500c
    gMBN98 := if pd.gRBN98 = 0 then pd.gmass else pd.gMBN98
    gRBN98 := if pd.gRBN98 = 0 then pd.gsize else pd.gRBN98 }

/-- The gate of the exclusive walk, lines 529 and 1166:
`opt.iInclusiveHalo==0 || opt.iInclusiveHalo!=0 && pdata[i].hostid!=-1`. -/
def odGate (opt : Options) (pd : PropData) : Prop :=
  opt.iInclusiveHalo = 0 ∨ (opt.iInclusiveHalo ≠ 0 ∧ pd.hostid ≠ -1)

instance (opt : Options) (pd : PropData) : Decidable (odGate opt pd) := by
  unfold odGate
  exact inferInstance

/-- The inward walk of `GetCMProp` with its fall-back, lines 528 and 530-554 (and 1165,
1167-1191), for the radius-sorted slice `Part` of one group: `EncMass=gmass`, the loop from
the outermost particle inwards, then the fall-back. -/
def GetCMProp_inwardWalk (logF : ℚ → ℚ) (Radius : Particle → ℚ) (th : ODThresholds)
    (pd : PropData) (Part : List Particle) : PropData :=
  odFallback (odWalk logF Radius th Part.reverse pd.gmass pd)

/-- Overdensity stage of `GetCMProp`, lines 528-555 (and 1165-1192): the inward walk under
its gate, with the thresholds of lines 409-414. -/
def GetCMProp_overdensity (logF : ℚ → ℚ) (Radius : Particle → ℚ) (opt : Options)
    (pd : PropData) (Part : List Particle) : PropData :=
  if odGate opt pd then GetCMProp_inwardWalk logF Radius (odThresholds logF opt) pd Part
  else pd

/-- The acceptance test of a definition with threshold `val` at a sample:
`EncMass>=0.01*gmass` and `log(EncMass)-3.0*log(rc)-log(4.0*M_PI/3.0)>val`. -/
def odAccept (logF : ℚ → ℚ) (Radius : Particle → ℚ) (gmass val : ℚ) (s : ℚ × Particle) : Prop :=
  s.1 ≥ 1 / 100 * gmass ∧ logDensity logF s.1 (Radius s.2) > val

instance (logF : ℚ → ℚ) (Radius : Particle → ℚ) (gmass val : ℚ) (s : ℚ × Particle) :
    Decidable (odAccept logF Radius gmass val s) := by
  unfold odAccept
  exact inferInstance

/-- The log density as `GetInclusiveMasses` computes it: `log(EncMass)-3.0*log(rc)+fac` with
`fac=-log(4.0*M_PI/3.0)` (lines 1963, 1979, 2117, 2194). -/
def logDensityFac (logF : ℚ → ℚ) (EncMass rc : ℚ) : ℚ :=
  logF EncMass - 3 * logF rc + -(logF (4 * M_PI / 3))

/-- Body of the inward walk of `GetInclusiveMasses` with `iInclusiveHalo==1`, lines 1977-1989:
as `odStep`, with `rhoval` computed once and the mass guard of BN98 reading
`EncMass>=0.01*pdata[i].gMBN98`. -/
def inclStep (logF : ℚ → ℚ) (Radius : Particle → ℚ) (th : ODThresholds) (pd : PropData)
    (EncMass : ℚ) (p : Particle) : PropData :=
  { pd with
    gMvir := if pd.gRvir = 0 ∧ EncMass ≥ 1 / 100 * pd.gmass ∧
        logDensityFac logF EncMass (Radius p) > th.virval then EncMass else pd.gMvir
    gRvir := if pd.gRvir = 0 ∧ EncMass ≥ 1 / 100 * pd.gmass ∧
        logDensityFac logF EncMass (Radius p) > th.virval then Radius p else pd.gRvir
    gM200c := if pd.gR200c = 0 ∧ EncMass ≥ 1 / 100 * pd.gmass ∧
        logDensityFac logF EncMass (Radius p) > th.m200val then EncMass else pd.gM200c
    gR200c := if pd.gR200c = 0 ∧ EncMass ≥ 1 / 100 * pd.gmass ∧
        logDensityFac logF EncMass (Radius p) > th.m200val then Radius p else pd.gR200c
    gM200m := if pd.gR200m = 0 ∧ EncMass ≥ 1 / 100 * pd.gmass ∧
        logDensityFac logF EncMass (Radius p) > th.m200mval then EncMass else pd.gM200m
    gR200m := if pd.gR200m = 0 ∧ EncMass ≥ 1 / 100 * pd.gmass ∧
        logDensityFac logF EncMass (Radius p) > th.m200mval then Radius p else pd.gR200m
    gM500c := if pd.gR500c = 0 ∧ EncMass ≥ 1 / 100 * pd.gmass ∧
        logDensityFac logF EncMass (Radius p) > th.m500val then EncMass else pd.gM500c
    gR500c := if pd.gR500c = 0 ∧ EncMass ≥ 1 / 100 * pd.gmass ∧
        logDensityFac logF EncMass (Radius p) > th.m500val then Radius p else pd.gR500c
    gMBN98 := if pd.gRBN98 = 0 ∧ EncMass ≥ 1 / 100 * pd.gMBN98 ∧
        logDensityFac logF EncMass (Radius p) > th.mBN98val then EncMass else pd.gMBN98
    gRBN98 := if pd.gRBN98 = 0 ∧ EncMass ≥ 1 / 100 * pd.gMBN98 ∧
        logDensityFac logF EncMass (Radius p) > th.mBN98val then Radius p else pd.gRBN98 }

/-- Interpolated radius of the outward walk, lines 2198, 2206, 2213, 2222, 2229:
`exp(log(rc/radii[indices[j-1]])/(rhoval-rhoval2)*(val-rhoval2)+log(radii[indices[j-1]]))`.
The formula is written over any field `K`: the walks use it at `K = ℚ`, and at `K = ℝ`
with the real logarithm and exponential it is the formula in exact arithmetic. -/
def soInterpR {K : Type} [Field K] (logF expF : K → K) (rc rprev rhoval rhoval2 val : K) : K :=
  expF (logF (rc / rprev) / (rhoval - rhoval2) * (val - rhoval2) + logF rprev)

/-- Interpolated mass of the outward walk, lines 2199, 2207, 2214, 2223, 2230:
`exp(log(EncMass/(EncMass-masses[indices[j-1]]))/(rhoval-rhoval2)*(val-rhoval2)
+log(EncMass-masses[indices[j-1]]))`. -/
def soInterpM {K : Type} [Field K] (logF expF : K → K) (EncMass mprev rhoval rhoval2 val : K) :
    K :=
  expF (logF (EncMass / (EncMass - mprev)) / (rhoval - rhoval2) * (val - rhoval2) +
    logF (EncMass - mprev))

/-- Body of the outward walk of `GetInclusiveMasses` with `iInclusiveHalo==2`, lines
2194-2233, at one sample: `rc = radii[indices[j]]`, `EncMass` already holding the sample's
mass, `rprev = radii[indices[j-1]]`, `mprev = masses[indices[j-1]]` and `rhoval2` the log
density of the previous sample.  For each definition
`if (gR==0) if (rhoval<=val) { if (rhoval2>val) {interpolate} else {gM=EncMass;gR=rc;} }`. -/
def soStep (logF expF : ℚ → ℚ) (th : ODThresholds) (pd : PropData)
    (EncMass rc rprev mprev rhoval2 : ℚ) : PropData :=
  { pd with
    gRvir := if pd.gRvir = 0 ∧ logDensityFac logF EncMass rc ≤ th.virval then
        (if rhoval2 > th.virval then
          soInterpR logF expF rc rprev (logDensityFac logF EncMass rc) rhoval2 th.virval
         else rc) else pd.gRvir
    gMvir := if pd.gRvir = 0 ∧ logDensityFac logF EncMass rc ≤ th.virval then
        (if rhoval2 > th.virval then
          soInterpM logF expF EncMass mprev (logDensityFac logF EncMass rc) rhoval2 th.virval
         else EncMass) else pd.gMvir
    gR200c := if pd.gR200c = 0 ∧ logDensityFac logF EncMass rc ≤ th.m200val then
        (if rhoval2 > th.m200val then
          soInterpR logF expF rc rprev (logDensityFac logF EncMass rc) rhoval2 th.m200val
         else rc) else pd.gR200c
    gM200c := if pd.gR200c = 0 ∧ logDensityFac logF EncMass rc ≤ th.m200val then
        (if rhoval2 > th.m200val then
          soInterpM logF expF EncMass mprev (logDensityFac logF EncMass rc) rhoval2 th.m200val
         else EncMass) else pd.gM200c
    gR200m := if pd.gR200m = 0 ∧ logDensityFac logF EncMass rc ≤ th.m200mval then
        (if rhoval2 > th.m200mval then
          soInterpR logF expF rc rprev (logDensityFac logF EncMass rc) rhoval2 th.m200mval
         else rc) else pd.gR200m
    gM200m := if pd.gR200m = 0 ∧ logDensityFac logF EncMass rc ≤ th.m200mval then
        (if rhoval2 > th.m200mval then
          soInterpM logF expF EncMass mprev (logDensityFac logF EncMass rc) rhoval2 th.m200mval
         else EncMass) else pd.gM200m
    gR500c := if pd.gR500c = 0 ∧ logDensityFac logF EncMass rc ≤ th.m500val then
        (if rhoval2 > th.m500val then
          soInterpR logF expF rc rprev (logDensityFac logF EncMass rc) rhoval2 th.m500val
         else rc) else pd.gR500c
    gM500c := if pd.gR500c = 0 ∧ logDensityFac logF EncMass rc ≤ th.m500val then
        (if rhoval2 > th.m500val then
          soInterpM logF expF EncMass mprev (logDensityFac logF EncMass rc) rhoval2 th.m500val
         else EncMass) else pd.gM500c
    gRBN98 := if pd.gRBN98 = 0 ∧ logDensityFac logF EncMass rc ≤ th.mBN98val then
        (if rhoval2 > th.mBN98val then
          soInterpR logF expF rc rprev (logDensityFac logF EncMass rc) rhoval2 th.mBN98val
         else rc) else pd.gRBN98
    gMBN98 := if pd.gRBN98 = 0 ∧ logDensityFac logF EncMass rc ≤ th.mBN98val then
        (if rhoval2 > th.mBN98val then
          soInterpM logF expF EncMass mprev (logDensityFac logF EncMass rc) rhoval2 th.mBN98val
         else EncMass) else pd.gMBN98 }

/-- The property "a tie counts as exceeding" at one sample of the inward walk: if the log
density of the sample equals the threshold of an unset definition (and the mass guard
holds), the step records the sample's radius and enclosed mass. -/
def TieRecorded (logF : ℚ → ℚ) (Radius : Particle → ℚ) (th : ODThresholds) (pd : PropData)
    (EncMass : ℚ) (p : Particle) (d : ODDef) : Prop :=
  logDensity logF EncMass (Radius p) = d.threshold th → d.radius pd = 0 →
    EncMass ≥ 1 / 100 * pd.gmass →
    d.radius (odStep logF Radius th pd EncMass p) = Radius p ∧
      d.mass (odStep logF Radius th pd EncMass p) = EncMass

/-- A rational stand-in for `log`, used only to evaluate the walks on concrete inputs: it is
increasing and agrees with `log` at `1`. -/
def logStandIn (x : ℚ) : ℚ := x - 1

/-- A rational stand-in for `exp`, the inverse of `logStandIn`. -/
def expStandIn (x : ℚ) : ℚ := x + 1

/-- The value of `Radius()` for a particle on the positive x-axis. -/
def axisRadius (p : Particle) : ℚ := p.pos.x

/-- A property record with every field zero. -/
def zeroPropData : PropData :=
  { hostid := 0, gNFOF := 0, gMFOF := 0, gmass := 0, gsize := 0, gRhalfmass := 0,
    gMvir := 0, gRvir := 0, gM200c := 0, gR200c := 0, gM200m := 0, gR200m := 0,
    gM500c := 0, gR500c := 0, gMBN98 := 0, gRBN98 := 0 }

/-- Exclusive mode, unit background density and unit virial level: the virial threshold
density is exactly `1`. -/
def c10Opt : Options :=
  { iInclusiveHalo := 0, virlevel := 1, rhobg := 1, Omega_m := 1, virBN98 := 1 }

/-- A radius-sorted group of two particles on the x-axis: mass `3` at radius `1/2` and mass
`4*M_PI/3 - 3` at radius `1`.  The mass enclosed at radius `1` is `4*M_PI/3`, so the mean
enclosed density there is exactly `1`. -/
def c10Part : List Particle :=
  [ { id := 0, pid := 0, type := 0, pos := ⟨1 / 2, 0, 0⟩, vel := ⟨0, 0, 0⟩, mass := 3,
      potential := 0 },
    { id := 1, pid := 1, type := 0, pos := ⟨1, 0, 0⟩, vel := ⟨0, 0, 0⟩,
      mass := 4 * M_PI / 3 - 3, potential := 0 } ]

/-- The record of the group `c10Part` at the start of the walk. -/
def c10Data : PropData := { zeroPropData with gmass := 4 * M_PI / 3, gsize := 1 }

/-- A dense background: no sample of `c10Part` reaches the virial threshold. -/
def c9Opt : Options :=
  { iInclusiveHalo := 0, virlevel := 1000, rhobg := 1, Omega_m := 1, virBN98 := 1 }

/-! ## `GetProperties`

`sqrt` and the tree potential `Potential(opt, n, Part)` are library code and enter as the
parameters `sqrtF` and `treePotential`; `ompunbindnum` is a constant that is not part of the
sources at hand and enters as a parameter.  Record fields of `pdata` are not carried: the
routine writes them to the catalogue and deletes them, only the particle buffer survives. -/

/-- Indexed map `for (i=i0; ...; i++) Part[i] = f(i, Part[i])`. -/
def mapFrom (f : Nat → Particle → Particle) : Nat → List Particle → List Particle
  | _, [] => []
  | i, p :: t => f i p :: mapFrom f (i + 1) t

/-- Lines 37-40: `if (pfof[i]>0) Part[i].SetType(pfof[i]); else Part[i].SetType(ngroup+1);`
(`pfof` is indexed by the buffer position `i`). -/
def setGroupType (ngroup : Nat) (pfof : Nat → Int) (i : Nat) (p : Particle) : Particle :=
  if pfof i > 0 then { p with type := pfof i } else { p with type := (ngroup : Int) + 1 }

/-- Executable stand-in for `qsort(Part, nbodies, sizeof(Particle), TypeCompare)`. -/
def sortByType (Part : List Particle) : List Particle :=
  Part.insertionSort (fun a b => a.type ≤ b.type)

/-- Executable stand-in for `qsort(Part, nbodies, sizeof(Particle), IDCompare)`. -/
def sortByID (Part : List Particle) : List Particle :=
  Part.insertionSort (fun a b => a.id ≤ b.id)

/-- Run `f` on the slice `[off, off+n)` of the buffer and write its result back. -/
def onSlice (off n : Nat) (f : List Particle → Outcome (List Particle))
    (buf : List Particle) : Outcome (List Particle) :=
  match f ((buf.drop off).take n) with
  | .ok s => .ok (buf.take off ++ s ++ buf.drop (off + n))
  | .fault e => .fault e

/-- A loop `for (i=1;i<=ngroup;i++) if (sel i) {...}` over the groups listed in `groups`, the
body working on the slice of group `i`. -/
def forGroups (numingroup : Nat → Nat) (sel : Nat → Bool)
    (f : List Particle → Outcome (List Particle)) :
    List Nat → List Particle → Outcome (List Particle)
  | [], buf => .ok buf
  | i :: rest, buf =>
    if sel i then
      match onSlice (noffset numingroup i) (numingroup i) f buf with
      | .ok buf2 => forGroups numingroup sel f rest buf2
      | .fault e => .fault e
    else forGroups numingroup sel f rest buf

/-- Lines 80-85 of `GetProperties`: `gsize` is the largest `sqrt(r2)`. -/
def gpGsize (sqrtF : ℚ → ℚ) (gcm : Coordinate) (ps : List Particle) : ℚ :=
  ps.foldl (fun g p => if sqrtF (dist2 gcm p.pos) > g then sqrtF (dist2 gcm p.pos) else g) 0

/-- The aperture loop of the small-group branch of `GetProperties`, lines 93-126: `ri` is a
radius, the test is `sqrt(x*x+y*y+z*z) <= ri`, the centre is replaced when `EncMass>0` and
the loop is left when `Ninside < cmfrac*numingroup`. -/
def gpApertureSmall (sqrtF : ℚ → ℚ) (cmfrac cmadjustfac : ℚ) (ps : List Particle) :
    Nat → Coordinate → ℚ → ℚ → Outcome (Coordinate × ℚ)
  | 0, _, _, _ => .fault .outOfFuel
  | (fuel + 1), gcm, ri, rcmv =>
    let ins := ps.filter (fun p => decide (sqrtF (dist2 p.pos gcm) ≤ ri * cmadjustfac))
    let gcm2 := if totalMass ins > 0 then (massPosSum ins).divBy (totalMass ins) else gcm
    let rcmv2 := if totalMass ins > 0 then ri * cmadjustfac else rcmv
    if (ins.length : ℚ) < cmfrac * (ps.length : ℚ) then .ok (gcm2, rcmv2)
    else gpApertureSmall sqrtF cmfrac cmadjustfac ps fuel gcm2 (ri * cmadjustfac) rcmv2

/-- First pass over one small group (`numingroup < ompunbindnum`), lines 65-170, as far as
the particle buffer is concerned: the positions are made relative to the iterated centre only
inside `if (numingroup*cmfrac>50)`, the slice is sorted by radius, and the last loop adds
`gcm` to every position. -/
def gpSmallGroup (sqrtF : ℚ → ℚ) (cmfrac cmadjustfac : ℚ) (fuel : Nat) (ps : List Particle) :
    Outcome (List Particle) :=
  let gcm0 := (massPosSum ps).scale (1 / totalMass ps)
  if (ps.length : ℚ) * cmfrac > 50 then
    match gpApertureSmall sqrtF cmfrac cmadjustfac ps fuel gcm0 (gpGsize sqrtF gcm0 ps)
        (gpGsize sqrtF gcm0 ps) with
    | .ok (gcm, _) => .ok ((sortByRadius (ps.map (shiftBy gcm))).map (addPos gcm))
    | .fault e => .fault e
  else .ok ((sortByRadius ps).map (addPos gcm0))

/-- Conversion of a `Double_t` to `Int_t`: truncation towards zero. -/
def truncInt (q : ℚ) : Int := if 0 ≤ q then Int.floor q else Int.ceil q

/-- Position of `Part[noffset[i]+numingroup[i]-1]`, the last particle of the slice. -/
def lastPos (ps : List Particle) : Coordinate :=
  match ps.getLast? with
  | some p => p.pos
  | none => ⟨0, 0, 0⟩

/-- The aperture loop of the large-group branch of `GetProperties`, lines 217-260: the
particle count `ii` shrinks (`ii*=cmadjustfac`, truncated), the sums run over the first `ii`
particles inside the current `ri`, then `ri` becomes the squared distance of the last
particle from `cmold`; the centre is replaced when `EncMass>0`. -/
def gpApertureLarge (cmfrac cmadjustfac : ℚ) (ps : List Particle) :
    Nat → Int → Coordinate → Coordinate → ℚ → ℚ → Outcome (Coordinate × ℚ)
  | 0, _, _, _, _, _ => .fault .outOfFuel
  | (fuel + 1), ii, gcm, cmold, ri, rcmv =>
    let ii2 := truncInt ((ii : ℚ) * cmadjustfac)
    let ins := (ps.take ii2.toNat).filter (fun p => decide (dist2 p.pos cmold ≤ ri))
    let ri2 := dist2 (lastPos ps) cmold
    let gcm2 := if totalMass ins > 0 then (massPosSum ins).divBy (totalMass ins) else gcm
    let cmold2 := if totalMass ins > 0 then (massPosSum ins).divBy (totalMass ins) else cmold
    let rcmv2 := if totalMass ins > 0 then ri2 else rcmv
    if (ins.length : ℚ) < cmfrac * (ps.length : ℚ) then .ok (gcm2, rcmv2)
    else gpApertureLarge cmfrac cmadjustfac ps fuel ii2 gcm2 cmold2 ri2 rcmv2

/-- First pass over one large group (`numingroup >= ompunbindnum`), lines 176-305, as far as
the particle buffer is concerned.  Line 198 stores `cmy` in `gcm[2]`. -/
def gpLargeGroup (cmfrac cmadjustfac : ℚ) (fuel : Nat) (ps : List Particle) :
    Outcome (List Particle) :=
  let cmref : Coordinate :=
    (⟨(massPosSum ps).x, (massPosSum ps).y, (massPosSum ps).y⟩ : Coordinate).scale
      (1 / totalMass ps)
  let rel := sortByRadius (ps.map (shiftBy cmref))
  match gpApertureLarge cmfrac cmadjustfac rel fuel (ps.length : Int) cmref ⟨0, 0, 0⟩
      (lastRadius2 rel) (lastRadius2 rel) with
  | .ok (gcm, _) =>
    .ok ((sortByRadius (rel.map (shiftBy gcm))).map (addPos (gcm.add cmref)))
  | .fault e => .fault e

/-- One term of the pairwise potential, lines 326-329:
`r2 = |x_j - x_k|^2 + eps2; r2=1.0/sqrt(r2); pot=-opt.G*(m_j*m_k)*r2`. -/
def pairPot (sqrtF : ℚ → ℚ) (G eps2 : ℚ) (a b : Particle) : ℚ :=
  -G * (a.mass * b.mass) * (1 / sqrtF (dist2 a.pos b.pos + eps2))

/-- Potential of particle `j` (the particle `p`) after the double loop of lines 324-332: its
old value plus one term for every other particle of the slice, the pair taken in index
order. -/
def pairwisePotential (sqrtF : ℚ → ℚ) (G eps2 : ℚ) (ps : List Particle) (j : Nat)
    (p : Particle) : ℚ :=
  p.potential +
    ((List.range ps.length).map (fun k =>
      match ps.get? k with
      | some q => if k < j then pairPot sqrtF G eps2 q p
                  else if j < k then pairPot sqrtF G eps2 p q else 0
      | none => 0)).sum

/-- Potential pass over one small group, lines 322-343, on the particle buffer. -/
def gpSmallPotential (sqrtF : ℚ → ℚ) (G eps2 : ℚ) (ps : List Particle) :
    Outcome (List Particle) :=
  .ok (mapFrom (fun j p => { p with potential := pairwisePotential sqrtF G eps2 ps j p }) 0 ps)

/-- Potential pass over one large group, line 349: the library routine sets the potential of
every particle of the slice. -/
def gpLargePotential (treePotential : List Particle → List ℚ) (ps : List Particle) :
    Outcome (List Particle) :=
  .ok (mapFrom (fun j p => { p with potential := (treePotential ps).getD j 0 }) 0 ps)

/-- The routine `GetProperties` on the particle buffer: group keys into `type`, sort by type,
the two centre-of-mass passes (small groups, then large groups), the two potential passes,
and the final sort by id. -/
def GetProperties (sqrtF : ℚ → ℚ) (treePotential : List Particle → List ℚ)
    (ompunbindnum : Nat) (cmfrac cmadjustfac G eps : ℚ) (fuel : Nat)
    (Part : List Particle) (ngroup : Nat) (pfof : Nat → Int) (numingroup : Nat → Nat) :
    Outcome (List Particle) :=
  let groups := (List.range ngroup).map (fun i => i + 1)
  let small : Nat → Bool := fun i => decide (numingroup i < ompunbindnum)
  let large : Nat → Bool := fun i => decide (numingroup i ≥ ompunbindnum)
  match forGroups numingroup small (gpSmallGroup sqrtF cmfrac cmadjustfac fuel) groups
      (sortByType (mapFrom (setGroupType ngroup pfof) 0 Part)) with
  | .fault e => .fault e
  | .ok b1 =>
    match forGroups numingroup large (gpLargeGroup cmfrac cmadjustfac fuel) groups b1 with
    | .fault e => .fault e
    | .ok b2 =>
      match forGroups numingroup small (gpSmallPotential sqrtF G (eps * eps)) groups b2 with
      | .fault e => .fault e
      | .ok b3 =>
        match forGroups numingroup large (gpLargePotential treePotential) groups b3 with
        | .fault e => .fault e
        | .ok b4 => .ok (sortByID b4)

/-- The fields no stage of `GetProperties` writes: id, velocity and mass. -/
def idVelMass (p : Particle) : Int × Coordinate × ℚ := (p.id, p.vel, p.mass)

/-- The group key `GetProperties` leaves in the type field of the particle at entry position
`i`. -/
def groupTypeKey (ngroup : Nat) (pfof : Nat → Int) (i : Nat) : Int :=
  if pfof i > 0 then pfof i else (ngroup : Int) + 1

/-- The fields that stay fixed once the group keys are set: id, velocity, mass and type. -/
def keyedFields (p : Particle) : Int × Coordinate × ℚ × Int := (p.id, p.vel, p.mass, p.type)

/-- The round-trip property as stated: the buffer at exit equals the buffer at entry in every
field but `potential`. -/
def SameButPotential (entry exit : List Particle) : Prop :=
  exit.map (fun p => (p.id, p.pos, p.vel, p.mass, p.type)) =
    entry.map (fun p => (p.id, p.pos, p.vel, p.mass, p.type))

/-- A buffer of three particles at rest with ids `0, 1, 2` in ascending order, type `0`, at
`x = 0, 3, 10`. -/
def c7Part : List Particle := [unitAt 0 0, unitAt 1 3, unitAt 2 10]

/-- Group assignment `pfof = [1, 1, 0]`. -/
def c7Pfof (i : Nat) : Int := if i < 2 then 1 else 0

/-- Member counts for `c7Pfof`: group `1` has two members. -/
def c7Num (g : Nat) : Nat := if g = 1 then 2 else 0

/-- A stand-in for the tree potential `Potential(opt, n, Part)`: all potentials zero. -/
def zeroPotential (ps : List Particle) : List ℚ := ps.map (fun _ => 0)

/-- The buffer `GetProperties` returns for `c7Part` with `pfof = [1, 1, 0]`. -/
def c7Out : List Particle :=
  [ { id := 0, pid := 0, type := 1, pos := ⟨3 / 2, 0, 0⟩, vel := ⟨0, 0, 0⟩, mass := 1,
      potential := -1 / 3 },
    { id := 1, pid := 1, type := 1, pos := ⟨9 / 2, 0, 0⟩, vel := ⟨0, 0, 0⟩, mass := 1,
      potential := -1 / 3 },
    { id := 2, pid := 2, type := 2, pos := ⟨10, 0, 0⟩, vel := ⟨0, 0, 0⟩, mass := 1,
      potential := 0 } ]

/-- Exclusive mode with `rhobg = 1/200` and `Omega_m = 1/2`: the 200-mean threshold density is
`1` and the 200-critical threshold density is `2`. -/
def c12Opt : Options :=
  { iInclusiveHalo := 0, virlevel := 1, rhobg := 1 / 200, Omega_m := 1 / 2, virBN98 := 1 }

/-- A radius-sorted group of two particles on the x-axis: mass `5` at radius `1` and mass `1`
at radius `2`.  The mean enclosed density is about `1.19` at radius `1` and about `0.18` at
radius `2`. -/
def c12Part : List Particle :=
  [ { id := 0, pid := 0, type := 0, pos := ⟨1, 0, 0⟩, vel := ⟨0, 0, 0⟩, mass := 5,
      potential := 0 },
    { id := 1, pid := 1, type := 0, pos := ⟨2, 0, 0⟩, vel := ⟨0, 0, 0⟩, mass := 1,
      potential := 0 } ]

/-- The record of the group `c12Part` at the start of the walk. -/
def c12Data : PropData := { zeroPropData with gmass := 6, gsize := 2 }

/-- A group of one particle of mass `9` at radius `1`: mean enclosed density about `2.15`. -/
def c12Dense : List Particle :=
  [ { id := 0, pid := 0, type := 0, pos := ⟨1, 0, 0⟩, vel := ⟨0, 0, 0⟩, mass := 9,
      potential := 0 } ]

/-- The record of the group `c12Dense` at the start of the walk. -/
def c12DenseData : PropData := { zeroPropData with gmass := 9, gsize := 1 }

/-! ## Outward walk of `GetInclusiveMasses` (`iInclusiveHalo==2`) -/

/-- Executable stand-in for `sort(indices.begin(), indices.end(), comparator)` of line 2179:
the samples `(radii[j], masses[j])` of the ball query in order of radius. -/
def sortSamples (samples : List (ℚ × ℚ)) : List (ℚ × ℚ) :=
  samples.insertionSort (fun a b => a.1 ≤ b.1)

/-- The loop `for (j=minnum;j<radii.size();j++)` of lines 2187-2236 over the samples
`(radii[indices[j]], masses[indices[j]])` still to visit: `rprev` and `mprev` are
`radii[indices[j-1]]` and `masses[indices[j-1]]`, `EncMass` and `rhoval2` the locals at the
top of the pass.  Each pass adds the sample's mass, runs the body `soStep`, sets
`rhoval2=rhoval` and tests the `break`. -/
def soWalkLoop (logF expF : ℚ → ℚ) (th : ODThresholds) :
    List (ℚ × ℚ) → ℚ → ℚ → ℚ → ℚ → PropData → PropData
  | [], _, _, _, _, pd => pd
  | s :: rest, rprev, mprev, EncMass, rhoval2, pd =>
    if odAllSet (soStep logF expF th pd (EncMass + s.2) s.1 rprev mprev rhoval2) then
      soStep logF expF th pd (EncMass + s.2) s.1 rprev mprev rhoval2
    else
      soWalkLoop logF expF th rest s.1 s.2 (EncMass + s.2)
        (logDensityFac logF (EncMass + s.2) s.1)
        (soStep logF expF th pd (EncMass + s.2) s.1 rprev mprev rhoval2)

/-- Line 2182: `minnum=max((int)(0.05*radii.size()),(int)(opt.HaloMinSize*0.05+4))`. -/
def soMinnum (HaloMinSize n : Nat) : Nat := max (n / 20) (HaloMinSize / 20 + 4)

/-- Lines 2174-2242 for one group, from the samples `(radii[j], masses[j])` of the ball
query: sort by radius, `EncMass` of the first `minnum` samples, `rc=radii[indices[minnum-1]]`,
`rhoval2`, the loop, and the fall-back.  The result is `none` when `minnum` exceeds the
number of samples, where line 2184 reads past the end of `masses`. -/
def GetInclusiveMasses_soWalk (logF expF : ℚ → ℚ) (th : ODThresholds) (HaloMinSize : Nat)
    (samples : List (ℚ × ℚ)) (pd : PropData) : Option PropData :=
  match ((sortSamples samples).take (soMinnum HaloMinSize samples.length)).getLast? with
  | none => none
  | some last =>
    if soMinnum HaloMinSize samples.length ≤ samples.length then
      some (odFallback (soWalkLoop logF expF th
        ((sortSamples samples).drop (soMinnum HaloMinSize samples.length)) last.1 last.2
        (((sortSamples samples).take (soMinnum HaloMinSize samples.length)).map Prod.snd).sum
        (logDensityFac logF
          (((sortSamples samples).take (soMinnum HaloMinSize samples.length)).map Prod.snd).sum
          last.1) pd))
    else none

/-- Log-log interpolation between two straddling samples as the specification words it:
`l_prev + t*(l_cur - l_prev)` with `t = (threshold - rho_prev)/(rho - rho_prev)`, for the
logarithms `l_prev`, `l_cur` of the radii or of the enclosed masses of the two samples. -/
def specLogInterp (lprev lcur rhoPrev rho val : ℚ) : ℚ :=
  lprev + (val - rhoPrev) / (rho - rhoPrev) * (lcur - lprev)

/-- Number of times `p` divides `n`, counted up to `fuel`. -/
def factorCount (p : Nat) : Nat → Nat → Nat
  | 0, _ => 0
  | fuel + 1, n => if 0 < n ∧ n % p = 0 then factorCount p fuel (n / p) + 1 else 0

/-- Exponent of the prime `p` in the rational `x` (each count taken up to `100`). -/
def primeLog (p : Nat) (x : ℚ) : ℚ :=
  (factorCount p 100 x.num.natAbs : ℚ) - (factorCount p 100 x.den : ℚ)

/-- A rational stand-in for `log` that keeps the laws `log(a*b) = log a + log b` and
`log(a/b) = log a - log b` on the rationals whose exponents of `2` and `3` stay below `100`:
the base-2 logarithm of the part of `x` made of the primes `2` and `3`, with `8/5` for the
base-2 logarithm of `3`.  It agrees with the base-2 logarithm at the powers of `2`. -/
def logTwoThree (x : ℚ) : ℚ := primeLog 2 x + 8 / 5 * primeLog 3 x

/-- A stand-in for `exp` that hands back its argument: a value the code computes as `exp(e)`
is read back as its logarithm `e`. -/
def expReadBack (e : ℚ) : ℚ := e

/-- Inclusive spherical-overdensity mode with all five threshold densities equal to
`8/(4*M_PI/3)`. -/
def c13Opt : Options :=
  { iInclusiveHalo := 2, virlevel := 200, rhobg := 3 / (100 * M_PI), Omega_m := 1,
    virBN98 := 200 }

/-- Five samples of a ball query, `(radius, mass)`: the masses enclosed at the radii
`1/4, 1/2, 3/4, 1, 2` are `2, 3, 4, 16, 24`; the mean enclosed density is
`16/(4*M_PI/3)` at radius `1` and `3/(4*M_PI/3)` at radius `2`, on either side of the
threshold density of `c13Opt`. -/
def c13Samples : List (ℚ × ℚ) := [(1 / 4, 2), (1 / 2, 1), (3 / 4, 1), (1, 12), (2, 8)]

/-- The record of the group of `c13Samples` at the start of the walk. -/
def c13Data : PropData := { zeroPropData with gmass := 24, gsize := 2 }

/-! ## Search radius of the inclusive spherical-overdensity mode

The search radius is a formula in `log` and `exp` only.  It is embedded over an arbitrary
ordered field `K` with `logF`, `expF` as parameters: at `K = ℚ` it evaluates with stand-ins,
at `K = ℝ` with the real logarithm and exponential it is the formula in exact arithmetic. -/

/-- Lines 2089-2094 for one group: `fac=-log(4.0*M_PI/3.0)-m200mval` with
`m200mval=log(opt.rhobg*200.0)`,
`radfac=max(1.0,exp(1.0/3.0*(log(pdata[i].gMFOF)-3.0*log(pdata[i].gsize)+fac)))` and
`maxrdist[i]=pdata[i].gsize*opt.SphericalOverdensitySeachFac*radfac`. -/
def GetInclusiveMasses_maxrdist {K : Type} [LinearOrderedField K] (logF expF : K → K)
    (gMFOF gsize rhobg SphericalOverdensitySeachFac : K) : K :=
  gsize * SphericalOverdensitySeachFac *
    max 1 (expF (1 / 3 * (logF gMFOF - 3 * logF gsize +
      (-logF (4 * (M_PI : K) / 3) - logF (rhobg * 200)))))

/-! ## Kinematic loops of `GetCMProp`

The loops over the radius-sorted slice that accumulate the enclosed mass, the circular
velocity, the half-mass radius and the angular momenta.  The accumulations of `Ekin` and of
the velocity dispersion tensor write to no variable read by the statements embedded here and
are left out.  `sqrt` enters as the parameter `sqrtF`. -/

/-- Componentwise difference `a - b`. -/
def Coordinate.sub (a b : Coordinate) : Coordinate := ⟨a.x - b.x, a.y - b.y, a.z - b.z⟩

/-- The vector product `a.Cross(b)`. -/
def Coordinate.Cross (a b : Coordinate) : Coordinate :=
  ⟨a.y * b.z - a.z * b.y, a.z * b.x - a.x * b.z, a.x * b.y - a.y * b.x⟩

/-- The values the kinematic loops of one group read and do not write. -/
structure KinInput where
  sqrtF : ℚ → ℚ
  Radius : Particle → ℚ
  G : ℚ
  MassValue : ℚ
  numingroup : Nat
  gmass : ℚ
  gcmvel : Coordinate
  gR200m : ℚ
  gR200c : ℚ

/-- The variables the kinematic loops write: the locals `EncMass` and `vc`, and the fields
`gmaxvel`, `gRmaxvel`, `gMmaxvel`, `gRhalfmass`, `gJ`, `gJ200m`, `gJ200c` of `pdata[i]`,
with the local `RV_num`. -/
structure KinState where
  EncMass : ℚ
  vc : ℚ
  gmaxvel : ℚ
  gRmaxvel : ℚ
  gMmaxvel : ℚ
  RV_num : Nat
  gRhalfmass : ℚ
  gJ : Coordinate
  gJ200m : Coordinate
  gJ200c : Coordinate
deriving DecidableEq

/-- `Coordinate(Pval->GetPosition()).Cross(Coordinate(vx,vy,vz))*Pval->GetMass()` with
`vx = Vx()-gcmvel[0]` and so on (lines 570-573, 1213-1216). -/
def angMom (gcmvel : Coordinate) (p : Particle) : Coordinate :=
  (p.pos.Cross (p.vel.sub gcmvel)).scale p.mass

/-- Lines 584 and 1283: `if (rc>0) if (EncMass>0) vc=sqrt(opt.G*EncMass*opt.MassValue/rc);`
with `vc` keeping its value otherwise. -/
def circVel (c : KinInput) (EncMass rc vc : ℚ) : ℚ :=
  if rc > 0 ∧ EncMass > 0 then c.sqrtF (c.G * EncMass * c.MassValue / rc) else vc

/-- One pass of the loop of lines 562-588 (small-group branch) for the particle at index
`j`. -/
def kinStepSmall (c : KinInput) (s : KinState) (j : Nat) (p : Particle) : KinState :=
  { EncMass := s.EncMass + p.mass
    vc := circVel c (s.EncMass + p.mass) (c.Radius p) s.vc
    gmaxvel := if circVel c (s.EncMass + p.mass) (c.Radius p) s.vc > s.gmaxvel ∧
        s.EncMass + p.mass ≥ 1 / c.sqrtF c.numingroup * c.gmass
      then circVel c (s.EncMass + p.mass) (c.Radius p) s.vc else s.gmaxvel
    gRmaxvel := if circVel c (s.EncMass + p.mass) (c.Radius p) s.vc > s.gmaxvel ∧
        s.EncMass + p.mass ≥ 1 / c.sqrtF c.numingroup * c.gmass
      then c.Radius p else s.gRmaxvel
    gMmaxvel := if circVel c (s.EncMass + p.mass) (c.Radius p) s.vc > s.gmaxvel ∧
        s.EncMass + p.mass ≥ 1 / c.sqrtF c.numingroup * c.gmass
      then s.EncMass + p.mass else s.gMmaxvel
    RV_num := if circVel c (s.EncMass + p.mass) (c.Radius p) s.vc > s.gmaxvel ∧
        s.EncMass + p.mass ≥ 1 / c.sqrtF c.numingroup * c.gmass
      then j + 1 else s.RV_num
    gRhalfmass := if s.EncMass + p.mass > 1 / 2 * c.gmass ∧ s.gRhalfmass = 0
      then c.Radius p else s.gRhalfmass
    gJ := s.gJ.add (angMom c.gcmvel p)
    gJ200m := if c.Radius p < c.gR200m then s.gJ200m.add (angMom c.gcmvel p) else s.gJ200m
    gJ200c := if c.Radius p < c.gR200c then s.gJ200c.add (angMom c.gcmvel p) else s.gJ200c }

/-- The loop `for (j=0;j<numingroup[i];j++)` of lines 562-588 from index `j` on. -/
def kinLoopSmall (c : KinInput) : List Particle → Nat → KinState → KinState
  | [], _, s => s
  | p :: rest, j, s => kinLoopSmall c rest (j + 1) (kinStepSmall c s j p)

/-- Lines 558-588 of the small-group branch for the radius-sorted slice `Part`:
`gmaxvel=0; EncMass=0; gJ=0;` and the loop.  The other variables enter with the values of
`entry`. -/
def GetCMProp_small_kinematics (c : KinInput) (entry : KinState) (Part : List Particle) :
    KinState :=
  kinLoopSmall c Part 0 { entry with gmaxvel := 0, EncMass := 0, gJ := ⟨0, 0, 0⟩ }

/-- One pass of the loop of lines 1206-1227 (large-group branch) on the accumulators
`(Jx,Jy,Jz)`, `(Jx200m,Jy200m,Jz200m)`, `(Jx200c,Jy200c,Jz200c)`.  Lines 1218-1219 read
`if (rc<gR200m) Jx200m+=J[0];Jy200m+=J[1];Jz200m+=J[2];` without braces: only the first
statement is under the `if`. -/
def angMomStepLarge (c : KinInput) (a : Coordinate × Coordinate × Coordinate) (p : Particle) :
    Coordinate × Coordinate × Coordinate :=
  (a.1.add (angMom c.gcmvel p),
   ⟨if c.Radius p < c.gR200m then a.2.1.x + (angMom c.gcmvel p).x else a.2.1.x,
    a.2.1.y + (angMom c.gcmvel p).y, a.2.1.z + (angMom c.gcmvel p).z⟩,
   ⟨if c.Radius p < c.gR200c then a.2.2.x + (angMom c.gcmvel p).x else a.2.2.x,
    a.2.2.y + (angMom c.gcmvel p).y, a.2.2.z + (angMom c.gcmvel p).z⟩)

/-- One pass of the loop of lines 1279-1286 (large-group branch) for the particle at index
`j`: as the small-group pass, with the test `if (vc>pdata[i].gmaxvel)` alone. -/
def vmaxStepLarge (c : KinInput) (s : KinState) (j : Nat) (p : Particle) : KinState :=
  { s with
    EncMass := s.EncMass + p.mass
    vc := circVel c (s.EncMass + p.mass) (c.Radius p) s.vc
    gmaxvel := if circVel c (s.EncMass + p.mass) (c.Radius p) s.vc > s.gmaxvel
      then circVel c (s.EncMass + p.mass) (c.Radius p) s.vc else s.gmaxvel
    gRmaxvel := if circVel c (s.EncMass + p.mass) (c.Radius p) s.vc > s.gmaxvel
      then c.Radius p else s.gRmaxvel
    gMmaxvel := if circVel c (s.EncMass + p.mass) (c.Radius p) s.vc > s.gmaxvel
      then s.EncMass + p.mass else s.gMmaxvel
    RV_num := if circVel c (s.EncMass + p.mass) (c.Radius p) s.vc > s.gmaxvel
      then j + 1 else s.RV_num
    gRhalfmass := if s.EncMass + p.mass > 1 / 2 * c.gmass ∧ s.gRhalfmass = 0
      then c.Radius p else s.gRhalfmass }

/-- The loop `for (j=0;j<numingroup[i];j++)` of lines 1279-1286 from index `j` on. -/
def vmaxLoopLarge (c : KinInput) : List Particle → Nat → KinState → KinState
  | [], _, s => s
  | p :: rest, j, s => vmaxLoopLarge c rest (j + 1) (vmaxStepLarge c s j p)

/-- Lines 1194-1240 and 1279-1286 of the large-group branch for the radius-sorted slice
`Part`.  `gmaxvel` is `0` since line 1049 and `EncMass=0` at line 1194.  The locals
`Jx200m..Jz200c` are declared at lines 1196-1197 and are not in the chain of assignments
`Ekin=Jx=Jy=Jz=...=0.` of line 1199: they start from indeterminate values, the parameters
`J200m0` and `J200c0`. -/
def GetCMProp_large_kinematics (c : KinInput) (J200m0 J200c0 : Coordinate) (entry : KinState)
    (Part : List Particle) : KinState :=
  vmaxLoopLarge c Part 0
    { entry with
      gmaxvel := 0
      EncMass := 0
      gJ := (Part.foldl (angMomStepLarge c) (⟨0, 0, 0⟩, J200m0, J200c0)).1
      gJ200m := (Part.foldl (angMomStepLarge c) (⟨0, 0, 0⟩, J200m0, J200c0)).2.1
      gJ200c := (Part.foldl (angMomStepLarge c) (⟨0, 0, 0⟩, J200m0, J200c0)).2.2 }

/-- Lines 1911 and 1955 of `GetInclusiveMasses`, for the radius-sorted slice `Part`:
`pdata[i].gRhalfmass=Part[noffset[i]+(numingroup[i]/2)].Radius()`; `none` for an empty
slice, where the index is outside the slice. -/
def GetInclusiveMasses_gRhalfmass (Radius : Particle → ℚ) (Part : List Particle) : Option ℚ :=
  (Part.get? (Part.length / 2)).map Radius

/-- The half-mass radius as the specification words it: the radius of the first particle,
scanning outward from enclosed mass `EncMass`, at which the cumulative enclosed mass exceeds
half of `gmass`. -/
def firstHalfMassRadius (Radius : Particle → ℚ) (gmass : ℚ) : List Particle → ℚ → Option ℚ
  | [], _ => none
  | p :: rest, EncMass =>
    if EncMass + p.mass > 1 / 2 * gmass then some (Radius p)
    else firstHalfMassRadius Radius gmass rest (EncMass + p.mass)

/-- A state of the kinematic loops with every variable zero. -/
def zeroKinState : KinState :=
  { EncMass := 0, vc := 0, gmaxvel := 0, gRmaxvel := 0, gMmaxvel := 0, RV_num := 0,
    gRhalfmass := 0, gJ := ⟨0, 0, 0⟩, gJ200m := ⟨0, 0, 0⟩, gJ200c := ⟨0, 0, 0⟩ }

/-- Unit masses at radii `k+2, k+3, ...`, `m` of them, with ids from `k+1`. -/
def c15Tail : Nat → Nat → List Particle
  | 0, _ => []
  | m + 1, k => unitAt (k + 1) ((k : ℚ) + 2) :: c15Tail m (k + 1)

/-- A radius-sorted group of `n + 2` unit masses at rest on the x-axis: the innermost at
radius `1/4`, the others at radii `2, 3, ..., n + 2`.  With `G = MassValue = 1` the circular
velocity is `2` at the innermost particle and `1` at every other one. -/
def c15Part (n : Nat) : List Particle := unitAt 0 (1 / 4) :: c15Tail (n + 1) 0

/-- The values read by the kinematic loops for the group `c15Part n`. -/
def c15Input (n : Nat) : KinInput :=
  { sqrtF := Rat.sqrt, Radius := axisRadius, G := 1, MassValue := 1, numingroup := n + 2,
    gmass := (n : ℚ) + 2, gcmvel := ⟨0, 0, 0⟩, gR200m := (n : ℚ) + 2, gR200c := (n : ℚ) + 2 }

/-- A radius-sorted group of three particles on the x-axis with masses `10, 1, 1` at radii
`1, 2, 3`: the innermost particle alone holds more than half of the mass. -/
def c16Part : List Particle :=
  [ { id := 0, pid := 0, type := 0, pos := ⟨1, 0, 0⟩, vel := ⟨0, 0, 0⟩, mass := 10,
      potential := 0 },
    unitAt 1 2, unitAt 2 3 ]

/-- A radius-sorted group of two particles on the x-axis: mass `3` at the centre and mass `1`
at radius `1`. -/
def c16Centre : List Particle :=
  [ { id := 0, pid := 0, type := 0, pos := ⟨0, 0, 0⟩, vel := ⟨0, 0, 0⟩, mass := 3,
      potential := 0 },
    unitAt 1 1 ]

/-- The values read by the kinematic loops for a group of total mass `gmass` on the
x-axis. -/
def axisInput (numingroup : Nat) (gmass : ℚ) : KinInput :=
  { sqrtF := Rat.sqrt, Radius := axisRadius, G := 1, MassValue := 1, numingroup := numingroup,
    gmass := gmass, gcmvel := ⟨0, 0, 0⟩, gR200m := 0, gR200c := 0 }

/-- The angular momentum within radius `R` as the specification words it: the sum of
`m_j * (r_j x (v_j - gcmvel))` over exactly the particles of the slice with radius `< R`. -/
def angMomWithin (c : KinInput) (R : ℚ) (Part : List Particle) : Coordinate :=
  ⟨((Part.filter (fun p => c.Radius p < R)).map (fun p => (angMom c.gcmvel p).x)).sum,
   ((Part.filter (fun p => c.Radius p < R)).map (fun p => (angMom c.gcmvel p).y)).sum,
   ((Part.filter (fun p => c.Radius p < R)).map (fun p => (angMom c.gcmvel p).z)).sum⟩

/-- A radius-sorted group of two unit masses on the x-axis: one at radius `1` moving with
velocity `(0, 0, -1/2)`, one at radius `3` moving with velocity `(0, 0, 1/2)`. -/
def c17Part : List Particle :=
  [ { id := 0, pid := 0, type := 0, pos := ⟨1, 0, 0⟩, vel := ⟨0, 0, -1 / 2⟩, mass := 1,
      potential := 0 },
    { id := 1, pid := 1, type := 0, pos := ⟨3, 0, 0⟩, vel := ⟨0, 0, 1 / 2⟩, mass := 1,
      potential := 0 } ]

/-- The values read by the kinematic loops for `c17Part`: velocities are already relative
(`gcmvel = 0`), and both overdensity radii are `2`, between the two particles. -/
def c17Input : KinInput :=
  { sqrtF := Rat.sqrt, Radius := axisRadius, G := 1, MassValue := 1, numingroup := 2,
    gmass := 2, gcmvel := ⟨0, 0, 0⟩, gR200m := 2, gR200c := 2 }

/-! ## Concentration stage of `GetCMProp`

`GetConcentration` runs a root solver of the GSL library; it enters as a parameter, the value
it would store in `cNFW`.  `omppropnum`, the constant separating the two branches, is not
part of the sources at hand and enters as a parameter as well. -/

/-- The fields of `pdata[i]` read by the concentration stage. -/
structure ConcData where
  gmaxvel : ℚ
  gRmaxvel : ℚ
  gmass : ℚ
  gsize : ℚ
  gM200c : ℚ
  gR200c : ℚ
deriving DecidableEq

/-- What the concentration stage leaves: `VmaxVvir2`, `cNFW`, and whether
`GetConcentration` was called. -/
structure ConcResult where
  VmaxVvir2 : ℚ
  cNFW : ℚ
  calledGetConcentration : Bool
deriving DecidableEq

/-- Lines 670-671 and 1366-1367:
`if (gR200c==0) VmaxVvir2=(gmaxvel*gmaxvel)/(opt.G*gmass/gsize);
else VmaxVvir2=(gmaxvel*gmaxvel)/(opt.G*gM200c/gR200c);`. -/
def concVmaxVvir2 (G : ℚ) (p : ConcData) : ℚ :=
  if p.gR200c = 0 then p.gmaxvel * p.gmaxvel / (G * p.gmass / p.gsize)
  else p.gmaxvel * p.gmaxvel / (G * p.gM200c / p.gR200c)

/-- Lines 674-675, 680-681 and 1370-1371:
`if (gM200c==0) cNFW=gsize/gRmaxvel; else cNFW=gR200c/gRmaxvel;`. -/
def concRatio (p : ConcData) : ℚ :=
  if p.gM200c = 0 then p.gsize / p.gRmaxvel else p.gR200c / p.gRmaxvel

/-- Lines 670-683, small-group branch: the ratio when `VmaxVvir2<=1.05`, otherwise
`GetConcentration` when `numingroup[i]>=100` and the ratio when not. -/
def GetCMProp_small_concentration (GetConcentration : ConcData → ℚ → ℚ) (G : ℚ)
    (numingroup : Nat) (p : ConcData) : ConcResult :=
  if concVmaxVvir2 G p ≤ 105 / 100 then
    { VmaxVvir2 := concVmaxVvir2 G p, cNFW := concRatio p, calledGetConcentration := false }
  else if numingroup ≥ 100 then
    { VmaxVvir2 := concVmaxVvir2 G p, cNFW := GetConcentration p (concVmaxVvir2 G p),
      calledGetConcentration := true }
  else
    { VmaxVvir2 := concVmaxVvir2 G p, cNFW := concRatio p, calledGetConcentration := false }

/-- Lines 1366-1373, large-group branch: the ratio when `VmaxVvir2<=1.05`, otherwise
`GetConcentration`. -/
def GetCMProp_large_concentration (GetConcentration : ConcData → ℚ → ℚ) (G : ℚ)
    (p : ConcData) : ConcResult :=
  if concVmaxVvir2 G p ≤ 105 / 100 then
    { VmaxVvir2 := concVmaxVvir2 G p, cNFW := concRatio p, calledGetConcentration := false }
  else
    { VmaxVvir2 := concVmaxVvir2 G p, cNFW := GetConcentration p (concVmaxVvir2 G p),
      calledGetConcentration := true }

/-- The concentration stage of `GetCMProp` for one group: the small-group branch when
`numingroup[i]<omppropnum` (line 432), the large-group branch when
`numingroup[i]>=omppropnum` (line 1046). -/
def GetCMProp_concentration (GetConcentration : ConcData → ℚ → ℚ) (G : ℚ) (omppropnum : Nat)
    (numingroup : Nat) (p : ConcData) : ConcResult :=
  if numingroup < omppropnum then GetCMProp_small_concentration GetConcentration G numingroup p
  else GetCMProp_large_concentration GetConcentration G p

/-- A group with `Vmax^2/Vvir^2 = 4`: `gmaxvel = 2`, `gM200c = gR200c = 1`, `gRmaxvel = 1/2`. -/
def c18Data : ConcData :=
  { gmaxvel := 2, gRmaxvel := 1 / 2, gmass := 1, gsize := 1, gM200c := 1, gR200c := 1 }

/-! ## `GetBindingEnergy`, small groups

The pairwise path for groups with `numingroup[i]<ompunbindnum`, with
`opt.uinfo.icalculatepotential` set and the reference velocity `gcmvel` as found in the
record (`cmvelreftype` other than `POTREF`); the build is the one without `NOMASS` and
`GASON`. -/

/-- `poti=Part[..].GetPotential()+pot; Part[..].SetPotential(poti);`. -/
def addPot (p : Particle) (pot : ℚ) : Particle := { p with potential := p.potential + pot }

/-- The loop `for (k=j+1;k<numingroup[i];k++)` of lines 2943-2955 for the particle `p` at
index `j` over the particles after it: each pass computes `pot` (lines 2944-2950), adds it to
`pdata[i].Pot`, to the potential of `p` and to the potential of the other particle. -/
def bePairInner (sqrtF : ℚ → ℚ) (G eps2 : ℚ) :
    Particle → List Particle → ℚ → Particle × List Particle × ℚ
  | p, [], Pot => (p, [], Pot)
  | p, q :: qs, Pot =>
    ((bePairInner sqrtF G eps2 (addPot p (pairPot sqrtF G eps2 p q)) qs
        (Pot + pairPot sqrtF G eps2 p q)).1,
     addPot q (pairPot sqrtF G eps2 p q) ::
      (bePairInner sqrtF G eps2 (addPot p (pairPot sqrtF G eps2 p q)) qs
        (Pot + pairPot sqrtF G eps2 p q)).2.1,
     (bePairInner sqrtF G eps2 (addPot p (pairPot sqrtF G eps2 p q)) qs
        (Pot + pairPot sqrtF G eps2 p q)).2.2)

/-- The loop `for (j=0;j<numingroup[i];j++)` of lines 2942-2956 over the particles from
index `j` on, `n` of them. -/
def bePairOuter (sqrtF : ℚ → ℚ) (G eps2 : ℚ) : Nat → List Particle → ℚ → List Particle × ℚ
  | 0, l, Pot => (l, Pot)
  | _ + 1, [], Pot => ([], Pot)
  | n + 1, p :: rest, Pot =>
    ((bePairInner sqrtF G eps2 p rest Pot).1 ::
      (bePairOuter sqrtF G eps2 n (bePairInner sqrtF G eps2 p rest Pot).2.1
        (bePairInner sqrtF G eps2 p rest Pot).2.2).1,
     (bePairOuter sqrtF G eps2 n (bePairInner sqrtF G eps2 p rest Pot).2.1
        (bePairInner sqrtF G eps2 p rest Pot).2.2).2)

/-- Lines 3019 and 3026: `v2 = sum_n pow(v[n]-gcmvel[n],2.0)`, `Ti=0.5*GetMass()*v2`. -/
def beKinetic (gcmvel : Coordinate) (p : Particle) : ℚ := 1 / 2 * p.mass * dist2 p.vel gcmvel

/-- The loop of lines 3018-3044: `pdata[i].T+=Ti`, `SetPotential(Ti+GetPotential())`,
`if (GetPotential()<0) pdata[i].Efrac+=1.0`. -/
def beEnergyLoop (gcmvel : Coordinate) : List Particle → ℚ → ℚ → List Particle × ℚ × ℚ
  | [], T, Efrac => ([], T, Efrac)
  | p :: rest, T, Efrac =>
    ({ p with potential := beKinetic gcmvel p + p.potential } ::
      (beEnergyLoop gcmvel rest (T + beKinetic gcmvel p)
        (if beKinetic gcmvel p + p.potential < 0 then Efrac + 1 else Efrac)).1,
     (beEnergyLoop gcmvel rest (T + beKinetic gcmvel p)
        (if beKinetic gcmvel p + p.potential < 0 then Efrac + 1 else Efrac)).2)

/-- What `GetBindingEnergy` leaves for one group: the slice, with the total energy of each
particle in its potential field, and the fields `T`, `Pot`, `Efrac` of the record. -/
structure BindingResult where
  Part : List Particle
  T : ℚ
  Pot : ℚ
  Efrac : ℚ
deriving DecidableEq

/-- Lines 2941-2957 and 3017-3052 for one small group with slice `Part`: `eps2=eps*eps`, the
pairwise potential, the energy loop, and `pdata[i].Efrac/=(Double_t)numingroup[i]`.  `T0`,
`Pot0`, `Efrac0` are the fields of the record at entry. -/
def GetBindingEnergy_small (sqrtF : ℚ → ℚ) (G eps : ℚ) (gcmvel : Coordinate)
    (T0 Pot0 Efrac0 : ℚ) (Part : List Particle) : BindingResult :=
  { Part := (beEnergyLoop gcmvel
      (bePairOuter sqrtF G (eps * eps) Part.length Part Pot0).1 T0 Efrac0).1
    T := (beEnergyLoop gcmvel
      (bePairOuter sqrtF G (eps * eps) Part.length Part Pot0).1 T0 Efrac0).2.1
    Pot := (bePairOuter sqrtF G (eps * eps) Part.length Part Pot0).2
    Efrac := (beEnergyLoop gcmvel
      (bePairOuter sqrtF G (eps * eps) Part.length Part Pot0).1 T0 Efrac0).2.2 /
        (Part.length : ℚ) }

/-- A particle of mass `m` at `(x,0,0)` with velocity `(0,v,0)` and zero potential. -/
def orbitParticle (i : Int) (m x v : ℚ) : Particle :=
  { id := i, pid := i, type := 0, pos := ⟨x, 0, 0⟩, vel := ⟨0, v, 0⟩, mass := m,
    potential := 0 }

/-- Two particles of mass `m` at `(a,0,0)` and `(-a,0,0)` with velocities `(0,v,0)` and
`(0,-v,0)`: a circular orbit about the centre of mass when `v*v*(4*a) = G*m`. -/
def twoBody (m a v : ℚ) : List Particle := [orbitParticle 0 m a v, orbitParticle 1 m (-a) (-v)]

/-! ## `CopyMasses` -/

/-- Body of the loop of `CopyMasses`, lines 2863-2873, for one halo: the eleven assignments
`pnew[i].gNFOF=pold[i].gNFOF; ... pnew[i].gRhalfmass=pold[i].gRhalfmass;`. -/
def CopyMasses_record (pold pnew : PropData) : PropData :=
  { pnew with
    gNFOF := pold.gNFOF
    gMFOF := pold.gMFOF
    gMvir := pold.gMvir
    gRvir := pold.gRvir
    gM200c := pold.gM200c
    gR200c := pold.gR200c
    gM200m := pold.gM200m
    gR200m := pold.gR200m
    gMBN98 := pold.gMBN98
    gRBN98 := pold.gRBN98
    gRhalfmass := pold.gRhalfmass }

/-- The loop `for (Int_t i=1;i<=nhalos;i++)` of `CopyMasses` over the two record arrays from
index `i` on; slot `0` is not touched. -/
def copyMassesFrom (nhalos : Nat) : Nat → List PropData → List PropData → List PropData
  | _, _, [] => []
  | _, [], n :: ns => n :: ns
  | i, o :: os, n :: ns =>
    (if 1 ≤ i ∧ i ≤ nhalos then CopyMasses_record o n else n) ::
      copyMassesFrom nhalos (i + 1) os ns

/-- `CopyMasses(nhalos, pold, pnew)`, lines 2861-2875. -/
def CopyMasses (nhalos : Nat) (pold pnew : List PropData) : List PropData :=
  copyMassesFrom nhalos 0 pold pnew

/-- A record as `GetInclusiveMasses` leaves it for a halo of `40` particles: every one of the
five overdensity definitions has a non-zero mass and radius. -/
def c27Old : PropData :=
  { hostid := 0, gNFOF := 40, gMFOF := 40, gmass := 40, gsize := 4, gRhalfmass := 1,
    gMvir := 30, gRvir := 3, gM200c := 20, gR200c := 2, gM200m := 35, gR200m := 7 / 2,
    gM500c := 10, gR500c := 1, gMBN98 := 30, gRBN98 := 3 }

/-- A fresh record of a field halo (`hostid == -1`), every other field zero. -/
def c27New : PropData := { zeroPropData with hostid := -1 }

/-- Inclusive mode (`iInclusiveHalo == 1`). -/
def c27Opt : Options :=
  { iInclusiveHalo := 1, virlevel := 1, rhobg := 1, Omega_m := 1, virBN98 := 1 }

/-- The positions `k` at which the outward walk reads `radii[indices[k]]` or
`masses[indices[k]]`, for a ball query of `n` samples: `k = 0..minnum-1` at line 2184,
`k = minnum-1` at line 2185, and in each pass `j = minnum..n-1` of the loop `k = j` (lines
2188, 2192) and `k = j-1` (the interpolation formulas, when they are reached). -/
def soReads (HaloMinSize n : Nat) : List Nat :=
  List.range (soMinnum HaloMinSize n) ++ [soMinnum HaloMinSize n - 1] ++
    ((List.range (n - soMinnum HaloMinSize n)).map (fun d => soMinnum HaloMinSize n + d)) ++
    ((List.range (n - soMinnum HaloMinSize n)).map (fun d => soMinnum HaloMinSize n + d - 1))

/-! ## The potential-reference step of `GetBindingEnergy` (`cmvelreftype == POTREF`)

Lines 2976-3004 (small groups) and 3088-3117 (large groups) are the same statements.  The
two sorts are calls of `gsl_heapsort` with `RadCompare` and `PIDCompare`; they enter as the
parameters `radSort` and `pidSort`.  The step works on the slice of the group; `after` is
the part of the particle buffer that follows the slice, which the step can reach through an
index `j+noffset[i]` with `j >= numingroup[i]`.  The result is `none` when an index leaves
the buffer. -/

/-- Line 2978: `npot=max(opt.uinfo.Npotref,Int_t(opt.uinfo.fracpotref*numingroup[i]))`. -/
def potRefNpot (Npotref : Int) (fracpotref : ℚ) (numingroup : Nat) : Int :=
  max Npotref (truncInt (fracpotref * (numingroup : ℚ)))

/-- Line 2984 from index `j` on: `if (Part[j+noffset[i]].GetPotential()<potmin)
{potmin=...;ipotmin=j;}`; the value is the final `ipotmin`. -/
def potMinIndex : List Particle → Nat → ℚ → Nat → Nat
  | [], _, _, ipotmin => ipotmin
  | p :: rest, j, potmin, ipotmin =>
    if p.potential < potmin then potMinIndex rest (j + 1) p.potential j
    else potMinIndex rest (j + 1) potmin ipotmin

/-- Line 2981: `Part[j+noffset[i]].SetPID(j)`. -/
def tagPID (j : Nat) (p : Particle) : Particle := { p with pid := (j : Int) }

/-- Line 2999: `Part[j+noffset[i]].SetPID(storepid[j])`. -/
def restorePID (p : Particle) (storepid : Int) : Particle := { p with pid := storepid }

/-- What the step leaves: the slice, and the fields `gcm` and `gcmvel` of the record. -/
structure PotRefResult where
  Part : List Particle
  gcm : Coordinate
  gcmvel : Coordinate
deriving DecidableEq

/-- Lines 2978-3003 for one group with slice `slice`, followed in the buffer by `after`. -/
def potRefStep (radSort pidSort : List Particle → List Particle) (Npotref : Int)
    (fracpotref : ℚ) (slice after : List Particle) : Option PotRefResult :=
  match (slice ++ after).head? with
  | none => none
  | some first =>
    match (slice ++ after).get? (potMinIndex slice 0 first.potential 0) with
    | none => none
    | some pmin =>
      if (potRefNpot Npotref fracpotref slice.length).toNat ≤
          ((radSort ((mapFrom tagPID 0 slice).map (shiftBy pmin.pos))) ++ after).length then
        some
          { Part := (List.zipWith restorePID
              (pidSort (radSort ((mapFrom tagPID 0 slice).map (shiftBy pmin.pos))))
              (slice.map (fun p => p.pid))).map (addPos pmin.pos)
            gcm := pmin.pos
            gcmvel := (massVelSum
                (((radSort ((mapFrom tagPID 0 slice).map (shiftBy pmin.pos))) ++ after).take
                  (potRefNpot Npotref fracpotref slice.length).toNat)).divBy
              (totalMass
                (((radSort ((mapFrom tagPID 0 slice).map (shiftBy pmin.pos))) ++ after).take
                  (potRefNpot Npotref fracpotref slice.length).toNat)) }
      else none

/-- What the two sorts of the step guarantee: each returns a permutation of its input, and
the output of the second is in non-decreasing PID order. -/
def PotRefSorts (radSort pidSort : List Particle → List Particle) : Prop :=
  (∀ l, (radSort l).Perm l) ∧
    (∀ l, (pidSort l).Perm l ∧ (pidSort l).Sorted (fun a b => a.pid ≤ b.pid))

/-- A slice of three particles on the x-axis with PIDs `7, 5, 9` and potentials
`-1, -3, -2`. -/
def c23Part : List Particle :=
  [ { id := 0, pid := 7, type := 0, pos := ⟨4, 0, 0⟩, vel := ⟨1, 0, 0⟩, mass := 1,
      potential := -1 },
    { id := 1, pid := 5, type := 0, pos := ⟨1, 0, 0⟩, vel := ⟨0, 2, 0⟩, mass := 2,
      potential := -3 },
    { id := 2, pid := 9, type := 0, pos := ⟨2, 0, 0⟩, vel := ⟨0, 0, 3⟩, mass := 1,
      potential := -2 } ]

/-- A particle of unit mass at `(x, 0, 0)` moving with velocity `(v, 0, 0)`. -/
def movingAt (i : Int) (x v : ℚ) : Particle :=
  { id := i, pid := i, type := 0, pos := ⟨x, 0, 0⟩, vel := ⟨v, 0, 0⟩, mass := 1, potential := 0 }

/-- `GetBindingEnergy` for one small group with slice `Part`, followed in the buffer by
`after`, and record fields `gcm`, `gcmvel`, `T0`, `Pot0`, `Efrac0` at entry: the pairwise
potential (lines 2941-2957), the potential-reference step when `cmvelreftype==POTREF`
(`potref`, lines 2969-3008), then the energy loop with the reference velocity then in the
record (lines 3017-3052).  The value is the energy result with the fields `gcm` and `gcmvel`
of the record on return. -/
def GetBindingEnergy_group (potref : Bool) (sqrtF : ℚ → ℚ) (G eps : ℚ)
    (radSort pidSort : List Particle → List Particle) (Npotref : Int) (fracpotref : ℚ)
    (gcm gcmvel : Coordinate) (T0 Pot0 Efrac0 : ℚ) (Part after : List Particle) :
    Option (BindingResult × Coordinate × Coordinate) :=
  if potref then
    match potRefStep radSort pidSort Npotref fracpotref
        (bePairOuter sqrtF G (eps * eps) Part.length Part Pot0).1 after with
    | none => none
    | some r =>
      some
        ({ Part := (beEnergyLoop r.gcmvel r.Part T0 Efrac0).1
           T := (beEnergyLoop r.gcmvel r.Part T0 Efrac0).2.1
           Pot := (bePairOuter sqrtF G (eps * eps) Part.length Part Pot0).2
           Efrac := (beEnergyLoop r.gcmvel r.Part T0 Efrac0).2.2 / (Part.length : ℚ) },
         r.gcm, r.gcmvel)
  else some (GetBindingEnergy_small sqrtF G eps gcmvel T0 Pot0 Efrac0 Part, gcm, gcmvel)

/-- Two unit masses at rest at `x = 0` and `x = 2`; their centre of mass is `(1, 0, 0)`. -/
def c28Part : List Particle := [unitAt 0 0, unitAt 1 2]

/-- `GetBindingEnergy_small` with the division of line 3045,
`pdata[i].Efrac/=(Double_t)numingroup[i]`, checked: a zero divisor is a fault. -/
def GetBindingEnergy_small_checked (sqrtF : ℚ → ℚ) (G eps : ℚ) (gcmvel : Coordinate)
    (T0 Pot0 Efrac0 : ℚ) (Part : List Particle) : Outcome BindingResult :=
  if (Part.length : ℚ) = 0 then .fault .divByZero
  else .ok (GetBindingEnergy_small sqrtF G eps gcmvel T0 Pot0 Efrac0 Part)

/-- The loop of lines 3138-3163 (large groups) on the locals `Tval`, `Potval`, `Efracval`:
`Potval+=GetPotential(); SetPotential(GetPotential()+Ti); Tval+=Ti;
if (GetPotential()<0.0) Efracval+=1.0;`.  The value is the slice with `(Tval, Potval,
Efracval)`. -/
def beEnergyLoopLarge (gcmvel : Coordinate) :
    List Particle → ℚ → ℚ → ℚ → List Particle × ℚ × ℚ × ℚ
  | [], Tval, Potval, Efracval => ([], Tval, Potval, Efracval)
  | p :: rest, Tval, Potval, Efracval =>
    ({ p with potential := p.potential + beKinetic gcmvel p } ::
      (beEnergyLoopLarge gcmvel rest (Tval + beKinetic gcmvel p) (Potval + p.potential)
        (if p.potential + beKinetic gcmvel p < 0 then Efracval + 1 else Efracval)).1,
     (beEnergyLoopLarge gcmvel rest (Tval + beKinetic gcmvel p) (Potval + p.potential)
        (if p.potential + beKinetic gcmvel p < 0 then Efracval + 1 else Efracval)).2)

/-- Lines 3059-3072 and 3124-3175 for one large group (`numingroup[i]>=ompunbindnum`, no
`POTREF`): the potential from the library routine `Potential`, `Tval=0;Potval=0;Efracval=0;`,
the loop, `pdata[i].T=Tval;pdata[i].Efrac=Efracval;pdata[i].Pot=Potval;` and the division
`pdata[i].Efrac/=(Double_t)numingroup[i]`, checked. -/
def GetBindingEnergy_large_checked (treePotential : List Particle → List ℚ)
    (gcmvel : Coordinate) (Part : List Particle) : Outcome BindingResult :=
  match gpLargePotential treePotential Part with
  | .fault f => .fault f
  | .ok ps =>
    if (Part.length : ℚ) = 0 then .fault .divByZero
    else .ok
      { Part := (beEnergyLoopLarge gcmvel ps 0 0 0).1
        T := (beEnergyLoopLarge gcmvel ps 0 0 0).2.1
        Pot := (beEnergyLoopLarge gcmvel ps 0 0 0).2.2.1
        Efrac := (beEnergyLoopLarge gcmvel ps 0 0 0).2.2.2 / (Part.length : ℚ) }

/-! ## Energy order in `SortAccordingtoBindingEnergy`

The per-group part of lines 3224-3257, on the slice of one group as `GetBindingEnergy` left
it (total energy in the potential field).  `qsort` with `PotCompare` enters as the parameter
`potSort`.  The fields `gpos`, `gvel` and `gRmbp` are written from the sorted slice and read
by none of the statements embedded here; they are left out. -/

/-- Executable stand-in for `qsort(&Part[noffset[i]], numingroup[i], sizeof(Particle),
PotCompare)`. -/
def sortByPot (Part : List Particle) : List Particle :=
  Part.insertionSort (fun a b => a.potential ≤ b.potential)

/-- What `qsort` with `PotCompare` guarantees of its output: a permutation of the input in
non-decreasing order of the potential field (ties in any order). -/
def IsPotSort (potSort : List Particle → List Particle) : Prop :=
  ∀ l, (potSort l).Perm l ∧ (potSort l).Sorted (fun a b => a.potential ≤ b.potential)

/-- Line 3231 from index `j` on: `if(Part[noffset[i]+j].GetPotential()>0)
{pdata[i].iunbound=j;break;}`, with `n` the value `iunbound` has when no particle passes. -/
def firstPositive : List Particle → Nat → Nat → Nat
  | [], _, n => n
  | p :: rest, j, n => if p.potential > 0 then j else firstPositive rest (j + 1) n

/-- What the per-group part leaves: the sorted slice, `ibound`, `iunbound` and the row
`pglist[i]` of `numingroup[i]+1` entries. -/
structure EnergyOrder where
  Part : List Particle
  ibound : Int
  iunbound : Nat
  pglist : List Int
deriving DecidableEq

/-- Lines 3225-3232 and 3250-3255 for the group with slice `slice` at offset `noffset`,
followed in the buffer by `after`: the sort, `ibound=Part[noffset[i]].GetPID()`,
`iunbound=numingroup[i]` and the search for the first positive energy, then the row of
`pglist`: the ids of the particles when `opt.iseparatefiles` is set and the buffer positions
`j+noffset[i]` when not, with `iunbound` in the last entry (`pglist[i][0]=0` for an empty
group).  The result is `none` when `Part[noffset[i]]` is outside the buffer. -/
def SortAccordingtoBindingEnergy_group (potSort : List Particle → List Particle)
    (iseparatefiles : Bool) (noffset : Nat) (slice after : List Particle) :
    Option EnergyOrder :=
  match (potSort slice ++ after).head? with
  | none => none
  | some first =>
    some
      { Part := potSort slice
        ibound := first.pid
        iunbound := if slice.length > 0 then firstPositive (potSort slice) 0 slice.length
          else slice.length
        pglist :=
          if slice.length > 0 then
            (if iseparatefiles then (potSort slice).map (fun p => p.id)
             else (List.range slice.length).map (fun j => ((j + noffset : Nat) : Int))) ++
              [((if slice.length > 0 then firstPositive (potSort slice) 0 slice.length
                else slice.length : Nat) : Int)]
          else [0] }

/-- A group of four particles, three bound and one of positive energy. -/
def c21Part : List Particle := c23Part ++ [{ movingAt 3 0 1 with potential := 2 }]

/-! ## Hierarchy information: `GetSubstrutcureNum`

`StrucLevelData` is not among the sources.  A level is taken as the list of its `nsinlevel`
entries, entry `j` holding the two values the routine reads, `*gidhead[j]` and
`*gidparenthead[j]`; the linked list `psldata` is the list of the levels, top level first.
The array `nsub` is a function of the index; the slots the routine does not initialise (slot
`0` and whatever lies past `ngroups`) hold arbitrary values `junk`. -/

/-- Entry `j` of a level: the group id `*gidhead[j]` and the id of its parent
`*gidparenthead[j]`. -/
structure StrucEntry where
  gid : Nat
  gidparent : Nat
deriving DecidableEq

/-- The array after `for (Int_t i=1;i<=ngroups;i++) nsub[i]=0;`. -/
def nsubInit (ngroups : Nat) (junk : Nat → Int) : Nat → Int :=
  fun g => if 1 ≤ g ∧ g ≤ ngroups then 0 else junk g

/-- First inner loop of `GetSubstrutcureNum`: `nsub[*(gidparenthead[j])]++` for every entry of
the level. -/
def nsubCountLevel (nsub : Nat → Int) (level : List StrucEntry) : Nat → Int :=
  level.foldl (fun ns e => Function.update ns e.gidparent (ns e.gidparent + 1)) nsub

/-- Second inner loop: `nsub[*(gidparenthead[j])]+=nsub[*(gidhead[j])]` for every entry of the
level. -/
def nsubAddLower (nsub : Nat → Int) (level : List StrucEntry) : Nat → Int :=
  level.foldl (fun ns e => Function.update ns e.gidparent (ns e.gidparent + ns e.gid)) nsub

/-- `GetSubstrutcureNum`: the levels `nhierarchy-1` down to `1` are processed in that order,
the top level is not; `none` stands for the null `psldata` the routine dereferences. -/
def GetSubstrutcureNum (ngroups : Nat) (junk : Nat → Int) (psldata : List (List StrucEntry)) :
    Option (Nat → Int) :=
  match psldata with
  | [] => none
  | _ :: deeper =>
    some (deeper.foldr (fun level ns => nsubAddLower (nsubCountLevel ns level) level)
      (nsubInit ngroups junk))

/-- The group ids listed in the levels. -/
def levelGids (levels : List (List StrucEntry)) : List Nat :=
  levels.flatten.map (fun e => e.gid)

/-- Every structure listed at a level below the first of `levels` has its parent listed at
the level just above. -/
def ParentsOneLevelUp : List (List StrucEntry) → Prop
  | A :: B :: rest =>
    (∀ e ∈ B, ∃ a ∈ A, a.gid = e.gidparent) ∧ ParentsOneLevelUp (B :: rest)
  | _ => True

/-- Parent relation of the hierarchy: `x` is listed in `levels` with parent `p`. -/
def IsParentIn (levels : List (List StrucEntry)) (p x : Nat) : Prop :=
  ∃ e ∈ levels.flatten, e.gid = x ∧ e.gidparent = p

/-- Decision procedure for "`g` is an ancestor of `x`" in a hierarchy whose parents sit one
level up: `x` is a child of `g` in the first level, or the ancestry lies in the levels below,
or `x` descends from a child of `g` in the first level. -/
def hasAncestor : List (List StrucEntry) → Nat → Nat → Bool
  | [], _, _ => false
  | L :: Ls, g, x =>
    L.any (fun e => decide (e.gid = x) && decide (e.gidparent = g)) ||
      (hasAncestor Ls g x ||
        L.any (fun e => decide (e.gidparent = g) && hasAncestor Ls e.gid x))

/-- Number of listed structures that have `g` as an ancestor. -/
def countDescendants (levels : List (List StrucEntry)) (g : Nat) : Nat :=
  levels.flatten.countP (fun e => hasAncestor levels g e.gid)

/-- Top level of a sample hierarchy: the groups 1 and 2. -/
def c26Top : List StrucEntry := [⟨1, 0⟩, ⟨2, 0⟩]

/-- Lower levels of the sample hierarchy: 3 and 4 inside 1, then 5 inside 3. -/
def c26Deeper : List (List StrucEntry) := [[⟨3, 1⟩, ⟨4, 1⟩], [⟨5, 3⟩]]

/-! ## Rotational support `Krot` in `GetCMProp`

The loops that accumulate the angular momentum, the kinetic energy and `Krot` contain no test
on the data, so they are written over any field `K` standing for `Double_t`: over `ℚ` they
run, over `ℝ` with the real square root they are the exact arithmetic of the code.
`Coordinate::operator*` is the scalar product, `Length()` the root of the sum of the squared
components and `Radius2()` the squared distance from the origin. -/

/-- A `Coordinate` with components in `K`. -/
structure CoordinateOver (K : Type) where
  x : K
  y : K
  z : K

/-- The fields of a `Particle` that the `Krot` loops read, with values in `K`. -/
structure KinParticle (K : Type) where
  pos : CoordinateOver K
  vel : CoordinateOver K
  mass : K

/-- The vector product `a.Cross(b)`. -/
def CoordinateOver.Cross {K : Type} [Field K] (a b : CoordinateOver K) : CoordinateOver K :=
  ⟨a.y * b.z - a.z * b.y, a.z * b.x - a.x * b.z, a.x * b.y - a.y * b.x⟩

/-- The scalar product `a*b`. -/
def CoordinateOver.dot {K : Type} [Field K] (a b : CoordinateOver K) : K :=
  a.x * b.x + a.y * b.y + a.z * b.z

/-- The norm `a.Length()`. -/
def CoordinateOver.Length {K : Type} [Field K] (sqrtF : K → K) (a : CoordinateOver K) : K :=
  sqrtF (a.x * a.x + a.y * a.y + a.z * a.z)

/-- The velocity `Coordinate(vx,vy,vz)` with `vx = Vx()-gcmvel[0]` and so on. -/
def KinParticle.relVel {K : Type} [Field K] (gcmvel : CoordinateOver K) (p : KinParticle K) :
    CoordinateOver K :=
  ⟨p.vel.x - gcmvel.x, p.vel.y - gcmvel.y, p.vel.z - gcmvel.z⟩

/-- Lines 561 and 573 (1199, 1216-1217 and 1232-1234 in the large-group branch): `gJ` is set
to zero and grows by `pos.Cross(Coordinate(vx,vy,vz))*GetMass()` at every particle. -/
def GetCMProp_gJ {K : Type} [Field K] (gcmvel : CoordinateOver K) (Part : List (KinParticle K)) :
    CoordinateOver K :=
  Part.foldl (fun gJ p =>
    ⟨gJ.x + (p.pos.Cross (p.relVel gcmvel)).x * p.mass,
     gJ.y + (p.pos.Cross (p.relVel gcmvel)).y * p.mass,
     gJ.z + (p.pos.Cross (p.relVel gcmvel)).z * p.mass⟩) ⟨0, 0, 0⟩

/-- Lines 560, 576 and 595 of the small-group branch: `Ekin=0.`,
`Ekin+=Pval->GetMass()*(vx*vx+vy*vy+vz*vz)` at every particle, then `Ekin*=0.5`. -/
def GetCMProp_small_Ekin {K : Type} [Field K] (gcmvel : CoordinateOver K)
    (Part : List (KinParticle K)) : K :=
  Part.foldl (fun Ekin p => Ekin + p.mass * ((p.relVel gcmvel).x * (p.relVel gcmvel).x +
    (p.relVel gcmvel).y * (p.relVel gcmvel).y + (p.relVel gcmvel).z * (p.relVel gcmvel).z)) 0 *
    (1 / 2)

/-- Lines 1199, 1226 and 1249 of the large-group branch: `Ekin=0.`,
`Ekin+=(vx*vx+vy*vy+vz*vz)*mval` at every particle, then `Ekin*=0.5`. -/
def GetCMProp_large_Ekin {K : Type} [Field K] (gcmvel : CoordinateOver K)
    (Part : List (KinParticle K)) : K :=
  Part.foldl (fun Ekin p => Ekin + ((p.relVel gcmvel).x * (p.relVel gcmvel).x +
    (p.relVel gcmvel).y * (p.relVel gcmvel).y + (p.relVel gcmvel).z * (p.relVel gcmvel).z) *
      p.mass) 0 * (1 / 2)

/-- Lines 612-613 (1266-1267): `jval=pos.Cross(Coordinate(vx,vy,vz))` and
`jzval=(jval*gJ)/gJ.Length()`. -/
def krotJzval {K : Type} [Field K] (sqrtF : K → K) (gcmvel gJ : CoordinateOver K)
    (p : KinParticle K) : K :=
  (p.pos.Cross (p.relVel gcmvel)).dot gJ / gJ.Length sqrtF

/-- Lines 614-615 (1268-1269): `zdist=(pos*gJ)/gJ.Length()` and
`Rdist=sqrt(Radius2()-zdist*zdist)`. -/
def krotRdist {K : Type} [Field K] (sqrtF : K → K) (gJ : CoordinateOver K)
    (p : KinParticle K) : K :=
  sqrtF (p.pos.x * p.pos.x + p.pos.y * p.pos.y + p.pos.z * p.pos.z -
    p.pos.dot gJ / gJ.Length sqrtF * (p.pos.dot gJ / gJ.Length sqrtF))

/-- The loop of lines 607-617 (1258-1271) from the value `Krot` on:
`Krot+=Pval->GetMass()*(jzval*jzval/(Rdist*Rdist))` at every particle. -/
def krotLoop {K : Type} [Field K] (sqrtF : K → K) (gcmvel gJ : CoordinateOver K) (Krot : K)
    (Part : List (KinParticle K)) : K :=
  Part.foldl (fun Krot p => Krot + p.mass *
    (krotJzval sqrtF gcmvel gJ p * krotJzval sqrtF gcmvel gJ p /
      (krotRdist sqrtF gJ p * krotRdist sqrtF gJ p))) Krot

/-- Lines 560-618 of the small-group branch: the loop adds to the field `pdata[i].Krot`, which
enters with the value `Krot0`, and line 618 is `pdata[i].Krot*=0.5/Ekin`. -/
def GetCMProp_small_Krot {K : Type} [Field K] (sqrtF : K → K) (gcmvel : CoordinateOver K)
    (Krot0 : K) (Part : List (KinParticle K)) : K :=
  krotLoop sqrtF gcmvel (GetCMProp_gJ gcmvel Part) Krot0 Part *
    (1 / 2 / GetCMProp_small_Ekin gcmvel Part)

/-- Lines 1199-1275 of the large-group branch: the local `Krot` is set to zero at line 1199
and line 1275 is `pdata[i].Krot=0.5*Krot/Ekin`. -/
def GetCMProp_large_Krot {K : Type} [Field K] (sqrtF : K → K) (gcmvel : CoordinateOver K)
    (Part : List (KinParticle K)) : K :=
  1 / 2 * krotLoop sqrtF gcmvel (GetCMProp_gJ gcmvel Part) 0 Part /
    GetCMProp_large_Ekin gcmvel Part

/-- The rotational-support parameter as the specification words it:
`(sum of m_j*jz_j^2/R_j^2)/(sum of m_j*|v_j - gcmvel|^2)`, with `jz_j` the component of
`r_j x v_j` along `gJ` and `R_j` the distance of particle `j` from the axis along `gJ`. -/
def krotAsSpecified {K : Type} [Field K] (sqrtF : K → K) (gcmvel gJ : CoordinateOver K)
    (Part : List (KinParticle K)) : K :=
  (Part.map (fun p => p.mass *
    (krotJzval sqrtF gcmvel gJ p * krotJzval sqrtF gcmvel gJ p /
      (krotRdist sqrtF gJ p * krotRdist sqrtF gJ p)))).sum /
    (Part.map (fun p => p.mass * ((p.relVel gcmvel).x * (p.relVel gcmvel).x +
      (p.relVel gcmvel).y * (p.relVel gcmvel).y +
      (p.relVel gcmvel).z * (p.relVel gcmvel).z))).sum

/-- The fields of a particle read by the `Krot` loops. -/
def Particle.kin (p : Particle) : KinParticle ℚ :=
  ⟨⟨p.pos.x, p.pos.y, p.pos.z⟩, ⟨p.vel.x, p.vel.y, p.vel.z⟩, p.mass⟩

/-- Two unit masses in the plane `z = 0`: one on a circular orbit of radius `1`, one at
`(3, 4, 0)` moving along `x`. -/
def c24Part (K : Type) [Field K] : List (KinParticle K) :=
  [⟨⟨1, 0, 0⟩, ⟨0, 1, 0⟩, 1⟩, ⟨⟨3, 4, 0⟩, ⟨1, 0, 0⟩, 1⟩]

/-! ## The root bracket of `GetConcentration`

`mycNFW` holds no test on its argument and is written over any field `K` with the logarithm
as the parameter `logF`: over `ℚ` it runs with a stand-in, over `ℝ` with `Real.log` it is the
function of the code in exact arithmetic. -/

/-- `mycNFW` (lines 3352-3357): `(VmaxVvir2) -0.216*c/(log(1.0+c)-c/(1.0+c))`. -/
def mycNFW {K : Type} [Field K] (logF : K → K) (c VmaxVvir2 : K) : K :=
  VmaxVvir2 - 216 / 1000 * c / (logF (1 + c) - c / (1 + c))

/-- The start of the bracket in `GetConcentration` (line 2830): `x_lo = 1.9`. -/
def GetConcentration_x_lo {K : Type} [Field K] : K := 19 / 10

/-- The end of the bracket in `GetConcentration` (line 2830): `x_hi = 1000.0`. -/
def GetConcentration_x_hi {K : Type} [Field K] : K := 1000

/-- The numerator of `mycNFW` over its denominator:
`mycNFW(c) = nfwNumerator(c)/(log(1+c)-c/(1+c))`. -/
def nfwNumerator {K : Type} [Field K] (logF : K → K) (VmaxVvir2 c : K) : K :=
  VmaxVvir2 * (logF (1 + c) - c / (1 + c)) - 216 / 1000 * c

/-! # Lemmas and theorems -/

/-! ## Lemmas on sorted key lists -/

theorem sorted_get_lt_iff (l : List Int) (hs : l.Sorted (fun a b => a ≤ b)) (v : Int) :
    ∀ (k : Nat) (hk : k < l.length), (l.get ⟨k, hk⟩ < v ↔ k < l.countP (fun a => decide (a < v))) := by
  induction l with
  | nil => intro k hk; simp at hk
  | cons a t ih =>
    have hs2 := List.sorted_cons.mp hs
    intro k hk
    by_cases hav : a < v
    · cases k with
      | zero => simp [List.countP_cons, hav]
      | succ k =>
        have hk2 : k < t.length := by simpa using hk
        have := ih hs2.2 k hk2
        simp only [List.get_eq_getElem, List.getElem_cons_succ] at this ⊢
        rw [this]
        simp [List.countP_cons, hav]
    · have hall : ∀ b ∈ t, ¬ b < v := fun b hb => by
        have := hs2.1 b hb
        omega
      have hzero : t.countP (fun a => decide (a < v)) = 0 := by
        rw [List.countP_eq_zero]
        intro b hb
        simpa using hall b hb
      cases k with
      | zero => simp [List.countP_cons, hav, hzero]
      | succ k =>
        have hk2 : k < t.length := by simpa using hk
        have hmem : t.get ⟨k, hk2⟩ ∈ t := List.get_mem _ _ _
        have := hall _ hmem
        simp only [List.get_eq_getElem, List.getElem_cons_succ] at this ⊢
        simp [List.countP_cons, hav, hzero, this]

theorem countP_band_succ (vals : List Int) (g : Nat) (hg : 1 ≤ g) :
    vals.countP (fun v => decide (0 < v ∧ v < ((g + 1 : Nat) : Int))) =
      vals.countP (fun v => decide (0 < v ∧ v < (g : Int))) +
        vals.countP (fun v => decide (v = (g : Int))) := by
  induction vals with
  | nil => rfl
  | cons a t ih =>
    rw [List.countP_cons, List.countP_cons, List.countP_cons, ih]
    by_cases h1 : a = (g : Int)
    · have h2 : (0 < a ∧ a < ((g + 1 : Nat) : Int)) := by constructor <;> push_cast <;> omega
      have h3 : ¬ (0 < a ∧ a < (g : Int)) := by omega
      rw [if_pos (decide_eq_true h2), if_pos (decide_eq_true h1),
        if_neg (by rw [decide_eq_true_eq]; exact h3)]
      omega
    · by_cases h4 : (0 < a ∧ a < (g : Int))
      · have h2 : (0 < a ∧ a < ((g + 1 : Nat) : Int)) := by constructor <;> push_cast <;> omega
        rw [if_pos (decide_eq_true h2), if_pos (decide_eq_true h4),
          if_neg (by rw [decide_eq_true_eq]; exact h1)]
        omega
      · have h2 : ¬ (0 < a ∧ a < ((g + 1 : Nat) : Int)) := by push_cast; omega
        rw [if_neg (by rw [decide_eq_true_eq]; exact h2),
          if_neg (by rw [decide_eq_true_eq]; exact h4),
          if_neg (by rw [decide_eq_true_eq]; exact h1)]
        omega

theorem countP_band_eq_sum (vals : List Int) (g : Nat) :
    vals.countP (fun v => decide (0 < v ∧ v < (g : Int))) =
      ∑ h in Finset.Ico 1 g, vals.countP (fun v => decide (v = (h : Int))) := by
  induction g with
  | zero =>
    rw [List.countP_eq_zero.mpr]
    · simp
    · intro v _
      rw [decide_eq_true_eq]; push_cast; omega
  | succ g ih =>
    by_cases hg : 1 ≤ g
    · rw [countP_band_succ vals g hg, ih, Finset.sum_Ico_succ_top hg]
    · have hg0 : g = 0 := by omega
      subst hg0
      rw [List.countP_eq_zero.mpr]
      · simp
      · intro v _
        rw [decide_eq_true_eq]; push_cast; omega

theorem countInGroup_eq (n : Nat) (pfof : Int → Int) (h : Nat) :
    countInGroup n pfof h =
      (((List.range n).map (fun i : Nat => (i : Int))).map pfof).countP
        (fun v => decide (v = (h : Int))) := by
  unfold countInGroup
  rw [List.countP_map, List.countP_map, List.countP_eq_length_filter]
  rfl

theorem noffset_eq_sum (numingroup : Nat → Nat) :
    ∀ g : Nat, 1 ≤ g → noffset numingroup g = ∑ h in Finset.Ico 1 g, numingroup h := by
  intro g
  induction g with
  | zero => intro h; omega
  | succ g ih =>
    intro _
    cases g with
    | zero => simp [noffset]
    | succ g =>
      have h1 : 1 ≤ g + 1 := by omega
      rw [Finset.sum_Ico_succ_top h1, ← ih h1]
      rfl

theorem setGroupPID_id (n : Nat) (pfof : Int → Int) (io : Int) (p : Particle) :
    (setGroupPID n pfof io p).id = p.id := by
  unfold setGroupPID
  split <;> rfl

theorem setGroupPID_pid (n : Nat) (pfof : Int → Int) (io : Int) (p : Particle) :
    (setGroupPID n pfof io p).pid = if pfof p.id > io then pfof p.id else (n : Int) + 1 := by
  unfold setGroupPID
  split <;> rfl

theorem pid_of_mem_sorted (Part out : List Particle) (pfof : Int → Int)
    (hout : out.Perm (assignGroupPIDs pfof 0 Part)) (q : Particle) (hq : q ∈ out) :
    (q.pid = if pfof q.id > 0 then pfof q.id else (Part.length : Int) + 1) ∧
      q.id ∈ Part.map (fun p => p.id) := by
  have hq2 : q ∈ assignGroupPIDs pfof 0 Part := hout.subset hq
  unfold assignGroupPIDs at hq2
  obtain ⟨p, hp, rfl⟩ := List.mem_map.mp hq2
  refine ⟨?_, ?_⟩
  · rw [setGroupPID_pid, setGroupPID_id]
  · rw [setGroupPID_id]
    exact List.mem_map.mpr ⟨p, hp, rfl⟩

theorem countP_pid_lt_sorted (Part out : List Particle) (pfof : Int → Int)
    (hid : (Part.map (fun p => p.id)).Perm
      ((List.range Part.length).map (fun i : Nat => (i : Int))))
    (hout : out.Perm (assignGroupPIDs pfof 0 Part)) (g : Nat) (hg : g ≤ Part.length + 1) :
    out.countP (fun p => decide (p.pid < (g : Int))) =
      ∑ h in Finset.Ico 1 g, countInGroup Part.length pfof h := by
  rw [hout.countP_eq]
  unfold assignGroupPIDs
  rw [List.countP_map]
  have h1 : Part.countP ((fun p : Particle => decide (p.pid < (g : Int))) ∘
        setGroupPID Part.length pfof 0) =
      Part.countP (((fun v : Int => decide (0 < v ∧ v < (g : Int))) ∘ pfof) ∘
        (fun p : Particle => p.id)) := by
    apply List.countP_congr
    intro p _
    simp only [Function.comp, decide_eq_true_eq, setGroupPID_pid]
    split <;> omega
  rw [h1, ← List.countP_map, ← List.countP_map, ((hid.map pfof).countP_eq _),
    countP_band_eq_sum]
  apply Finset.sum_congr rfl
  intro h _
  rw [countInGroup_eq]

theorem sorted_pid_lt_iff (out : List Particle)
    (hs : out.Sorted (fun a b => a.pid ≤ b.pid)) (v : Int) (k : Nat) (hk : k < out.length) :
    ((out.get ⟨k, hk⟩).pid < v ↔ k < out.countP (fun p => decide (p.pid < v))) := by
  have hs2 : (out.map (fun p => p.pid)).Sorted (fun a b => a ≤ b) :=
    List.pairwise_map.mpr hs
  have hk2 : k < (out.map (fun p => p.pid)).length := by simpa using hk
  have h := sorted_get_lt_iff (out.map (fun p => p.pid)) hs2 v k hk2
  rw [List.countP_map] at h
  simpa using h

theorem sum_numingroup_eq (Part : List Particle) (pfof : Int → Int) (ngroup : Nat)
    (numingroup : Nat → Nat)
    (hnum : ∀ g : Nat, 1 ≤ g → g ≤ ngroup → numingroup g = countInGroup Part.length pfof g)
    (g : Nat) (hg : g ≤ ngroup + 1) :
    ∑ h in Finset.Ico 1 g, countInGroup Part.length pfof h =
      ∑ h in Finset.Ico 1 g, numingroup h := by
  apply Finset.sum_congr rfl
  intro h hh
  rw [Finset.mem_Ico] at hh
  exact (hnum h hh.1 (by omega)).symm

/-- Position of a key in the sorted buffer: with `ngroup ≤ nbodies`, the particle at index
`k` has PID below `g` exactly when `k` is below the number of members of groups `1..g-1`. -/
theorem sorted_pid_lt_iff_sum (Part out : List Particle) (pfof : Int → Int) (ngroup : Nat)
    (numingroup : Nat → Nat) (hin : GroupInput Part pfof ngroup numingroup)
    (hng : ngroup ≤ Part.length)
    (hs : IsPIDSortOf out (assignGroupPIDs pfof 0 Part))
    (g : Nat) (hg : g ≤ ngroup + 1) (k : Nat) (hk : k < out.length) :
    ((out.get ⟨k, hk⟩).pid < (g : Int) ↔ k < ∑ h in Finset.Ico 1 g, numingroup h) := by
  rw [sorted_pid_lt_iff out hs.2 _ k hk,
    countP_pid_lt_sorted Part out pfof hin.1 hs.1 g (by omega),
    sum_numingroup_eq Part pfof ngroup numingroup hin.2.2 g hg]

/-! ## C1: contiguity of the group slices -/

/-- C1 (as amended): if the ids are a bijection onto `0..nbodies-1`, every `pfof` value is at
most `ngroup`, `numingroup` counts the members of each group, and additionally
`ngroup ≤ nbodies`, then for every output of the sort by PID after the key assignment of
`CalculateHaloProperties` (`ioffset = 0`) the offsets are the prefix sums of `numingroup`,
slice `g` holds exactly the particles with `pfof = g`, the slices are disjoint and the
particles with `pfof ≤ 0` occupy exactly the trailing positions. -/
theorem C1_group_contiguity (Part out : List Particle) (pfof : Int → Int) (ngroup : Nat)
    (numingroup : Nat → Nat) (hin : GroupInput Part pfof ngroup numingroup)
    (hng : ngroup ≤ Part.length)
    (hs : IsPIDSortOf out (assignGroupPIDs pfof 0 Part)) :
    GroupContiguity out pfof ngroup numingroup := by
  have hkey := pid_of_mem_sorted Part out pfof hs.1
  have hpos := sorted_pid_lt_iff_sum Part out pfof ngroup numingroup hin hng hs
  refine ⟨fun g hg _ => noffset_eq_sum numingroup g hg, ?_, ?_, ?_⟩
  · intro g hg1 hg2 k hk
    have hq := (hkey _ (List.get_mem out k hk)).1
    have hA := hpos g (by omega) k hk
    have hB := hpos (g + 1) (by omega) k hk
    rw [Finset.sum_Ico_succ_top hg1] at hB
    rw [noffset_eq_sum numingroup g hg1]
    push_cast at hB
    split at hq <;> constructor <;> intro h <;> omega
  · intro g g2 hg1 hlt hg2
    rw [noffset_eq_sum numingroup g hg1, noffset_eq_sum numingroup g2 (by omega),
      ← Finset.sum_Ico_succ_top hg1]
    apply Finset.sum_le_sum_of_subset
    intro x hx
    rw [Finset.mem_Ico] at hx ⊢
    omega
  · intro k hk
    have hq := hkey _ (List.get_mem out k hk)
    have hA := hpos (ngroup + 1) (by omega) k hk
    obtain ⟨i, hi, hie⟩ := List.mem_map.mp (hin.1.subset hq.2)
    have hle := hin.2.1 i (List.mem_range.mp hi)
    rw [hie] at hle
    have hq1 := hq.1
    push_cast at hA
    split at hq1 <;> constructor <;> intro h <;> omega

theorem sortByPID_isPIDSortOf (l : List Particle) : IsPIDSortOf (sortByPID l) l := by
  haveI : IsTotal Particle (fun a b => a.pid ≤ b.pid) := ⟨fun a b => Int.le_total a.pid b.pid⟩
  haveI : IsTrans Particle (fun a b => a.pid ≤ b.pid) :=
    ⟨fun a b c hab hbc => Int.le_trans hab hbc⟩
  exact ⟨List.perm_insertionSort _ l, List.sorted_insertionSort _ l⟩

theorem c1_input_ok : GroupInput c1Part c1PfofOk 1 c1NumOk := by
  refine ⟨?_, ?_, ?_⟩
  · exact List.Perm.refl _
  · intro i hi
    have h2 : i < 2 := hi
    interval_cases i <;> decide
  · intro g h1 h2
    have hg : g = 1 := by omega
    subst hg
    decide

/-- Witness for C1: the two-particle buffer with `pfof = [1, 0]` and one group. -/
theorem C1_group_contiguity_witness :
    GroupInput c1Part c1PfofOk 1 c1NumOk ∧ 1 ≤ c1Part.length ∧
      GroupContiguity (sortByPID (assignGroupPIDs c1PfofOk 0 c1Part)) c1PfofOk 1 c1NumOk :=
  ⟨c1_input_ok, by decide,
    C1_group_contiguity c1Part _ c1PfofOk 1 c1NumOk c1_input_ok (by decide)
      (sortByPID_isPIDSortOf _)⟩

theorem c1_input_bad : GroupInput c1Part c1Pfof 5 c1Num := by
  refine ⟨?_, ?_, ?_⟩
  · exact List.Perm.refl _
  · intro i hi
    have h2 : i < 2 := hi
    interval_cases i <;> decide
  · intro g h1 h2
    interval_cases g <;> decide

/-- C1 as stated fails: with `nbodies = 2`, `ngroup = 5`, `pfof = [5, 0]` all stated
assumptions hold, the unassigned particle gets key `nbodies+1 = 3 < 5` and is sorted in
front of the member of group `5`, so slice `5` (position `0`) holds a particle with
`pfof = 0`. -/
theorem C1_counterexample :
    GroupInput c1Part c1Pfof 5 c1Num ∧
      IsPIDSortOf (sortByPID (assignGroupPIDs c1Pfof 0 c1Part))
        (assignGroupPIDs c1Pfof 0 c1Part) ∧
      ¬ GroupContiguity (sortByPID (assignGroupPIDs c1Pfof 0 c1Part)) c1Pfof 5 c1Num := by
  refine ⟨c1_input_bad, sortByPID_isPIDSortOf _, ?_⟩
  intro h
  have h2 := h.2.1 5 (by decide) (by decide) 0 (by decide)
  revert h2
  decide

/-! ## C2: sort values of the inclusive-halo path -/

theorem sortvalhalos_getD (pfof : List Int) (i : Nat) (hi : i < pfof.length) :
    (sortvalhalos pfof).getD i 0 = sortval pfof.length (pfof.getD i 0) := by
  unfold sortvalhalos
  rw [List.getD_eq_getElem _ _ (by simpa using hi), List.getD_eq_getElem _ _ hi,
    List.getElem_map]

/-- C2 (as amended): in the inclusive-halo path of `main` and `InvokeVelociraptor`, when
`nhalos < nbodies`, the sort value of every particle with `pfof[i] = 0` (it is `nbodies`) is
strictly greater than the sort value of every particle with `1 ≤ pfof[j] ≤ nhalos` (it is
`pfof[j]`). -/
theorem C2_zero_sorted_last (pfof : List Int) (nhalos : Nat) (hn : nhalos < pfof.length) :
    ZeroSortLast pfof nhalos := by
  intro i j hi hj h0 h1 h2
  rw [sortvalhalos_getD pfof i hi, sortvalhalos_getD pfof j hj, h0]
  have hpos : pfof.getD j 0 > 0 := by omega
  have hne : ¬ pfof.getD j 0 = 0 := by omega
  simp only [sortval, if_pos hpos, if_neg hne, gt_iff_lt, lt_self_iff_false, if_false,
    if_true, mul_one, mul_zero, add_zero, zero_add]
  omega

/-- Witness for C2: `pfof = [0, 1, 2]` with two halos. -/
theorem C2_zero_sorted_last_witness :
    2 < [(0 : Int), 1, 2].length ∧ ZeroSortLast [(0 : Int), 1, 2] 2 :=
  ⟨by decide, C2_zero_sorted_last [(0 : Int), 1, 2] 2 (by decide)⟩

/-- C2 as stated fails twice.  A negative `pfof` gets sort value `0`: for `pfof = [-1, 1]`
the unassigned particle has value `0 < 1`.  And the value `nbodies` of a particle with
`pfof = 0` is not above a halo id `≥ nbodies`: for `pfof = [2, 0]`, `nhalos = 2` both
particles have value `2`. -/
theorem C2_counterexample :
    ¬ UnassignedSortLast [(-1 : Int), 1] 1 ∧ ¬ UnassignedSortLast [(2 : Int), 0] 2 := by
  constructor
  · intro h
    have h2 := h 0 1 (by decide) (by decide) (by decide) (by decide) (by decide)
    revert h2
    decide
  · intro h
    have h2 := h 1 0 (by decide) (by decide) (by decide) (by decide) (by decide)
    revert h2
    decide

/-! ## C3: plain centroid below the robust-centroid threshold -/

theorem totalMass_pos (ps : List Particle) (hne : ps ≠ [])
    (hm : ∀ p ∈ ps, 0 < p.mass) : 0 < totalMass ps := by
  induction ps with
  | nil => exact absurd rfl hne
  | cons a t ih =>
    unfold totalMass
    rw [List.map_cons, List.sum_cons]
    have ha : 0 < a.mass := hm a (List.mem_cons_self a t)
    by_cases ht : t = []
    · subst ht
      simpa using ha
    · have := ih ht (fun p hp => hm p (List.mem_cons_of_mem a hp))
      unfold totalMass at this
      linarith

theorem scale_one_div (c : Coordinate) (s : ℚ) : c.scale (1 / s) = c.divBy s := by
  unfold Coordinate.scale Coordinate.divBy
  congr 1 <;> ring

/-- C3 (as amended): for every non-empty group with positive masses that is handled by the
small-group branch of `GetCMProp` and does not meet the robust-centroid threshold
(`numingroup*cmfrac < 50`), no aperture update is made: the branch returns, and the returned
`gcm` is `sum(m_j x_j)/sum(m_j)` and the returned `gcmvel` is `sum(m_j v_j)/sum(m_j)`. -/
theorem C3_small_branch_plain_centroid (cmfrac cmadjustfac : ℚ) (fuel : Nat)
    (ps : List Particle) (hne : ps ≠ []) (hm : ∀ p ∈ ps, 0 < p.mass)
    (hthr : (ps.length : ℚ) * cmfrac < 50) :
    ∃ r, GetCMProp_small cmfrac cmadjustfac fuel ps = .ok r ∧
      r.gcm = plainCentroid ps ∧ r.gcmvel = plainVelocity ps := by
  have hM : totalMass ps ≠ 0 := ne_of_gt (totalMass_pos ps hne hm)
  have hnot : ¬ ((ps.length : ℚ) * cmfrac ≥ 50) := not_le.mpr hthr
  unfold GetCMProp_small
  rw [if_neg hM]
  simp only [if_neg hnot]
  exact ⟨_, rfl, scale_one_div _ _, scale_one_div _ _⟩

/-- Witness for C3: three unit masses with `cmfrac = 1/2`. -/
theorem C3_small_branch_plain_centroid_witness :
    c3Part ≠ [] ∧ (∀ p ∈ c3Part, 0 < p.mass) ∧ ((c3Part.length : ℚ) * (1 / 2) < 50) ∧
      ∃ r, GetCMProp_small (1 / 2) (1 / 2) 0 c3Part = .ok r ∧
        r.gcm = plainCentroid c3Part ∧ r.gcmvel = plainVelocity c3Part :=
  ⟨by decide, by decide!, by decide!,
    C3_small_branch_plain_centroid (1 / 2) (1 / 2) 0 c3Part (by decide) (by decide!)
      (by decide!)⟩

/-- C3 as stated fails in the large-group branch, which runs the aperture loop without
testing the threshold: three unit masses at `x = 0, 1, 5` with `cmfrac = cmadjustfac = 1/2`
have `numingroup*cmfrac = 3/2 < 50`, yet the branch returns `gcm = (1/2, 0, 0)` while the
plain centroid is `(2, 0, 0)`. -/
theorem C3_counterexample :
    c3Part ≠ [] ∧ (∀ p ∈ c3Part, 0 < p.mass) ∧ ((c3Part.length : ℚ) * (1 / 2) < 50) ∧
      (∃ r, GetCMProp_large (1 / 2) (1 / 2) 10 c3Part = .ok r ∧ r.gcm = ⟨1 / 2, 0, 0⟩) ∧
      plainCentroid c3Part = ⟨2, 0, 0⟩ := by
  refine ⟨by decide, by decide!, by decide!, ?_, by decide!⟩
  have h : (match GetCMProp_large (1 / 2) (1 / 2) 10 c3Part with
      | .ok r => decide (r.gcm = ⟨1 / 2, 0, 0⟩)
      | .fault _ => false) = true := by decide!
  revert h
  cases GetCMProp_large (1 / 2) (1 / 2) 10 c3Part with
  | ok r => intro h; exact ⟨r, rfl, of_decide_eq_true h⟩
  | fault f => intro h; exact absurd h Bool.false_ne_true

/-! ## C4: the divisors of the centroid computation -/

/-- Mass-weighted sum of squared distances to a point. -/
theorem weighted_dist2_expand (l : List Particle) (c : Coordinate) :
    (l.map (fun p => p.mass * dist2 p.pos c)).sum =
      (l.map (fun p => p.mass * radius2 p)).sum
        - 2 * (c.x * (massPosSum l).x + c.y * (massPosSum l).y + c.z * (massPosSum l).z)
        + (c.x * c.x + c.y * c.y + c.z * c.z) * totalMass l := by
  induction l with
  | nil => simp [massPosSum, totalMass]
  | cons a t ih =>
    simp only [List.map_cons, List.sum_cons, massPosSum, totalMass] at ih ⊢
    rw [ih]
    unfold dist2 radius2
    ring

theorem weighted_le_of_le (l : List Particle) (g : Particle → ℚ) (r : ℚ)
    (hm : ∀ p ∈ l, 0 < p.mass) (hg : ∀ p ∈ l, g p ≤ r) :
    (l.map (fun p => p.mass * g p)).sum ≤ r * totalMass l := by
  induction l with
  | nil => simp [totalMass]
  | cons a t ih =>
    simp only [List.map_cons, List.sum_cons, totalMass] at ih ⊢
    have h1 := ih (fun p hp => hm p (List.mem_cons_of_mem a hp))
      (fun p hp => hg p (List.mem_cons_of_mem a hp))
    have h2 := hm a (List.mem_cons_self a t)
    have h3 := hg a (List.mem_cons_self a t)
    nlinarith

theorem weighted_gt_of_gt (l : List Particle) (g : Particle → ℚ) (r : ℚ) (hne : l ≠ [])
    (hm : ∀ p ∈ l, 0 < p.mass) (hg : ∀ p ∈ l, r < g p) :
    r * totalMass l < (l.map (fun p => p.mass * g p)).sum := by
  induction l with
  | nil => exact absurd rfl hne
  | cons a t ih =>
    have h2 := hm a (List.mem_cons_self a t)
    have h3 := hg a (List.mem_cons_self a t)
    by_cases ht : t = []
    · subst ht
      simp only [List.map_cons, List.map_nil, List.sum_cons, List.sum_nil, totalMass, add_zero]
      nlinarith
    · have h1 := ih ht (fun p hp => hm p (List.mem_cons_of_mem a hp))
        (fun p hp => hg p (List.mem_cons_of_mem a hp))
      simp only [List.map_cons, List.sum_cons, totalMass] at h1 ⊢
      nlinarith

/-- The centroid of a set of positive masses inside a ball is within the ball's radius of at
least one of them. -/
theorem exists_near_centroid (l : List Particle) (c : Coordinate) (r : ℚ) (hne : l ≠ [])
    (hm : ∀ p ∈ l, 0 < p.mass) (hin : ∀ p ∈ l, dist2 p.pos c ≤ r) :
    ∃ p ∈ l, dist2 p.pos ((massPosSum l).divBy (totalMass l)) ≤ r := by
  by_contra hcon
  push_neg at hcon
  have hM : 0 < totalMass l := totalMass_pos l hne hm
  have hM0 : totalMass l ≠ 0 := ne_of_gt hM
  have hlow := weighted_gt_of_gt l
    (fun p => dist2 p.pos ((massPosSum l).divBy (totalMass l))) r hne hm hcon
  have hup := weighted_le_of_le l (fun p => dist2 p.pos c) r hm hin
  rw [weighted_dist2_expand] at hlow hup
  have hx : (massPosSum l).x = totalMass l * ((massPosSum l).divBy (totalMass l)).x := by
    unfold Coordinate.divBy; field_simp
  have hy : (massPosSum l).y = totalMass l * ((massPosSum l).divBy (totalMass l)).y := by
    unfold Coordinate.divBy; field_simp
  have hz : (massPosSum l).z = totalMass l * ((massPosSum l).divBy (totalMass l)).z := by
    unfold Coordinate.divBy; field_simp
  generalize ((massPosSum l).divBy (totalMass l)) = m at hlow hx hy hz
  rw [hx, hy, hz] at hlow hup
  have hsq : 0 ≤ totalMass l *
      ((c.x - m.x) * (c.x - m.x) + (c.y - m.y) * (c.y - m.y) + (c.z - m.z) * (c.z - m.z)) :=
    mul_nonneg (le_of_lt hM)
      (add_nonneg (add_nonneg (mul_self_nonneg _) (mul_self_nonneg _)) (mul_self_nonneg _))
  nlinarith

theorem insideAperture_ne_nil (cmfrac : ℚ) (ps : List Particle) (cmold : Coordinate) (ri : ℚ)
    (hfrac : 0 < cmfrac)
    (h : ((insideAperture ps cmold ri).length : ℚ) > cmfrac * (ps.length : ℚ)) :
    insideAperture ps cmold ri ≠ [] := by
  intro he
  rw [he] at h
  have h0 : (0 : ℚ) ≤ cmfrac * (ps.length : ℚ) :=
    mul_nonneg (le_of_lt hfrac) (Nat.cast_nonneg _)
  simp only [List.length_nil, Nat.cast_zero] at h
  linarith

theorem mem_insideAperture (ps : List Particle) (cmold : Coordinate) (ri : ℚ) (p : Particle) :
    p ∈ insideAperture ps cmold ri ↔ p ∈ ps ∧ dist2 p.pos cmold ≤ ri := by
  unfold insideAperture
  rw [List.mem_filter, decide_eq_true_eq]

/-- Invariant of the aperture loop: some particle lies within `rcmv` of the current centre.
With positive masses the loop never divides by zero and its result keeps the invariant. -/
theorem apertureLoop_safe (cmfrac cmadjustfac : ℚ) (ps : List Particle)
    (hm : ∀ p ∈ ps, 0 < p.mass) (hfrac : 0 < cmfrac) :
    ∀ (fuel : Nat) (cmold : Coordinate) (ri rcmv : ℚ),
      (∃ p ∈ ps, dist2 p.pos cmold ≤ rcmv) →
      apertureLoop cmfrac cmadjustfac ps fuel cmold ri rcmv ≠ .fault .divByZero ∧
      ∀ cm r, apertureLoop cmfrac cmadjustfac ps fuel cmold ri rcmv = .ok (cm, r) →
        ∃ p ∈ ps, dist2 p.pos cm ≤ r := by
  intro fuel
  induction fuel with
  | zero =>
    intro cmold ri rcmv _
    simp [apertureLoop]
  | succ fuel ih =>
    intro cmold ri rcmv hinv
    rw [apertureLoop]
    by_cases hcount : ((insideAperture ps cmold (ri * cmadjustfac)).length : ℚ) >
        cmfrac * (ps.length : ℚ)
    · rw [if_pos hcount]
      have hne := insideAperture_ne_nil cmfrac ps cmold (ri * cmadjustfac) hfrac hcount
      have hmi : ∀ p ∈ insideAperture ps cmold (ri * cmadjustfac), 0 < p.mass :=
        fun p hp => hm p ((mem_insideAperture ps cmold _ p).mp hp).1
      have hM : totalMass (insideAperture ps cmold (ri * cmadjustfac)) ≠ 0 :=
        ne_of_gt (totalMass_pos _ hne hmi)
      rw [if_neg hM]
      apply ih
      obtain ⟨p, hp, hd⟩ := exists_near_centroid _ cmold (ri * cmadjustfac) hne hmi
        (fun p hp => ((mem_insideAperture ps cmold _ p).mp hp).2)
      exact ⟨p, ((mem_insideAperture ps cmold _ p).mp hp).1, hd⟩
    · rw [if_neg hcount]
      refine ⟨by simp, ?_⟩
      intro cm r h
      injection h with h
      injection h with h1 h2
      subst h1; subst h2
      exact hinv

theorem radius2_shiftBy (c : Coordinate) (p : Particle) :
    radius2 (shiftBy c p) = dist2 p.pos c := rfl

theorem recentredVelocity_safe (ps : List Particle) (gcm : Coordinate) (rcmv : ℚ)
    (hm : ∀ p ∈ ps, 0 < p.mass) (h : ∃ p ∈ ps, dist2 p.pos gcm ≤ rcmv) :
    ∃ v, recentredVelocity (ps.map (shiftBy gcm)) rcmv = .ok v := by
  obtain ⟨p, hp, hd⟩ := h
  have hmem : shiftBy gcm p ∈
      (ps.map (shiftBy gcm)).filter (fun q => decide (radius2 q ≤ rcmv)) := by
    rw [List.mem_filter, decide_eq_true_eq, radius2_shiftBy]
    exact ⟨List.mem_map.mpr ⟨p, hp, rfl⟩, hd⟩
  have hne : (ps.map (shiftBy gcm)).filter (fun q => decide (radius2 q ≤ rcmv)) ≠ [] :=
    List.ne_nil_of_mem hmem
  have hmi : ∀ q ∈ (ps.map (shiftBy gcm)).filter (fun q => decide (radius2 q ≤ rcmv)),
      0 < q.mass := by
    intro q hq
    obtain ⟨q0, hq0, rfl⟩ := List.mem_map.mp (List.mem_filter.mp hq).1
    exact hm q0 hq0
  have hM := ne_of_gt (totalMass_pos _ hne hmi)
  unfold recentredVelocity
  rw [if_neg hM]
  exact ⟨_, rfl⟩

theorem foldl_max_ge (gcm : Coordinate) (ps : List Particle) :
    ∀ acc : ℚ,
      acc ≤ ps.foldl (fun g2 p => if dist2 gcm p.pos > g2 then dist2 gcm p.pos else g2) acc ∧
      ∀ p ∈ ps, dist2 gcm p.pos ≤
        ps.foldl (fun g2 p => if dist2 gcm p.pos > g2 then dist2 gcm p.pos else g2) acc := by
  induction ps with
  | nil => intro acc; simp
  | cons a t ih =>
    intro acc
    rw [List.foldl_cons]
    have h := ih (if dist2 gcm a.pos > acc then dist2 gcm a.pos else acc)
    have hacc : acc ≤ (if dist2 gcm a.pos > acc then dist2 gcm a.pos else acc) := by
      split <;> linarith
    have ha : dist2 gcm a.pos ≤ (if dist2 gcm a.pos > acc then dist2 gcm a.pos else acc) := by
      split <;> linarith
    refine ⟨le_trans hacc h.1, ?_⟩
    intro p hp
    rcases List.mem_cons.mp hp with rfl | hp
    · exact le_trans ha h.1
    · exact h.2 p hp

theorem dist2_comm (a b : Coordinate) : dist2 a b = dist2 b a := by
  unfold dist2; ring

theorem dist2_le_maxDist2 (gcm : Coordinate) (ps : List Particle) (p : Particle) (hp : p ∈ ps) :
    dist2 p.pos gcm ≤ maxDist2 gcm ps := by
  rw [dist2_comm]
  exact (foldl_max_ge gcm ps 0).2 p hp

theorem lastRadius2_mem (l : List Particle) (hne : l ≠ []) :
    ∃ p ∈ l, lastRadius2 l = radius2 p := by
  refine ⟨l.getLast hne, List.getLast_mem hne, ?_⟩
  unfold lastRadius2
  rw [List.getLast?_eq_getLast l hne]

theorem dist2_origin (p : Particle) : dist2 p.pos ⟨0, 0, 0⟩ = radius2 p := by
  unfold dist2 radius2
  simp

theorem sortByRadius_perm (l : List Particle) : (sortByRadius l).Perm l :=
  List.perm_insertionSort _ l

theorem GetCMProp_small_safe (cmfrac cmadjustfac : ℚ) (ps : List Particle) (hne : ps ≠ [])
    (hm : ∀ p ∈ ps, 0 < p.mass) (hfrac : 0 < cmfrac) (fuel : Nat) :
    GetCMProp_small cmfrac cmadjustfac fuel ps ≠ .fault .divByZero := by
  have hM : totalMass ps ≠ 0 := ne_of_gt (totalMass_pos ps hne hm)
  obtain ⟨p0, hp0⟩ := List.exists_mem_of_ne_nil ps hne
  unfold GetCMProp_small
  rw [if_neg hM]
  by_cases hthr : (ps.length : ℚ) * cmfrac ≥ 50
  · simp only [if_pos hthr]
    have hinv : ∃ p ∈ ps, dist2 p.pos ((massPosSum ps).scale (1 / totalMass ps)) ≤
        maxDist2 ((massPosSum ps).scale (1 / totalMass ps)) ps :=
      ⟨p0, hp0, dist2_le_maxDist2 _ ps p0 hp0⟩
    have hsafe := apertureLoop_safe cmfrac cmadjustfac ps hm hfrac fuel
      ((massPosSum ps).scale (1 / totalMass ps))
      (maxDist2 ((massPosSum ps).scale (1 / totalMass ps)) ps)
      (maxDist2 ((massPosSum ps).scale (1 / totalMass ps)) ps) hinv
    cases hloop : apertureLoop cmfrac cmadjustfac ps fuel
        ((massPosSum ps).scale (1 / totalMass ps))
        (maxDist2 ((massPosSum ps).scale (1 / totalMass ps)) ps)
        (maxDist2 ((massPosSum ps).scale (1 / totalMass ps)) ps) with
    | fault e =>
      simp only []
      intro h
      rw [hloop] at hsafe
      injection h with h
      exact hsafe.1 (by rw [h])
    | ok res =>
      obtain ⟨gcm, rcmv⟩ := res
      obtain ⟨v, hv⟩ := recentredVelocity_safe ps gcm rcmv hm (hsafe.2 gcm rcmv hloop)
      simp only [hv]
      intro h
      cases h
  · simp only [if_neg hthr]
    intro h
    cases h

theorem GetCMProp_large_safe (cmfrac cmadjustfac : ℚ) (ps : List Particle) (hne : ps ≠ [])
    (hm : ∀ p ∈ ps, 0 < p.mass) (hfrac : 0 < cmfrac) (fuel : Nat) :
    GetCMProp_large cmfrac cmadjustfac fuel ps ≠ .fault .divByZero := by
  have hM : totalMass ps ≠ 0 := ne_of_gt (totalMass_pos ps hne hm)
  have hrelm : ∀ q ∈ sortByRadius (ps.map (shiftBy ((massPosSum ps).scale (1 / totalMass ps)))),
      0 < q.mass := by
    intro q hq
    obtain ⟨q0, hq0, rfl⟩ := List.mem_map.mp ((sortByRadius_perm _).subset hq)
    exact hm q0 hq0
  have hrelne : sortByRadius (ps.map (shiftBy ((massPosSum ps).scale (1 / totalMass ps)))) ≠ [] := by
    intro he
    have hl := (sortByRadius_perm (ps.map (shiftBy ((massPosSum ps).scale (1 / totalMass ps))))).length_eq
    rw [he] at hl
    simp only [List.length_nil, List.length_map] at hl
    exact hne (List.length_eq_zero.mp hl.symm)
  unfold GetCMProp_large
  rw [if_neg hM]
  simp only []
  generalize sortByRadius (ps.map (shiftBy ((massPosSum ps).scale (1 / totalMass ps)))) = rel
    at hrelm hrelne
  obtain ⟨pl, hpl, hlast⟩ := lastRadius2_mem rel hrelne
  have hinv : ∃ p ∈ rel, dist2 p.pos ⟨0, 0, 0⟩ ≤ lastRadius2 rel :=
    ⟨pl, hpl, by rw [dist2_origin, hlast]⟩
  have hsafe := apertureLoop_safe cmfrac cmadjustfac rel hrelm hfrac fuel ⟨0, 0, 0⟩
    (lastRadius2 rel) (lastRadius2 rel) hinv
  cases hloop : apertureLoop cmfrac cmadjustfac rel fuel ⟨0, 0, 0⟩ (lastRadius2 rel)
      (lastRadius2 rel) with
  | fault e =>
    simp only []
    intro h
    rw [hloop] at hsafe
    injection h with h
    exact hsafe.1 (by rw [h])
  | ok res =>
    obtain ⟨cmold, rcmv⟩ := res
    obtain ⟨v, hv⟩ := recentredVelocity_safe rel cmold rcmv hrelm (hsafe.2 cmold rcmv hloop)
    simp only [hv]
    intro h
    cases h

/-- C4: for a non-empty group with strictly positive masses and `cmfrac > 0`, no division of
the centroid computation of `GetCMProp` has a zero divisor: `gmass > 0`; the enclosed mass
`EncMass` is positive at every pass of the aperture loop that replaces the centroid
(`Ninside > cmfrac*numingroup`), whatever the current centre and aperture; and neither branch
ever stops on a zero divisor, for any number of passes of the loop, which includes the
enclosed mass that normalises the recomputed centroid velocity. -/
theorem C4_no_zero_divisor (cmfrac cmadjustfac : ℚ) (ps : List Particle) (hne : ps ≠ [])
    (hm : ∀ p ∈ ps, 0 < p.mass) (hfrac : 0 < cmfrac) :
    0 < totalMass ps ∧
      (∀ (cmold : Coordinate) (ri : ℚ),
        ((insideAperture ps cmold ri).length : ℚ) > cmfrac * (ps.length : ℚ) →
        0 < totalMass (insideAperture ps cmold ri)) ∧
      (∀ fuel, GetCMProp_small cmfrac cmadjustfac fuel ps ≠ .fault .divByZero) ∧
      (∀ fuel, GetCMProp_large cmfrac cmadjustfac fuel ps ≠ .fault .divByZero) :=
  ⟨totalMass_pos ps hne hm,
    fun cmold ri h => totalMass_pos _ (insideAperture_ne_nil cmfrac ps cmold ri hfrac h)
      (fun p hp => hm p ((mem_insideAperture ps cmold ri p).mp hp).1),
    GetCMProp_small_safe cmfrac cmadjustfac ps hne hm hfrac,
    GetCMProp_large_safe cmfrac cmadjustfac ps hne hm hfrac⟩

/-- Witness for C4: three unit masses with `cmfrac = cmadjustfac = 1/2`. -/
theorem C4_no_zero_divisor_witness :
    c3Part ≠ [] ∧ (∀ p ∈ c3Part, 0 < p.mass) ∧ (0 : ℚ) < 1 / 2 ∧
      (0 < totalMass c3Part ∧
        (∀ (cmold : Coordinate) (ri : ℚ),
          ((insideAperture c3Part cmold ri).length : ℚ) > 1 / 2 * (c3Part.length : ℚ) →
          0 < totalMass (insideAperture c3Part cmold ri)) ∧
        (∀ fuel, GetCMProp_small (1 / 2) (1 / 2) fuel c3Part ≠ .fault .divByZero) ∧
        (∀ fuel, GetCMProp_large (1 / 2) (1 / 2) fuel c3Part ≠ .fault .divByZero)) :=
  ⟨by decide, by decide!, by decide!,
    C4_no_zero_divisor (1 / 2) (1 / 2) c3Part (by decide) (by decide!) (by decide!)⟩

/-! ## C5: exit of the aperture loop -/

theorem c5_loop_never_exits :
    ∀ fuel : Nat, apertureLoop (50 / 51) (1 / 2) c5Part fuel ⟨0, 0, 0⟩ 0 0 = .fault .outOfFuel := by
  intro fuel
  induction fuel with
  | zero => rfl
  | succ fuel ih =>
    rw [apertureLoop]
    have hri : (0 : ℚ) * (1 / 2) = 0 := by norm_num
    rw [hri]
    have hins : insideAperture c5Part ⟨0, 0, 0⟩ 0 = c5Part := by decide!
    rw [hins]
    have hcount : ((c5Part.length : ℚ) > 50 / 51 * (c5Part.length : ℚ)) := by decide!
    have hmass : ¬ totalMass c5Part = 0 := by decide!
    have hcm : (massPosSum c5Part).divBy (totalMass c5Part) = ⟨0, 0, 0⟩ := by decide!
    rw [if_pos hcount, if_neg hmass, hcm]
    exact ih

/-- C5 as stated fails: fifty-one coincident unit masses with `cmfrac = 50/51` and
`cmadjustfac = 1/2` meet the threshold (`numingroup*cmfrac = 50`), every pass of the loop
finds all `51 > 50` particles inside the (zero) aperture, and the loop of either branch
never exits, whatever the number of passes allowed. -/
theorem C5_counterexample :
    (∀ p ∈ c5Part, 0 < p.mass) ∧ (0 : ℚ) < 1 / 2 ∧ (1 : ℚ) / 2 < 1 ∧
      (0 : ℚ) < 50 / 51 ∧ (50 : ℚ) / 51 < 1 ∧
      (∀ fuel, GetCMProp_small (50 / 51) (1 / 2) fuel c5Part = .fault .outOfFuel) ∧
      (∀ fuel, GetCMProp_large (50 / 51) (1 / 2) fuel c5Part = .fault .outOfFuel) := by
  refine ⟨by decide!, by decide!, by decide!, by decide!, by decide!, ?_, ?_⟩
  · intro fuel
    have hM : ¬ totalMass c5Part = 0 := by decide!
    have hthr : (c5Part.length : ℚ) * (50 / 51) ≥ 50 := by decide!
    have hcm : (massPosSum c5Part).scale (1 / totalMass c5Part) = ⟨0, 0, 0⟩ := by decide!
    have hsz : maxDist2 ⟨0, 0, 0⟩ c5Part = 0 := by decide!
    unfold GetCMProp_small
    rw [if_neg hM]
    simp only [if_pos hthr]
    rw [hcm, hsz, c5_loop_never_exits fuel]
  · intro fuel
    have hM : ¬ totalMass c5Part = 0 := by decide!
    have hcm : (massPosSum c5Part).scale (1 / totalMass c5Part) = ⟨0, 0, 0⟩ := by decide!
    have hrel : sortByRadius (c5Part.map (shiftBy ⟨0, 0, 0⟩)) = c5Part := by decide!
    have hlast : lastRadius2 c5Part = 0 := by decide!
    unfold GetCMProp_large
    rw [if_neg hM]
    simp only []
    rw [hcm, hrel, hlast, c5_loop_never_exits fuel]

theorem dist2_pos_of_ne (a b : Coordinate) (h : a ≠ b) : 0 < dist2 a b := by
  by_contra hcon
  push_neg at hcon
  unfold dist2 at hcon
  have hx := mul_self_nonneg (a.x - b.x)
  have hy := mul_self_nonneg (a.y - b.y)
  have hz := mul_self_nonneg (a.z - b.z)
  have hx0 : (a.x - b.x) * (a.x - b.x) = 0 := by linarith
  have hy0 : (a.y - b.y) * (a.y - b.y) = 0 := by linarith
  have hz0 : (a.z - b.z) * (a.z - b.z) = 0 := by linarith
  have ex : a.x = b.x := by
    have := mul_self_eq_zero.mp hx0
    linarith
  have ey : a.y = b.y := by
    have := mul_self_eq_zero.mp hy0
    linarith
  have ez : a.z = b.z := by
    have := mul_self_eq_zero.mp hz0
    linarith
  apply h
  cases a
  cases b
  simp only [Coordinate.mk.injEq]
  exact ⟨ex, ey, ez⟩

theorem dist2_triangle (a b c : Coordinate) :
    dist2 a b ≤ 2 * dist2 a c + 2 * dist2 b c := by
  unfold dist2
  nlinarith [mul_self_nonneg (a.x + b.x - 2 * c.x), mul_self_nonneg (a.y + b.y - 2 * c.y),
    mul_self_nonneg (a.z + b.z - 2 * c.z)]

theorem sep_from_point (x : Coordinate) (l : List Particle) :
    ∃ d : ℚ, 0 < d ∧ ∀ b ∈ l, b.pos ≠ x → d ≤ dist2 x b.pos := by
  induction l with
  | nil => exact ⟨1, by norm_num, fun b hb => absurd hb (List.not_mem_nil b)⟩
  | cons a t ih =>
    obtain ⟨d, hd, hsep⟩ := ih
    by_cases ha : a.pos = x
    · refine ⟨d, hd, ?_⟩
      intro b hb hne
      rcases List.mem_cons.mp hb with rfl | hb
      · exact absurd ha hne
      · exact hsep b hb hne
    · have hpos : 0 < dist2 x a.pos := dist2_pos_of_ne x a.pos (fun h => ha h.symm)
      refine ⟨min d (dist2 x a.pos), lt_min hd hpos, ?_⟩
      intro b hb hne
      rcases List.mem_cons.mp hb with rfl | hb
      · exact min_le_right _ _
      · exact le_trans (min_le_left _ _) (hsep b hb hne)

/-- A finite set of particles has a positive minimal squared separation between distinct
positions. -/
theorem min_separation (l : List Particle) :
    ∃ d : ℚ, 0 < d ∧ ∀ a ∈ l, ∀ b ∈ l, a.pos ≠ b.pos → d ≤ dist2 a.pos b.pos := by
  induction l with
  | nil => exact ⟨1, by norm_num, fun a ha => absurd ha (List.not_mem_nil a)⟩
  | cons x t ih =>
    obtain ⟨d1, hd1, h1⟩ := ih
    obtain ⟨d2, hd2, h2⟩ := sep_from_point x.pos t
    refine ⟨min d1 d2, lt_min hd1 hd2, ?_⟩
    intro a ha b hb hne
    rcases List.mem_cons.mp ha with hax | hat
    · rcases List.mem_cons.mp hb with hbx | hbt
      · exact absurd (hax.trans hbx.symm ▸ rfl) hne
      · rw [hax] at hne ⊢
        exact le_trans (min_le_right _ _) (h2 b hbt (fun h => hne h.symm))
    · rcases List.mem_cons.mp hb with hbx | hbt
      · rw [hbx] at hne ⊢
        rw [dist2_comm]
        exact le_trans (min_le_right _ _) (h2 a hat hne)
      · exact le_trans (min_le_left _ _) (h1 a hat b hbt hne)

/-- Once four times the aperture is below the minimal separation, the particles inside
share one position, so there are at most `cmfrac*numingroup` of them. -/
theorem inside_small (cmfrac : ℚ) (ps : List Particle) (d : ℚ) (hfrac : 0 < cmfrac)
    (hsep : ∀ a ∈ ps, ∀ b ∈ ps, a.pos ≠ b.pos → d ≤ dist2 a.pos b.pos)
    (hmult : ∀ p ∈ ps, ((coincidentCount ps p.pos : Nat) : ℚ) ≤ cmfrac * (ps.length : ℚ))
    (c : Coordinate) (r : ℚ) (hr : 4 * r < d) :
    ((insideAperture ps c r).length : ℚ) ≤ cmfrac * (ps.length : ℚ) := by
  by_cases hne : insideAperture ps c r = []
  · rw [hne]
    simpa using mul_nonneg (le_of_lt hfrac) (Nat.cast_nonneg ps.length)
  · obtain ⟨p0, hp0⟩ := List.exists_mem_of_ne_nil _ hne
    have hp0' := (mem_insideAperture ps c r p0).mp hp0
    have hle : (insideAperture ps c r).length ≤ coincidentCount ps p0.pos := by
      unfold insideAperture coincidentCount
      rw [← List.countP_eq_length_filter]
      apply List.countP_mono_left
      intro q hq hin
      rw [decide_eq_true_eq] at hin ⊢
      by_contra hneq
      have h1 := hsep q hq p0 hp0'.1 hneq
      have h2 := dist2_triangle q.pos p0.pos c
      linarith [hp0'.2]
    calc ((insideAperture ps c r).length : ℚ) ≤ ((coincidentCount ps p0.pos : Nat) : ℚ) := by
          exact_mod_cast hle
      _ ≤ cmfrac * (ps.length : ℚ) := hmult p0 hp0'.1

theorem apertureLoop_exits_aux (cmfrac cmadjustfac : ℚ) (ps : List Particle) (d : ℚ)
    (hsmall : ∀ (c : Coordinate) (r : ℚ), 4 * r < d →
      ((insideAperture ps c r).length : ℚ) ≤ cmfrac * (ps.length : ℚ)) :
    ∀ (k : Nat) (cmold : Coordinate) (ri rcmv : ℚ), 4 * (ri * cmadjustfac ^ (k + 1)) < d →
      apertureLoop cmfrac cmadjustfac ps (k + 1) cmold ri rcmv ≠ .fault .outOfFuel := by
  intro k
  induction k with
  | zero =>
    intro cmold ri rcmv h
    rw [apertureLoop]
    have hle := hsmall cmold (ri * cmadjustfac) (by simpa using h)
    rw [if_neg (not_lt.mpr hle)]
    intro h2
    cases h2
  | succ k ih =>
    intro cmold ri rcmv h
    rw [apertureLoop]
    split
    · split
      · intro h2
        cases h2
      · apply ih
        have e : ri * cmadjustfac * cmadjustfac ^ (k + 1) = ri * cmadjustfac ^ (k + 1 + 1) := by
          ring
        rw [e]
        exact h
    · intro h2
      cases h2

theorem exists_small_aperture (cmadjustfac ri d : ℚ) (h0 : 0 < cmadjustfac)
    (h1 : cmadjustfac < 1) (hd : 0 < d) : ∃ k : Nat, 4 * (ri * cmadjustfac ^ (k + 1)) < d := by
  by_cases hri : ri ≤ 0
  · refine ⟨0, ?_⟩
    have : ri * cmadjustfac ^ (0 + 1) ≤ 0 :=
      mul_nonpos_of_nonpos_of_nonneg hri (le_of_lt (pow_pos h0 _))
    linarith
  · push_neg at hri
    obtain ⟨n, hn⟩ := exists_pow_lt_of_lt_one (div_pos hd (mul_pos (by norm_num : (0 : ℚ) < 4) hri)) h1
    refine ⟨n, ?_⟩
    have hpow : cmadjustfac ^ (n + 1) ≤ cmadjustfac ^ n := by
      rw [pow_succ]
      have := pow_pos h0 n
      nlinarith
    have h4 : cmadjustfac ^ (n + 1) < d / (4 * ri) := lt_of_le_of_lt hpow hn
    rw [lt_div_iff₀ (mul_pos (by norm_num : (0 : ℚ) < 4) hri)] at h4
    linarith

/-- The aperture loop exits within finitely many passes from any start. -/
theorem apertureLoop_exits (cmfrac cmadjustfac : ℚ) (ps : List Particle)
    (h0 : 0 < cmadjustfac) (h1 : cmadjustfac < 1) (hfrac : 0 < cmfrac)
    (hmult : ∀ p ∈ ps, ((coincidentCount ps p.pos : Nat) : ℚ) ≤ cmfrac * (ps.length : ℚ))
    (cmold : Coordinate) (ri rcmv : ℚ) :
    ∃ fuel, apertureLoop cmfrac cmadjustfac ps fuel cmold ri rcmv ≠ .fault .outOfFuel := by
  obtain ⟨d, hd, hsep⟩ := min_separation ps
  obtain ⟨k, hk⟩ := exists_small_aperture cmadjustfac ri d h0 h1 hd
  exact ⟨k + 1, apertureLoop_exits_aux cmfrac cmadjustfac ps d
    (inside_small cmfrac ps d hfrac hsep hmult) k cmold ri rcmv hk⟩

theorem shiftBy_pos_eq_iff (c : Coordinate) (p q : Particle) :
    (shiftBy c p).pos = (shiftBy c q).pos ↔ p.pos = q.pos := by
  obtain ⟨_, _, _, ⟨px, py, pz⟩, _, _, _⟩ := p
  obtain ⟨_, _, _, ⟨qx, qy, qz⟩, _, _, _⟩ := q
  simp only [shiftBy, Coordinate.mk.injEq]
  constructor
  · rintro ⟨hx, hy, hz⟩
    exact ⟨by linarith, by linarith, by linarith⟩
  · rintro ⟨hx, hy, hz⟩
    exact ⟨by rw [hx], by rw [hy], by rw [hz]⟩

theorem coincidentCount_shift (c : Coordinate) (ps rel : List Particle)
    (hperm : rel.Perm (ps.map (shiftBy c))) (q0 : Particle) :
    coincidentCount rel (shiftBy c q0).pos = coincidentCount ps q0.pos := by
  unfold coincidentCount
  rw [hperm.countP_eq, List.countP_map]
  apply List.countP_congr
  intro p _
  simp only [Function.comp, decide_eq_true_eq]
  exact shiftBy_pos_eq_iff c p q0

theorem recentredVelocity_ne_outOfFuel (l : List Particle) (r : ℚ) :
    recentredVelocity l r ≠ .fault .outOfFuel := by
  unfold recentredVelocity
  split <;> intro h <;> cases h

theorem GetCMProp_small_outOfFuel (cmfrac cmadjustfac : ℚ) (fuel : Nat) (ps : List Particle)
    (h : GetCMProp_small cmfrac cmadjustfac fuel ps = .fault .outOfFuel) :
    apertureLoop cmfrac cmadjustfac ps fuel ((massPosSum ps).scale (1 / totalMass ps))
      (maxDist2 ((massPosSum ps).scale (1 / totalMass ps)) ps)
      (maxDist2 ((massPosSum ps).scale (1 / totalMass ps)) ps) = .fault .outOfFuel := by
  unfold GetCMProp_small at h
  split at h
  · cases h
  · simp only [] at h
    split at h
    · cases hloop : apertureLoop cmfrac cmadjustfac ps fuel
          ((massPosSum ps).scale (1 / totalMass ps))
          (maxDist2 ((massPosSum ps).scale (1 / totalMass ps)) ps)
          (maxDist2 ((massPosSum ps).scale (1 / totalMass ps)) ps) with
      | fault e =>
        rw [hloop] at h
        simp only [] at h
        injection h with h
        rw [h]
      | ok res =>
        rw [hloop] at h
        obtain ⟨gcm, rcmv⟩ := res
        simp only [] at h
        cases hv : recentredVelocity (ps.map (shiftBy gcm)) rcmv with
        | fault e =>
          rw [hv] at h
          simp only [] at h
          injection h with h
          rw [h] at hv
          exact absurd hv (recentredVelocity_ne_outOfFuel _ _)
        | ok v =>
          rw [hv] at h
          cases h
    · cases h

theorem GetCMProp_large_outOfFuel (cmfrac cmadjustfac : ℚ) (fuel : Nat) (ps : List Particle)
    (h : GetCMProp_large cmfrac cmadjustfac fuel ps = .fault .outOfFuel) :
    apertureLoop cmfrac cmadjustfac
      (sortByRadius (ps.map (shiftBy ((massPosSum ps).scale (1 / totalMass ps))))) fuel
      ⟨0, 0, 0⟩
      (lastRadius2 (sortByRadius (ps.map (shiftBy ((massPosSum ps).scale (1 / totalMass ps))))))
      (lastRadius2 (sortByRadius (ps.map (shiftBy ((massPosSum ps).scale (1 / totalMass ps))))))
      = .fault .outOfFuel := by
  unfold GetCMProp_large at h
  split at h
  · cases h
  · simp only [] at h
    cases hloop : apertureLoop cmfrac cmadjustfac
        (sortByRadius (ps.map (shiftBy ((massPosSum ps).scale (1 / totalMass ps))))) fuel
        ⟨0, 0, 0⟩
        (lastRadius2 (sortByRadius (ps.map (shiftBy ((massPosSum ps).scale (1 / totalMass ps))))))
        (lastRadius2 (sortByRadius (ps.map (shiftBy ((massPosSum ps).scale (1 / totalMass ps))))))
        with
    | fault e =>
      rw [hloop] at h
      simp only [] at h
      injection h with h
      rw [h]
    | ok res =>
      rw [hloop] at h
      obtain ⟨cmold, rcmv⟩ := res
      simp only [] at h
      cases hv : recentredVelocity ((sortByRadius (ps.map (shiftBy
          ((massPosSum ps).scale (1 / totalMass ps))))).map (shiftBy cmold)) rcmv with
      | fault e =>
        rw [hv] at h
        simp only [] at h
        injection h with h
        rw [h] at hv
        exact absurd hv (recentredVelocity_ne_outOfFuel _ _)
      | ok v =>
        rw [hv] at h
        cases h

/-- C5 (as amended): for every non-empty group with positive masses in which no position is
shared by more than `cmfrac*numingroup` particles, and every configuration with
`0 < cmadjustfac < 1` and `0 < cmfrac`, the aperture loop of `GetCMProp` exits after finitely
many passes, in the small-group and in the large-group branch: with enough passes allowed the
centre-of-mass stage returns. -/
theorem C5_aperture_loop_exits (cmfrac cmadjustfac : ℚ) (ps : List Particle) (hne : ps ≠ [])
    (hm : ∀ p ∈ ps, 0 < p.mass) (h0 : 0 < cmadjustfac) (h1 : cmadjustfac < 1)
    (hfrac : 0 < cmfrac)
    (hmult : ∀ p ∈ ps, ((coincidentCount ps p.pos : Nat) : ℚ) ≤ cmfrac * (ps.length : ℚ)) :
    (∃ fuel r, GetCMProp_small cmfrac cmadjustfac fuel ps = .ok r) ∧
      (∃ fuel r, GetCMProp_large cmfrac cmadjustfac fuel ps = .ok r) := by
  constructor
  · obtain ⟨fuel, hfuel⟩ := apertureLoop_exits cmfrac cmadjustfac ps h0 h1 hfrac hmult
      ((massPosSum ps).scale (1 / totalMass ps))
      (maxDist2 ((massPosSum ps).scale (1 / totalMass ps)) ps)
      (maxDist2 ((massPosSum ps).scale (1 / totalMass ps)) ps)
    cases hrun : GetCMProp_small cmfrac cmadjustfac fuel ps with
    | ok r => exact ⟨fuel, r, hrun⟩
    | fault f =>
      cases f with
      | divByZero =>
        exact absurd hrun (GetCMProp_small_safe cmfrac cmadjustfac ps hne hm hfrac fuel)
      | outOfFuel =>
        exact absurd (GetCMProp_small_outOfFuel cmfrac cmadjustfac fuel ps hrun) hfuel
  · have hperm := sortByRadius_perm (ps.map (shiftBy ((massPosSum ps).scale (1 / totalMass ps))))
    have hmult2 : ∀ q ∈ sortByRadius (ps.map (shiftBy ((massPosSum ps).scale (1 / totalMass ps)))),
        ((coincidentCount (sortByRadius (ps.map (shiftBy
          ((massPosSum ps).scale (1 / totalMass ps))))) q.pos : Nat) : ℚ) ≤
        cmfrac * ((sortByRadius (ps.map (shiftBy
          ((massPosSum ps).scale (1 / totalMass ps))))).length : ℚ) := by
      intro q hq
      obtain ⟨q0, hq0, rfl⟩ := List.mem_map.mp (hperm.subset hq)
      rw [coincidentCount_shift _ ps _ hperm q0, hperm.length_eq, List.length_map]
      exact hmult q0 hq0
    obtain ⟨fuel, hfuel⟩ := apertureLoop_exits cmfrac cmadjustfac _ h0 h1 hfrac hmult2
      ⟨0, 0, 0⟩
      (lastRadius2 (sortByRadius (ps.map (shiftBy ((massPosSum ps).scale (1 / totalMass ps))))))
      (lastRadius2 (sortByRadius (ps.map (shiftBy ((massPosSum ps).scale (1 / totalMass ps))))))
    cases hrun : GetCMProp_large cmfrac cmadjustfac fuel ps with
    | ok r => exact ⟨fuel, r, hrun⟩
    | fault f =>
      cases f with
      | divByZero =>
        exact absurd hrun (GetCMProp_large_safe cmfrac cmadjustfac ps hne hm hfrac fuel)
      | outOfFuel =>
        exact absurd (GetCMProp_large_outOfFuel cmfrac cmadjustfac fuel ps hrun) hfuel

/-- Witness for C5: three unit masses at distinct positions with `cmfrac = cmadjustfac = 1/2`. -/
theorem C5_aperture_loop_exits_witness :
    c3Part ≠ [] ∧ (∀ p ∈ c3Part, 0 < p.mass) ∧ (0 : ℚ) < 1 / 2 ∧ (1 : ℚ) / 2 < 1 ∧
      (∀ p ∈ c3Part, ((coincidentCount c3Part p.pos : Nat) : ℚ) ≤
        1 / 2 * (c3Part.length : ℚ)) ∧
      ((∃ fuel r, GetCMProp_small (1 / 2) (1 / 2) fuel c3Part = .ok r) ∧
        (∃ fuel r, GetCMProp_large (1 / 2) (1 / 2) fuel c3Part = .ok r)) :=
  ⟨by decide, by decide!, by decide!, by decide!, by decide!,
    C5_aperture_loop_exits (1 / 2) (1 / 2) c3Part (by decide) (by decide!) (by decide!)
      (by decide!) (by decide!) (by decide!)⟩

/-! ## C6: positions at the exit of `GetCMProp` -/

theorem c6_reset_fails (pv : Nat) :
    ¬ PositionsRestored c6Part (resetPositions ⟨3, 0, 0⟩ pv 2 c6Rel) ∧
      NoPositionRestored c6Part (resetPositions ⟨3, 0, 0⟩ pv 2 c6Rel) := by
  unfold PositionsRestored NoPositionRestored
  match pv with
  | 0 => decide!
  | 1 => decide!
  | (k + 2) =>
    have h : resetPositions ⟨3, 0, 0⟩ (k + 2) 2 c6Rel = c6Rel := by
      simp [resetPositions, updateAt, c6Rel]
    rw [h]
    decide!

/-- C6 fails on the code at the two-particle group `c6Part` (mass `1` at `x = 0`, mass `3`
at `x = 4`, `cmfrac = cmadjustfac = 1/2`): both branches compute `gcm = (3,0,0)` and leave
the slice relative to it, and the reset loop adds `gcm` twice to the one particle its stale
pointer refers to.  Whatever that particle is, the positions at exit are not the positions
at entry; in fact no particle of the slice has its entry position. -/
theorem C6_positions_not_restored :
    (∀ pv, ∃ out, GetCMProp_small_exit (1 / 2) (1 / 2) 0 pv c6Part = .ok out ∧
        ¬ PositionsRestored c6Part out ∧ NoPositionRestored c6Part out) ∧
      (∀ pv, ∃ out, GetCMProp_large_exit (1 / 2) (1 / 2) 1 pv c6Part = .ok out ∧
        ¬ PositionsRestored c6Part out ∧ NoPositionRestored c6Part out) := by
  have hsmall : GetCMProp_small (1 / 2) (1 / 2) 0 c6Part =
      .ok { gmass := 4, gcm := ⟨3, 0, 0⟩, gcmvel := ⟨0, 0, 0⟩, gsize2 := 9, Part := c6Rel } := by
    decide!
  have hlarge : GetCMProp_large (1 / 2) (1 / 2) 1 c6Part =
      .ok { gmass := 4, gcm := ⟨3, 0, 0⟩, gcmvel := ⟨0, 0, 0⟩, gsize2 := 9, Part := c6Rel } := by
    decide!
  constructor
  · intro pv
    refine ⟨resetPositions ⟨3, 0, 0⟩ pv 2 c6Rel, ?_, c6_reset_fails pv⟩
    unfold GetCMProp_small_exit
    rw [hsmall]
    rfl
  · intro pv
    refine ⟨resetPositions ⟨3, 0, 0⟩ pv 2 c6Rel, ?_, c6_reset_fails pv⟩
    unfold GetCMProp_large_exit
    rw [hlarge]
    rfl

/-! ## C8: the group size `gsize` -/

theorem sorted_le_getLast (l : List Particle)
    (hs : l.Sorted (fun a b => radius2 a ≤ radius2 b)) (hne : l ≠ []) :
    ∀ a ∈ l, radius2 a ≤ radius2 (l.getLast hne) := by
  induction l with
  | nil => exact absurd rfl hne
  | cons x t ih =>
    have hs2 := List.sorted_cons.mp hs
    intro a ha
    by_cases ht : t = []
    · subst ht
      rcases List.mem_cons.mp ha with hax | hat
      · rw [hax]
        exact le_refl _
      · exact absurd hat (List.not_mem_nil a)
    · rw [List.getLast_cons ht]
      rcases List.mem_cons.mp ha with hax | hat
      · rw [hax]
        exact hs2.1 _ (List.getLast_mem ht)
      · exact ih hs2.2 ht a hat

theorem sortByRadius_sorted (l : List Particle) :
    (sortByRadius l).Sorted (fun a b => radius2 a ≤ radius2 b) := by
  haveI : IsTotal Particle (fun a b => radius2 a ≤ radius2 b) :=
    ⟨fun a b => le_total (radius2 a) (radius2 b)⟩
  haveI : IsTrans Particle (fun a b => radius2 a ≤ radius2 b) :=
    ⟨fun a b c hab hbc => le_trans hab hbc⟩
  exact List.sorted_insertionSort _ l

/-- After a radius sort the last particle is the outermost one. -/
theorem lastRadius2_sortByRadius (l : List Particle) (hne : l ≠ []) :
    (∀ a ∈ l, radius2 a ≤ lastRadius2 (sortByRadius l)) ∧
      ∃ a ∈ l, lastRadius2 (sortByRadius l) = radius2 a := by
  have hperm := sortByRadius_perm l
  have hne2 : sortByRadius l ≠ [] := by
    intro he
    have hl := hperm.length_eq
    rw [he] at hl
    exact hne (List.length_eq_zero.mp hl.symm)
  have hlast : lastRadius2 (sortByRadius l) = radius2 ((sortByRadius l).getLast hne2) := by
    unfold lastRadius2
    rw [List.getLast?_eq_getLast _ hne2]
  constructor
  · intro a ha
    rw [hlast]
    exact sorted_le_getLast _ (sortByRadius_sorted l) hne2 a (hperm.symm.subset ha)
  · exact ⟨_, hperm.subset (List.getLast_mem hne2), hlast⟩

theorem foldl_max_attained (gcm : Coordinate) (ps : List Particle) :
    ∀ acc : ℚ,
      ps.foldl (fun g2 p => if dist2 gcm p.pos > g2 then dist2 gcm p.pos else g2) acc = acc ∨
      ∃ p ∈ ps, ps.foldl (fun g2 p => if dist2 gcm p.pos > g2 then dist2 gcm p.pos else g2) acc =
        dist2 gcm p.pos := by
  induction ps with
  | nil => intro acc; exact Or.inl rfl
  | cons a t ih =>
    intro acc
    rw [List.foldl_cons]
    rcases ih (if dist2 gcm a.pos > acc then dist2 gcm a.pos else acc) with h | ⟨p, hp, h⟩
    · rw [h]
      by_cases hgt : dist2 gcm a.pos > acc
      · rw [if_pos hgt]
        exact Or.inr ⟨a, List.mem_cons_self a t, rfl⟩
      · rw [if_neg hgt]
        exact Or.inl rfl
    · exact Or.inr ⟨p, List.mem_cons_of_mem a hp, h⟩

theorem dist2_nonneg (a b : Coordinate) : 0 ≤ dist2 a b := by
  unfold dist2
  exact add_nonneg (add_nonneg (mul_self_nonneg _) (mul_self_nonneg _)) (mul_self_nonneg _)

/-- The value `maxDist2` is the largest squared distance of a particle from the centre. -/
theorem maxDist2_spec (gcm : Coordinate) (ps : List Particle) (hne : ps ≠ []) :
    (∀ p ∈ ps, dist2 gcm p.pos ≤ maxDist2 gcm ps) ∧
      ∃ p ∈ ps, maxDist2 gcm ps = dist2 gcm p.pos := by
  have hub := (foldl_max_ge gcm ps 0).2
  refine ⟨hub, ?_⟩
  rcases foldl_max_attained gcm ps 0 with h | h
  · obtain ⟨p0, hp0⟩ := List.exists_mem_of_ne_nil ps hne
    refine ⟨p0, hp0, ?_⟩
    have h1 := hub p0 hp0
    have h2 := dist2_nonneg gcm p0.pos
    unfold maxDist2
    rw [h] at h1 ⊢
    linarith
  · exact h

theorem radius2_shift_shift (c1 c2 : Coordinate) (p : Particle) :
    radius2 (shiftBy c2 (shiftBy c1 p)) = dist2 (c1.add c2) p.pos := by
  unfold radius2 shiftBy dist2 Coordinate.add
  ring

/-- The large-group branch of `GetCMProp` does return the radius of the outermost particle
about the centre it returns: `gsize` is read off after the final radius sort. -/
theorem GetCMProp_large_gsize (cmfrac cmadjustfac : ℚ) (fuel : Nat) (ps : List Particle)
    (hne : ps ≠ []) (r : CMState) (h : GetCMProp_large cmfrac cmadjustfac fuel ps = .ok r) :
    GsizeIsOutermost ps r := by
  unfold GetCMProp_large at h
  split at h
  · cases h
  · simp only [] at h
    split at h
    · cases h
    · rename_i cmold rcmv hloop
      split at h
      · cases h
      · injection h with h
        unfold GsizeIsOutermost
        rw [← h]
        simp only []
        have hperm1 := sortByRadius_perm (ps.map (shiftBy ((massPosSum ps).scale (1 / totalMass ps))))
        have hSne : (sortByRadius (ps.map (shiftBy ((massPosSum ps).scale
            (1 / totalMass ps))))).map (shiftBy cmold) ≠ [] := by
          intro he
          have hl := congrArg List.length he
          rw [List.length_map, hperm1.length_eq, List.length_map] at hl
          exact hne (List.length_eq_zero.mp hl)
        obtain ⟨hub1, q, hq, hq1⟩ := lastRadius2_sortByRadius _ hSne
        obtain ⟨hub2, p, hp, hp1⟩ := maxDist2_spec
          (((massPosSum ps).scale (1 / totalMass ps)).add cmold) ps hne
        apply le_antisymm
        · rw [hq1]
          obtain ⟨q1, hq1m, rfl⟩ := List.mem_map.mp hq
          obtain ⟨q0, hq0m, rfl⟩ := List.mem_map.mp (hperm1.subset hq1m)
          rw [radius2_shift_shift]
          exact hub2 q0 hq0m
        · rw [hp1, ← radius2_shift_shift]
          apply hub1
          exact List.mem_map.mpr ⟨_, hperm1.symm.subset (List.mem_map.mpr ⟨p, hp, rfl⟩), rfl⟩

/-- C8 fails on the code in the small-group branch when the aperture loop moves the centre:
`gsize` is computed about the plain centroid before the loop and is not recomputed.  For
fifty-one unit masses at `x = 0..50` and one at `x = 1000`, with `cmfrac = 25/26`
(`numingroup*cmfrac = 50`) and `cmadjustfac = 1/4`, the branch returns `gcm = (25,0,0)` and
`gsize^2 = (3825/4)^2`, the squared distance of the far particle from the plain centroid
`175/4`, while the outermost particle is at distance `975` from the returned `gcm`. -/
theorem C8_gsize_not_outermost :
    ∃ r, GetCMProp_small (25 / 26) (1 / 4) 10 c8Part = .ok r ∧ r.gcm = ⟨25, 0, 0⟩ ∧
      r.gsize2 = (3825 / 4) * (3825 / 4) ∧ maxDist2 r.gcm c8Part = 975 * 975 ∧
      ¬ GsizeIsOutermost c8Part r := by
  have h : (match GetCMProp_small (25 / 26) (1 / 4) 10 c8Part with
      | .ok r => decide (r.gcm = ⟨25, 0, 0⟩ ∧ r.gsize2 = (3825 / 4) * (3825 / 4) ∧
          maxDist2 r.gcm c8Part = 975 * 975 ∧ ¬ r.gsize2 = maxDist2 r.gcm c8Part)
      | .fault _ => false) = true := by decide!
  revert h
  cases GetCMProp_small (25 / 26) (1 / 4) 10 c8Part with
  | ok r =>
    intro h
    have h2 := of_decide_eq_true h
    exact ⟨r, rfl, h2.1, h2.2.1, h2.2.2.1, h2.2.2.2⟩
  | fault f => intro h; exact absurd h Bool.false_ne_true

/-! ## C9: overdensity fall-back -/

theorem odStep_radius (logF : ℚ → ℚ) (Radius : Particle → ℚ) (th : ODThresholds)
    (pd : PropData) (E : ℚ) (p : Particle) (d : ODDef) :
    d.radius (odStep logF Radius th pd E p) =
      if d.radius pd = 0 ∧ E ≥ 1 / 100 * pd.gmass ∧
          logDensity logF E (Radius p) > d.threshold th then Radius p else d.radius pd := by
  cases d <;> rfl

theorem odStep_mass (logF : ℚ → ℚ) (Radius : Particle → ℚ) (th : ODThresholds)
    (pd : PropData) (E : ℚ) (p : Particle) (d : ODDef) :
    d.mass (odStep logF Radius th pd E p) =
      if d.radius pd = 0 ∧ E ≥ 1 / 100 * pd.gmass ∧
          logDensity logF E (Radius p) > d.threshold th then E else d.mass pd := by
  cases d <;> rfl

theorem odAllSet_radius (pd : PropData) (h : odAllSet pd) (d : ODDef) : d.radius pd ≠ 0 := by
  unfold odAllSet at h
  cases d
  · exact h.2.2.1
  · exact h.2.1
  · exact h.1
  · exact h.2.2.2.1
  · exact h.2.2.2.2

/-- A definition none of whose visited samples passes the acceptance test keeps radius `0`
through the walk; the walk never changes `gmass` and `gsize`. -/
theorem odWalk_unset (logF : ℚ → ℚ) (Radius : Particle → ℚ) (th : ODThresholds) (d : ODDef) :
    ∀ (l : List Particle) (E : ℚ) (pd : PropData), d.radius pd = 0 →
      (∀ s ∈ odVisited logF Radius th l E pd,
        ¬ odAccept logF Radius pd.gmass (d.threshold th) s) →
      d.radius (odWalk logF Radius th l E pd) = 0 ∧
        (odWalk logF Radius th l E pd).gmass = pd.gmass ∧
        (odWalk logF Radius th l E pd).gsize = pd.gsize := by
  intro l
  induction l with
  | nil => intro E pd h0 _; exact ⟨h0, rfl, rfl⟩
  | cons p rest ih =>
    intro E pd h0 hvis
    have hhead : ¬ odAccept logF Radius pd.gmass (d.threshold th) (E, p) :=
      hvis (E, p) (by rw [odVisited]; exact List.mem_cons_self _ _)
    have hstep : d.radius (odStep logF Radius th pd E p) = 0 := by
      rw [odStep_radius]
      have hn : ¬ (d.radius pd = 0 ∧ E ≥ 1 / 100 * pd.gmass ∧
          logDensity logF E (Radius p) > d.threshold th) := fun h => hhead ⟨h.2.1, h.2.2⟩
      rw [if_neg hn]
      exact h0
    have hnot : ¬ odAllSet (odStep logF Radius th pd E p) :=
      fun h => odAllSet_radius _ h d hstep
    rw [odWalk, if_neg hnot]
    have hrest := ih (E - p.mass) (odStep logF Radius th pd E p) hstep (by
      intro s hs
      apply hvis s
      rw [odVisited, if_neg hnot]
      exact List.mem_cons_of_mem _ hs)
    exact hrest

theorem odFallback_unset (pd : PropData) (d : ODDef) (h : d.radius pd = 0) :
    d.mass (odFallback pd) = pd.gmass ∧ d.radius (odFallback pd) = pd.gsize := by
  cases d <;> simp only [ODDef.radius] at h <;>
    simp [ODDef.mass, ODDef.radius, odFallback, h]

/-- C9: in the inward walk of `GetCMProp`, for each of the five definitions whose radius
field is `0` at entry, if no sample visited by the walk passes that definition's acceptance
test, then on exit the definition's mass is the total group mass `gmass` and its radius is
the group size `gsize`.  The same holds of the whole overdensity stage whenever the gate of
the walk (line 529) is open. -/
theorem C9_overdensity_fallback (logF : ℚ → ℚ) (Radius : Particle → ℚ) (opt : Options)
    (pd : PropData) (Part : List Particle) (d : ODDef) (h0 : d.radius pd = 0)
    (hvis : ∀ s ∈ odVisited logF Radius (odThresholds logF opt) Part.reverse pd.gmass pd,
      ¬ odAccept logF Radius pd.gmass (d.threshold (odThresholds logF opt)) s) :
    (d.mass (GetCMProp_inwardWalk logF Radius (odThresholds logF opt) pd Part) = pd.gmass ∧
        d.radius (GetCMProp_inwardWalk logF Radius (odThresholds logF opt) pd Part) =
          pd.gsize) ∧
      (odGate opt pd →
        d.mass (GetCMProp_overdensity logF Radius opt pd Part) = pd.gmass ∧
          d.radius (GetCMProp_overdensity logF Radius opt pd Part) = pd.gsize) := by
  have hw := odWalk_unset logF Radius (odThresholds logF opt) d Part.reverse pd.gmass pd h0 hvis
  have hf := odFallback_unset _ d hw.1
  rw [hw.2.1, hw.2.2] at hf
  refine ⟨hf, ?_⟩
  intro hgate
  unfold GetCMProp_overdensity
  rw [if_pos hgate]
  exact hf

/-- Witness for C9: the two-particle group `c10Part` against a virial threshold that no
sample reaches. -/
theorem C9_overdensity_fallback_witness :
    ODDef.vir.radius c10Data = 0 ∧
      (∀ s ∈ odVisited logStandIn axisRadius (odThresholds logStandIn c9Opt) c10Part.reverse
          c10Data.gmass c10Data,
        ¬ odAccept logStandIn axisRadius c10Data.gmass
          (ODDef.vir.threshold (odThresholds logStandIn c9Opt)) s) ∧
      ((ODDef.vir.mass (GetCMProp_inwardWalk logStandIn axisRadius
            (odThresholds logStandIn c9Opt) c10Data c10Part) = c10Data.gmass ∧
          ODDef.vir.radius (GetCMProp_inwardWalk logStandIn axisRadius
            (odThresholds logStandIn c9Opt) c10Data c10Part) = c10Data.gsize) ∧
        (odGate c9Opt c10Data →
          ODDef.vir.mass (GetCMProp_overdensity logStandIn axisRadius c9Opt c10Data c10Part) =
              c10Data.gmass ∧
            ODDef.vir.radius (GetCMProp_overdensity logStandIn axisRadius c9Opt c10Data
              c10Part) = c10Data.gsize)) :=
  ⟨by decide!, by decide!,
    C9_overdensity_fallback logStandIn axisRadius c9Opt c10Data c10Part ODDef.vir (by decide!)
      (by decide!)⟩

/-! ## C10: samples exactly at a threshold -/

theorem logDensityFac_eq (logF : ℚ → ℚ) (E rc : ℚ) :
    logDensityFac logF E rc = logDensity logF E rc := by
  unfold logDensityFac logDensity
  ring

theorem inclStep_radius (logF : ℚ → ℚ) (Radius : Particle → ℚ) (th : ODThresholds)
    (pd : PropData) (E : ℚ) (p : Particle) (d : ODDef) :
    d.radius (inclStep logF Radius th pd E p) =
      if d.radius pd = 0 ∧ E ≥ 1 / 100 * (if d = ODDef.bn98 then pd.gMBN98 else pd.gmass) ∧
          logDensityFac logF E (Radius p) > d.threshold th then Radius p else d.radius pd := by
  cases d <;> rfl

theorem inclStep_mass (logF : ℚ → ℚ) (Radius : Particle → ℚ) (th : ODThresholds)
    (pd : PropData) (E : ℚ) (p : Particle) (d : ODDef) :
    d.mass (inclStep logF Radius th pd E p) =
      if d.radius pd = 0 ∧ E ≥ 1 / 100 * (if d = ODDef.bn98 then pd.gMBN98 else pd.gmass) ∧
          logDensityFac logF E (Radius p) > d.threshold th then E else d.mass pd := by
  cases d <;> rfl

theorem soStep_radius (logF expF : ℚ → ℚ) (th : ODThresholds) (pd : PropData)
    (E rc rprev mprev rhoval2 : ℚ) (d : ODDef) :
    d.radius (soStep logF expF th pd E rc rprev mprev rhoval2) =
      if d.radius pd = 0 ∧ logDensityFac logF E rc ≤ d.threshold th then
        (if rhoval2 > d.threshold th then
          soInterpR logF expF rc rprev (logDensityFac logF E rc) rhoval2 (d.threshold th)
         else rc) else d.radius pd := by
  cases d <;> rfl

theorem soStep_mass (logF expF : ℚ → ℚ) (th : ODThresholds) (pd : PropData)
    (E rc rprev mprev rhoval2 : ℚ) (d : ODDef) :
    d.mass (soStep logF expF th pd E rc rprev mprev rhoval2) =
      if d.radius pd = 0 ∧ logDensityFac logF E rc ≤ d.threshold th then
        (if rhoval2 > d.threshold th then
          soInterpM logF expF E mprev (logDensityFac logF E rc) rhoval2 (d.threshold th)
         else E) else d.mass pd := by
  cases d <;> rfl

/-- C10 (as amended): a sample whose log mean enclosed density equals a threshold does not
count as exceeding it.  In the inward walks of `GetCMProp` and of `GetInclusiveMasses`
(`iInclusiveHalo==1`) the comparison is the strict `>`, so such a sample leaves the radius
and mass of the definition unchanged.  In the outward walk (`iInclusiveHalo==2`) the test is
`rhoval<=val`, so at such a sample an unset definition is set: to the sample's radius and
enclosed mass when the previous sample was not above the threshold, and otherwise by the
interpolation formula, whose weight `(val-rhoval2)/(rhoval-rhoval2)` is then `1`. -/
theorem C10_tie_is_not_exceeding (logF expF : ℚ → ℚ) (Radius : Particle → ℚ)
    (th : ODThresholds) (pd : PropData) (E : ℚ) (p : Particle) (d : ODDef)
    (rprev mprev rhoval2 : ℚ)
    (htie : logDensity logF E (Radius p) = d.threshold th) :
    (d.radius (odStep logF Radius th pd E p) = d.radius pd ∧
        d.mass (odStep logF Radius th pd E p) = d.mass pd) ∧
      (d.radius (inclStep logF Radius th pd E p) = d.radius pd ∧
        d.mass (inclStep logF Radius th pd E p) = d.mass pd) ∧
      (d.radius pd = 0 →
        d.radius (soStep logF expF th pd E (Radius p) rprev mprev rhoval2) =
            (if rhoval2 > d.threshold th then expF (logF (Radius p / rprev) + logF rprev)
             else Radius p) ∧
          d.mass (soStep logF expF th pd E (Radius p) rprev mprev rhoval2) =
            (if rhoval2 > d.threshold th then
              expF (logF (E / (E - mprev)) + logF (E - mprev)) else E)) := by
  have hn1 : ¬ (d.radius pd = 0 ∧ E ≥ 1 / 100 * pd.gmass ∧
      logDensity logF E (Radius p) > d.threshold th) := by
    rw [htie]
    exact fun h => lt_irrefl _ h.2.2
  have hn2 : ¬ (d.radius pd = 0 ∧
      E ≥ 1 / 100 * (if d = ODDef.bn98 then pd.gMBN98 else pd.gmass) ∧
      logDensityFac logF E (Radius p) > d.threshold th) := by
    rw [logDensityFac_eq, htie]
    exact fun h => lt_irrefl _ h.2.2
  refine ⟨⟨?_, ?_⟩, ⟨?_, ?_⟩, ?_⟩
  · rw [odStep_radius, if_neg hn1]
  · rw [odStep_mass, if_neg hn1]
  · rw [inclStep_radius, if_neg hn2]
  · rw [inclStep_mass, if_neg hn2]
  · intro h0
    have hc : d.radius pd = 0 ∧ logDensityFac logF E (Radius p) ≤ d.threshold th := by
      rw [logDensityFac_eq, htie]
      exact ⟨h0, le_refl _⟩
    rw [soStep_radius, soStep_mass, if_pos hc, if_pos hc]
    by_cases h2 : rhoval2 > d.threshold th
    · have hne : d.threshold th - rhoval2 ≠ 0 := by
        intro h
        have : d.threshold th = rhoval2 := by linarith
        rw [this] at h2
        exact lt_irrefl _ h2
      simp only [if_pos h2]
      unfold soInterpR soInterpM
      rw [logDensityFac_eq, htie, div_mul_cancel₀ _ hne, div_mul_cancel₀ _ hne]
      exact ⟨rfl, rfl⟩
    · simp only [if_neg h2, and_self]

/-- Witness for C10: the outer sample of `c10Part` has enclosed mass `4*M_PI/3` at radius
`1`, so its density is exactly the virial threshold density `1`. -/
theorem C10_tie_is_not_exceeding_witness :
    logDensity logStandIn (4 * M_PI / 3) (axisRadius (unitAt 0 1)) =
        ODDef.vir.threshold (odThresholds logStandIn c10Opt) ∧
      ((ODDef.vir.radius (odStep logStandIn axisRadius (odThresholds logStandIn c10Opt)
            c10Data (4 * M_PI / 3) (unitAt 0 1)) = ODDef.vir.radius c10Data ∧
          ODDef.vir.mass (odStep logStandIn axisRadius (odThresholds logStandIn c10Opt)
            c10Data (4 * M_PI / 3) (unitAt 0 1)) = ODDef.vir.mass c10Data) ∧
        (ODDef.vir.radius (inclStep logStandIn axisRadius (odThresholds logStandIn c10Opt)
            c10Data (4 * M_PI / 3) (unitAt 0 1)) = ODDef.vir.radius c10Data ∧
          ODDef.vir.mass (inclStep logStandIn axisRadius (odThresholds logStandIn c10Opt)
            c10Data (4 * M_PI / 3) (unitAt 0 1)) = ODDef.vir.mass c10Data) ∧
        (ODDef.vir.radius c10Data = 0 →
          ODDef.vir.radius (soStep logStandIn expStandIn (odThresholds logStandIn c10Opt)
              c10Data (4 * M_PI / 3) (axisRadius (unitAt 0 1)) (1 / 2) 3 1) =
              (if (1 : ℚ) > ODDef.vir.threshold (odThresholds logStandIn c10Opt) then
                expStandIn (logStandIn (axisRadius (unitAt 0 1) / (1 / 2)) +
                  logStandIn (1 / 2))
               else axisRadius (unitAt 0 1)) ∧
            ODDef.vir.mass (soStep logStandIn expStandIn (odThresholds logStandIn c10Opt)
              c10Data (4 * M_PI / 3) (axisRadius (unitAt 0 1)) (1 / 2) 3 1) =
              (if (1 : ℚ) > ODDef.vir.threshold (odThresholds logStandIn c10Opt) then
                expStandIn (logStandIn (4 * M_PI / 3 / (4 * M_PI / 3 - 3)) +
                  logStandIn (4 * M_PI / 3 - 3))
               else 4 * M_PI / 3))) :=
  ⟨by decide!,
    C10_tie_is_not_exceeding logStandIn expStandIn axisRadius (odThresholds logStandIn c10Opt)
      c10Data (4 * M_PI / 3) (unitAt 0 1) ODDef.vir (1 / 2) 3 1 (by decide!)⟩

/-- C10 as stated fails in the inward walk of `GetCMProp`.  In the group `c10Part` the outer
sample (radius `1`, enclosed mass `4*M_PI/3`) has a log density equal to the virial
threshold and passes the mass guard, yet the step does not record it (`gRvir` stays `0`);
the walk goes on and records the inner sample, returning `gRvir = 1/2`, `gMvir = 3`. -/
theorem C10_counterexample :
    logDensity logStandIn c10Data.gmass (axisRadius (unitAt 1 1)) =
        ODDef.vir.threshold (odThresholds logStandIn c10Opt) ∧
      ¬ TieRecorded logStandIn axisRadius (odThresholds logStandIn c10Opt) c10Data
        c10Data.gmass (unitAt 1 1) ODDef.vir ∧
      (odStep logStandIn axisRadius (odThresholds logStandIn c10Opt) c10Data c10Data.gmass
        (unitAt 1 1)).gRvir = 0 ∧
      (GetCMProp_overdensity logStandIn axisRadius c10Opt c10Data c10Part).gRvir = 1 / 2 ∧
      (GetCMProp_overdensity logStandIn axisRadius c10Opt c10Data c10Part).gMvir = 3 := by
  refine ⟨by decide!, ?_, by decide!, by decide!, by decide!⟩
  unfold TieRecorded
  decide!

/-! ## C7: round trip of the reordering in `GetProperties` -/

theorem mapFrom_map {β : Type} (g : Particle → β) (f : Nat → Particle → Particle)
    (hf : ∀ i p, g (f i p) = g p) :
    ∀ (l : List Particle) (i : Nat), (mapFrom f i l).map g = l.map g := by
  intro l
  induction l with
  | nil => intro i; rfl
  | cons a t ih =>
    intro i
    rw [mapFrom, List.map_cons, List.map_cons, hf, ih]

theorem sortByRadius_map_perm {β : Type} (g : Particle → β) (l : List Particle) :
    ((sortByRadius l).map g).Perm (l.map g) :=
  (sortByRadius_perm l).map g

theorem onSlice_perm {β : Type} (g : Particle → β) (f : List Particle → Outcome (List Particle))
    (hf : ∀ s s2, f s = .ok s2 → (s2.map g).Perm (s.map g)) (off n : Nat)
    (buf buf2 : List Particle) (h : onSlice off n f buf = .ok buf2) :
    (buf2.map g).Perm (buf.map g) := by
  unfold onSlice at h
  cases hs : f ((buf.drop off).take n) with
  | fault e => rw [hs] at h; cases h
  | ok s2 =>
    rw [hs] at h
    injection h with h
    have hp := hf _ _ hs
    have hbuf : buf = buf.take off ++ (buf.drop off).take n ++ buf.drop (off + n) := by
      rw [List.append_assoc]
      have h2 : buf.drop (off + n) = (buf.drop off).drop n := by
        rw [List.drop_drop, Nat.add_comm]
      rw [h2, List.take_append_drop, List.take_append_drop]
    rw [← h]
    conv_rhs => rw [hbuf]
    simp only [List.map_append]
    exact (List.Perm.append_left _ hp).append_right _

theorem forGroups_perm {β : Type} (g : Particle → β) (numingroup : Nat → Nat)
    (sel : Nat → Bool) (f : List Particle → Outcome (List Particle))
    (hf : ∀ s s2, f s = .ok s2 → (s2.map g).Perm (s.map g)) :
    ∀ (groups : List Nat) (buf buf2 : List Particle),
      forGroups numingroup sel f groups buf = .ok buf2 → (buf2.map g).Perm (buf.map g) := by
  intro groups
  induction groups with
  | nil =>
    intro buf buf2 h
    rw [forGroups] at h
    injection h with h
    rw [h]
  | cons i rest ih =>
    intro buf buf2 h
    rw [forGroups] at h
    by_cases hsel : sel i = true
    · rw [if_pos hsel] at h
      cases hs : onSlice (noffset numingroup i) (numingroup i) f buf with
      | fault e => rw [hs] at h; cases h
      | ok b =>
        rw [hs] at h
        exact (ih b buf2 h).trans (onSlice_perm g f hf _ _ buf b hs)
    · rw [if_neg hsel] at h
      exact ih buf buf2 h

theorem keyedFields_shiftBy (c : Coordinate) (p : Particle) :
    keyedFields (shiftBy c p) = keyedFields p := rfl

theorem keyedFields_addPos (c : Coordinate) (p : Particle) :
    keyedFields (addPos c p) = keyedFields p := rfl

theorem map_keyed_of_pointwise (f : Particle → Particle)
    (hf : ∀ p, keyedFields (f p) = keyedFields p) (l : List Particle) :
    (l.map f).map keyedFields = l.map keyedFields := by
  rw [List.map_map]
  apply List.map_congr_left
  intro p _
  exact hf p

theorem gpSmallGroup_keyed (sqrtF : ℚ → ℚ) (cmfrac cmadjustfac : ℚ) (fuel : Nat)
    (s s2 : List Particle) (h : gpSmallGroup sqrtF cmfrac cmadjustfac fuel s = .ok s2) :
    (s2.map keyedFields).Perm (s.map keyedFields) := by
  unfold gpSmallGroup at h
  simp only [] at h
  split at h
  · split at h
    · injection h with h
      rw [← h, map_keyed_of_pointwise _ (keyedFields_addPos _)]
      refine (sortByRadius_map_perm keyedFields _).trans ?_
      rw [map_keyed_of_pointwise _ (keyedFields_shiftBy _)]
    · cases h
  · injection h with h
    rw [← h, map_keyed_of_pointwise _ (keyedFields_addPos _)]
    exact sortByRadius_map_perm keyedFields _

theorem gpLargeGroup_keyed (cmfrac cmadjustfac : ℚ) (fuel : Nat)
    (s s2 : List Particle) (h : gpLargeGroup cmfrac cmadjustfac fuel s = .ok s2) :
    (s2.map keyedFields).Perm (s.map keyedFields) := by
  unfold gpLargeGroup at h
  simp only [] at h
  split at h
  · injection h with h
    rw [← h, map_keyed_of_pointwise _ (keyedFields_addPos _)]
    refine (sortByRadius_map_perm keyedFields _).trans ?_
    rw [map_keyed_of_pointwise _ (keyedFields_shiftBy _)]
    refine (sortByRadius_map_perm keyedFields _).trans ?_
    rw [map_keyed_of_pointwise _ (keyedFields_shiftBy _)]
  · cases h

theorem gpSmallPotential_keyed (sqrtF : ℚ → ℚ) (G eps2 : ℚ)
    (s s2 : List Particle) (h : gpSmallPotential sqrtF G eps2 s = .ok s2) :
    (s2.map keyedFields).Perm (s.map keyedFields) := by
  unfold gpSmallPotential at h
  injection h with h
  rw [← h]
  exact List.Perm.of_eq (mapFrom_map keyedFields
    (fun j p => { p with potential := pairwisePotential sqrtF G eps2 s j p })
    (fun _ _ => rfl) s 0)

theorem gpLargePotential_keyed (treePotential : List Particle → List ℚ)
    (s s2 : List Particle) (h : gpLargePotential treePotential s = .ok s2) :
    (s2.map keyedFields).Perm (s.map keyedFields) := by
  unfold gpLargePotential at h
  injection h with h
  rw [← h]
  exact List.Perm.of_eq (mapFrom_map keyedFields
    (fun j p => { p with potential := (treePotential s).getD j 0 })
    (fun _ _ => rfl) s 0)

theorem sortByID_props (l : List Particle) :
    (sortByID l).Perm l ∧ (sortByID l).Sorted (fun a b => a.id ≤ b.id) := by
  haveI : IsTotal Particle (fun a b => a.id ≤ b.id) := ⟨fun a b => Int.le_total a.id b.id⟩
  haveI : IsTrans Particle (fun a b => a.id ≤ b.id) :=
    ⟨fun a b c hab hbc => Int.le_trans hab hbc⟩
  exact ⟨List.perm_insertionSort _ l, List.sorted_insertionSort _ l⟩

theorem sortByType_perm (l : List Particle) : (sortByType l).Perm l :=
  List.perm_insertionSort _ l

/-- Whatever `GetProperties` returns is sorted by id and holds, up to order, the particles of
the keyed entry buffer in the fields id, velocity, mass and type. -/
theorem GetProperties_keyed_perm (sqrtF : ℚ → ℚ) (treePotential : List Particle → List ℚ)
    (ompunbindnum : Nat) (cmfrac cmadjustfac G eps : ℚ) (fuel : Nat)
    (Part : List Particle) (ngroup : Nat) (pfof : Nat → Int) (numingroup : Nat → Nat)
    (out : List Particle)
    (h : GetProperties sqrtF treePotential ompunbindnum cmfrac cmadjustfac G eps fuel Part
      ngroup pfof numingroup = .ok out) :
    (out.map keyedFields).Perm ((mapFrom (setGroupType ngroup pfof) 0 Part).map keyedFields) ∧
      out.Sorted (fun a b => a.id ≤ b.id) := by
  unfold GetProperties at h
  simp only [] at h
  cases h1 : forGroups numingroup (fun i => decide (numingroup i < ompunbindnum))
      (gpSmallGroup sqrtF cmfrac cmadjustfac fuel) ((List.range ngroup).map (fun i => i + 1))
      (sortByType (mapFrom (setGroupType ngroup pfof) 0 Part)) with
  | fault e => rw [h1] at h; cases h
  | ok b1 =>
    rw [h1] at h
    simp only [] at h
    cases h2 : forGroups numingroup (fun i => decide (numingroup i ≥ ompunbindnum))
        (gpLargeGroup cmfrac cmadjustfac fuel) ((List.range ngroup).map (fun i => i + 1)) b1 with
    | fault e => rw [h2] at h; cases h
    | ok b2 =>
      rw [h2] at h
      simp only [] at h
      cases h3 : forGroups numingroup (fun i => decide (numingroup i < ompunbindnum))
          (gpSmallPotential sqrtF G (eps * eps)) ((List.range ngroup).map (fun i => i + 1))
          b2 with
      | fault e => rw [h3] at h; cases h
      | ok b3 =>
        rw [h3] at h
        simp only [] at h
        cases h4 : forGroups numingroup (fun i => decide (numingroup i ≥ ompunbindnum))
            (gpLargePotential treePotential) ((List.range ngroup).map (fun i => i + 1))
            b3 with
        | fault e => rw [h4] at h; cases h
        | ok b4 =>
          rw [h4] at h
          injection h with h
          have p1 := forGroups_perm keyedFields numingroup _ _
            (gpSmallGroup_keyed sqrtF cmfrac cmadjustfac fuel) _ _ _ h1
          have p2 := forGroups_perm keyedFields numingroup _ _
            (gpLargeGroup_keyed cmfrac cmadjustfac fuel) _ _ _ h2
          have p3 := forGroups_perm keyedFields numingroup _ _
            (gpSmallPotential_keyed sqrtF G (eps * eps)) _ _ _ h3
          have p4 := forGroups_perm keyedFields numingroup _ _
            (gpLargePotential_keyed treePotential) _ _ _ h4
          have p0 := (sortByType_perm (mapFrom (setGroupType ngroup pfof) 0 Part)).map keyedFields
          have p5 := (sortByID_props b4).1.map keyedFields
          rw [← h]
          exact ⟨p5.trans (p4.trans (p3.trans (p2.trans (p1.trans p0)))), (sortByID_props b4).2⟩

theorem pairwise_lt_of_le_of_nodup (l : List Int) (h1 : l.Pairwise (fun a b => a ≤ b))
    (h2 : l.Nodup) : l.Pairwise (fun a b => a < b) := by
  have h3 : l.Pairwise (fun a b => a ≠ b) := h2
  exact (h1.and h3).imp (fun h => lt_of_le_of_ne h.1 h.2)

/-- A list of records is determined by its elements once their first components are in
strictly increasing order. -/
theorem eq_of_perm_of_strict_keys (A B : List (Int × Coordinate × ℚ × Int))
    (hperm : A.Perm B) (hA : (A.map Prod.fst).Pairwise (fun a b => a ≤ b))
    (hB : (B.map Prod.fst).Pairwise (fun a b => a < b)) : A = B := by
  haveI : IsAntisymm (Int × Coordinate × ℚ × Int) (fun a b => a.1 < b.1) :=
    ⟨fun a b h1 h2 => absurd h1 (not_lt.mpr (le_of_lt h2))⟩
  have hnd : (A.map Prod.fst).Nodup :=
    ((hperm.map Prod.fst).nodup_iff).mpr (hB.imp (fun h => ne_of_lt h))
  have hA2 := pairwise_lt_of_le_of_nodup _ hA hnd
  exact List.eq_of_perm_of_sorted hperm (List.pairwise_map.mp hA2) (List.pairwise_map.mp hB)

theorem mapFrom_setGroupType_type (ngroup : Nat) (pfof : Nat → Int) :
    ∀ (l : List Particle) (i : Nat),
      (mapFrom (setGroupType ngroup pfof) i l).map (fun p => p.type) =
        (List.range' i l.length).map (groupTypeKey ngroup pfof) := by
  intro l
  induction l with
  | nil => intro i; rfl
  | cons a t ih =>
    intro i
    rw [mapFrom, List.map_cons, ih, List.length_cons, List.range'_succ, List.map_cons]
    congr 1
    unfold setGroupType groupTypeKey
    split <;> rfl

theorem idVelMass_setGroupType (ngroup : Nat) (pfof : Nat → Int) (i : Nat) (p : Particle) :
    idVelMass (setGroupType ngroup pfof i p) = idVelMass p := by
  unfold setGroupType
  split <;> rfl

/-- C7 (as amended): for every input buffer whose particle ids are distinct and in ascending
order, when `GetProperties` has done its group sort, its per-group radius sorts and its final
sort by id, the buffer is in the same order as at entry and every particle's id, velocity and
mass equal their values at entry; the type field of the particle at position `i` holds the
group key (`pfof[i]` if positive, else `ngroup+1`). -/
theorem C7_round_trip (sqrtF : ℚ → ℚ) (treePotential : List Particle → List ℚ)
    (ompunbindnum : Nat) (cmfrac cmadjustfac G eps : ℚ) (fuel : Nat)
    (Part : List Particle) (ngroup : Nat) (pfof : Nat → Int) (numingroup : Nat → Nat)
    (out : List Particle)
    (hid : (Part.map (fun p => p.id)).Pairwise (fun a b => a < b))
    (h : GetProperties sqrtF treePotential ompunbindnum cmfrac cmadjustfac G eps fuel Part
      ngroup pfof numingroup = .ok out) :
    out.map idVelMass = Part.map idVelMass ∧
      out.map (fun p => p.type) = (List.range Part.length).map (groupTypeKey ngroup pfof) := by
  obtain ⟨hperm, hsorted⟩ := GetProperties_keyed_perm sqrtF treePotential ompunbindnum cmfrac
    cmadjustfac G eps fuel Part ngroup pfof numingroup out h
  have hA : ((out.map keyedFields).map Prod.fst).Pairwise (fun a b => a ≤ b) := by
    rw [List.map_map]
    exact List.pairwise_map.mpr hsorted
  have hB : (((mapFrom (setGroupType ngroup pfof) 0 Part).map keyedFields).map
      Prod.fst).Pairwise (fun a b => a < b) := by
    rw [List.map_map]
    have e : (mapFrom (setGroupType ngroup pfof) 0 Part).map (Prod.fst ∘ keyedFields) =
        Part.map (fun p => p.id) :=
      mapFrom_map (Prod.fst ∘ keyedFields) (setGroupType ngroup pfof)
        (fun i p => by unfold setGroupType; split <;> rfl) Part 0
    rw [e]
    exact hid
  have heq := eq_of_perm_of_strict_keys _ _ hperm hA hB
  constructor
  · have e1 : out.map idVelMass =
        (out.map keyedFields).map (fun k => (k.1, k.2.1, k.2.2.1)) := by
      rw [List.map_map]
      rfl
    rw [e1, heq, List.map_map]
    exact mapFrom_map _ (setGroupType ngroup pfof) (idVelMass_setGroupType ngroup pfof) Part 0
  · have e1 : out.map (fun p => p.type) = (out.map keyedFields).map (fun k => k.2.2.2) := by
      rw [List.map_map]
      rfl
    rw [e1, heq, List.map_map, List.range_eq_range']
    exact mapFrom_setGroupType_type ngroup pfof Part 0

theorem c7_run :
    GetProperties Rat.sqrt zeroPotential 1000 (1 / 10) (1 / 2) 1 0 0 c7Part 1 c7Pfof c7Num =
      .ok c7Out := by
  decide!

/-- Witness for C7: three particles, the first two in group `1` (`numingroup*cmfrac = 1/5`,
a small group below the threshold). -/
theorem C7_round_trip_witness :
    (c7Part.map (fun p => p.id)).Pairwise (fun a b => a < b) ∧
      GetProperties Rat.sqrt zeroPotential 1000 (1 / 10) (1 / 2) 1 0 0 c7Part 1 c7Pfof c7Num =
        .ok c7Out ∧
      (c7Out.map idVelMass = c7Part.map idVelMass ∧
        c7Out.map (fun p => p.type) =
          (List.range c7Part.length).map (groupTypeKey 1 c7Pfof)) :=
  ⟨by decide!, c7_run,
    C7_round_trip Rat.sqrt zeroPotential 1000 (1 / 10) (1 / 2) 1 0 0 c7Part 1 c7Pfof c7Num
      c7Out (by decide!) c7_run⟩

/-- C7 as stated fails: for the buffer `c7Part` (ids `0, 1, 2`, all of type `0`) with
`pfof = [1, 1, 0]` the routine returns the particles in id order, but the type field holds
the group keys `1, 1, 2`, and the two members of group `1` are at `x = 3/2` and `x = 9/2`
instead of `x = 0` and `x = 3`: the group does not meet `numingroup*cmfrac>50`, so its
positions were never made relative, and the last loop still added `gcm = (3/2,0,0)`. -/
theorem C7_counterexample :
    (c7Part.map (fun p => p.id)).Pairwise (fun a b => a < b) ∧
      GetProperties Rat.sqrt zeroPotential 1000 (1 / 10) (1 / 2) 1 0 0 c7Part 1 c7Pfof c7Num =
        .ok c7Out ∧
      ¬ SameButPotential c7Part c7Out ∧
      c7Out.map (fun p => p.type) ≠ c7Part.map (fun p => p.type) ∧
      c7Out.map (fun p => p.pos) ≠ c7Part.map (fun p => p.pos) := by
  refine ⟨by decide!, c7_run, ?_, by decide!, by decide!⟩
  unfold SameButPotential
  decide!

/-! ## C11: mass recorded by the inward walk -/

theorem totalMass_cons (p : Particle) (l : List Particle) :
    totalMass (p :: l) = p.mass + totalMass l := by
  simp [totalMass]

theorem totalMass_append (a b : List Particle) :
    totalMass (a ++ b) = totalMass a + totalMass b := by
  simp [totalMass]

theorem totalMass_reverse (l : List Particle) : totalMass l.reverse = totalMass l := by
  unfold totalMass
  rw [List.map_reverse, List.sum_reverse]

/-- Through the inward walk started with `EncMass` equal to the mass of the particles still
to visit, a definition is either unset or holds the radius of a visited particle together
with the mass of that particle and all particles inside it. -/
theorem odWalk_enclosed (logF : ℚ → ℚ) (Radius : Particle → ℚ) (th : ODThresholds) (d : ODDef)
    (L : List Particle) :
    ∀ (l : List Particle) (pd : PropData), l <:+ L →
      (d.radius pd = 0 ∨ ∃ p t, (p :: t) <:+ L ∧ d.radius pd = Radius p ∧
        d.mass pd = totalMass (p :: t)) →
      (d.radius (odWalk logF Radius th l (totalMass l) pd) = 0 ∨
        ∃ p t, (p :: t) <:+ L ∧ d.radius (odWalk logF Radius th l (totalMass l) pd) = Radius p ∧
          d.mass (odWalk logF Radius th l (totalMass l) pd) = totalMass (p :: t)) := by
  intro l
  induction l with
  | nil => intro pd _ h; exact h
  | cons p rest ih =>
    intro pd hsuf hinv
    have hstep : d.radius (odStep logF Radius th pd (totalMass (p :: rest)) p) = 0 ∨
        ∃ q t, (q :: t) <:+ L ∧
          d.radius (odStep logF Radius th pd (totalMass (p :: rest)) p) = Radius q ∧
          d.mass (odStep logF Radius th pd (totalMass (p :: rest)) p) = totalMass (q :: t) := by
      rw [odStep_radius, odStep_mass]
      by_cases hc : d.radius pd = 0 ∧ totalMass (p :: rest) ≥ 1 / 100 * pd.gmass ∧
          logDensity logF (totalMass (p :: rest)) (Radius p) > d.threshold th
      · rw [if_pos hc, if_pos hc]
        exact Or.inr ⟨p, rest, hsuf, rfl, rfl⟩
      · rw [if_neg hc, if_neg hc]
        exact hinv
    rw [odWalk]
    by_cases hall : odAllSet (odStep logF Radius th pd (totalMass (p :: rest)) p)
    · rw [if_pos hall]
      exact hstep
    · rw [if_neg hall]
      have hE : totalMass (p :: rest) - p.mass = totalMass rest := by
        rw [totalMass_cons]; ring
      rw [hE]
      exact ih _ ((List.suffix_cons p rest).trans hsuf) hstep

theorem odFallback_set (pd : PropData) (d : ODDef) (h : d.radius pd ≠ 0) :
    d.mass (odFallback pd) = d.mass pd ∧ d.radius (odFallback pd) = d.radius pd := by
  cases d <;> simp only [ODDef.radius] at h <;>
    simp [ODDef.mass, ODDef.radius, odFallback, h]

/-- A non-empty suffix of the reversed slice is a sorted index `j` of the slice together
with the particles at indices `0..j`. -/
theorem suffix_reverse_index (Part : List Particle) (p : Particle) (t : List Particle)
    (h : (p :: t) <:+ Part.reverse) :
    ∃ j, ∃ hj : j < Part.length, Part.get ⟨j, hj⟩ = p ∧
      totalMass (Part.take (j + 1)) = totalMass (p :: t) := by
  obtain ⟨pre, hpre⟩ := h
  have hP : Part = (t.reverse ++ [p]) ++ pre.reverse := by
    have := congrArg List.reverse hpre
    rw [List.reverse_reverse] at this
    rw [← this]
    simp
  have hlen : t.length < Part.length := by
    rw [hP]; simp
  refine ⟨t.length, hlen, ?_, ?_⟩
  · subst hP
    simp [List.getElem_append_left, List.getElem_append_right]
  · subst hP
    have : List.take (t.length + 1) (t.reverse ++ [p] ++ pre.reverse) = t.reverse ++ [p] := by
      rw [List.take_append_of_le_length (by simp)]
      rw [List.take_of_length_le (by simp)]
    rw [this, totalMass_append, totalMass_reverse, totalMass_cons]
    simp [totalMass]
    ring

/-- C11: in the inward walk of `GetCMProp` over the radius-sorted slice of a group whose
`gmass` is the sum of the masses of its particles (as the centre-of-mass stage computes it),
every definition that enters with radius `0` and whose radius the walk sets leaves the walk,
and the fall-back after it, holding the radius of the particle at some sorted index `j` and
a mass equal to the sum of the masses of the particles at sorted indices `0..j`. -/
theorem C11_walk_mass_is_enclosed_mass (logF : ℚ → ℚ) (Radius : Particle → ℚ)
    (th : ODThresholds) (pd : PropData) (Part : List Particle) (d : ODDef)
    (hg : pd.gmass = totalMass Part) (h0 : d.radius pd = 0)
    (hset : d.radius (odWalk logF Radius th Part.reverse pd.gmass pd) ≠ 0) :
    ∃ j, ∃ hj : j < Part.length,
      d.radius (GetCMProp_inwardWalk logF Radius th pd Part) = Radius (Part.get ⟨j, hj⟩) ∧
        d.mass (GetCMProp_inwardWalk logF Radius th pd Part) = totalMass (Part.take (j + 1)) := by
  have hE : pd.gmass = totalMass Part.reverse := by rw [totalMass_reverse]; exact hg
  have hw := odWalk_enclosed logF Radius th d Part.reverse Part.reverse pd
    (List.suffix_refl _) (Or.inl h0)
  rw [← hE] at hw
  rcases hw with hz | ⟨p, t, hsuf, hr, hm⟩
  · exact absurd hz hset
  · obtain ⟨j, hj, hget, hsum⟩ := suffix_reverse_index Part p t hsuf
    have hf := odFallback_set _ d hset
    refine ⟨j, hj, ?_, ?_⟩
    · unfold GetCMProp_inwardWalk
      rw [hf.2, hr, hget]
    · unfold GetCMProp_inwardWalk
      rw [hf.1, hm, hsum]


/-- Witness for C11: in the group `c12Part` the walk sets the 200-mean radius from the inner
particle. -/
theorem C11_walk_mass_is_enclosed_mass_witness :
    c12Data.gmass = totalMass c12Part ∧ ODDef.m200.radius c12Data = 0 ∧
      ODDef.m200.radius (odWalk logStandIn axisRadius (odThresholds logStandIn c12Opt)
        c12Part.reverse c12Data.gmass c12Data) ≠ 0 ∧
      ∃ j, ∃ hj : j < c12Part.length,
        ODDef.m200.radius (GetCMProp_inwardWalk logStandIn axisRadius
            (odThresholds logStandIn c12Opt) c12Data c12Part) =
          axisRadius (c12Part.get ⟨j, hj⟩) ∧
        ODDef.m200.mass (GetCMProp_inwardWalk logStandIn axisRadius
            (odThresholds logStandIn c12Opt) c12Data c12Part) = totalMass (c12Part.take (j + 1)) :=
  ⟨by decide!, by decide!, by decide!,
    C11_walk_mass_is_enclosed_mass logStandIn axisRadius (odThresholds logStandIn c12Opt)
      c12Data c12Part ODDef.m200 (by decide!) (by decide!) (by decide!)⟩

/-! ## C12: order of the 200-critical and 200-mean radii -/

theorem odStep_gR200c (logF : ℚ → ℚ) (Radius : Particle → ℚ) (th : ODThresholds)
    (pd : PropData) (E : ℚ) (p : Particle) :
    (odStep logF Radius th pd E p).gR200c =
      if pd.gR200c = 0 ∧ E ≥ 1 / 100 * pd.gmass ∧
          logDensity logF E (Radius p) > th.m200val then Radius p else pd.gR200c := rfl

theorem odStep_gR200m (logF : ℚ → ℚ) (Radius : Particle → ℚ) (th : ODThresholds)
    (pd : PropData) (E : ℚ) (p : Particle) :
    (odStep logF Radius th pd E p).gR200m =
      if pd.gR200m = 0 ∧ E ≥ 1 / 100 * pd.gmass ∧
          logDensity logF E (Radius p) > th.m200mval then Radius p else pd.gR200m := rfl

/-- Through the inward walk over particles of non-increasing radius, with the 200-mean
threshold not above the 200-critical one: once `gR200c` is set, `gR200m` is set and is not
smaller; and a set `gR200m` is not below the radius of any particle still to visit. -/
theorem odWalk_order (logF : ℚ → ℚ) (Radius : Particle → ℚ) (th : ODThresholds)
    (hth : th.m200mval ≤ th.m200val) :
    ∀ (l : List Particle) (E : ℚ) (pd : PropData),
      l.Pairwise (fun a b => Radius b ≤ Radius a) →
      (pd.gR200c ≠ 0 → pd.gR200m ≠ 0 ∧ pd.gR200c ≤ pd.gR200m) →
      (pd.gR200m ≠ 0 → ∀ q ∈ l, Radius q ≤ pd.gR200m) →
      ((odWalk logF Radius th l E pd).gR200c ≠ 0 →
        (odWalk logF Radius th l E pd).gR200m ≠ 0 ∧
          (odWalk logF Radius th l E pd).gR200c ≤ (odWalk logF Radius th l E pd).gR200m) := by
  intro l
  induction l with
  | nil => intro E pd _ ha _; exact ha
  | cons p rest ih =>
    intro E pd hsort ha hb
    have hp : ∀ q ∈ rest, Radius q ≤ Radius p := (List.pairwise_cons.mp hsort).1
    have hrest : rest.Pairwise (fun a b => Radius b ≤ Radius a) := (List.pairwise_cons.mp hsort).2
    have hb' : (odStep logF Radius th pd E p).gR200m ≠ 0 →
        ∀ q ∈ rest, Radius q ≤ (odStep logF Radius th pd E p).gR200m := by
      rw [odStep_gR200m]
      split
      · intro _ q hq; exact hp q hq
      · intro hne q hq; exact hb hne q (List.mem_cons_of_mem _ hq)
    have ha' : (odStep logF Radius th pd E p).gR200c ≠ 0 →
        (odStep logF Radius th pd E p).gR200m ≠ 0 ∧
          (odStep logF Radius th pd E p).gR200c ≤ (odStep logF Radius th pd E p).gR200m := by
      rw [odStep_gR200c, odStep_gR200m]
      by_cases hc : pd.gR200c = 0 ∧ E ≥ 1 / 100 * pd.gmass ∧
          logDensity logF E (Radius p) > th.m200val
      · rw [if_pos hc]
        intro hne
        by_cases hm0 : pd.gR200m = 0
        · have hm : pd.gR200m = 0 ∧ E ≥ 1 / 100 * pd.gmass ∧
              logDensity logF E (Radius p) > th.m200mval :=
            ⟨hm0, hc.2.1, lt_of_le_of_lt hth hc.2.2⟩
          rw [if_pos hm]
          exact ⟨hne, le_refl _⟩
        · have hm : ¬ (pd.gR200m = 0 ∧ E ≥ 1 / 100 * pd.gmass ∧
              logDensity logF E (Radius p) > th.m200mval) := fun h => hm0 h.1
          rw [if_neg hm]
          exact ⟨hm0, hb hm0 p (List.mem_cons_self _ _)⟩
      · rw [if_neg hc]
        intro hne
        have h1 := ha hne
        have hm : ¬ (pd.gR200m = 0 ∧ E ≥ 1 / 100 * pd.gmass ∧
            logDensity logF E (Radius p) > th.m200mval) := fun h => h1.1 h.1
        rw [if_neg hm]
        exact h1
    rw [odWalk]
    by_cases hall : odAllSet (odStep logF Radius th pd E p)
    · rw [if_pos hall]; exact ha'
    · rw [if_neg hall]; exact ih _ _ hrest ha' hb'

theorem odThresholds_order (logF : ℚ → ℚ) (hlog : Monotone logF) (opt : Options)
    (hrho : 0 < opt.rhobg) (hO : 0 < opt.Omega_m) (hO1 : opt.Omega_m ≤ 1) :
    (odThresholds logF opt).m200mval ≤ (odThresholds logF opt).m200val := by
  unfold odThresholds
  apply hlog
  have h1 : opt.rhobg ≤ opt.rhobg / opt.Omega_m := by
    rw [le_div_iff₀ hO]
    nlinarith
  nlinarith

/-- C12 (as amended): with a monotone `log`, `rhobg > 0` and `0 < Omega_m <= 1`, for a group
sorted by non-decreasing radius whose `gR200c` and `gR200m` are `0` at entry, the overdensity
walk of `GetCMProp` returns `gR200c <= gR200m` whenever it sets `gR200c` from a particle;
when it sets `gR200c` from no particle, `gR200c` is the fall-back `gsize`. -/
theorem C12_r200c_le_r200m (logF : ℚ → ℚ) (Radius : Particle → ℚ) (opt : Options)
    (pd : PropData) (Part : List Particle) (hlog : Monotone logF)
    (hrho : 0 < opt.rhobg) (hO : 0 < opt.Omega_m) (hO1 : opt.Omega_m ≤ 1)
    (hsort : Part.Pairwise (fun a b => Radius a ≤ Radius b))
    (hc0 : pd.gR200c = 0) (hm0 : pd.gR200m = 0) :
    ((odWalk logF Radius (odThresholds logF opt) Part.reverse pd.gmass pd).gR200c ≠ 0 →
        (GetCMProp_inwardWalk logF Radius (odThresholds logF opt) pd Part).gR200c ≤
          (GetCMProp_inwardWalk logF Radius (odThresholds logF opt) pd Part).gR200m) ∧
      ((odWalk logF Radius (odThresholds logF opt) Part.reverse pd.gmass pd).gR200c = 0 →
        (GetCMProp_inwardWalk logF Radius (odThresholds logF opt) pd Part).gR200c =
          (odWalk logF Radius (odThresholds logF opt) Part.reverse pd.gmass pd).gsize) := by
  constructor
  · intro hset
    have hw := odWalk_order logF Radius (odThresholds logF opt)
      (odThresholds_order logF hlog opt hrho hO hO1) Part.reverse pd.gmass pd
      (List.pairwise_reverse.mpr hsort) (fun h => absurd hc0 h) (fun h => absurd hm0 h) hset
    have hfc := odFallback_set _ ODDef.c200 hset
    have hfm := odFallback_set _ ODDef.m200 hw.1
    simp only [ODDef.radius] at hfc hfm
    unfold GetCMProp_inwardWalk
    rw [hfc.2, hfm.2]
    exact hw.2
  · intro hz
    have hf := odFallback_unset _ ODDef.c200 hz
    simp only [ODDef.radius] at hf
    unfold GetCMProp_inwardWalk
    exact hf.2

theorem logStandIn_monotone : Monotone logStandIn := by
  intro a b h
  unfold logStandIn
  linarith

/-- Witness for C12: the one-particle group `c12Dense`, where the walk sets both radii from
the same particle. -/
theorem C12_r200c_le_r200m_witness :
    (0 : ℚ) < c12Opt.rhobg ∧ 0 < c12Opt.Omega_m ∧ c12Opt.Omega_m ≤ 1 ∧
      c12Dense.Pairwise (fun a b => axisRadius a ≤ axisRadius b) ∧
      c12DenseData.gR200c = 0 ∧ c12DenseData.gR200m = 0 ∧
      (odWalk logStandIn axisRadius (odThresholds logStandIn c12Opt) c12Dense.reverse
          c12DenseData.gmass c12DenseData).gR200c ≠ 0 ∧
      (((odWalk logStandIn axisRadius (odThresholds logStandIn c12Opt) c12Dense.reverse
            c12DenseData.gmass c12DenseData).gR200c ≠ 0 →
          (GetCMProp_inwardWalk logStandIn axisRadius (odThresholds logStandIn c12Opt)
              c12DenseData c12Dense).gR200c ≤
            (GetCMProp_inwardWalk logStandIn axisRadius (odThresholds logStandIn c12Opt)
              c12DenseData c12Dense).gR200m) ∧
        ((odWalk logStandIn axisRadius (odThresholds logStandIn c12Opt) c12Dense.reverse
            c12DenseData.gmass c12DenseData).gR200c = 0 →
          (GetCMProp_inwardWalk logStandIn axisRadius (odThresholds logStandIn c12Opt)
              c12DenseData c12Dense).gR200c =
            (odWalk logStandIn axisRadius (odThresholds logStandIn c12Opt) c12Dense.reverse
              c12DenseData.gmass c12DenseData).gsize)) :=
  ⟨by decide!, by decide!, by decide!, by decide!, by decide!, by decide!, by decide!,
    C12_r200c_le_r200m logStandIn axisRadius c12Opt c12DenseData c12Dense logStandIn_monotone
      (by decide!) (by decide!) (by decide!) (by decide!) (by decide!) (by decide!)⟩

/-- C12 fails as stated.  In the group `c12Part` only the inner sample exceeds the 200-mean
threshold and no sample exceeds the 200-critical one: `gR200m = 1` while `gR200c` falls back
to `gsize = 2`.  In the group `c12Dense` the single sample exceeds both thresholds and both
radii are `1`. -/
theorem C12_counterexample :
    ((∀ p ∈ c12Part, 0 < p.mass) ∧ c12Part.Pairwise (fun a b => axisRadius a ≤ axisRadius b) ∧
        0 < c12Opt.rhobg ∧ 0 < c12Opt.Omega_m ∧ c12Opt.Omega_m < 1 ∧
        (GetCMProp_overdensity logStandIn axisRadius c12Opt c12Data c12Part).gR200m = 1 ∧
        (GetCMProp_overdensity logStandIn axisRadius c12Opt c12Data c12Part).gR200c = 2) ∧
      ((∀ p ∈ c12Dense, 0 < p.mass) ∧
        (GetCMProp_overdensity logStandIn axisRadius c12Opt c12DenseData c12Dense).gR200m = 1 ∧
        (GetCMProp_overdensity logStandIn axisRadius c12Opt c12DenseData c12Dense).gR200c = 1) := by
  refine ⟨⟨by decide!, by decide!, by decide!, by decide!, by decide!, by decide!, by decide!⟩,
    by decide!, by decide!, by decide!⟩

/-! ## C13: interpolation in the outward walk -/

/-- The interpolation formulas in exact arithmetic (real `log` and `exp`), at a sample with
enclosed mass `E` and radius `rc` whose predecessor has radius `rprev`; `mj` is the mass of
the sample, so that `E - mj` is the mass enclosed at the predecessor, and `mprev` is the mass
of the predecessor, which the mass formula subtracts.  The log density of the interpolated
mass within the interpolated radius is the threshold plus
`(1 - t) * (log (E - mprev) - log (E - mj))` with `t = (val - rho2)/(rho - rho2)`: it is the
threshold when the two particles have the same mass. -/
theorem soInterp_log_density (E mprev mj rc rprev val c0 : ℝ) (hp : mprev < E)
    (hE : 0 < E) (hrc : 0 < rc) (hrp : 0 < rprev)
    (hne : Real.log E - 3 * Real.log rc - c0 ≠ Real.log (E - mj) - 3 * Real.log rprev - c0) :
    Real.log (soInterpM Real.log Real.exp E mprev (Real.log E - 3 * Real.log rc - c0)
          (Real.log (E - mj) - 3 * Real.log rprev - c0) val) -
        3 * Real.log (soInterpR Real.log Real.exp rc rprev (Real.log E - 3 * Real.log rc - c0)
          (Real.log (E - mj) - 3 * Real.log rprev - c0) val) - c0 =
      val + (1 - (val - (Real.log (E - mj) - 3 * Real.log rprev - c0)) /
          ((Real.log E - 3 * Real.log rc - c0) -
            (Real.log (E - mj) - 3 * Real.log rprev - c0))) *
        (Real.log (E - mprev) - Real.log (E - mj)) := by
  have hEp : 0 < E - mprev := by linarith
  unfold soInterpM soInterpR
  rw [Real.log_exp, Real.log_exp, Real.log_div (ne_of_gt hE) (ne_of_gt hEp),
    Real.log_div (ne_of_gt hrc) (ne_of_gt hrp)]
  generalize Real.log E = a at hne ⊢
  generalize Real.log (E - mj) = d at hne ⊢
  generalize Real.log (E - mprev) = b
  generalize Real.log rc = x at hne ⊢
  generalize Real.log rprev = y at hne ⊢
  have hd : a - 3 * x - c0 - (d - 3 * y - c0) ≠ 0 := sub_ne_zero.mpr hne
  have key : ∀ D : ℝ, D ≠ 0 → (a - b) / D * (val - (d - 3 * y - c0)) + b -
      3 * ((x - y) / D * (val - (d - 3 * y - c0)) + y) - c0 =
      val + (1 - (val - (d - 3 * y - c0)) / D) * (b - d) +
        (val - (d - 3 * y - c0)) / D * ((a - 3 * x - c0 - (d - 3 * y - c0)) - D) := by
    intro D hD
    field_simp
    ring
  rw [key _ hd]
  ring

/-- C13 at a failing input.  Five samples with enclosed masses `2, 3, 4, 16, 24` at radii
`1/4, 1/2, 3/4, 1, 2` and a threshold between the log densities of the last two samples
(`minnum = 4`, so the loop visits the last sample only).  Logarithms are taken with
`logTwoThree`, and `expReadBack` returns the logarithms of the interpolated values.  The
returned radius is the log-log interpolation of the claim.  The returned mass is the
interpolation from `EncMass-masses[indices[j-1]] = 24 - 12` instead of the mass `16` enclosed
at the previous sample, it differs from the interpolation of the claim, and the log density
computed from the returned mass and radius is not the threshold. -/
theorem C13_interpolated_mass_off_threshold :
    ∃ r, GetInclusiveMasses_soWalk logTwoThree expReadBack (odThresholds logTwoThree c13Opt) 0
        c13Samples c13Data = some r ∧
      logDensityFac logTwoThree 16 1 > (odThresholds logTwoThree c13Opt).m200val ∧
      logDensityFac logTwoThree 24 2 ≤ (odThresholds logTwoThree c13Opt).m200val ∧
      r.gR200c = specLogInterp (logTwoThree 1) (logTwoThree 2) (logDensityFac logTwoThree 16 1)
        (logDensityFac logTwoThree 24 2) (odThresholds logTwoThree c13Opt).m200val ∧
      r.gM200c = specLogInterp (logTwoThree (24 - 12)) (logTwoThree 24)
        (logDensityFac logTwoThree 16 1) (logDensityFac logTwoThree 24 2)
        (odThresholds logTwoThree c13Opt).m200val ∧
      r.gM200c ≠ specLogInterp (logTwoThree 16) (logTwoThree 24)
        (logDensityFac logTwoThree 16 1) (logDensityFac logTwoThree 24 2)
        (odThresholds logTwoThree c13Opt).m200val ∧
      r.gM200c - 3 * r.gR200c - logTwoThree (4 * M_PI / 3) ≠
        (odThresholds logTwoThree c13Opt).m200val := by
  have h : (match GetInclusiveMasses_soWalk logTwoThree expReadBack
        (odThresholds logTwoThree c13Opt) 0 c13Samples c13Data with
      | some r => decide (
          logDensityFac logTwoThree 16 1 > (odThresholds logTwoThree c13Opt).m200val ∧
          logDensityFac logTwoThree 24 2 ≤ (odThresholds logTwoThree c13Opt).m200val ∧
          r.gR200c = specLogInterp (logTwoThree 1) (logTwoThree 2)
            (logDensityFac logTwoThree 16 1) (logDensityFac logTwoThree 24 2)
            (odThresholds logTwoThree c13Opt).m200val ∧
          r.gM200c = specLogInterp (logTwoThree (24 - 12)) (logTwoThree 24)
            (logDensityFac logTwoThree 16 1) (logDensityFac logTwoThree 24 2)
            (odThresholds logTwoThree c13Opt).m200val ∧
          r.gM200c ≠ specLogInterp (logTwoThree 16) (logTwoThree 24)
            (logDensityFac logTwoThree 16 1) (logDensityFac logTwoThree 24 2)
            (odThresholds logTwoThree c13Opt).m200val ∧
          r.gM200c - 3 * r.gR200c - logTwoThree (4 * M_PI / 3) ≠
            (odThresholds logTwoThree c13Opt).m200val)
      | none => false) = true := by decide!
  revert h
  cases GetInclusiveMasses_soWalk logTwoThree expReadBack (odThresholds logTwoThree c13Opt) 0
      c13Samples c13Data with
  | some r => intro h; exact ⟨r, rfl, of_decide_eq_true h⟩
  | none => intro h; exact absurd h Bool.false_ne_true

/-! ## C14: the search ball reaches the 200-mean density -/

theorem M_PI_pos_real : (0 : ℝ) < ((M_PI : ℚ) : ℝ) := by
  have h : (0 : ℚ) < M_PI := by unfold M_PI; norm_num
  exact_mod_cast h

/-- In exact arithmetic the argument of `max` in `radfac` is the cube root of
`gMFOF/((4*M_PI/3)*gsize^3*200*rhobg)`. -/
theorem radfac_cube (gMFOF gsize rhobg : ℝ) (hM : 0 < gMFOF) (hs : 0 < gsize)
    (hr : 0 < rhobg) :
    Real.exp (1 / 3 * (Real.log gMFOF - 3 * Real.log gsize +
        (-Real.log (4 * ((M_PI : ℚ) : ℝ) / 3) - Real.log (rhobg * 200)))) ^ 3 =
      gMFOF / ((4 * ((M_PI : ℚ) : ℝ) / 3) * gsize ^ 3 * (200 * rhobg)) := by
  have hpi := M_PI_pos_real
  have h43 : (0 : ℝ) < 4 * ((M_PI : ℚ) : ℝ) / 3 := by positivity
  have h200 : (0 : ℝ) < rhobg * 200 := by positivity
  rw [← Real.exp_nat_mul]
  have harg : ((3 : ℕ) : ℝ) * (1 / 3 * (Real.log gMFOF - 3 * Real.log gsize +
      (-Real.log (4 * ((M_PI : ℚ) : ℝ) / 3) - Real.log (rhobg * 200)))) =
      Real.log gMFOF - (Real.log (4 * ((M_PI : ℚ) : ℝ) / 3) + Real.log (gsize ^ 3) +
        Real.log (200 * rhobg)) := by
    rw [Real.log_pow, mul_comm (200 : ℝ) rhobg]
    push_cast
    ring
  rw [harg, ← Real.log_mul (ne_of_gt h43) (by positivity),
    ← Real.log_mul (by positivity) (by positivity),
    ← Real.log_div (ne_of_gt hM) (by positivity), Real.exp_log (by positivity)]

/-- C14: in exact arithmetic (`log` and `exp` the real logarithm and exponential), for
`gMFOF > 0`, `gsize > 0`, `rhobg > 0` and `SphericalOverdensitySeachFac >= 1`, the search
radius `maxrdist[i]` of `GetInclusiveMasses` is at least `gsize`, and the FOF mass spread over
the search ball has density at most `200*rhobg`:
`gMFOF/((4*M_PI/3)*maxrdist[i]^3) <= 200*rhobg`. -/
theorem C14_search_ball_reaches_200mean (gMFOF gsize rhobg SearchFac : ℝ) (hM : 0 < gMFOF)
    (hs : 0 < gsize) (hr : 0 < rhobg) (hf : 1 ≤ SearchFac) :
    gsize ≤ GetInclusiveMasses_maxrdist Real.log Real.exp gMFOF gsize rhobg SearchFac ∧
      gMFOF / ((4 * ((M_PI : ℚ) : ℝ) / 3) *
          GetInclusiveMasses_maxrdist Real.log Real.exp gMFOF gsize rhobg SearchFac ^ 3) ≤
        200 * rhobg := by
  have hpi := M_PI_pos_real
  have h43 : (0 : ℝ) < 4 * ((M_PI : ℚ) : ℝ) / 3 := by positivity
  unfold GetInclusiveMasses_maxrdist
  set g := Real.exp (1 / 3 * (Real.log gMFOF - 3 * Real.log gsize +
        (-Real.log (4 * ((M_PI : ℚ) : ℝ) / 3) - Real.log (rhobg * 200)))) with hg
  have hcube : g ^ 3 = gMFOF / ((4 * ((M_PI : ℚ) : ℝ) / 3) * gsize ^ 3 * (200 * rhobg)) :=
    radfac_cube gMFOF gsize rhobg hM hs hr
  have hg0 : 0 < g := Real.exp_pos _
  have h1 : (1 : ℝ) ≤ max 1 g := le_max_left _ _
  have h2 : g ≤ max 1 g := le_max_right _ _
  have hfac : 1 ≤ SearchFac * max 1 g := by nlinarith
  have hr1 : gsize ≤ gsize * SearchFac * max 1 g := by
    rw [mul_assoc]
    nlinarith
  refine ⟨hr1, ?_⟩
  have hrpos : 0 < gsize * SearchFac * max 1 g := lt_of_lt_of_le hs hr1
  rw [div_le_iff₀ (by positivity)]
  have hg3 : g ^ 3 ≤ (SearchFac * max 1 g) ^ 3 := by
    apply pow_le_pow_left₀ (le_of_lt hg0)
    nlinarith
  have hM' : gMFOF = g ^ 3 * ((4 * ((M_PI : ℚ) : ℝ) / 3) * gsize ^ 3 * (200 * rhobg)) := by
    rw [hcube]
    field_simp
  have hpos : 0 < (4 * ((M_PI : ℚ) : ℝ) / 3) * gsize ^ 3 * (200 * rhobg) := by positivity
  calc gMFOF = g ^ 3 * ((4 * ((M_PI : ℚ) : ℝ) / 3) * gsize ^ 3 * (200 * rhobg)) := hM'
    _ ≤ (SearchFac * max 1 g) ^ 3 * ((4 * ((M_PI : ℚ) : ℝ) / 3) * gsize ^ 3 * (200 * rhobg)) :=
        mul_le_mul_of_nonneg_right hg3 (le_of_lt hpos)
    _ = 200 * rhobg * ((4 * ((M_PI : ℚ) : ℝ) / 3) * (gsize * SearchFac * max 1 g) ^ 3) := by
        ring

/-- Witness for C14: unit FOF mass, size, background density and search factor. -/
theorem C14_search_ball_reaches_200mean_witness :
    (0 : ℝ) < 1 ∧ (1 : ℝ) ≤ 1 ∧
      ((1 : ℝ) ≤ GetInclusiveMasses_maxrdist Real.log Real.exp 1 1 1 1 ∧
        (1 : ℝ) / ((4 * ((M_PI : ℚ) : ℝ) / 3) *
            GetInclusiveMasses_maxrdist Real.log Real.exp 1 1 1 1 ^ 3) ≤ 200 * 1) :=
  ⟨one_pos, le_refl 1,
    C14_search_ball_reaches_200mean 1 1 1 1 one_pos one_pos one_pos (le_refl 1)⟩

/-! ## C15: the mass guard of the maximum circular velocity -/

/-- Small-group branch: a sample is recorded only under the guard
`EncMass>=1.0/sqrt(numingroup[i])*gmass`. -/
theorem kinLoopSmall_guard (c : KinInput) (M R : ℚ) :
    ∀ (l : List Particle) (j : Nat) (s : KinState),
      ((s.gMmaxvel = M ∧ s.gRmaxvel = R) ∨ s.gMmaxvel ≥ 1 / c.sqrtF c.numingroup * c.gmass) →
      (((kinLoopSmall c l j s).gMmaxvel = M ∧ (kinLoopSmall c l j s).gRmaxvel = R) ∨
        (kinLoopSmall c l j s).gMmaxvel ≥ 1 / c.sqrtF c.numingroup * c.gmass) := by
  intro l
  induction l with
  | nil => intro j s h; exact h
  | cons p rest ih =>
    intro j s h
    rw [kinLoopSmall]
    apply ih
    unfold kinStepSmall
    dsimp only
    by_cases hc : circVel c (s.EncMass + p.mass) (c.Radius p) s.vc > s.gmaxvel ∧
        s.EncMass + p.mass ≥ 1 / c.sqrtF c.numingroup * c.gmass
    · simp only [if_pos hc]
      exact Or.inr hc.2
    · simp only [if_neg hc]
      exact h

theorem small_kinematics_guard (c : KinInput) (entry : KinState) (Part : List Particle) :
    ((GetCMProp_small_kinematics c entry Part).gMmaxvel = entry.gMmaxvel ∧
        (GetCMProp_small_kinematics c entry Part).gRmaxvel = entry.gRmaxvel) ∨
      (GetCMProp_small_kinematics c entry Part).gMmaxvel ≥
        1 / c.sqrtF c.numingroup * c.gmass := by
  unfold GetCMProp_small_kinematics
  exact kinLoopSmall_guard c _ _ Part 0 _ (Or.inl ⟨rfl, rfl⟩)

theorem rat_sqrt_one : Rat.sqrt 1 = 1 := by decide!

theorem rat_sqrt_four : Rat.sqrt 4 = 2 := by decide!

/-- In the group `c15Part n` no particle after the innermost changes the recorded maximum. -/
theorem c15_tail_keeps (n : Nat) :
    ∀ (m k j : Nat) (s : KinState), s.gmaxvel = 2 → s.EncMass = (k : ℚ) + 1 →
      (vmaxLoopLarge (c15Input n) (c15Tail m k) j s).gRmaxvel = s.gRmaxvel ∧
        (vmaxLoopLarge (c15Input n) (c15Tail m k) j s).gMmaxvel = s.gMmaxvel := by
  intro m
  induction m with
  | zero => intro k j s _ _; exact ⟨rfl, rfl⟩
  | succ m ih =>
    intro k j s hv hE
    rw [c15Tail, vmaxLoopLarge]
    have hk : (0 : ℚ) < (k : ℚ) + 2 := by positivity
    have hvc : circVel (c15Input n) (s.EncMass + (unitAt (k + 1) ((k : ℚ) + 2)).mass)
        ((c15Input n).Radius (unitAt (k + 1) ((k : ℚ) + 2))) s.vc = 1 := by
      have hmass : s.EncMass + (unitAt (k + 1) ((k : ℚ) + 2)).mass = (k : ℚ) + 2 := by
        rw [hE]; simp [unitAt]; ring
      have hrad : (c15Input n).Radius (unitAt (k + 1) ((k : ℚ) + 2)) = (k : ℚ) + 2 := rfl
      rw [hmass, hrad]
      unfold circVel
      rw [if_pos ⟨hk, hk⟩]
      have harg : (c15Input n).G * ((k : ℚ) + 2) * (c15Input n).MassValue / ((k : ℚ) + 2) = 1 := by
        simp only [c15Input]
        field_simp
      rw [harg]
      exact rat_sqrt_one
    have hno : ¬ (circVel (c15Input n) (s.EncMass + (unitAt (k + 1) ((k : ℚ) + 2)).mass)
        ((c15Input n).Radius (unitAt (k + 1) ((k : ℚ) + 2))) s.vc > s.gmaxvel) := by
      rw [hvc, hv]; norm_num
    have hstep := ih (k + 1) (j + 1)
      (vmaxStepLarge (c15Input n) s j (unitAt (k + 1) ((k : ℚ) + 2)))
      (by unfold vmaxStepLarge; dsimp only; rw [if_neg hno]; exact hv)
      (by unfold vmaxStepLarge; dsimp only; rw [hE]; simp [unitAt])
    rw [hstep.1, hstep.2]
    unfold vmaxStepLarge
    dsimp only
    rw [if_neg hno, if_neg hno]
    exact ⟨rfl, rfl⟩

/-- C15 on the large-group branch.  For every `n`, the group `c15Part n` of `n + 2` unit
masses (total mass `gmass = n + 2`) leaves the loop of lines 1279-1286 with the innermost
particle recorded: `gRmaxvel = 1/4` and `gMmaxvel = 1`, whatever the entry values.  The
recorded mass is below `gmass/sqrt(numingroup)`: in squared form,
`gMmaxvel^2 * numingroup < gmass^2`. -/
theorem C15_large_branch_records_unguarded_sample (n : Nat) (J200m0 J200c0 : Coordinate)
    (entry : KinState) :
    (GetCMProp_large_kinematics (c15Input n) J200m0 J200c0 entry (c15Part n)).gRmaxvel = 1 / 4 ∧
      (GetCMProp_large_kinematics (c15Input n) J200m0 J200c0 entry (c15Part n)).gMmaxvel = 1 ∧
      (GetCMProp_large_kinematics (c15Input n) J200m0 J200c0 entry (c15Part n)).gMmaxvel *
          (GetCMProp_large_kinematics (c15Input n) J200m0 J200c0 entry (c15Part n)).gMmaxvel *
          ((c15Input n).numingroup : ℚ) < (c15Input n).gmass * (c15Input n).gmass := by
  have hvc : ∀ v : ℚ, circVel (c15Input n) ((0 : ℚ) + (unitAt 0 (1 / 4)).mass)
      ((c15Input n).Radius (unitAt 0 (1 / 4))) v = 2 := by
    intro v
    have hmass : (0 : ℚ) + (unitAt 0 (1 / 4)).mass = 1 := by simp [unitAt]
    have hrad : (c15Input n).Radius (unitAt 0 (1 / 4)) = 1 / 4 := rfl
    rw [hmass, hrad]
    unfold circVel
    rw [if_pos ⟨by norm_num, by norm_num⟩]
    have harg : (c15Input n).G * 1 * (c15Input n).MassValue / (1 / 4) = 4 := by
      simp only [c15Input]; norm_num
    rw [harg]
    exact rat_sqrt_four
  have hrun : (GetCMProp_large_kinematics (c15Input n) J200m0 J200c0 entry (c15Part n)).gRmaxvel
        = 1 / 4 ∧
      (GetCMProp_large_kinematics (c15Input n) J200m0 J200c0 entry (c15Part n)).gMmaxvel = 1 := by
    unfold GetCMProp_large_kinematics
    rw [c15Part, vmaxLoopLarge]
    have hpos : (2 : ℚ) > 0 := by norm_num
    have htail := c15_tail_keeps n (n + 1) 0 1
      (vmaxStepLarge (c15Input n)
        { entry with
          gmaxvel := 0
          EncMass := 0
          gJ := ((unitAt 0 (1 / 4) :: c15Tail (n + 1) 0).foldl (angMomStepLarge (c15Input n))
            (⟨0, 0, 0⟩, J200m0, J200c0)).1
          gJ200m := ((unitAt 0 (1 / 4) :: c15Tail (n + 1) 0).foldl
            (angMomStepLarge (c15Input n)) (⟨0, 0, 0⟩, J200m0, J200c0)).2.1
          gJ200c := ((unitAt 0 (1 / 4) :: c15Tail (n + 1) 0).foldl
            (angMomStepLarge (c15Input n)) (⟨0, 0, 0⟩, J200m0, J200c0)).2.2 }
        0 (unitAt 0 (1 / 4)))
      (by unfold vmaxStepLarge; dsimp only; rw [hvc, if_pos hpos])
      (by unfold vmaxStepLarge; dsimp only; simp [unitAt])
    rw [htail.1, htail.2]
    unfold vmaxStepLarge
    dsimp only
    rw [hvc, if_pos hpos, if_pos hpos]
    exact ⟨rfl, by simp [unitAt]⟩
  refine ⟨hrun.1, hrun.2, ?_⟩
  rw [hrun.2]
  simp only [c15Input]
  push_cast
  nlinarith [(Nat.cast_nonneg n : (0 : ℚ) ≤ (n : ℚ))]

/-! ## C16: half-mass radius -/

theorem kinLoopSmall_half_keep (c : KinInput) :
    ∀ (l : List Particle) (j : Nat) (s : KinState), s.gRhalfmass ≠ 0 →
      (kinLoopSmall c l j s).gRhalfmass = s.gRhalfmass := by
  intro l
  induction l with
  | nil => intro j s _; rfl
  | cons p rest ih =>
    intro j s h
    have hstep : (kinStepSmall c s j p).gRhalfmass = s.gRhalfmass := by
      unfold kinStepSmall
      dsimp only
      rw [if_neg (fun hc => h hc.2)]
    rw [kinLoopSmall, ih _ _ (by rw [hstep]; exact h), hstep]

theorem kinLoopSmall_half (c : KinInput) (r : ℚ) (hr : r ≠ 0) :
    ∀ (l : List Particle) (j : Nat) (s : KinState), s.gRhalfmass = 0 →
      firstHalfMassRadius c.Radius c.gmass l s.EncMass = some r →
      (kinLoopSmall c l j s).gRhalfmass = r := by
  intro l
  induction l with
  | nil => intro j s _ h; simp [firstHalfMassRadius] at h
  | cons p rest ih =>
    intro j s h0 hspec
    rw [firstHalfMassRadius] at hspec
    rw [kinLoopSmall]
    by_cases hc : s.EncMass + p.mass > 1 / 2 * c.gmass
    · rw [if_pos hc] at hspec
      have hrad : c.Radius p = r := Option.some.inj hspec
      have hstep : (kinStepSmall c s j p).gRhalfmass = r := by
        unfold kinStepSmall
        dsimp only
        rw [if_pos ⟨hc, h0⟩, hrad]
      rw [kinLoopSmall_half_keep c rest _ _ (by rw [hstep]; exact hr), hstep]
    · rw [if_neg hc] at hspec
      have hstep : (kinStepSmall c s j p).gRhalfmass = 0 := by
        unfold kinStepSmall
        dsimp only
        rw [if_neg (fun h => hc h.1)]
        exact h0
      exact ih _ _ hstep hspec

theorem vmaxLoopLarge_half_keep (c : KinInput) :
    ∀ (l : List Particle) (j : Nat) (s : KinState), s.gRhalfmass ≠ 0 →
      (vmaxLoopLarge c l j s).gRhalfmass = s.gRhalfmass := by
  intro l
  induction l with
  | nil => intro j s _; rfl
  | cons p rest ih =>
    intro j s h
    have hstep : (vmaxStepLarge c s j p).gRhalfmass = s.gRhalfmass := by
      unfold vmaxStepLarge
      dsimp only
      rw [if_neg (fun hc => h hc.2)]
    rw [vmaxLoopLarge, ih _ _ (by rw [hstep]; exact h), hstep]

theorem vmaxLoopLarge_half (c : KinInput) (r : ℚ) (hr : r ≠ 0) :
    ∀ (l : List Particle) (j : Nat) (s : KinState), s.gRhalfmass = 0 →
      firstHalfMassRadius c.Radius c.gmass l s.EncMass = some r →
      (vmaxLoopLarge c l j s).gRhalfmass = r := by
  intro l
  induction l with
  | nil => intro j s _ h; simp [firstHalfMassRadius] at h
  | cons p rest ih =>
    intro j s h0 hspec
    rw [firstHalfMassRadius] at hspec
    rw [vmaxLoopLarge]
    by_cases hc : s.EncMass + p.mass > 1 / 2 * c.gmass
    · rw [if_pos hc] at hspec
      have hrad : c.Radius p = r := Option.some.inj hspec
      have hstep : (vmaxStepLarge c s j p).gRhalfmass = r := by
        unfold vmaxStepLarge
        dsimp only
        rw [if_pos ⟨hc, h0⟩, hrad]
      rw [vmaxLoopLarge_half_keep c rest _ _ (by rw [hstep]; exact hr), hstep]
    · rw [if_neg hc] at hspec
      have hstep : (vmaxStepLarge c s j p).gRhalfmass = 0 := by
        unfold vmaxStepLarge
        dsimp only
        rw [if_neg (fun h => hc h.1)]
        exact h0
      exact ih _ _ hstep hspec

/-- For particles of one mass `m > 0`, after `k` particles with `2*k <= N`, the first
particle at which the cumulative mass exceeds half of `N*m` is the one at index `N/2`. -/
theorem firstHalfMassRadius_equal (Radius : Particle → ℚ) (m : ℚ) (hm : 0 < m) (N : Nat) :
    ∀ (l : List Particle) (k : Nat), (∀ p ∈ l, p.mass = m) → N = k + l.length → 2 * k ≤ N →
      firstHalfMassRadius Radius ((N : ℚ) * m) l ((k : ℚ) * m) =
        (l.get? (N / 2 - k)).map Radius := by
  intro l
  induction l with
  | nil => intro k _ _ _; simp [firstHalfMassRadius]
  | cons p rest ih =>
    intro k hmass hN hk
    rw [firstHalfMassRadius, hmass p (List.mem_cons_self _ _)]
    by_cases hc : N < 2 * (k + 1)
    · have hgt : (k : ℚ) * m + m > 1 / 2 * ((N : ℚ) * m) := by
        have h1 : (N : ℚ) < 2 * ((k : ℚ) + 1) := by exact_mod_cast hc
        nlinarith
      rw [if_pos hgt]
      have hidx : N / 2 - k = 0 := by omega
      rw [hidx]
      rfl
    · have hle : ¬ ((k : ℚ) * m + m > 1 / 2 * ((N : ℚ) * m)) := by
        have h1 : 2 * ((k : ℚ) + 1) ≤ (N : ℚ) := by exact_mod_cast (not_lt.mp hc)
        intro h
        nlinarith
      rw [if_neg hle]
      have hE : (k : ℚ) * m + m = ((k + 1 : ℕ) : ℚ) * m := by push_cast; ring
      rw [hE, ih (k + 1) (fun q hq => hmass q (List.mem_cons_of_mem _ hq))
        (by simp only [List.length_cons] at hN; omega) (by omega)]
      have hidx : N / 2 - k = (N / 2 - (k + 1)) + 1 := by omega
      rw [hidx, List.get?_cons_succ]

/-- C16 (as amended).  `GetCMProp`, either branch: when `gRhalfmass` is `0` at entry and the
first particle, scanning outward, at which the cumulative enclosed mass exceeds half of
`gmass` has a non-zero radius `r`, the loop leaves `gRhalfmass = r`.  `GetInclusiveMasses`:
the radius of the particle at sorted index `numingroup/2` is the radius of that first
particle when all particles have one mass `m > 0` and `gmass` is their sum. -/
theorem C16_half_mass_radius (c : KinInput) (J200m0 J200c0 : Coordinate) (entry : KinState)
    (Part : List Particle) (r m : ℚ) (h0 : entry.gRhalfmass = 0) (hr : r ≠ 0)
    (hspec : firstHalfMassRadius c.Radius c.gmass Part 0 = some r) (hm : 0 < m) :
    (GetCMProp_small_kinematics c entry Part).gRhalfmass = r ∧
      (GetCMProp_large_kinematics c J200m0 J200c0 entry Part).gRhalfmass = r ∧
      ((∀ p ∈ Part, p.mass = m) →
        GetInclusiveMasses_gRhalfmass c.Radius Part =
          firstHalfMassRadius c.Radius (totalMass Part) Part 0) := by
  refine ⟨?_, ?_, ?_⟩
  · unfold GetCMProp_small_kinematics
    exact kinLoopSmall_half c r hr Part 0 _ h0 hspec
  · unfold GetCMProp_large_kinematics
    exact vmaxLoopLarge_half c r hr Part 0 _ h0 hspec
  · intro hmass
    have htot : totalMass Part = (Part.length : ℚ) * m := by
      unfold totalMass
      rw [List.map_congr_left (fun p hp => hmass p hp)]
      simp
    have h := firstHalfMassRadius_equal c.Radius m hm Part.length Part 0 hmass (by simp)
      (by omega)
    rw [htot]
    simp only [Nat.cast_zero, zero_mul, Nat.sub_zero] at h
    rw [h]
    rfl

/-- Witness for C16: three unit masses at radii `1, 2, 5`; the half-mass radius is `2`. -/
theorem C16_half_mass_radius_witness :
    zeroKinState.gRhalfmass = 0 ∧ (2 : ℚ) ≠ 0 ∧
      firstHalfMassRadius (axisInput 3 3).Radius (axisInput 3 3).gmass
        [unitAt 0 1, unitAt 1 2, unitAt 2 5] 0 = some 2 ∧ (0 : ℚ) < 1 ∧
      ((GetCMProp_small_kinematics (axisInput 3 3) zeroKinState
          [unitAt 0 1, unitAt 1 2, unitAt 2 5]).gRhalfmass = 2 ∧
        (GetCMProp_large_kinematics (axisInput 3 3) ⟨0, 0, 0⟩ ⟨0, 0, 0⟩ zeroKinState
          [unitAt 0 1, unitAt 1 2, unitAt 2 5]).gRhalfmass = 2 ∧
        ((∀ p ∈ [unitAt 0 1, unitAt 1 2, unitAt 2 5], p.mass = 1) →
          GetInclusiveMasses_gRhalfmass (axisInput 3 3).Radius
              [unitAt 0 1, unitAt 1 2, unitAt 2 5] =
            firstHalfMassRadius (axisInput 3 3).Radius
              (totalMass [unitAt 0 1, unitAt 1 2, unitAt 2 5])
              [unitAt 0 1, unitAt 1 2, unitAt 2 5] 0)) :=
  ⟨rfl, by norm_num, by decide!, by norm_num,
    C16_half_mass_radius (axisInput 3 3) ⟨0, 0, 0⟩ ⟨0, 0, 0⟩ zeroKinState
      [unitAt 0 1, unitAt 1 2, unitAt 2 5] 2 1 rfl (by norm_num) (by decide!) (by norm_num)⟩

/-- C16 fails as stated.  In the group `c16Part` (masses `10, 1, 1`, all positive) the first
particle at which the cumulative mass exceeds half of the total `12` is the innermost, at
radius `1`, while `GetInclusiveMasses` reports the radius `2` of the particle at index
`3/2 = 1`.  In the group `c16Centre` that first particle sits at the centre (radius `0`) and
both branches of `GetCMProp` report the radius `1` of the next particle. -/
theorem C16_counterexample :
    ((∀ p ∈ c16Part, 0 < p.mass) ∧ totalMass c16Part = 12 ∧
        firstHalfMassRadius axisRadius 12 c16Part 0 = some 1 ∧
        GetInclusiveMasses_gRhalfmass axisRadius c16Part = some 2) ∧
      ((∀ p ∈ c16Centre, 0 < p.mass) ∧ totalMass c16Centre = 4 ∧
        firstHalfMassRadius axisRadius 4 c16Centre 0 = some 0 ∧
        (GetCMProp_small_kinematics (axisInput 2 4) zeroKinState c16Centre).gRhalfmass = 1 ∧
        (GetCMProp_large_kinematics (axisInput 2 4) ⟨0, 0, 0⟩ ⟨0, 0, 0⟩ zeroKinState
          c16Centre).gRhalfmass = 1) := by
  refine ⟨⟨by decide!, by decide!, by decide!, by decide!⟩,
    by decide!, by decide!, by decide!, by decide!, by decide!⟩

/-! ## C17: angular momentum within the 200c and 200m radii -/

theorem filter_map_sum_cons (P : Particle → Prop) [DecidablePred P] (f : Particle → ℚ)
    (p : Particle) (l : List Particle) :
    (((p :: l).filter (fun q => P q)).map f).sum =
      (if P p then f p else 0) + ((l.filter (fun q => P q)).map f).sum := by
  by_cases h : P p
  · simp [List.filter_cons, h]
  · simp [List.filter_cons, h]

/-- Small-group branch: the loop adds to `gJ200m` and `gJ200c` the angular momenta of
exactly the particles inside the radius. -/
theorem kinLoopSmall_J200 (c : KinInput) :
    ∀ (l : List Particle) (j : Nat) (s : KinState),
      (kinLoopSmall c l j s).gJ200c = s.gJ200c.add (angMomWithin c c.gR200c l) ∧
        (kinLoopSmall c l j s).gJ200m = s.gJ200m.add (angMomWithin c c.gR200m l) := by
  intro l
  induction l with
  | nil =>
    intro j s
    simp [kinLoopSmall, angMomWithin, Coordinate.add]
  | cons p rest ih =>
    intro j s
    rw [kinLoopSmall, (ih (j + 1) (kinStepSmall c s j p)).1,
      (ih (j + 1) (kinStepSmall c s j p)).2]
    unfold kinStepSmall angMomWithin
    dsimp only
    simp only [filter_map_sum_cons (fun q => c.Radius q < c.gR200c),
      filter_map_sum_cons (fun q => c.Radius q < c.gR200m)]
    constructor
    · by_cases h : c.Radius p < c.gR200c
      · simp only [if_pos h, Coordinate.add, Coordinate.mk.injEq]
        refine ⟨by ring, by ring, by ring⟩
      · simp only [if_neg h, Coordinate.add, Coordinate.mk.injEq]
        refine ⟨by ring, by ring, by ring⟩
    · by_cases h : c.Radius p < c.gR200m
      · simp only [if_pos h, Coordinate.add, Coordinate.mk.injEq]
        refine ⟨by ring, by ring, by ring⟩
      · simp only [if_neg h, Coordinate.add, Coordinate.mk.injEq]
        refine ⟨by ring, by ring, by ring⟩

/-- Large-group branch: the x components are accumulated over the particles inside the
radius, the y and z components over all particles. -/
theorem angMomLarge_fold (c : KinInput) :
    ∀ (l : List Particle) (a : Coordinate × Coordinate × Coordinate),
      (l.foldl (angMomStepLarge c) a).2.1 =
          ⟨a.2.1.x + (angMomWithin c c.gR200m l).x,
           a.2.1.y + (l.map (fun p => (angMom c.gcmvel p).y)).sum,
           a.2.1.z + (l.map (fun p => (angMom c.gcmvel p).z)).sum⟩ ∧
        (l.foldl (angMomStepLarge c) a).2.2 =
          ⟨a.2.2.x + (angMomWithin c c.gR200c l).x,
           a.2.2.y + (l.map (fun p => (angMom c.gcmvel p).y)).sum,
           a.2.2.z + (l.map (fun p => (angMom c.gcmvel p).z)).sum⟩ := by
  intro l
  induction l with
  | nil => intro a; simp [angMomWithin]
  | cons p rest ih =>
    intro a
    rw [List.foldl_cons, (ih (angMomStepLarge c a p)).1, (ih (angMomStepLarge c a p)).2]
    unfold angMomStepLarge angMomWithin
    dsimp only
    simp only [filter_map_sum_cons (fun q => c.Radius q < c.gR200c),
      filter_map_sum_cons (fun q => c.Radius q < c.gR200m), List.map_cons, List.sum_cons,
      Coordinate.mk.injEq]
    constructor
    · by_cases h : c.Radius p < c.gR200m
      · simp only [if_pos h]
        refine ⟨by ring, by ring, by ring⟩
      · simp only [if_neg h]
        refine ⟨by ring, by ring, by ring⟩
    · by_cases h : c.Radius p < c.gR200c
      · simp only [if_pos h]
        refine ⟨by ring, by ring, by ring⟩
      · simp only [if_neg h]
        refine ⟨by ring, by ring, by ring⟩

theorem vmaxLoopLarge_J200 (c : KinInput) :
    ∀ (l : List Particle) (j : Nat) (s : KinState),
      (vmaxLoopLarge c l j s).gJ200c = s.gJ200c ∧ (vmaxLoopLarge c l j s).gJ200m = s.gJ200m := by
  intro l
  induction l with
  | nil => intro j s; exact ⟨rfl, rfl⟩
  | cons p rest ih =>
    intro j s
    rw [vmaxLoopLarge, (ih _ _).1, (ih _ _).2]
    exact ⟨rfl, rfl⟩

/-- C17 on the large-group branch.  For every slice and every initial content of the
uninitialised locals, only the x components of `gJ200c` and `gJ200m` are sums over the
particles inside the radius; the y and z components are sums over all particles of the
group, on top of the initial content.  For the group `c17Part`, even with the locals starting
at zero, `gJ200c` is `(0, -1, 0)` while the sum over the one particle with radius below
`gR200c` is `(0, 1/2, 0)`; the small-group branch returns that sum. -/
theorem C17_large_branch_J200_ungated (c : KinInput) (J200m0 J200c0 : Coordinate)
    (entry : KinState) (Part : List Particle) :
    ((GetCMProp_large_kinematics c J200m0 J200c0 entry Part).gJ200c =
        ⟨J200c0.x + (angMomWithin c c.gR200c Part).x,
         J200c0.y + (Part.map (fun p => (angMom c.gcmvel p).y)).sum,
         J200c0.z + (Part.map (fun p => (angMom c.gcmvel p).z)).sum⟩ ∧
      (GetCMProp_large_kinematics c J200m0 J200c0 entry Part).gJ200m =
        ⟨J200m0.x + (angMomWithin c c.gR200m Part).x,
         J200m0.y + (Part.map (fun p => (angMom c.gcmvel p).y)).sum,
         J200m0.z + (Part.map (fun p => (angMom c.gcmvel p).z)).sum⟩) ∧
      (GetCMProp_large_kinematics c17Input ⟨0, 0, 0⟩ ⟨0, 0, 0⟩ zeroKinState c17Part).gJ200c =
        ⟨0, -1, 0⟩ ∧
      angMomWithin c17Input c17Input.gR200c c17Part = ⟨0, 1 / 2, 0⟩ ∧
      (GetCMProp_small_kinematics c17Input zeroKinState c17Part).gJ200c = ⟨0, 1 / 2, 0⟩ := by
  refine ⟨?_, by decide!, by decide!, by decide!⟩
  unfold GetCMProp_large_kinematics
  rw [(vmaxLoopLarge_J200 c Part 0 _).1, (vmaxLoopLarge_J200 c Part 0 _).2]
  exact ⟨(angMomLarge_fold c Part _).2, (angMomLarge_fold c Part _).1⟩

/-! ## C18: fall-back of the concentration -/

/-- C18: with the branch constant `omppropnum` at least `100`, for every group with
`VmaxVvir2 <= 1.05` and for every group with fewer than `100` particles, `GetCMProp` does not
call `GetConcentration` and sets `cNFW` to `R/gRmaxvel`, where `R` is `gsize` when `gM200c`
is `0` and `gR200c` otherwise.  (The test `numingroup[i]>=100` exists in the small-group
branch only; the part on `VmaxVvir2 <= 1.05` holds for every `omppropnum`.) -/
theorem C18_concentration_fallback (GetConcentration : ConcData → ℚ → ℚ) (G : ℚ)
    (omppropnum numingroup : Nat) (p : ConcData) (homp : 100 ≤ omppropnum)
    (h : concVmaxVvir2 G p ≤ 105 / 100 ∨ numingroup < 100) :
    (GetCMProp_concentration GetConcentration G omppropnum numingroup p).calledGetConcentration
        = false ∧
      (GetCMProp_concentration GetConcentration G omppropnum numingroup p).cNFW =
        (if p.gM200c = 0 then p.gsize else p.gR200c) / p.gRmaxvel := by
  have hratio : concRatio p = (if p.gM200c = 0 then p.gsize else p.gR200c) / p.gRmaxvel := by
    unfold concRatio
    split <;> rfl
  unfold GetCMProp_concentration
  by_cases hsmall : numingroup < omppropnum
  · rw [if_pos hsmall]
    unfold GetCMProp_small_concentration
    by_cases hv : concVmaxVvir2 G p ≤ 105 / 100
    · rw [if_pos hv]
      exact ⟨rfl, hratio⟩
    · rw [if_neg hv]
      have hn : numingroup < 100 := h.resolve_left hv
      rw [if_neg (by omega)]
      exact ⟨rfl, hratio⟩
  · rw [if_neg hsmall]
    unfold GetCMProp_large_concentration
    have hv : concVmaxVvir2 G p ≤ 105 / 100 := by
      rcases h with hv | hn
      · exact hv
      · omega
    rw [if_pos hv]
    exact ⟨rfl, hratio⟩

/-- The part of C18 on `VmaxVvir2 <= 1.05` needs no assumption on `omppropnum`. -/
theorem concentration_fallback_low (GetConcentration : ConcData → ℚ → ℚ) (G : ℚ)
    (omppropnum numingroup : Nat) (p : ConcData) (hv : concVmaxVvir2 G p ≤ 105 / 100) :
    (GetCMProp_concentration GetConcentration G omppropnum numingroup p).calledGetConcentration
        = false ∧
      (GetCMProp_concentration GetConcentration G omppropnum numingroup p).cNFW =
        concRatio p := by
  unfold GetCMProp_concentration GetCMProp_small_concentration GetCMProp_large_concentration
  simp only [if_pos hv]
  split <;> exact ⟨rfl, rfl⟩

/-- Witness for C18: a group of `50` particles with `VmaxVvir2 = 4`, `omppropnum = 50000`. -/
theorem C18_concentration_fallback_witness :
    100 ≤ 50000 ∧ (concVmaxVvir2 1 c18Data ≤ 105 / 100 ∨ 50 < 100) ∧
      ((GetCMProp_concentration (fun _ _ => 0) 1 50000 50 c18Data).calledGetConcentration
          = false ∧
        (GetCMProp_concentration (fun _ _ => 0) 1 50000 50 c18Data).cNFW =
          (if c18Data.gM200c = 0 then c18Data.gsize else c18Data.gR200c) / c18Data.gRmaxvel) :=
  ⟨by decide, Or.inr (by decide),
    C18_concentration_fallback (fun _ _ => 0) 1 50000 50 c18Data (by decide)
      (Or.inr (by decide))⟩

/-! ## C20: binding energy of small groups -/

theorem pairPot_addPot_left (sqrtF : ℚ → ℚ) (G eps2 : ℚ) (a b : Particle) (x : ℚ) :
    pairPot sqrtF G eps2 (addPot a x) b = pairPot sqrtF G eps2 a b := rfl

theorem pairPot_addPot_right (sqrtF : ℚ → ℚ) (G eps2 : ℚ) (a b : Particle) (x : ℚ) :
    pairPot sqrtF G eps2 a (addPot b x) = pairPot sqrtF G eps2 a b := rfl

theorem pairPot_comm (sqrtF : ℚ → ℚ) (G eps2 : ℚ) (a b : Particle) :
    pairPot sqrtF G eps2 a b = pairPot sqrtF G eps2 b a := by
  unfold pairPot
  rw [dist2_comm a.pos b.pos, mul_comm a.mass b.mass]

theorem addPot_addPot (p : Particle) (x y : ℚ) : addPot (addPot p x) y = addPot p (x + y) := by
  unfold addPot
  simp [add_assoc]

theorem addPot_zero (p : Particle) : addPot p 0 = p := by
  unfold addPot
  simp

/-- The inner loop adds to `p` the pair terms with every later particle, and to each later
particle its pair term with `p`. -/
theorem bePairInner_eq (sqrtF : ℚ → ℚ) (G eps2 : ℚ) :
    ∀ (qs : List Particle) (p : Particle) (Pot : ℚ),
      (bePairInner sqrtF G eps2 p qs Pot).1 =
          addPot p ((qs.map (fun q => pairPot sqrtF G eps2 p q)).sum) ∧
        (bePairInner sqrtF G eps2 p qs Pot).2.1 =
          qs.map (fun q => addPot q (pairPot sqrtF G eps2 p q)) := by
  intro qs
  induction qs with
  | nil => intro p Pot; simp [bePairInner, addPot_zero]
  | cons q qs ih =>
    intro p Pot
    rw [bePairInner]
    dsimp only
    rw [(ih _ _).1, (ih _ _).2]
    simp only [pairPot_addPot_left, List.map_cons, List.sum_cons, addPot_addPot]
    exact ⟨trivial, trivial⟩

theorem get?_map_comm {α β : Type} (f : α → β) :
    ∀ (l : List α) (j : Nat), (l.map f).get? j = (l.get? j).map f := by
  intro l
  induction l with
  | nil => intro j; rfl
  | cons a l ih =>
    intro j
    cases j with
    | zero => rfl
    | succ j => simp only [List.map_cons, List.get?_cons_succ, ih]

theorem eraseIdx_map_comm {α β : Type} (f : α → β) :
    ∀ (l : List α) (j : Nat), (l.map f).eraseIdx j = (l.eraseIdx j).map f := by
  intro l
  induction l with
  | nil => intro j; rfl
  | cons a l ih =>
    intro j
    cases j with
    | zero => rfl
    | succ j => simp only [List.map_cons, List.eraseIdx_cons_succ, ih]

/-- After the double loop the particle at index `j` has gained the pair terms with all the
other particles of the slice. -/
theorem bePairOuter_get (sqrtF : ℚ → ℚ) (G eps2 : ℚ) :
    ∀ (n : Nat) (l : List Particle) (Pot : ℚ), n = l.length → ∀ j : Nat,
      (bePairOuter sqrtF G eps2 n l Pot).1.get? j =
        (l.get? j).map (fun x =>
          addPot x (((l.eraseIdx j).map (fun q => pairPot sqrtF G eps2 x q)).sum)) := by
  intro n
  induction n with
  | zero =>
    intro l Pot hl j
    have : l = [] := List.length_eq_zero.mp hl.symm
    subst this
    simp [bePairOuter]
  | succ n ih =>
    intro l Pot hl j
    cases l with
    | nil => simp at hl
    | cons p rest =>
      have hlen : n = rest.length := by simpa using hl
      rw [bePairOuter]
      dsimp only
      rw [(bePairInner_eq sqrtF G eps2 rest p Pot).1, (bePairInner_eq sqrtF G eps2 rest p Pot).2]
      cases j with
      | zero => simp
      | succ j =>
        rw [List.get?_cons_succ, List.get?_cons_succ,
          ih _ _ (by rw [List.length_map]; exact hlen) j, get?_map_comm, eraseIdx_map_comm]
        cases rest.get? j with
        | none => rfl
        | some y =>
          simp only [Option.map_some', List.map_map, List.eraseIdx_cons_succ, List.map_cons,
            List.sum_cons, addPot_addPot]
          congr 2
          rw [pairPot_comm sqrtF G eps2 p y]
          congr 2

theorem beEnergyLoop_eq (gcmvel : Coordinate) :
    ∀ (l : List Particle) (T Efrac : ℚ),
      (beEnergyLoop gcmvel l T Efrac).1 =
          l.map (fun p => { p with potential := beKinetic gcmvel p + p.potential }) ∧
        (beEnergyLoop gcmvel l T Efrac).2.2 =
          Efrac + ((l.map (fun p => ({ p with potential := beKinetic gcmvel p + p.potential } :
            Particle))).countP (fun p => p.potential < 0) : ℚ) := by
  intro l
  induction l with
  | nil => intro T Efrac; simp [beEnergyLoop]
  | cons p rest ih =>
    intro T Efrac
    rw [beEnergyLoop]
    dsimp only
    rw [(ih _ _).1, (ih _ _).2]
    refine ⟨rfl, ?_⟩
    rw [List.map_cons, List.countP_cons]
    by_cases h : beKinetic gcmvel p + p.potential < 0
    · simp only [if_pos h, decide_eq_true_eq]
      push_cast
      ring
    · simp only [if_neg h, decide_eq_true_eq]
      push_cast
      ring

/-- The two-body case of C20 for any `sqrt` that is exact on squares. -/
theorem twoBody_bound (sqrtF : ℚ → ℚ) (G m a v : ℚ) (hG : 0 < G) (hm : 0 < m) (ha : 0 < a)
    (horbit : v * v * (4 * a) = G * m) (hsqrt : ∀ x : ℚ, 0 ≤ x → sqrtF (x * x) = x) :
    (∀ p ∈ (GetBindingEnergy_small sqrtF G 0 ⟨0, 0, 0⟩ 0 0 0 (twoBody m a v)).Part,
        p.potential < 0) ∧
      (GetBindingEnergy_small sqrtF G 0 ⟨0, 0, 0⟩ 0 0 0 (twoBody m a v)).Efrac = 1 := by
  have hs1 : sqrtF (dist2 (⟨a, 0, 0⟩ : Coordinate) ⟨-a, 0, 0⟩ + 0 * 0) = 2 * a := by
    have : dist2 (⟨a, 0, 0⟩ : Coordinate) ⟨-a, 0, 0⟩ + 0 * 0 = (2 * a) * (2 * a) := by
      unfold dist2; ring
    rw [this]
    exact hsqrt (2 * a) (by positivity)
  have hv2 : v * v = G * m / (4 * a) := by
    rw [eq_div_iff (by positivity)]
    exact horbit
  have hE : 1 / 2 * m * (v * v) + (0 + -G * (m * m) * (1 / (2 * a))) < 0 := by
    rw [hv2]
    have h1 : 1 / 2 * m * (G * m / (4 * a)) + (0 + -G * (m * m) * (1 / (2 * a))) =
        -(3 * G * m * m / (8 * a)) := by
      field_simp
      ring
    rw [h1]
    have : 0 < 3 * G * m * m / (8 * a) := by positivity
    linarith
  have hk : ∀ (i : Int) (x w pot : ℚ), w * w = v * v →
      beKinetic ⟨0, 0, 0⟩ (addPot (orbitParticle i m x w) pot) = 1 / 2 * m * (v * v) := by
    intro i x w pot hw
    unfold beKinetic dist2 addPot orbitParticle
    dsimp only
    rw [← hw]
    ring
  have hp : pairPot sqrtF G (0 * 0) (orbitParticle 0 m a v) (orbitParticle 1 m (-a) (-v)) =
      -G * (m * m) * (1 / (2 * a)) := by
    unfold pairPot orbitParticle
    dsimp only
    rw [hs1]
  have hpot : ∀ (i : Int) (x w pot : ℚ), (addPot (orbitParticle i m x w) pot).potential =
      0 + pot := fun _ _ _ _ => rfl
  unfold GetBindingEnergy_small twoBody
  simp only [List.length_cons, List.length_nil, bePairOuter, bePairInner, beEnergyLoop, hp]
  rw [hk 0 a v _ rfl, hk 1 (-a) (-v) _ (by ring)]
  simp only [hpot]
  constructor
  · intro p hp'
    simp only [List.mem_cons, List.mem_singleton, List.not_mem_nil, or_false] at hp'
    rcases hp' with rfl | rfl
    · exact hE
    · exact hE
  · simp only [if_pos hE]
    norm_num

theorem rat_sqrt_sq (x : ℚ) (hx : 0 ≤ x) : Rat.sqrt (x * x) = x := by
  rw [Rat.sqrt_eq, abs_of_nonneg hx]

/-- C20: on the pairwise path of `GetBindingEnergy` for a small group whose particles enter
with zero potential and whose record enters with `Efrac = 0`, the energy stored for the
particle at index `j` is `0.5*m_j*|v_j - gcmvel|^2` plus the sum over the other particles of
the group of `-G*m_j*m_k/sqrt(|x_j - x_k|^2 + eps^2)`, and `Efrac` is the number of particles
with negative stored energy divided by `numingroup[i]`.  In particular, for two equal masses
`m` at `(a,0,0)` and `(-a,0,0)` on a circular orbit (`v*v*(4*a) = G*m`), with `eps = 0`, zero
reference velocity and a `sqrt` that is exact on squares, both stored energies are negative
and `Efrac = 1`. -/
theorem C20_binding_energy_small_groups (sqrtF : ℚ → ℚ) (G eps : ℚ) (gcmvel : Coordinate)
    (T0 Pot0 : ℚ) (Part : List Particle) (m a v : ℚ) (hpot : ∀ p ∈ Part, p.potential = 0)
    (hG : 0 < G) (hm : 0 < m) (ha : 0 < a) (horbit : v * v * (4 * a) = G * m)
    (hsqrt : ∀ x : ℚ, 0 ≤ x → sqrtF (x * x) = x) :
    (∀ (j : Nat) (p : Particle), Part.get? j = some p →
        ∃ p', (GetBindingEnergy_small sqrtF G eps gcmvel T0 Pot0 0 Part).Part.get? j = some p' ∧
          p'.potential = 1 / 2 * p.mass * dist2 p.vel gcmvel +
            ((Part.eraseIdx j).map (fun q =>
              -G * p.mass * q.mass / sqrtF (dist2 p.pos q.pos + eps * eps))).sum) ∧
      (GetBindingEnergy_small sqrtF G eps gcmvel T0 Pot0 0 Part).Efrac =
        ((GetBindingEnergy_small sqrtF G eps gcmvel T0 Pot0 0 Part).Part.countP
          (fun p => p.potential < 0) : ℚ) / (Part.length : ℚ) ∧
      (∀ p ∈ (GetBindingEnergy_small sqrtF G 0 ⟨0, 0, 0⟩ 0 0 0 (twoBody m a v)).Part,
        p.potential < 0) ∧
      (GetBindingEnergy_small sqrtF G 0 ⟨0, 0, 0⟩ 0 0 0 (twoBody m a v)).Efrac = 1 := by
  have htwo := twoBody_bound sqrtF G m a v hG hm ha horbit hsqrt
  refine ⟨?_, ?_, htwo.1, htwo.2⟩
  · intro j p hj
    unfold GetBindingEnergy_small
    dsimp only
    rw [(beEnergyLoop_eq gcmvel _ T0 0).1, get?_map_comm,
      bePairOuter_get sqrtF G (eps * eps) Part.length Part Pot0 rfl j, hj]
    refine ⟨_, rfl, ?_⟩
    dsimp only [Option.map_some']
    have h0 : p.potential = 0 := hpot p (List.get?_mem hj)
    have hsum : ((Part.eraseIdx j).map (fun q => pairPot sqrtF G (eps * eps) p q)).sum =
        ((Part.eraseIdx j).map (fun q =>
          -G * p.mass * q.mass / sqrtF (dist2 p.pos q.pos + eps * eps))).sum := by
      congr 1
      apply List.map_congr_left
      intro q _
      unfold pairPot
      ring
    show beKinetic gcmvel p + (p.potential + _) = _
    rw [h0, hsum, zero_add]
    rfl
  · unfold GetBindingEnergy_small
    dsimp only
    rw [(beEnergyLoop_eq gcmvel _ T0 0).2, (beEnergyLoop_eq gcmvel _ T0 0).1, zero_add]

/-- Witness for C20: two particles of mass `4` at `x = 1` and `x = -1` with speeds `1`,
`G = 1`, and the rational square root. -/
theorem C20_binding_energy_small_groups_witness :
    (∀ p ∈ twoBody 4 1 1, p.potential = 0) ∧ (1 : ℚ) * 1 * (4 * 1) = 1 * 4 ∧
      ((∀ (j : Nat) (p : Particle), (twoBody 4 1 1).get? j = some p →
          ∃ p', (GetBindingEnergy_small Rat.sqrt 1 0 ⟨0, 0, 0⟩ 0 0 0 (twoBody 4 1 1)).Part.get? j
              = some p' ∧
            p'.potential = 1 / 2 * p.mass * dist2 p.vel ⟨0, 0, 0⟩ +
              (((twoBody 4 1 1).eraseIdx j).map (fun q =>
                -1 * p.mass * q.mass / Rat.sqrt (dist2 p.pos q.pos + 0 * 0))).sum) ∧
        (GetBindingEnergy_small Rat.sqrt 1 0 ⟨0, 0, 0⟩ 0 0 0 (twoBody 4 1 1)).Efrac =
          ((GetBindingEnergy_small Rat.sqrt 1 0 ⟨0, 0, 0⟩ 0 0 0 (twoBody 4 1 1)).Part.countP
            (fun p => p.potential < 0) : ℚ) / ((twoBody 4 1 1).length : ℚ) ∧
        (∀ p ∈ (GetBindingEnergy_small Rat.sqrt 1 0 ⟨0, 0, 0⟩ 0 0 0 (twoBody 4 1 1)).Part,
          p.potential < 0) ∧
        (GetBindingEnergy_small Rat.sqrt 1 0 ⟨0, 0, 0⟩ 0 0 0 (twoBody 4 1 1)).Efrac = 1) :=
  ⟨by decide!, by norm_num,
    C20_binding_energy_small_groups Rat.sqrt 1 0 ⟨0, 0, 0⟩ 0 0 (twoBody 4 1 1) 4 1 1
      (by decide!) (by norm_num) (by norm_num) (by norm_num) (by norm_num) rat_sqrt_sq⟩

/-! ## C27: what `CopyMasses` transfers -/

/-- C27 fails on the 500-critical definition.  `CopyMasses` leaves `gM500c` and `gR500c` of
the new record as they were, for every pair of records.  For the field halo `c27New` in
inclusive mode, whose old record `c27Old` holds non-zero values for all five definitions, the
record after `CopyMasses` and the overdensity stage of `GetCMProp` (whose walk is skipped for
this halo) has the other four definitions as in the old record and `gM500c = gR500c = 0`. -/
theorem C27_CopyMasses_drops_500c (pold pnew : PropData) (logF : ℚ → ℚ)
    (Radius : Particle → ℚ) (Part : List Particle) :
    ((CopyMasses_record pold pnew).gM500c = pnew.gM500c ∧
        (CopyMasses_record pold pnew).gR500c = pnew.gR500c) ∧
      c27Old.gM500c ≠ 0 ∧ c27Old.gR500c ≠ 0 ∧
      (∀ r ∈ (CopyMasses 1 [zeroPropData, c27Old] [zeroPropData, c27New]).get? 1,
        (GetCMProp_overdensity logF Radius c27Opt r Part).gM500c = 0 ∧
          (GetCMProp_overdensity logF Radius c27Opt r Part).gR500c = 0 ∧
          (GetCMProp_overdensity logF Radius c27Opt r Part).gR200c = c27Old.gR200c ∧
          (GetCMProp_overdensity logF Radius c27Opt r Part).gR200m = c27Old.gR200m ∧
          (GetCMProp_overdensity logF Radius c27Opt r Part).gRvir = c27Old.gRvir ∧
          (GetCMProp_overdensity logF Radius c27Opt r Part).gRBN98 = c27Old.gRBN98) ∧
      ((CopyMasses 1 [zeroPropData, c27Old] [zeroPropData, c27New]).get? 1).isSome = true := by
  refine ⟨⟨rfl, rfl⟩, by decide!, by decide!, ?_, by decide!⟩
  intro r hr
  have hr' : r = CopyMasses_record c27Old c27New := by
    have h : (CopyMasses 1 [zeroPropData, c27Old] [zeroPropData, c27New]).get? 1 =
        some (CopyMasses_record c27Old c27New) := by decide!
    rw [h] at hr
    exact (Option.mem_some_iff.mp hr).symm
  subst hr'
  have hgate : ¬ odGate c27Opt (CopyMasses_record c27Old c27New) := by
    unfold odGate; decide!
  unfold GetCMProp_overdensity
  rw [if_neg hgate]
  decide!

/-! ## C29: index safety of the outward walk -/

theorem soMinnum_le_iff (HaloMinSize n : Nat) :
    soMinnum HaloMinSize n ≤ n ↔ HaloMinSize / 20 + 4 ≤ n := by
  unfold soMinnum
  constructor
  · intro h
    exact le_trans (le_max_right _ _) h
  · intro h
    exact max_le (Nat.div_le_self n 20) h

theorem sortSamples_length (samples : List (ℚ × ℚ)) :
    (sortSamples samples).length = samples.length := by
  unfold sortSamples
  exact List.length_insertionSort _ samples

/-- C29 (as amended): for every ball-query result whose size `n` is at least
`int(0.05*HaloMinSize + 4)`, the start index satisfies `minnum <= n`, every position `k` at
which the outward walk reads `radii[indices[k]]` or `masses[indices[k]]` has `k < n`, and
the walk returns a record. -/
theorem C29_so_walk_reads_in_range (logF expF : ℚ → ℚ) (th : ODThresholds)
    (HaloMinSize : Nat) (samples : List (ℚ × ℚ)) (pd : PropData)
    (hn : HaloMinSize / 20 + 4 ≤ samples.length) :
    soMinnum HaloMinSize samples.length ≤ samples.length ∧
      (∀ k ∈ soReads HaloMinSize samples.length, k < samples.length) ∧
      (GetInclusiveMasses_soWalk logF expF th HaloMinSize samples pd).isSome = true := by
  have hmin : soMinnum HaloMinSize samples.length ≤ samples.length :=
    (soMinnum_le_iff _ _).mpr hn
  have h4 : 4 ≤ soMinnum HaloMinSize samples.length := by
    unfold soMinnum
    exact le_trans (Nat.le_add_left 4 _) (le_max_right _ _)
  refine ⟨hmin, ?_, ?_⟩
  · intro k hk
    unfold soReads at hk
    simp only [List.mem_append, List.mem_range, List.mem_singleton, List.mem_map] at hk
    rcases hk with ((hk | hk) | ⟨d, hd, rfl⟩) | ⟨d, hd, rfl⟩
    · omega
    · omega
    · omega
    · omega
  · unfold GetInclusiveMasses_soWalk
    have hne : ((sortSamples samples).take (soMinnum HaloMinSize samples.length)) ≠ [] := by
      intro h
      have hl := congrArg List.length h
      rw [List.length_take, sortSamples_length] at hl
      simp only [List.length_nil] at hl
      omega
    cases hlast : ((sortSamples samples).take (soMinnum HaloMinSize samples.length)).getLast?
      with
    | none => exact absurd (List.getLast?_eq_none_iff.mp hlast) hne
    | some last =>
      dsimp only
      rw [if_pos hmin]
      rfl

/-- Witness for C29: the five samples of `c13Samples` with `HaloMinSize = 0`. -/
theorem C29_so_walk_reads_in_range_witness :
    0 / 20 + 4 ≤ c13Samples.length ∧
      (soMinnum 0 c13Samples.length ≤ c13Samples.length ∧
        (∀ k ∈ soReads 0 c13Samples.length, k < c13Samples.length) ∧
        (GetInclusiveMasses_soWalk logTwoThree expReadBack (odThresholds logTwoThree c13Opt) 0
          c13Samples c13Data).isSome = true) :=
  ⟨by decide, C29_so_walk_reads_in_range logTwoThree expReadBack
    (odThresholds logTwoThree c13Opt) 0 c13Samples c13Data (by decide)⟩

/-- C29 fails as stated.  For an empty ball-query result (`n = 0`) and `HaloMinSize = 20`
the start index is `minnum = 5 > n`, line 2184 reads `masses[indices[0]]` and line 2185
reads `radii[indices[4]]`, both outside the empty vectors; the walk has no result. -/
theorem C29_counterexample :
    soMinnum 20 ([] : List (ℚ × ℚ)).length = 5 ∧
      ¬ soMinnum 20 ([] : List (ℚ × ℚ)).length ≤ ([] : List (ℚ × ℚ)).length ∧
      0 ∈ soReads 20 ([] : List (ℚ × ℚ)).length ∧
      4 ∈ soReads 20 ([] : List (ℚ × ℚ)).length ∧
      GetInclusiveMasses_soWalk logStandIn expStandIn (odThresholds logStandIn c10Opt) 20 []
        zeroPropData = none := by
  refine ⟨by decide, by decide, by decide, by decide, by decide!⟩

/-! ## C23: round trip of the potential-reference step -/

theorem mapFrom_tag_pids (l : List Particle) :
    ∀ i : Nat, ((mapFrom tagPID i l).map (fun p => p.pid)).Pairwise (fun a b => a < b) ∧
      ∀ a ∈ (mapFrom tagPID i l).map (fun p => p.pid), (i : Int) ≤ a := by
  induction l with
  | nil => intro i; simp [mapFrom]
  | cons p rest ih =>
    intro i
    rw [mapFrom, List.map_cons]
    have h := ih (i + 1)
    refine ⟨List.pairwise_cons.mpr ⟨?_, h.1⟩, ?_⟩
    · intro a ha
      have := h.2 a ha
      simp only [tagPID]
      push_cast at this
      omega
    · intro a ha
      rcases List.mem_cons.mp ha with rfl | ha
      · simp [tagPID]
      · have := h.2 a ha
        push_cast at this
        omega

theorem eq_of_perm_of_strict_pid (A B : List Particle) (hperm : A.Perm B)
    (hA : A.Sorted (fun a b => a.pid ≤ b.pid))
    (hB : (B.map (fun p => p.pid)).Pairwise (fun a b => a < b)) : A = B := by
  haveI : IsAntisymm Particle (fun a b => a.pid < b.pid) :=
    ⟨fun a b h1 h2 => absurd h1 (not_lt.mpr (le_of_lt h2))⟩
  have hndB : (B.map (fun p => p.pid)).Nodup := hB.imp (fun h => ne_of_lt h)
  have hnd : (A.map (fun p => p.pid)).Nodup :=
    ((hperm.map (fun p : Particle => p.pid)).nodup_iff).mpr hndB
  have hA1 : (A.map (fun p => p.pid)).Pairwise (fun a b => a ≤ b) := List.pairwise_map.mpr hA
  have hA2 := pairwise_lt_of_le_of_nodup _ hA1 hnd
  exact List.eq_of_perm_of_sorted hperm (List.pairwise_map.mp hA2) (List.pairwise_map.mp hB)

theorem addPos_shiftBy (c : Coordinate) (p : Particle) : addPos c (shiftBy c p) = p := by
  unfold addPos shiftBy
  cases p with
  | mk id pid type pos vel mass potential =>
    cases pos with
    | mk x y z => simp

/-- Restoring the stored PIDs and shifting back undoes the tagging and the shift. -/
theorem restore_tagged (c : Coordinate) (l : List Particle) :
    ∀ i : Nat, (List.zipWith restorePID ((mapFrom tagPID i l).map (shiftBy c))
      (l.map (fun p => p.pid))).map (addPos c) = l := by
  induction l with
  | nil => intro i; rfl
  | cons p rest ih =>
    intro i
    rw [mapFrom, List.map_cons, List.map_cons, List.zipWith_cons_cons, List.map_cons, ih (i + 1)]
    congr 1
    have h : restorePID (shiftBy c (tagPID i p)) p.pid = shiftBy c p := by
      unfold restorePID shiftBy tagPID
      rfl
    rw [h, addPos_shiftBy]

theorem mapFrom_length (f : Nat → Particle → Particle) (l : List Particle) :
    ∀ i : Nat, (mapFrom f i l).length = l.length := by
  induction l with
  | nil => intro i; rfl
  | cons p rest ih => intro i; rw [mapFrom, List.length_cons, List.length_cons, ih]

theorem potMinIndex_lt :
    ∀ (l : List Particle) (j : Nat) (potmin : ℚ) (ipotmin : Nat), ipotmin < j →
      potMinIndex l j potmin ipotmin < j + l.length := by
  intro l
  induction l with
  | nil => intro j potmin ipotmin h; simpa [potMinIndex] using h
  | cons p rest ih =>
    intro j potmin ipotmin h
    rw [potMinIndex, List.length_cons]
    split
    · have := ih (j + 1) p.potential j (Nat.lt_succ_self j)
      omega
    · have := ih (j + 1) potmin ipotmin (Nat.lt_succ_of_lt h)
      omega

theorem potMinIndex_lt_length (p : Particle) (rest : List Particle) (potmin : ℚ) :
    potMinIndex (p :: rest) 0 potmin 0 < (p :: rest).length := by
  rw [potMinIndex, List.length_cons]
  split
  · have := potMinIndex_lt rest (0 + 1) p.potential 0 Nat.zero_lt_one
    omega
  · have := potMinIndex_lt rest (0 + 1) potmin 0 Nat.zero_lt_one
    omega

/-- The slice the step leaves, whenever it has a result. -/
theorem potRefStep_part (radSort pidSort : List Particle → List Particle) (Npotref : Int)
    (fracpotref : ℚ) (slice after : List Particle) (hs : PotRefSorts radSort pidSort)
    (r : PotRefResult)
    (h : potRefStep radSort pidSort Npotref fracpotref slice after = some r) :
    r.Part = slice := by
  unfold potRefStep at h
  cases hfirst : (slice ++ after).head? with
  | none => rw [hfirst] at h; exact absurd h (by simp)
  | some first =>
    rw [hfirst] at h
    dsimp only at h
    cases hmin : (slice ++ after).get? (potMinIndex slice 0 first.potential 0) with
    | none => rw [hmin] at h; exact absurd h (by simp)
    | some pmin =>
      rw [hmin] at h
      dsimp only at h
      split at h
      · have hr := Option.some.inj h
        rw [← hr]
        dsimp only
        have hX : pidSort (radSort ((mapFrom tagPID 0 slice).map (shiftBy pmin.pos))) =
            (mapFrom tagPID 0 slice).map (shiftBy pmin.pos) := by
          apply eq_of_perm_of_strict_pid
          · exact ((hs.2 _).1).trans (hs.1 _)
          · exact (hs.2 _).2
          · rw [List.map_map]
            exact (mapFrom_tag_pids slice 0).1
        rw [hX]
        exact restore_tagged pmin.pos slice 0
      · exact absurd h (by simp)

/-- C23: the potential-reference step of `GetBindingEnergy`, for every non-empty group and
whatever permutations the two sorts return (the sort back being in PID order), leaves the
slice of the group as it found it: the same particles in the same order, each with its
original PID and, in exact arithmetic, its original position.  The step has a result
whenever the `npot` particles it averages lie in the particle buffer. -/
theorem C23_potref_round_trip (radSort pidSort : List Particle → List Particle)
    (Npotref : Int) (fracpotref : ℚ) (slice after : List Particle)
    (hs : PotRefSorts radSort pidSort) (hne : slice ≠ []) :
    (∀ r, potRefStep radSort pidSort Npotref fracpotref slice after = some r →
        r.Part = slice) ∧
      ((potRefNpot Npotref fracpotref slice.length).toNat ≤ slice.length + after.length →
        ∃ r, potRefStep radSort pidSort Npotref fracpotref slice after = some r ∧
          r.Part = slice) := by
  refine ⟨fun r h => potRefStep_part radSort pidSort Npotref fracpotref slice after hs r h, ?_⟩
  intro hn
  have hsome : (potRefStep radSort pidSort Npotref fracpotref slice after).isSome = true := by
    cases slice with
    | nil => exact absurd rfl hne
    | cons p rest =>
      unfold potRefStep
      rw [List.cons_append, List.head?_cons]
      dsimp only
      have hlt := potMinIndex_lt_length p rest p.potential
      cases hmin : (p :: (rest ++ after)).get? (potMinIndex (p :: rest) 0 p.potential 0) with
      | none =>
        have := List.get?_eq_none.mp hmin
        simp only [List.length_cons, List.length_append] at this hlt
        omega
      | some pmin =>
        dsimp only
        have hlen : ((radSort ((mapFrom tagPID 0 (p :: rest)).map (shiftBy pmin.pos))) ++
            after).length = (p :: rest).length + after.length := by
          rw [List.length_append, (hs.1 _).length_eq, List.length_map, mapFrom_length]
        rw [if_pos (by rw [hlen]; exact hn)]
        rfl
  cases hres : potRefStep radSort pidSort Npotref fracpotref slice after with
  | none => rw [hres] at hsome; exact absurd hsome (by simp)
  | some r => exact ⟨r, rfl, potRefStep_part radSort pidSort Npotref fracpotref slice after hs r hres⟩

theorem potRefSorts_standIn : PotRefSorts sortByRadius sortByPID :=
  ⟨sortByRadius_perm, fun l => sortByPID_isPIDSortOf l⟩

/-- Witness for C23: the slice `c23Part` with `Npotref = 2`, `fracpotref = 1/10` and the
executable sorts. -/
theorem C23_potref_round_trip_witness :
    PotRefSorts sortByRadius sortByPID ∧ c23Part ≠ [] ∧
      (potRefNpot 2 (1 / 10) c23Part.length).toNat ≤ c23Part.length ∧
      ((∀ r, potRefStep sortByRadius sortByPID 2 (1 / 10) c23Part [] = some r →
          r.Part = c23Part) ∧
        ((potRefNpot 2 (1 / 10) c23Part.length).toNat ≤ c23Part.length + ([] : List Particle).length →
          ∃ r, potRefStep sortByRadius sortByPID 2 (1 / 10) c23Part [] = some r ∧
            r.Part = c23Part)) :=
  ⟨potRefSorts_standIn, by decide, by decide!,
    C23_potref_round_trip sortByRadius sortByPID 2 (1 / 10) c23Part [] potRefSorts_standIn
      (by decide)⟩

/-! ## C30: the particles averaged by the potential-reference step -/

theorem get?_append_lt {α : Type} (l₁ l₂ : List α) (n : Nat) (h : n < l₁.length) :
    (l₁ ++ l₂).get? n = l₁.get? n := by
  simp only [List.get?_eq_getElem?]
  exact List.getElem?_append_left h

theorem truncInt_le_of_le (q : ℚ) (N : Nat) (h0 : 0 ≤ q) (h1 : q ≤ (N : ℚ)) :
    truncInt q ≤ (N : Int) := by
  unfold truncInt
  rw [if_pos h0]
  have h := Int.floor_le q
  have h2 : ((Int.floor q : Int) : ℚ) ≤ ((N : Int) : ℚ) := by
    push_cast
    exact le_trans h h1
  exact_mod_cast h2

theorem potRefNpot_le (Npotref : Int) (fracpotref : ℚ) (N : Nat) (hN : Npotref ≤ (N : Int))
    (h0 : 0 ≤ fracpotref) (h1 : fracpotref ≤ 1) : potRefNpot Npotref fracpotref N ≤ (N : Int) := by
  unfold potRefNpot
  apply max_le hN
  apply truncInt_le_of_le
  · exact mul_nonneg h0 (Nat.cast_nonneg N)
  · have hn : (0 : ℚ) ≤ (N : ℚ) := Nat.cast_nonneg N
    nlinarith

/-- C30 (as amended): for every non-empty group with `Npotref <= numingroup[i]` and
`0 <= fracpotref <= 1`, `npot = max(Npotref, int(fracpotref*numingroup[i]))` satisfies
`npot <= numingroup[i]`, and the potential-reference step reads no particle outside the
slice of the group: its result (slice, `gcm`, `gcmvel`) is the same whatever follows the
slice in the particle buffer. -/
theorem C30_potref_reads_own_group (radSort pidSort : List Particle → List Particle)
    (Npotref : Int) (fracpotref : ℚ) (slice after : List Particle)
    (hs : PotRefSorts radSort pidSort) (hne : slice ≠ [])
    (hN : Npotref ≤ (slice.length : Int)) (h0 : 0 ≤ fracpotref) (h1 : fracpotref ≤ 1) :
    potRefNpot Npotref fracpotref slice.length ≤ (slice.length : Int) ∧
      potRefStep radSort pidSort Npotref fracpotref slice after =
        potRefStep radSort pidSort Npotref fracpotref slice [] := by
  have hnpot := potRefNpot_le Npotref fracpotref slice.length hN h0 h1
  refine ⟨hnpot, ?_⟩
  have hto : (potRefNpot Npotref fracpotref slice.length).toNat ≤ slice.length := by omega
  cases slice with
  | nil => exact absurd rfl hne
  | cons p rest =>
    unfold potRefStep
    rw [List.cons_append, List.head?_cons, List.cons_append, List.head?_cons]
    dsimp only
    have hlt := potMinIndex_lt_length p rest p.potential
    have hget : (p :: (rest ++ after)).get? (potMinIndex (p :: rest) 0 p.potential 0) =
        (p :: (rest ++ [])).get? (potMinIndex (p :: rest) 0 p.potential 0) := by
      rw [← List.cons_append, ← List.cons_append, get?_append_lt _ _ _ hlt, get?_append_lt _ _ _ hlt]
    rw [hget]
    cases (p :: (rest ++ [])).get? (potMinIndex (p :: rest) 0 p.potential 0) with
    | none => rfl
    | some pmin =>
      dsimp only
      have hlen : (radSort ((mapFrom tagPID 0 (p :: rest)).map (shiftBy pmin.pos))).length =
          (p :: rest).length := by
        rw [(hs.1 _).length_eq, List.length_map, mapFrom_length]
      have hle : (potRefNpot Npotref fracpotref (p :: rest).length).toNat ≤
          (radSort ((mapFrom tagPID 0 (p :: rest)).map (shiftBy pmin.pos))).length := by
        rw [hlen]; exact hto
      rw [if_pos (by rw [List.length_append]; omega),
        if_pos (by rw [List.length_append]; omega),
        List.take_append_of_le_length hle, List.take_append_of_le_length hle]

/-- Witness for C30: the slice `c23Part` of three particles with `Npotref = 2` and
`fracpotref = 1/10`. -/
theorem C30_potref_reads_own_group_witness :
    PotRefSorts sortByRadius sortByPID ∧ c23Part ≠ [] ∧ (2 : Int) ≤ (c23Part.length : Int) ∧
      (0 : ℚ) ≤ 1 / 10 ∧ (1 / 10 : ℚ) ≤ 1 ∧
      (potRefNpot 2 (1 / 10) c23Part.length ≤ (c23Part.length : Int) ∧
        potRefStep sortByRadius sortByPID 2 (1 / 10) c23Part [movingAt 9 1 6] =
          potRefStep sortByRadius sortByPID 2 (1 / 10) c23Part []) :=
  ⟨potRefSorts_standIn, by decide, by decide, by norm_num, by norm_num,
    C30_potref_reads_own_group sortByRadius sortByPID 2 (1 / 10) c23Part [movingAt 9 1 6]
      potRefSorts_standIn (by decide) (by decide) (by norm_num) (by norm_num)⟩

/-- C30 fails as stated.  For a group of one particle at rest with `Npotref = 2` and
`fracpotref = 1/10`, `npot = 2 > numingroup[i] = 1`: the second particle averaged is the one
that follows the slice in the buffer, and `gcmvel` is `(3,0,0)` when that particle moves with
velocity `(6,0,0)` and `(0,0,0)` when it is at rest. -/
theorem C30_counterexample :
    potRefNpot 2 (1 / 10) [movingAt 0 0 0].length = 2 ∧
      ¬ potRefNpot 2 (1 / 10) [movingAt 0 0 0].length ≤ ([movingAt 0 0 0].length : Int) ∧
      (potRefStep sortByRadius sortByPID 2 (1 / 10) [movingAt 0 0 0] [movingAt 1 5 6]).map
        (fun r => r.gcmvel) = some ⟨3, 0, 0⟩ ∧
      (potRefStep sortByRadius sortByPID 2 (1 / 10) [movingAt 0 0 0] [movingAt 1 5 0]).map
        (fun r => r.gcmvel) = some ⟨0, 0, 0⟩ := by
  refine ⟨by decide!, by decide!, by decide!, by decide!⟩

/-! ## C28: the centroid across `GetBindingEnergy` -/

/-- The index found by the search of line 2984 is that of a particle of least potential. -/
theorem potMinIndex_spec (L : List Particle) :
    ∀ (l pre : List Particle) (j : Nat) (potmin : ℚ) (ipotmin : Nat) (x : Particle),
      L = pre ++ l → pre.length = j → L.get? ipotmin = some x → x.potential = potmin →
      (∀ q ∈ pre, potmin ≤ q.potential) →
      ∃ y, L.get? (potMinIndex l j potmin ipotmin) = some y ∧
        ∀ q ∈ L, y.potential ≤ q.potential := by
  intro l
  induction l with
  | nil =>
    intro pre j potmin ipotmin x hL _ hx hpm hall
    rw [List.append_nil] at hL
    refine ⟨x, hx, ?_⟩
    intro q hq
    rw [hpm]
    exact hall q (hL ▸ hq)
  | cons p rest ih =>
    intro pre j potmin ipotmin x hL hj hx hpm hall
    have hL' : L = (pre ++ [p]) ++ rest := by rw [hL]; simp
    have hj' : (pre ++ [p]).length = j + 1 := by simp [hj]
    rw [potMinIndex]
    by_cases hlt : p.potential < potmin
    · rw [if_pos hlt]
      apply ih (pre ++ [p]) (j + 1) p.potential j p hL' hj' _ rfl
      · intro q hq
        rcases List.mem_append.mp hq with hq | hq
        · exact le_trans (le_of_lt hlt) (hall q hq)
        · rw [List.mem_singleton.mp hq]
      · rw [hL, List.get?_eq_getElem?, List.getElem?_append_right (by omega)]
        simp [hj]
    · rw [if_neg hlt]
      apply ih (pre ++ [p]) (j + 1) potmin ipotmin x hL' hj' hx hpm
      intro q hq
      rcases List.mem_append.mp hq with hq | hq
      · exact hall q hq
      · rw [List.mem_singleton.mp hq]
        exact not_lt.mp hlt

theorem potRefStep_gcm (radSort pidSort : List Particle → List Particle) (Npotref : Int)
    (fracpotref : ℚ) (slice after : List Particle) (hne : slice ≠ []) (r : PotRefResult)
    (h : potRefStep radSort pidSort Npotref fracpotref slice after = some r) :
    ∃ q ∈ slice, r.gcm = q.pos ∧ ∀ q' ∈ slice, q.potential ≤ q'.potential := by
  cases slice with
  | nil => exact absurd rfl hne
  | cons p rest =>
    unfold potRefStep at h
    rw [List.cons_append, List.head?_cons] at h
    dsimp only at h
    obtain ⟨y, hy, hmin⟩ := potMinIndex_spec (p :: rest) (p :: rest) [] 0 p.potential 0 p
      rfl rfl rfl rfl (fun q hq => absurd hq (List.not_mem_nil q))
    have hlt := potMinIndex_lt_length p rest p.potential
    have hget : (p :: (rest ++ after)).get? (potMinIndex (p :: rest) 0 p.potential 0) =
        some y := by
      rw [← List.cons_append, get?_append_lt _ _ _ hlt]
      exact hy
    rw [hget] at h
    dsimp only at h
    split at h
    · have hr := Option.some.inj h
      refine ⟨y, List.get?_mem hy, ?_, hmin⟩
      rw [← hr]
    · exact absurd h (by simp)

/-- C28 (as amended): when `cmvelreftype` is not `POTREF`, `GetBindingEnergy` returns with
`pdata[i].gcm` as it was at entry.  In `POTREF` mode, for a non-empty group, it returns with
`pdata[i].gcm` set to the position of a particle of the group whose potential is least among
the potentials the pairwise loop computed. -/
theorem C28_gcm_across_GetBindingEnergy (potref : Bool) (sqrtF : ℚ → ℚ) (G eps : ℚ)
    (radSort pidSort : List Particle → List Particle) (Npotref : Int) (fracpotref : ℚ)
    (gcm gcmvel : Coordinate) (T0 Pot0 Efrac0 : ℚ) (Part after : List Particle)
    (hne : Part ≠ []) :
    (potref = false →
        ∃ res, GetBindingEnergy_group potref sqrtF G eps radSort pidSort Npotref fracpotref gcm
            gcmvel T0 Pot0 Efrac0 Part after = some res ∧ res.2.1 = gcm) ∧
      (potref = true →
        ∀ res, GetBindingEnergy_group potref sqrtF G eps radSort pidSort Npotref fracpotref gcm
            gcmvel T0 Pot0 Efrac0 Part after = some res →
          ∃ q ∈ (bePairOuter sqrtF G (eps * eps) Part.length Part Pot0).1, res.2.1 = q.pos ∧
            ∀ q' ∈ (bePairOuter sqrtF G (eps * eps) Part.length Part Pot0).1,
              q.potential ≤ q'.potential) := by
  constructor
  · intro hp
    subst hp
    exact ⟨_, rfl, rfl⟩
  · intro hp res hres
    subst hp
    unfold GetBindingEnergy_group at hres
    simp only [if_true] at hres
    have hne' : (bePairOuter sqrtF G (eps * eps) Part.length Part Pot0).1 ≠ [] := by
      intro h0
      have h1 := bePairOuter_get sqrtF G (eps * eps) Part.length Part Pot0 rfl 0
      rw [h0] at h1
      cases Part with
      | nil => exact hne rfl
      | cons a t => simp at h1
    cases hstep : potRefStep radSort pidSort Npotref fracpotref
        (bePairOuter sqrtF G (eps * eps) Part.length Part Pot0).1 after with
    | none => rw [hstep] at hres; exact absurd hres (by simp)
    | some r =>
      rw [hstep] at hres
      have hr := Option.some.inj hres
      have hg := potRefStep_gcm radSort pidSort Npotref fracpotref _ after hne' r hstep
      rw [← hr]
      exact hg

/-- Witness for C28: the two-particle group `c28Part` in both modes. -/
theorem C28_gcm_across_GetBindingEnergy_witness :
    c28Part ≠ [] ∧
      ((false = false →
          ∃ res, GetBindingEnergy_group false Rat.sqrt 1 0 sortByRadius sortByPID 1 (1 / 2)
              ⟨1, 0, 0⟩ ⟨0, 0, 0⟩ 0 0 0 c28Part [] = some res ∧ res.2.1 = ⟨1, 0, 0⟩) ∧
        (false = true →
          ∀ res, GetBindingEnergy_group false Rat.sqrt 1 0 sortByRadius sortByPID 1 (1 / 2)
              ⟨1, 0, 0⟩ ⟨0, 0, 0⟩ 0 0 0 c28Part [] = some res →
            ∃ q ∈ (bePairOuter Rat.sqrt 1 (0 * 0) c28Part.length c28Part 0).1,
              res.2.1 = q.pos ∧
              ∀ q' ∈ (bePairOuter Rat.sqrt 1 (0 * 0) c28Part.length c28Part 0).1,
                q.potential ≤ q'.potential)) :=
  ⟨by decide, C28_gcm_across_GetBindingEnergy false Rat.sqrt 1 0 sortByRadius sortByPID 1
    (1 / 2) ⟨1, 0, 0⟩ ⟨0, 0, 0⟩ 0 0 0 c28Part [] (by decide)⟩

/-- C28 fails as stated.  For the group `c28Part`, whose centroid is `(1, 0, 0)`, in `POTREF`
mode (`Npotref = 1`, `fracpotref = 1/2`): both particles get the potential `-1/2`, the
search keeps the first one, and `GetBindingEnergy` returns with `gcm = (0, 0, 0)`. -/
theorem C28_counterexample :
    plainCentroid c28Part = ⟨1, 0, 0⟩ ∧
      (GetBindingEnergy_group true Rat.sqrt 1 0 sortByRadius sortByPID 1 (1 / 2) ⟨1, 0, 0⟩
        ⟨0, 0, 0⟩ 0 0 0 c28Part []).map (fun res => res.2.1) = some ⟨0, 0, 0⟩ := by
  refine ⟨by decide!, by decide!⟩

/-! ## C22: groups of no or one particle in `GetBindingEnergy` -/

/-- C22 fails for the empty group.  For a group with `numingroup[i] = 0` both the
small-group and the large-group path reach `pdata[i].Efrac/=(Double_t)numingroup[i]` with a
zero divisor, whatever the parameters.  For a group of one particle the small-group path
divides by `1` and leaves `Efrac` equal to `0` or to `1`. -/
theorem C22_empty_group_divides_by_zero (sqrtF : ℚ → ℚ) (G eps : ℚ) (gcmvel : Coordinate)
    (treePotential : List Particle → List ℚ) (p : Particle) :
    GetBindingEnergy_small_checked sqrtF G eps gcmvel 0 0 0 [] = .fault .divByZero ∧
      GetBindingEnergy_large_checked treePotential gcmvel [] = .fault .divByZero ∧
      ∃ r, GetBindingEnergy_small_checked sqrtF G eps gcmvel 0 0 0 [p] = .ok r ∧
        (r.Efrac = 0 ∨ r.Efrac = 1) ∧ r.Pot = 0 := by
  refine ⟨?_, ?_, ?_⟩
  · unfold GetBindingEnergy_small_checked
    simp
  · unfold GetBindingEnergy_large_checked gpLargePotential
    simp
  · unfold GetBindingEnergy_small_checked
    rw [if_neg (by simp)]
    refine ⟨_, rfl, ?_, ?_⟩
    · unfold GetBindingEnergy_small
      simp only [List.length_singleton, bePairOuter, bePairInner, beEnergyLoop]
      by_cases h : beKinetic gcmvel p + p.potential < 0
      · rw [if_pos h]; right; norm_num
      · rw [if_neg h]; left; norm_num
    · unfold GetBindingEnergy_small
      simp only [List.length_singleton, bePairOuter, bePairInner]

/-! ## C21: energy order and the bound/unbound split -/

/-- The search of line 3231 returns the index of the first particle with positive
potential, or `n` when there is none. -/
theorem firstPositive_spec :
    ∀ (l : List Particle) (j n : Nat), j + l.length = n →
      j ≤ firstPositive l j n ∧ firstPositive l j n ≤ n ∧
      (∀ k p, l.get? k = some p → j + k < firstPositive l j n → p.potential ≤ 0) ∧
      (∀ p, l.get? (firstPositive l j n - j) = some p → 0 < p.potential) := by
  intro l
  induction l with
  | nil =>
    intro j n hn
    simp only [List.length_nil, Nat.add_zero] at hn
    simp [firstPositive, hn]
  | cons q rest ih =>
    intro j n hn
    simp only [List.length_cons] at hn
    rw [firstPositive]
    by_cases hq : q.potential > 0
    · simp only [if_pos hq]
      refine ⟨le_refl j, by omega, ?_, ?_⟩
      · intro k p _ hk; omega
      · intro p hp
        rw [Nat.sub_self, List.get?_cons_zero] at hp
        rw [← Option.some.inj hp]
        exact hq
    · simp only [if_neg hq]
      obtain ⟨h1, h2, h3, h4⟩ := ih (j + 1) n (by omega)
      refine ⟨by omega, h2, ?_, ?_⟩
      · intro k p hk hlt
        cases k with
        | zero =>
          rw [List.get?_cons_zero] at hk
          rw [← Option.some.inj hk]
          exact not_lt.mp hq
        | succ k =>
          rw [List.get?_cons_succ] at hk
          exact h3 k p hk (by omega)
      · intro p hp
        have hidx : firstPositive rest (j + 1) n - j = (firstPositive rest (j + 1) n - (j + 1)) + 1 := by
          omega
        rw [hidx, List.get?_cons_succ] at hp
        exact h4 p hp

theorem sorted_get?_le (l : List Particle)
    (hs : l.Sorted (fun a b => a.potential ≤ b.potential)) :
    ∀ (i k : Nat) (a b : Particle), i ≤ k → l.get? i = some a → l.get? k = some b →
      a.potential ≤ b.potential := by
  induction l with
  | nil => intro i k a b _ ha; simp at ha
  | cons q rest ih =>
    intro i k a b hik ha hb
    have hs' := List.sorted_cons.mp hs
    cases i with
    | zero =>
      rw [List.get?_cons_zero] at ha
      have hqa : q = a := Option.some.inj ha
      cases k with
      | zero =>
        rw [List.get?_cons_zero] at hb
        rw [← Option.some.inj hb, ← hqa]
      | succ k =>
        rw [List.get?_cons_succ] at hb
        rw [← hqa]
        exact hs'.1 b (List.get?_mem hb)
    | succ i =>
      cases k with
      | zero => omega
      | succ k =>
        rw [List.get?_cons_succ] at ha hb
        exact ih hs'.2 i k a b (by omega) ha hb

theorem sortByPot_isPotSort : IsPotSort sortByPot := by
  intro l
  haveI : IsTotal Particle (fun a b => a.potential ≤ b.potential) :=
    ⟨fun a b => le_total a.potential b.potential⟩
  haveI : IsTrans Particle (fun a b => a.potential ≤ b.potential) :=
    ⟨fun a b c hab hbc => le_trans hab hbc⟩
  exact ⟨List.perm_insertionSort _ l, List.sorted_insertionSort _ l⟩

theorem get?_range_map (f : Nat → Int) (n j : Nat) (h : j < n) :
    ((List.range n).map f).get? j = some (f j) := by
  rw [get?_map_comm, List.get?_eq_getElem?, List.getElem?_range h]
  rfl

/-- C21: for every non-empty group, whatever sorted permutation `qsort` returns, after the
per-group part of `SortAccordingtoBindingEnergy` the slice holds the particles of the group
in non-decreasing total energy (the value `GetBindingEnergy` left in the potential field,
the key of `PotCompare`); entry `j` of `pglist[i]` refers to the particle at position
`j` of that order (its id when `opt.iseparatefiles` is set, its buffer position
`j+noffset[i]` when not); `ibound` is the PID of the first particle, whose energy is the
least of the group; `iunbound`, also stored in `pglist[i][numingroup[i]]`, is at most
`numingroup[i]`, every particle before position `iunbound` has energy `<= 0` and every
particle from position `iunbound` on has energy `> 0`. -/
theorem C21_energy_order (potSort : List Particle → List Particle) (iseparatefiles : Bool)
    (noffset : Nat) (slice after : List Particle) (hs : IsPotSort potSort)
    (hne : slice ≠ []) :
    ∃ r, SortAccordingtoBindingEnergy_group potSort iseparatefiles noffset slice after =
        some r ∧
      r.Part.Perm slice ∧ r.Part.Sorted (fun a b => a.potential ≤ b.potential) ∧
      (∃ p, r.Part.head? = some p ∧ r.ibound = p.pid ∧
        ∀ q ∈ slice, p.potential ≤ q.potential) ∧
      r.pglist.length = slice.length + 1 ∧
      (∀ j p, r.Part.get? j = some p →
        r.pglist.get? j =
          some (if iseparatefiles then p.id else ((j + noffset : Nat) : Int))) ∧
      r.pglist.get? slice.length = some (r.iunbound : Int) ∧
      r.iunbound ≤ slice.length ∧
      (∀ j p, r.Part.get? j = some p → j < r.iunbound → p.potential ≤ 0) ∧
      (∀ j p, r.Part.get? j = some p → r.iunbound ≤ j → 0 < p.potential) := by
  have hperm := (hs slice).1
  have hsorted := (hs slice).2
  have hlen : (potSort slice).length = slice.length := hperm.length_eq
  have hpos : slice.length > 0 := List.length_pos.mpr hne
  obtain ⟨h1, h2, h3, h4⟩ := firstPositive_spec (potSort slice) 0 slice.length
    (by rw [hlen]; omega)
  cases hsl : potSort slice with
  | nil => rw [hsl] at hlen; simp at hlen; omega
  | cons first rest =>
    have hres : SortAccordingtoBindingEnergy_group potSort iseparatefiles noffset slice
        after = some (EnergyOrder.mk (first :: rest) first.pid
          (if slice.length > 0 then firstPositive (first :: rest) 0 slice.length
            else slice.length)
          (if slice.length > 0 then
              (if iseparatefiles then (first :: rest).map (fun p => p.id)
               else (List.range slice.length).map (fun j => ((j + noffset : Nat) : Int))) ++
                [((if slice.length > 0 then firstPositive (first :: rest) 0 slice.length
                  else slice.length : Nat) : Int)]
            else [0])) := by
      unfold SortAccordingtoBindingEnergy_group
      rw [hsl, List.cons_append, List.head?_cons]
    refine ⟨_, hres, ?_, ?_, ?_, ?_, ?_, ?_, ?_, ?_, ?_⟩
    · dsimp only; rw [← hsl]; exact hperm
    · dsimp only; rw [← hsl]; exact hsorted
    · refine ⟨first, rfl, rfl, ?_⟩
      intro q hq
      have hq' : q ∈ first :: rest := by rw [← hsl]; exact hperm.symm.subset hq
      rcases List.mem_cons.mp hq' with rfl | hq'
      · exact le_refl _
      · have := List.sorted_cons.mp (hsl ▸ hsorted)
        exact this.1 q hq'
    · dsimp only
      rw [if_pos hpos]
      cases iseparatefiles with
      | true => simp [← hsl, hlen]
      | false => simp
    · intro j p hj
      dsimp only at hj ⊢
      have hjlt : j < slice.length := by
        rw [← hlen, hsl]
        by_contra hcon
        have := List.get?_eq_none.mpr (not_lt.mp hcon)
        rw [this] at hj
        exact absurd hj (by simp)
      rw [if_pos hpos]
      cases iseparatefiles with
      | true =>
        simp only [if_true]
        rw [get?_append_lt _ _ _ (by rw [List.length_map, ← hsl, hlen]; exact hjlt),
          get?_map_comm, hj]
        rfl
      | false =>
        simp only [Bool.false_eq_true, if_false]
        rw [get?_append_lt _ _ _ (by rw [List.length_map, List.length_range]; exact hjlt),
          get?_range_map _ _ _ hjlt]
    · dsimp only
      rw [if_pos hpos]
      cases iseparatefiles with
      | true =>
        simp only [if_true]
        rw [List.get?_eq_getElem?, List.getElem?_append_right (by simp [← hsl, hlen])]
        simp [← hsl, hlen]
      | false =>
        simp only [Bool.false_eq_true, if_false]
        rw [List.get?_eq_getElem?, List.getElem?_append_right (by simp)]
        simp
    · dsimp only
      rw [if_pos hpos, ← hsl]
      exact h2
    · intro j p hj hlt
      dsimp only at hj hlt
      rw [if_pos hpos, ← hsl] at hlt
      rw [← hsl] at hj
      exact h3 j p hj (by omega)
    · intro j p hj hle
      dsimp only at hj hle
      rw [if_pos hpos, ← hsl] at hle
      rw [← hsl] at hj
      have hjlt : j < (potSort slice).length := by
        by_contra hcon
        have := List.get?_eq_none.mpr (not_lt.mp hcon)
        rw [this] at hj
        exact absurd hj (by simp)
      have hiu : firstPositive (potSort slice) 0 slice.length < (potSort slice).length := by
        omega
      cases hb : (potSort slice).get? (firstPositive (potSort slice) 0 slice.length) with
      | none =>
        have := List.get?_eq_none.mp hb
        omega
      | some b =>
        have hbpos : 0 < b.potential := h4 b (by rw [Nat.sub_zero]; exact hb)
        exact lt_of_lt_of_le hbpos (sorted_get?_le _ hsorted _ _ b p hle hb hj)

/-- Witness for C21: the slice `c21Part`, sorted by insertion. -/
theorem C21_energy_order_witness :
    IsPotSort sortByPot ∧ c21Part ≠ [] ∧
      ∃ r, SortAccordingtoBindingEnergy_group sortByPot false 10 c21Part
          [] = some r ∧
        r.Part.Perm c21Part ∧
        r.Part.Sorted (fun a b => a.potential ≤ b.potential) ∧
        (∃ p, r.Part.head? = some p ∧ r.ibound = p.pid ∧
          ∀ q ∈ c21Part, p.potential ≤ q.potential) ∧
        r.pglist.length = c21Part.length + 1 ∧
        (∀ j p, r.Part.get? j = some p →
          r.pglist.get? j = some (if false then p.id else ((j + 10 : Nat) : Int))) ∧
        r.pglist.get? c21Part.length = some (r.iunbound : Int) ∧
        r.iunbound ≤ c21Part.length ∧
        (∀ j p, r.Part.get? j = some p → j < r.iunbound → p.potential ≤ 0) ∧
        (∀ j p, r.Part.get? j = some p → r.iunbound ≤ j → 0 < p.potential) :=
  ⟨sortByPot_isPotSort, by decide,
    C21_energy_order sortByPot false 10 c21Part [] sortByPot_isPotSort
      (by decide)⟩

/-- The group `c21Part` at offset 10: the particle of PID 5 has the least energy and the
split is at position 3. -/
theorem sortEnergy_c21Part :
    (SortAccordingtoBindingEnergy_group sortByPot false 10 c21Part []).map
      (fun r => (r.ibound, r.iunbound, r.pglist)) = some (5, 3, [10, 11, 12, 13, 3]) := by
  decide!

/-! ## C26: substructure counts -/

theorem hasAncestor_cons_iff (L : List StrucEntry) (Ls : List (List StrucEntry)) (g x : Nat) :
    hasAncestor (L :: Ls) g x = true ↔
      (∃ e ∈ L, e.gid = x ∧ e.gidparent = g) ∨ hasAncestor Ls g x = true ∨
        ∃ e ∈ L, e.gidparent = g ∧ hasAncestor Ls e.gid x = true := by
  simp [hasAncestor, List.any_eq_true]

theorem levelGids_cons (L : List StrucEntry) (Ls : List (List StrucEntry)) :
    levelGids (L :: Ls) = L.map (fun e => e.gid) ++ levelGids Ls := by
  simp [levelGids]

theorem mem_levelGids_of_mem {L : List StrucEntry} {Ls : List (List StrucEntry)}
    {e : StrucEntry} (he : e ∈ L) : e.gid ∈ levelGids (L :: Ls) := by
  rw [levelGids_cons]
  exact List.mem_append_left _ (List.mem_map_of_mem _ he)

/-- Whatever has an ancestor in `levels` is listed there. -/
theorem hasAncestor_mem_gids : ∀ (Ls : List (List StrucEntry)) (g x : Nat),
    hasAncestor Ls g x = true → x ∈ levelGids Ls
  | [], _, _, h => by simp [hasAncestor] at h
  | L :: Ls, g, x, h => by
    rw [levelGids_cons]
    rcases (hasAncestor_cons_iff L Ls g x).mp h with ⟨e, he, hx, _⟩ | h2 | ⟨e, _, _, h3⟩
    · exact List.mem_append_left _ (hx ▸ List.mem_map_of_mem _ he)
    · exact List.mem_append_right _ (hasAncestor_mem_gids Ls g x h2)
    · exact List.mem_append_right _ (hasAncestor_mem_gids Ls e.gid x h3)

/-- An ancestor is listed one level up at the least. -/
theorem hasAncestor_anc_mem : ∀ (Ls : List (List StrucEntry)) (A : List StrucEntry)
    (g x : Nat), ParentsOneLevelUp (A :: Ls) → hasAncestor Ls g x = true →
    g ∈ levelGids (A :: Ls)
  | [], _, _, _, _, h => by simp [hasAncestor] at h
  | L :: Ls, A, g, x, hc, h => by
    rw [levelGids_cons]
    have hpar : ∀ e ∈ L, e.gidparent = g → g ∈ A.map (fun e => e.gid) := by
      intro e he hg
      obtain ⟨a, ha, hag⟩ := hc.1 e he
      rw [← hg, ← hag]
      exact List.mem_map_of_mem _ ha
    rcases (hasAncestor_cons_iff L Ls g x).mp h with ⟨e, he, _, hg⟩ | h2 | ⟨e, he, hg, _⟩
    · exact List.mem_append_left _ (hpar e he hg)
    · exact List.mem_append_right _ (hasAncestor_anc_mem Ls L g x hc.2 h2)
    · exact List.mem_append_left _ (hpar e he hg)

theorem levelGids_nodup_tail {A : List StrucEntry} {Ls : List (List StrucEntry)}
    (h : (levelGids (A :: Ls)).Nodup) : (levelGids Ls).Nodup := by
  rw [levelGids_cons] at h
  exact h.of_append_right

theorem levelGids_disjoint {A : List StrucEntry} {Ls : List (List StrucEntry)}
    (h : (levelGids (A :: Ls)).Nodup) {a : Nat} (ha : a ∈ A.map (fun e => e.gid))
    (hb : a ∈ levelGids Ls) : False := by
  rw [levelGids_cons] at h
  exact (List.nodup_append.mp h).2.2 ha hb

theorem entry_eq_of_gid {L : List StrucEntry} {Ls : List (List StrucEntry)}
    (h : (levelGids (L :: Ls)).Nodup) {e e' : StrucEntry} (he : e ∈ L) (he' : e' ∈ L)
    (hg : e.gid = e'.gid) : e = e' := by
  rw [levelGids_cons] at h
  exact List.inj_on_of_nodup_map h.of_append_left he he' hg

/-- For a structure of the first level, the ancestors within `L :: Ls` are its parent alone. -/
theorem hasAncestor_top {L : List StrucEntry} {Ls : List (List StrucEntry)}
    (h : (levelGids (L :: Ls)).Nodup) {e : StrucEntry} (he : e ∈ L) (g : Nat) :
    hasAncestor (L :: Ls) g e.gid = true ↔ e.gidparent = g := by
  rw [hasAncestor_cons_iff]
  constructor
  · rintro (⟨e', he', hx, hg⟩ | h2 | ⟨e', _, _, h3⟩)
    · rw [← entry_eq_of_gid h he' he hx]; exact hg
    · exact (levelGids_disjoint h (List.mem_map_of_mem _ he)
        (hasAncestor_mem_gids Ls g e.gid h2)).elim
    · exact (levelGids_disjoint h (List.mem_map_of_mem _ he)
        (hasAncestor_mem_gids Ls e'.gid e.gid h3)).elim
  · intro hg
    exact Or.inl ⟨e, he, rfl, hg⟩

/-- For a structure of the levels below, the ancestors within `L :: Ls` are those within `Ls`
and the parents of those that are listed in `L`. -/
theorem hasAncestor_below {L : List StrucEntry} {Ls : List (List StrucEntry)}
    (h : (levelGids (L :: Ls)).Nodup) {x : Nat} (hx : x ∈ levelGids Ls) (g : Nat) :
    hasAncestor (L :: Ls) g x = true ↔
      hasAncestor Ls g x = true ∨ ∃ e ∈ L, e.gidparent = g ∧ hasAncestor Ls e.gid x = true := by
  rw [hasAncestor_cons_iff]
  constructor
  · rintro (⟨e', he', hxe, _⟩ | h2 | h3)
    · exact (levelGids_disjoint h (hxe ▸ List.mem_map_of_mem _ he') hx).elim
    · exact Or.inl h2
    · exact Or.inr h3
  · rintro (h2 | h3)
    · exact Or.inr (Or.inl h2)
    · exact Or.inr (Or.inr h3)

/-- A structure has one ancestor at most in the level above `Ls`. -/
theorem hasAncestor_unique : ∀ (Ls : List (List StrucEntry)) (L : List StrucEntry)
    (a b x : Nat), (levelGids (L :: Ls)).Nodup → ParentsOneLevelUp (L :: Ls) →
    a ∈ L.map (fun e => e.gid) → b ∈ L.map (fun e => e.gid) →
    hasAncestor Ls a x = true → hasAncestor Ls b x = true → a = b
  | [], _, _, _, _, _, _, _, _, h, _ => by simp [hasAncestor] at h
  | M :: Ls, L, a, b, x, hn, hc, ha, hb, h1, h2 => by
    have hn' := levelGids_nodup_tail hn
    have hnotbelow : ∀ c, c ∈ L.map (fun e => e.gid) → ∀ y, hasAncestor Ls c y = true →
        False := fun c hcL y hy =>
      levelGids_disjoint hn hcL (hasAncestor_anc_mem Ls M c y hc.2 hy)
    rcases (hasAncestor_cons_iff M Ls a x).mp h1 with ⟨e, he, hx, hg⟩ | h1' | ⟨e, he, hg, h1'⟩
    · rcases (hasAncestor_cons_iff M Ls b x).mp h2 with
        ⟨e', he', hx', hg'⟩ | h2' | ⟨e', _, _, h2'⟩
      · rw [← hg, ← hg', entry_eq_of_gid hn' he he' (hx.trans hx'.symm)]
      · exact (hnotbelow b hb x h2').elim
      · exact (levelGids_disjoint hn' (hx ▸ List.mem_map_of_mem _ he)
          (hasAncestor_mem_gids Ls e'.gid x h2')).elim
    · exact (hnotbelow a ha x h1').elim
    · rcases (hasAncestor_cons_iff M Ls b x).mp h2 with
        ⟨e', he', hx', _⟩ | h2' | ⟨e', he', hg', h2'⟩
      · exact (levelGids_disjoint hn' (hx' ▸ List.mem_map_of_mem _ he')
          (hasAncestor_mem_gids Ls e.gid x h1')).elim
      · exact (hnotbelow b hb x h2').elim
      · have := hasAncestor_unique Ls M e.gid e'.gid x hn' hc.2
          (List.mem_map_of_mem _ he) (List.mem_map_of_mem _ he') h1' h2'
        rw [← hg, ← hg', entry_eq_of_gid hn' he he' this]

/-- The parent of a structure of `L` is no ancestor within the levels below `L`. -/
theorem hasAncestor_exclusive {A L : List StrucEntry} {Ls : List (List StrucEntry)}
    (hn : (levelGids (A :: L :: Ls)).Nodup) (hc : ParentsOneLevelUp (A :: L :: Ls))
    {e : StrucEntry} (he : e ∈ L) {x : Nat} (h : hasAncestor Ls e.gidparent x = true) :
    False := by
  obtain ⟨a, ha, hag⟩ := hc.1 e he
  exact levelGids_disjoint hn (hag ▸ List.mem_map_of_mem _ ha)
    (hasAncestor_anc_mem Ls L e.gidparent x hc.2 h)

theorem isParentIn_cons {L : List StrucEntry} {Ls : List (List StrucEntry)} {p x : Nat}
    (h : IsParentIn Ls p x) : IsParentIn (L :: Ls) p x := by
  obtain ⟨e, he, hx, hp⟩ := h
  exact ⟨e, by rw [List.flatten_cons]; exact List.mem_append_right _ he, hx, hp⟩

theorem hasAncestor_of_isParentIn : ∀ (Ls : List (List StrucEntry)) (p x : Nat),
    IsParentIn Ls p x → hasAncestor Ls p x = true
  | [], _, _, h => by
    obtain ⟨e, he, _, _⟩ := h
    simp at he
  | L :: Ls, p, x, h => by
    obtain ⟨e, he, hx, hp⟩ := h
    rw [List.flatten_cons] at he
    rw [hasAncestor_cons_iff]
    rcases List.mem_append.mp he with he | he
    · exact Or.inl ⟨e, he, hx, hp⟩
    · exact Or.inr (Or.inl (hasAncestor_of_isParentIn Ls p x ⟨e, he, hx, hp⟩))

theorem transGen_of_hasAncestor : ∀ (Ls : List (List StrucEntry)) (g x : Nat),
    hasAncestor Ls g x = true → Relation.TransGen (IsParentIn Ls) g x
  | [], _, _, h => by simp [hasAncestor] at h
  | L :: Ls, g, x, h => by
    have hmono : ∀ a b, Relation.TransGen (IsParentIn Ls) a b →
        Relation.TransGen (IsParentIn (L :: Ls)) a b := fun a b hab =>
      Relation.TransGen.mono (fun _ _ hp => isParentIn_cons hp) hab
    have hin : ∀ e ∈ L, IsParentIn (L :: Ls) e.gidparent e.gid := fun e he =>
      ⟨e, by rw [List.flatten_cons]; exact List.mem_append_left _ he, rfl, rfl⟩
    rcases (hasAncestor_cons_iff L Ls g x).mp h with ⟨e, he, hx, hg⟩ | h2 | ⟨e, he, hg, h3⟩
    · exact Relation.TransGen.single (hx ▸ hg ▸ hin e he)
    · exact hmono g x (transGen_of_hasAncestor Ls g x h2)
    · exact Relation.TransGen.head (hg ▸ hin e he)
        (hmono e.gid x (transGen_of_hasAncestor Ls e.gid x h3))

/-- The ancestors are closed under one more step of the parent relation. -/
theorem hasAncestor_step : ∀ (Ls : List (List StrucEntry)) (A : List StrucEntry)
    (g y x : Nat), (levelGids (A :: Ls)).Nodup → ParentsOneLevelUp (A :: Ls) →
    hasAncestor Ls g y = true → IsParentIn Ls y x → hasAncestor Ls g x = true
  | [], _, _, _, _, _, _, h, _ => by simp [hasAncestor] at h
  | L :: Ls, A, g, y, x, hn, hc, h, hp => by
    have hn' := levelGids_nodup_tail hn
    obtain ⟨e, he, hx, hy⟩ := hp
    rw [List.flatten_cons] at he
    rcases List.mem_append.mp he with he | he
    · obtain ⟨a, ha, hag⟩ := hc.1 e he
      exact (levelGids_disjoint hn (hy ▸ hag ▸ List.mem_map_of_mem _ ha)
        (hasAncestor_mem_gids (L :: Ls) g y h)).elim
    · have hp' : IsParentIn Ls y x := ⟨e, he, hx, hy⟩
      rw [hasAncestor_cons_iff]
      rcases (hasAncestor_cons_iff L Ls g y).mp h with
        ⟨e1, he1, hy1, hg1⟩ | h2 | ⟨e1, he1, hg1, h3⟩
      · exact Or.inr (Or.inr ⟨e1, he1, hg1,
          hasAncestor_of_isParentIn Ls e1.gid x (hy1 ▸ hp')⟩)
      · exact Or.inr (Or.inl (hasAncestor_step Ls L g y x hn' hc.2 h2 hp'))
      · exact Or.inr (Or.inr ⟨e1, he1, hg1, hasAncestor_step Ls L e1.gid y x hn' hc.2 h3 hp'⟩)

/-- In a hierarchy with distinct ids and parents one level up, `hasAncestor` decides the
transitive closure of the parent relation. -/
theorem hasAncestor_iff_transGen (A : List StrucEntry) (Ls : List (List StrucEntry))
    (hn : (levelGids (A :: Ls)).Nodup) (hc : ParentsOneLevelUp (A :: Ls)) (g x : Nat) :
    hasAncestor Ls g x = true ↔ Relation.TransGen (IsParentIn Ls) g x := by
  constructor
  · exact transGen_of_hasAncestor Ls g x
  · intro h
    induction h with
    | single hp => exact hasAncestor_of_isParentIn Ls g _ hp
    | tail _ hp ih => exact hasAncestor_step Ls A g _ _ hn hc ih hp

theorem countP_le_one_of_unique {α : Type} (Q : α → Bool) : ∀ (L : List α), L.Nodup →
    (∀ a ∈ L, ∀ b ∈ L, Q a = true → Q b = true → a = b) → L.countP Q ≤ 1
  | [], _, _ => by simp
  | a :: T, hn, hu => by
    rw [List.countP_cons]
    have hnT := (List.nodup_cons.mp hn).2
    have hT := countP_le_one_of_unique Q T hnT
      (fun x hx y hy => hu x (List.mem_cons_of_mem _ hx) y (List.mem_cons_of_mem _ hy))
    by_cases hq : Q a = true
    · have hz : T.countP Q = 0 := by
        rw [List.countP_eq_zero]
        intro b hb hqb
        have := hu a (List.mem_cons_self _ _) b (List.mem_cons_of_mem _ hb) hq hqb
        exact (List.nodup_cons.mp hn).1 (this ▸ hb)
      rw [hz, if_pos hq]
    · rw [if_neg hq]; omega

theorem sum_children_split (g : Nat) (f : StrucEntry → Nat) (q : StrucEntry → Bool) :
    ∀ (L : List StrucEntry),
    (L.map (fun e => if e.gidparent = g then f e + (if q e = true then 1 else 0) else 0)).sum =
      (L.map (fun e => if e.gidparent = g then f e else 0)).sum +
        L.countP (fun e => decide (e.gidparent = g) && q e)
  | [] => by simp
  | a :: T => by
    rw [List.map_cons, List.sum_cons, List.map_cons, List.sum_cons, List.countP_cons,
      sum_children_split g f q T]
    by_cases hp : a.gidparent = g
    · by_cases hq : q a = true
      · simp [hp, hq]; omega
      · simp [hp, hq]; omega
    · simp [hp]

/-- One structure below `L`: it descends from `g` within `L :: Ls` when it does so within `Ls`
or descends from one child of `g` listed in `L`, and the two exclude each other. -/
theorem hasAncestor_indicator {A L : List StrucEntry} {Ls : List (List StrucEntry)}
    (hn : (levelGids (A :: L :: Ls)).Nodup) (hc : ParentsOneLevelUp (A :: L :: Ls))
    {x : Nat} (hx : x ∈ levelGids Ls) (g : Nat) :
    (if hasAncestor (L :: Ls) g x = true then 1 else 0) =
      (if hasAncestor Ls g x = true then 1 else 0) +
        L.countP (fun e => decide (e.gidparent = g) && hasAncestor Ls e.gid x) := by
  have hn' := levelGids_nodup_tail hn
  have hLn : L.Nodup := by
    have h := hn'
    rw [levelGids_cons] at h
    exact (List.Nodup.of_map _ h.of_append_left)
  have hle : L.countP (fun e => decide (e.gidparent = g) && hasAncestor Ls e.gid x) ≤ 1 := by
    apply countP_le_one_of_unique _ L hLn
    intro a ha b hb hqa hqb
    simp only [Bool.and_eq_true, decide_eq_true_eq] at hqa hqb
    exact entry_eq_of_gid hn' ha hb
      (hasAncestor_unique Ls L a.gid b.gid x hn' hc.2 (List.mem_map_of_mem _ ha)
        (List.mem_map_of_mem _ hb) hqa.2 hqb.2)
  by_cases h1 : hasAncestor Ls g x = true
  · have hz : L.countP (fun e => decide (e.gidparent = g) && hasAncestor Ls e.gid x) = 0 := by
      rw [List.countP_eq_zero]
      intro e he hq
      simp only [Bool.and_eq_true, decide_eq_true_eq] at hq
      exact hasAncestor_exclusive hn hc he (hq.1 ▸ h1)
    rw [if_pos ((hasAncestor_below hn' hx g).mpr (Or.inl h1)), if_pos h1, hz]
  · by_cases h2 : ∃ e ∈ L, e.gidparent = g ∧ hasAncestor Ls e.gid x = true
    · have hpos : 0 < L.countP (fun e => decide (e.gidparent = g) &&
          hasAncestor Ls e.gid x) := by
        rw [List.countP_pos_iff]
        obtain ⟨e, he, hg, ha⟩ := h2
        exact ⟨e, he, by simp [hg, ha]⟩
      rw [if_pos ((hasAncestor_below hn' hx g).mpr (Or.inr h2)), if_neg h1]
      omega
    · have hz : L.countP (fun e => decide (e.gidparent = g) && hasAncestor Ls e.gid x) = 0 := by
        rw [List.countP_eq_zero]
        intro e he hq
        simp only [Bool.and_eq_true, decide_eq_true_eq] at hq
        exact h2 ⟨e, he, hq.1, hq.2⟩
      have hno : ¬ hasAncestor (L :: Ls) g x = true := by
        intro h
        rcases (hasAncestor_below hn' hx g).mp h with h | h
        · exact h1 h
        · exact h2 h
      rw [if_neg hno, if_neg h1, hz]

theorem countP_descend {A L : List StrucEntry} {Ls : List (List StrucEntry)}
    (hn : (levelGids (A :: L :: Ls)).Nodup) (hc : ParentsOneLevelUp (A :: L :: Ls))
    (g : Nat) : ∀ (S : List StrucEntry), (∀ e ∈ S, e.gid ∈ levelGids Ls) →
    S.countP (fun e => hasAncestor (L :: Ls) g e.gid) =
      S.countP (fun e => hasAncestor Ls g e.gid) +
        (L.map (fun e1 => if e1.gidparent = g then
          S.countP (fun e => hasAncestor Ls e1.gid e.gid) else 0)).sum
  | [], _ => by simp
  | x :: S, hS => by
    have ih := countP_descend hn hc g S (fun e he => hS e (List.mem_cons_of_mem _ he))
    have hx := hasAncestor_indicator hn hc (hS x (List.mem_cons_self _ _)) g
    have hsplit := sum_children_split g
      (fun e1 => S.countP (fun e => hasAncestor Ls e1.gid e.gid))
      (fun e1 => hasAncestor Ls e1.gid x.gid) L
    simp only [List.countP_cons]
    rw [hsplit, ih, hx]
    omega

theorem sum_children_cast (g : Nat) (f : StrucEntry → Nat) : ∀ (L : List StrucEntry),
    (((L.map (fun e => if e.gidparent = g then 1 + f e else 0)).sum : Nat) : Int) =
      (L.map (fun e => if e.gidparent = g then 1 + (f e : Int) else 0)).sum
  | [] => by simp
  | a :: T => by
    rw [List.map_cons, List.sum_cons, List.map_cons, List.sum_cons, Nat.cast_add,
      sum_children_cast g f T]
    by_cases hp : a.gidparent = g
    · simp [hp]
    · simp [hp]

theorem sum_children_succ (g : Nat) (f : StrucEntry → Nat) : ∀ (L : List StrucEntry),
    (L.map (fun e => if e.gidparent = g then 1 + f e else 0)).sum =
      L.countP (fun e => decide (e.gidparent = g)) +
        (L.map (fun e => if e.gidparent = g then f e else 0)).sum
  | [] => by simp
  | a :: T => by
    rw [List.map_cons, List.sum_cons, List.map_cons, List.sum_cons, List.countP_cons,
      sum_children_succ g f T]
    by_cases hp : a.gidparent = g
    · simp [hp]; omega
    · simp [hp]

/-- The descendants of `g` in `L :: Ls` are those in `Ls`, the children of `g` listed in `L`
and the descendants of these children. -/
theorem countDescendants_cons {A L : List StrucEntry} {Ls : List (List StrucEntry)}
    (hn : (levelGids (A :: L :: Ls)).Nodup) (hc : ParentsOneLevelUp (A :: L :: Ls))
    (g : Nat) :
    countDescendants (L :: Ls) g = countDescendants Ls g +
      (L.map (fun e => if e.gidparent = g then 1 + countDescendants Ls e.gid else 0)).sum := by
  have hn' := levelGids_nodup_tail hn
  unfold countDescendants
  rw [List.flatten_cons, List.countP_append, sum_children_succ,
    countP_descend hn hc g Ls.flatten (fun e he => List.mem_map_of_mem _ he),
    List.countP_congr (fun e he => by
      rw [hasAncestor_top hn' he g, decide_eq_true_eq] :
      ∀ e ∈ L, hasAncestor (L :: Ls) g e.gid = true ↔ decide (e.gidparent = g) = true)]
  omega

/-- After the first inner loop every slot has grown by the number of entries of the level
that name it as parent. -/
theorem nsubCountLevel_apply (g : Nat) : ∀ (L : List StrucEntry) (ns : Nat → Int),
    nsubCountLevel ns L g = ns g + (L.countP (fun e => decide (e.gidparent = g)) : Nat)
  | [], ns => by simp [nsubCountLevel]
  | a :: T, ns => by
    have ih := nsubCountLevel_apply g T
      (Function.update ns a.gidparent (ns a.gidparent + 1))
    unfold nsubCountLevel at ih ⊢
    rw [List.foldl_cons, ih, List.countP_cons]
    by_cases hp : a.gidparent = g
    · subst hp
      simp
      ring
    · rw [Function.update_noteq (Ne.symm hp)]
      simp [hp]

/-- After the second inner loop every slot has grown by the slots of the entries of the
level that name it as parent, when no entry of the level is the parent of another. -/
theorem nsubAddLower_apply (g : Nat) : ∀ (L : List StrucEntry) (ns : Nat → Int),
    (∀ e ∈ L, ∀ e' ∈ L, e'.gid ≠ e.gidparent) →
    nsubAddLower ns L g = ns g + (L.map (fun e => if e.gidparent = g then ns e.gid else 0)).sum
  | [], ns, _ => by simp [nsubAddLower]
  | a :: T, ns, hd => by
    have ih := nsubAddLower_apply g T
      (Function.update ns a.gidparent (ns a.gidparent + ns a.gid))
      (fun e he e' he' => hd e (List.mem_cons_of_mem _ he) e' (List.mem_cons_of_mem _ he'))
    have hsame : T.map (fun e => if e.gidparent = g then
        Function.update ns a.gidparent (ns a.gidparent + ns a.gid) e.gid else 0) =
        T.map (fun e => if e.gidparent = g then ns e.gid else 0) := by
      apply List.map_congr_left
      intro e he
      rw [Function.update_noteq (hd a (List.mem_cons_self _ _) e (List.mem_cons_of_mem _ he))]
    unfold nsubAddLower at ih ⊢
    rw [List.foldl_cons, ih, hsame, List.map_cons, List.sum_cons]
    by_cases hp : a.gidparent = g
    · subst hp
      simp
      ring
    · rw [Function.update_noteq (Ne.symm hp)]
      simp [hp]

/-- One round of the outer loop. -/
theorem nsubLevel_apply (g : Nat) (L : List StrucEntry) (ns : Nat → Int)
    (hd : ∀ e ∈ L, ∀ e' ∈ L, e'.gid ≠ e.gidparent) :
    nsubAddLower (nsubCountLevel ns L) L g =
      ns g + (L.map (fun e => if e.gidparent = g then 1 + ns e.gid else 0)).sum := by
  rw [nsubAddLower_apply g L _ hd, nsubCountLevel_apply g L ns]
  have hsame : L.map (fun e => if e.gidparent = g then nsubCountLevel ns L e.gid else 0) =
      L.map (fun e => if e.gidparent = g then ns e.gid else 0) := by
    apply List.map_congr_left
    intro e he
    rw [nsubCountLevel_apply e.gid L ns]
    have hz : L.countP (fun e' => decide (e'.gidparent = e.gid)) = 0 := by
      rw [List.countP_eq_zero]
      intro e' he' hq
      rw [decide_eq_true_eq] at hq
      exact hd e' he' e he hq.symm
    rw [hz]
    simp
  rw [hsame]
  have hsplit : ∀ (T : List StrucEntry),
      (T.map (fun e => if e.gidparent = g then 1 + ns e.gid else 0)).sum =
        ((T.countP (fun e => decide (e.gidparent = g)) : Nat) : Int) +
          (T.map (fun e => if e.gidparent = g then ns e.gid else 0)).sum := by
    intro T
    induction T with
    | nil => simp
    | cons a T ih =>
      rw [List.map_cons, List.sum_cons, List.map_cons, List.sum_cons, List.countP_cons, ih]
      by_cases hp : a.gidparent = g
      · simp [hp]; ring
      · simp [hp]
  rw [hsplit L]
  ring

/-- The outer loop over the levels below the top: every slot grows by the number of
descendants of its index. -/
theorem nsubLevels_apply (init : Nat → Int) : ∀ (Ls : List (List StrucEntry))
    (A : List StrucEntry), (levelGids (A :: Ls)).Nodup → ParentsOneLevelUp (A :: Ls) →
    (∀ e ∈ Ls.flatten, init e.gid = 0) → ∀ g,
    Ls.foldr (fun level ns => nsubAddLower (nsubCountLevel ns level) level) init g =
      init g + (countDescendants Ls g : Nat)
  | [], _, _, _, _, g => by simp [countDescendants]
  | L :: Ls, A, hn, hc, hinit, g => by
    have hn' := levelGids_nodup_tail hn
    have ih := nsubLevels_apply init Ls L hn' hc.2
      (fun e he => hinit e (by rw [List.flatten_cons]; exact List.mem_append_right _ he))
    have hd : ∀ e ∈ L, ∀ e' ∈ L, e'.gid ≠ e.gidparent := by
      intro e he e' he' heq
      obtain ⟨a, ha, hag⟩ := hc.1 e he
      have hmem : e'.gid ∈ A.map (fun e => e.gid) := by
        rw [heq, ← hag]
        exact List.mem_map_of_mem _ ha
      exact levelGids_disjoint hn hmem (mem_levelGids_of_mem he')
    rw [List.foldr_cons, nsubLevel_apply g L _ hd, ih g, countDescendants_cons hn hc g,
      Nat.cast_add, sum_children_cast]
    have hsame : L.map (fun e => if e.gidparent = g then 1 +
        Ls.foldr (fun level ns => nsubAddLower (nsubCountLevel ns level) level) init e.gid
          else 0) =
        L.map (fun e => if e.gidparent = g then 1 + ((countDescendants Ls e.gid : Nat) : Int)
          else 0) := by
      apply List.map_congr_left
      intro e he
      rw [ih e.gid, hinit e (by rw [List.flatten_cons]; exact List.mem_append_left _ he),
        zero_add]
    rw [hsame]
    ring

theorem hasAncestor_has_child : ∀ (Ls : List (List StrucEntry)) (g x : Nat),
    hasAncestor Ls g x = true → ∃ e ∈ Ls.flatten, e.gidparent = g
  | [], _, _, h => by simp [hasAncestor] at h
  | L :: Ls, g, x, h => by
    rw [List.flatten_cons]
    rcases (hasAncestor_cons_iff L Ls g x).mp h with ⟨e, he, _, hg⟩ | h2 | ⟨e, he, hg, _⟩
    · exact ⟨e, List.mem_append_left _ he, hg⟩
    · obtain ⟨e, he, hg⟩ := hasAncestor_has_child Ls g x h2
      exact ⟨e, List.mem_append_right _ he, hg⟩
    · exact ⟨e, List.mem_append_left _ he, hg⟩

/-- The sample hierarchy: group 1 has three substructures, group 3 one, the others none; the
slot 0, which the routine does not initialise, keeps its value. -/
theorem nsub_c26 :
    (GetSubstrutcureNum 5 (fun _ => 7) (c26Top :: c26Deeper)).map
      (fun ns => [ns 0, ns 1, ns 2, ns 3, ns 4, ns 5]) = some [7, 3, 0, 1, 0, 0] := by
  decide

/-- C26: for a hierarchy whose group ids are pairwise distinct and lie in `1..ngroups`, and
in which every structure listed at a level `k >= 1` has its parent listed at level `k-1`,
`GetSubstrutcureNum` returns an array `nsub` such that for every group id `g` in
`1..ngroups`, `nsub[g]` is the number of structures listed at the levels `>= 1` that have `g`
as an ancestor, where "ancestor" is the transitive closure of the parent relation (children,
grandchildren, and so on), decided by `hasAncestor`; and `nsub[g] = 0` for a group that is
the parent of no listed structure. -/
theorem C26_nsub_counts_descendants (ngroups : Nat) (junk : Nat → Int)
    (top : List StrucEntry) (deeper : List (List StrucEntry))
    (hn : (levelGids (top :: deeper)).Nodup) (hc : ParentsOneLevelUp (top :: deeper))
    (hr : ∀ e ∈ (top :: deeper).flatten, 1 ≤ e.gid ∧ e.gid ≤ ngroups) :
    ∃ nsub, GetSubstrutcureNum ngroups junk (top :: deeper) = some nsub ∧
      ∀ g, 1 ≤ g → g ≤ ngroups →
        nsub g = (countDescendants deeper g : Nat) ∧
        (∀ x, hasAncestor deeper g x = true ↔
          Relation.TransGen (IsParentIn deeper) g x) ∧
        ((∀ e ∈ deeper.flatten, e.gidparent ≠ g) → nsub g = 0) := by
  refine ⟨_, rfl, ?_⟩
  intro g h1 h2
  have hinit : ∀ e ∈ deeper.flatten, nsubInit ngroups junk e.gid = 0 := by
    intro e he
    have := hr e (by rw [List.flatten_cons]; exact List.mem_append_right _ he)
    simp [nsubInit, this]
  have hval := nsubLevels_apply (nsubInit ngroups junk) deeper top hn hc hinit g
  have hg0 : nsubInit ngroups junk g = 0 := by simp [nsubInit, h1, h2]
  rw [hg0, zero_add] at hval
  refine ⟨hval, hasAncestor_iff_transGen top deeper hn hc g, ?_⟩
  intro hno
  rw [hval]
  have hz : countDescendants deeper g = 0 := by
    unfold countDescendants
    rw [List.countP_eq_zero]
    intro e _ ha
    obtain ⟨e', he', hg⟩ := hasAncestor_has_child deeper g e.gid ha
    exact hno e' he' hg
  rw [hz]
  rfl

/-- Witness for C26: the sample hierarchy of five groups. -/
theorem C26_nsub_counts_descendants_witness :
    (levelGids (c26Top :: c26Deeper)).Nodup ∧ ParentsOneLevelUp (c26Top :: c26Deeper) ∧
      (∀ e ∈ (c26Top :: c26Deeper).flatten, 1 ≤ e.gid ∧ e.gid ≤ 5) ∧
      ∃ nsub, GetSubstrutcureNum 5 (fun _ => 7) (c26Top :: c26Deeper) = some nsub ∧
        ∀ g, 1 ≤ g → g ≤ 5 →
          nsub g = (countDescendants c26Deeper g : Nat) ∧
          (∀ x, hasAncestor c26Deeper g x = true ↔
            Relation.TransGen (IsParentIn c26Deeper) g x) ∧
          ((∀ e ∈ c26Deeper.flatten, e.gidparent ≠ g) → nsub g = 0) :=
  ⟨by decide, by simp [ParentsOneLevelUp, c26Top, c26Deeper], by decide,
    C26_nsub_counts_descendants 5 (fun _ => 7) c26Top c26Deeper (by decide)
      (by simp [ParentsOneLevelUp, c26Top, c26Deeper]) (by decide)⟩

/-! ## C24: `Krot` is a fraction -/

theorem foldl_add_sum {K α : Type} [Field K] (f : α → K) : ∀ (l : List α) (a : K),
    l.foldl (fun acc p => acc + f p) a = a + (l.map f).sum
  | [], a => by simp
  | p :: l, a => by
    rw [List.foldl_cons, foldl_add_sum f l, List.map_cons, List.sum_cons]
    ring

/-- Lagrange and Cauchy-Schwarz for the term of one particle: the squared component of
`r x v` along `J` is at most `|v|^2 |r x J|^2`. -/
theorem krot_key {K : Type} [LinearOrderedField K] (rx ry rz vx vy vz Jx Jy Jz : K) :
    ((ry * vz - rz * vy) * Jx + (rz * vx - rx * vz) * Jy + (rx * vy - ry * vx) * Jz) *
        ((ry * vz - rz * vy) * Jx + (rz * vx - rx * vz) * Jy + (rx * vy - ry * vx) * Jz) ≤
      (vx * vx + vy * vy + vz * vz) *
        ((rx * rx + ry * ry + rz * rz) * (Jx * Jx + Jy * Jy + Jz * Jz) -
          (rx * Jx + ry * Jy + rz * Jz) * (rx * Jx + ry * Jy + rz * Jz)) := by
  have h : (vx * vx + vy * vy + vz * vz) *
        ((rx * rx + ry * ry + rz * rz) * (Jx * Jx + Jy * Jy + Jz * Jz) -
          (rx * Jx + ry * Jy + rz * Jz) * (rx * Jx + ry * Jy + rz * Jz)) -
      ((ry * vz - rz * vy) * Jx + (rz * vx - rx * vz) * Jy + (rx * vy - ry * vx) * Jz) *
        ((ry * vz - rz * vy) * Jx + (rz * vx - rx * vz) * Jy + (rx * vy - ry * vx) * Jz) =
      (vy * (Jx * ry - Jy * rx) - vz * (Jz * rx - Jx * rz)) ^ 2 +
      (vz * (Jy * rz - Jz * ry) - vx * (Jx * ry - Jy * rx)) ^ 2 +
      (vx * (Jz * rx - Jx * rz) - vy * (Jy * rz - Jz * ry)) ^ 2 := by ring
  have h2 : 0 ≤ (vy * (Jx * ry - Jy * rx) - vz * (Jz * rx - Jx * rz)) ^ 2 +
      (vz * (Jy * rz - Jz * ry) - vx * (Jx * ry - Jy * rx)) ^ 2 +
      (vx * (Jz * rx - Jx * rz) - vy * (Jy * rz - Jz * ry)) ^ 2 := by positivity
  linarith

theorem sum_sq_pos_of_ne {K : Type} [LinearOrderedField K] (a b c : K)
    (h : ¬ (a = 0 ∧ b = 0 ∧ c = 0)) : 0 < a * a + b * b + c * c := by
  by_contra hcon
  have ha := mul_self_nonneg a
  have hb := mul_self_nonneg b
  have hc := mul_self_nonneg c
  have ha0 : a * a = 0 := by linarith
  have hb0 : b * b = 0 := by linarith
  have hc0 : c * c = 0 := by linarith
  exact h ⟨mul_self_eq_zero.mp ha0, mul_self_eq_zero.mp hb0, mul_self_eq_zero.mp hc0⟩

theorem coordinateOver_sq_pos {K : Type} [LinearOrderedField K] (a : CoordinateOver K)
    (h : a ≠ ⟨0, 0, 0⟩) : 0 < a.x * a.x + a.y * a.y + a.z * a.z := by
  apply sum_sq_pos_of_ne
  rintro ⟨hx, hy, hz⟩
  apply h
  cases a
  simp only at hx hy hz
  rw [hx, hy, hz]

/-- The term of one particle: with an exact root, a non-zero `gJ` and the particle off the
axis, `Rdist*Rdist` is positive and `jzval*jzval/(Rdist*Rdist)` lies between `0` and the
squared speed. -/
theorem krot_term_bounds {K : Type} [LinearOrderedField K] (sqrtF : K → K)
    (hsqrt : ∀ y, 0 ≤ y → sqrtF y * sqrtF y = y) (gcmvel gJ : CoordinateOver K)
    (p : KinParticle K) (hJ : gJ ≠ ⟨0, 0, 0⟩) (hax : p.pos.Cross gJ ≠ ⟨0, 0, 0⟩) :
    0 < krotRdist sqrtF gJ p * krotRdist sqrtF gJ p ∧
      0 ≤ krotJzval sqrtF gcmvel gJ p * krotJzval sqrtF gcmvel gJ p /
        (krotRdist sqrtF gJ p * krotRdist sqrtF gJ p) ∧
      krotJzval sqrtF gcmvel gJ p * krotJzval sqrtF gcmvel gJ p /
        (krotRdist sqrtF gJ p * krotRdist sqrtF gJ p) ≤
        (p.relVel gcmvel).x * (p.relVel gcmvel).x + (p.relVel gcmvel).y * (p.relVel gcmvel).y +
          (p.relVel gcmvel).z * (p.relVel gcmvel).z := by
  have hJJ := coordinateOver_sq_pos gJ hJ
  have hL : gJ.Length sqrtF * gJ.Length sqrtF = gJ.x * gJ.x + gJ.y * gJ.y + gJ.z * gJ.z :=
    hsqrt _ (le_of_lt hJJ)
  have hN0 := coordinateOver_sq_pos (p.pos.Cross gJ) hax
  have hN : 0 < (p.pos.x * p.pos.x + p.pos.y * p.pos.y + p.pos.z * p.pos.z) *
      (gJ.x * gJ.x + gJ.y * gJ.y + gJ.z * gJ.z) - p.pos.dot gJ * p.pos.dot gJ := by
    have : (p.pos.x * p.pos.x + p.pos.y * p.pos.y + p.pos.z * p.pos.z) *
        (gJ.x * gJ.x + gJ.y * gJ.y + gJ.z * gJ.z) - p.pos.dot gJ * p.pos.dot gJ =
        (p.pos.Cross gJ).x * (p.pos.Cross gJ).x + (p.pos.Cross gJ).y * (p.pos.Cross gJ).y +
          (p.pos.Cross gJ).z * (p.pos.Cross gJ).z := by
      simp only [CoordinateOver.dot, CoordinateOver.Cross]
      ring
    rw [this]
    exact hN0
  have hR : p.pos.x * p.pos.x + p.pos.y * p.pos.y + p.pos.z * p.pos.z -
      p.pos.dot gJ / gJ.Length sqrtF * (p.pos.dot gJ / gJ.Length sqrtF) =
      ((p.pos.x * p.pos.x + p.pos.y * p.pos.y + p.pos.z * p.pos.z) *
        (gJ.x * gJ.x + gJ.y * gJ.y + gJ.z * gJ.z) - p.pos.dot gJ * p.pos.dot gJ) /
        (gJ.x * gJ.x + gJ.y * gJ.y + gJ.z * gJ.z) := by
    rw [div_mul_div_comm, hL]
    field_simp
  have hRpos : 0 < p.pos.x * p.pos.x + p.pos.y * p.pos.y + p.pos.z * p.pos.z -
      p.pos.dot gJ / gJ.Length sqrtF * (p.pos.dot gJ / gJ.Length sqrtF) := by
    rw [hR]
    exact div_pos hN hJJ
  have hRd : krotRdist sqrtF gJ p * krotRdist sqrtF gJ p =
      ((p.pos.x * p.pos.x + p.pos.y * p.pos.y + p.pos.z * p.pos.z) *
        (gJ.x * gJ.x + gJ.y * gJ.y + gJ.z * gJ.z) - p.pos.dot gJ * p.pos.dot gJ) /
        (gJ.x * gJ.x + gJ.y * gJ.y + gJ.z * gJ.z) := by
    unfold krotRdist
    rw [hsqrt _ (le_of_lt hRpos), hR]
  have hjz : krotJzval sqrtF gcmvel gJ p * krotJzval sqrtF gcmvel gJ p =
      (p.pos.Cross (p.relVel gcmvel)).dot gJ * (p.pos.Cross (p.relVel gcmvel)).dot gJ /
        (gJ.x * gJ.x + gJ.y * gJ.y + gJ.z * gJ.z) := by
    unfold krotJzval
    rw [div_mul_div_comm, hL]
  have hratio : krotJzval sqrtF gcmvel gJ p * krotJzval sqrtF gcmvel gJ p /
      (krotRdist sqrtF gJ p * krotRdist sqrtF gJ p) =
      (p.pos.Cross (p.relVel gcmvel)).dot gJ * (p.pos.Cross (p.relVel gcmvel)).dot gJ /
        ((p.pos.x * p.pos.x + p.pos.y * p.pos.y + p.pos.z * p.pos.z) *
          (gJ.x * gJ.x + gJ.y * gJ.y + gJ.z * gJ.z) - p.pos.dot gJ * p.pos.dot gJ) := by
    rw [hjz, hRd]
    field_simp
  refine ⟨by rw [hRd]; exact div_pos hN hJJ, ?_, ?_⟩
  · rw [hratio]
    exact div_nonneg (mul_self_nonneg _) (le_of_lt hN)
  · rw [hratio, div_le_iff₀ hN]
    have := krot_key p.pos.x p.pos.y p.pos.z (p.relVel gcmvel).x (p.relVel gcmvel).y
      (p.relVel gcmvel).z gJ.x gJ.y gJ.z
    simp only [CoordinateOver.dot, CoordinateOver.Cross] at this ⊢
    exact this

/-- The sample group over `ℚ`, where the roots taken are exact: `gJ = (0, 0, -3)` and
`Krot = (1 + 16/25)/2` in both branches. -/
theorem krot_c24Part :
    GetCMProp_gJ ⟨0, 0, 0⟩ (c24Part ℚ) = ⟨0, 0, -3⟩ ∧
      GetCMProp_small_Krot Rat.sqrt ⟨0, 0, 0⟩ 0 (c24Part ℚ) = 41 / 50 ∧
      GetCMProp_large_Krot Rat.sqrt ⟨0, 0, 0⟩ (c24Part ℚ) = 41 / 50 := by
  refine ⟨?_, ?_, ?_⟩
  · simp [GetCMProp_gJ, c24Part, CoordinateOver.Cross, KinParticle.relVel]
    norm_num
  · decide!
  · decide!

/-- C24: in exact arithmetic (any ordered field with a root function that is exact on the
non-negative values), for a group of positive masses whose total angular momentum `gJ` is not
zero, whose kinetic energy is not zero and none of whose particles lies on the axis through
the origin along `gJ`, no divisor of the `Krot` computation is zero and the value of `Krot`
computed by `GetCMProp`, from `Krot = 0` at entry in the small-group branch, is
`(sum of m*jzval^2/Rdist^2)/(sum of m*|v - gcmvel|^2)` and lies between `0` and `1`, in both
branches. -/
theorem C24_Krot_is_fraction {K : Type} [LinearOrderedField K] (sqrtF : K → K)
    (gcmvel : CoordinateOver K) (Part : List (KinParticle K))
    (hsqrt : ∀ y, 0 ≤ y → sqrtF y * sqrtF y = y)
    (hm : ∀ p ∈ Part, 0 < p.mass)
    (hJ : GetCMProp_gJ gcmvel Part ≠ ⟨0, 0, 0⟩)
    (hE : GetCMProp_small_Ekin gcmvel Part ≠ 0)
    (hax : ∀ p ∈ Part, p.pos.Cross (GetCMProp_gJ gcmvel Part) ≠ ⟨0, 0, 0⟩) :
    (GetCMProp_gJ gcmvel Part).Length sqrtF ≠ 0 ∧
      (∀ p ∈ Part, krotRdist sqrtF (GetCMProp_gJ gcmvel Part) p ≠ 0) ∧
      GetCMProp_large_Ekin gcmvel Part ≠ 0 ∧
      GetCMProp_small_Krot sqrtF gcmvel 0 Part =
        krotAsSpecified sqrtF gcmvel (GetCMProp_gJ gcmvel Part) Part ∧
      GetCMProp_large_Krot sqrtF gcmvel Part = GetCMProp_small_Krot sqrtF gcmvel 0 Part ∧
      0 ≤ GetCMProp_small_Krot sqrtF gcmvel 0 Part ∧
      GetCMProp_small_Krot sqrtF gcmvel 0 Part ≤ 1 := by
  have hJJ := coordinateOver_sq_pos _ hJ
  have hL : (GetCMProp_gJ gcmvel Part).Length sqrtF *
      (GetCMProp_gJ gcmvel Part).Length sqrtF = _ := hsqrt _ (le_of_lt hJJ)
  have hterm := fun p (hp : p ∈ Part) =>
    krot_term_bounds sqrtF hsqrt gcmvel (GetCMProp_gJ gcmvel Part) p hJ (hax p hp)
  have hS0 : 0 ≤ (Part.map (fun p => p.mass *
      (krotJzval sqrtF gcmvel (GetCMProp_gJ gcmvel Part) p *
        krotJzval sqrtF gcmvel (GetCMProp_gJ gcmvel Part) p /
        (krotRdist sqrtF (GetCMProp_gJ gcmvel Part) p *
          krotRdist sqrtF (GetCMProp_gJ gcmvel Part) p)))).sum := by
    apply List.sum_nonneg
    intro x hx
    obtain ⟨p, hp, rfl⟩ := List.mem_map.mp hx
    exact mul_nonneg (le_of_lt (hm p hp)) (hterm p hp).2.1
  have hSE : (Part.map (fun p => p.mass *
      (krotJzval sqrtF gcmvel (GetCMProp_gJ gcmvel Part) p *
        krotJzval sqrtF gcmvel (GetCMProp_gJ gcmvel Part) p /
        (krotRdist sqrtF (GetCMProp_gJ gcmvel Part) p *
          krotRdist sqrtF (GetCMProp_gJ gcmvel Part) p)))).sum ≤
      (Part.map (fun p => p.mass * ((p.relVel gcmvel).x * (p.relVel gcmvel).x +
        (p.relVel gcmvel).y * (p.relVel gcmvel).y +
        (p.relVel gcmvel).z * (p.relVel gcmvel).z))).sum := by
    apply List.sum_le_sum
    intro p hp
    exact mul_le_mul_of_nonneg_left (hterm p hp).2.2 (le_of_lt (hm p hp))
  have hEs : GetCMProp_small_Ekin gcmvel Part =
      (Part.map (fun p => p.mass * ((p.relVel gcmvel).x * (p.relVel gcmvel).x +
        (p.relVel gcmvel).y * (p.relVel gcmvel).y +
        (p.relVel gcmvel).z * (p.relVel gcmvel).z))).sum * (1 / 2) := by
    unfold GetCMProp_small_Ekin
    rw [foldl_add_sum, zero_add]
  have hEl : GetCMProp_large_Ekin gcmvel Part = GetCMProp_small_Ekin gcmvel Part := by
    rw [hEs]
    unfold GetCMProp_large_Ekin
    rw [foldl_add_sum, zero_add]
    congr 2
    apply List.map_congr_left
    intro p _
    ring
  have hK : krotLoop sqrtF gcmvel (GetCMProp_gJ gcmvel Part) 0 Part =
      (Part.map (fun p => p.mass *
        (krotJzval sqrtF gcmvel (GetCMProp_gJ gcmvel Part) p *
          krotJzval sqrtF gcmvel (GetCMProp_gJ gcmvel Part) p /
          (krotRdist sqrtF (GetCMProp_gJ gcmvel Part) p *
            krotRdist sqrtF (GetCMProp_gJ gcmvel Part) p)))).sum := by
    unfold krotLoop
    rw [foldl_add_sum, zero_add]
  have hEne : (Part.map (fun p => p.mass * ((p.relVel gcmvel).x * (p.relVel gcmvel).x +
      (p.relVel gcmvel).y * (p.relVel gcmvel).y +
      (p.relVel gcmvel).z * (p.relVel gcmvel).z))).sum ≠ 0 := by
    intro h0
    apply hE
    rw [hEs, h0, zero_mul]
  have hEpos := lt_of_le_of_ne (le_trans hS0 hSE) (Ne.symm hEne)
  have hsmall : GetCMProp_small_Krot sqrtF gcmvel 0 Part =
      krotAsSpecified sqrtF gcmvel (GetCMProp_gJ gcmvel Part) Part := by
    unfold GetCMProp_small_Krot krotAsSpecified
    rw [hK, hEs]
    field_simp
  refine ⟨?_, ?_, ?_, hsmall, ?_, ?_, ?_⟩
  · intro h0
    rw [h0, mul_zero] at hL
    exact absurd hL.symm (ne_of_gt hJJ)
  · intro p hp h0
    have := (hterm p hp).1
    rw [h0, mul_zero] at this
    exact lt_irrefl _ this
  · rw [hEl]
    exact hE
  · rw [hsmall]
    unfold GetCMProp_large_Krot krotAsSpecified
    rw [hK, hEl, hEs]
    field_simp
  · rw [hsmall]
    exact div_nonneg hS0 (le_of_lt hEpos)
  · rw [hsmall]
    unfold krotAsSpecified
    rw [div_le_one hEpos]
    exact hSE

/-- Witness for C24: the sample group over the reals with the real square root. -/
theorem C24_Krot_is_fraction_witness :
    (∀ y : ℝ, 0 ≤ y → Real.sqrt y * Real.sqrt y = y) ∧
      (∀ p ∈ c24Part ℝ, 0 < p.mass) ∧
      GetCMProp_gJ ⟨0, 0, 0⟩ (c24Part ℝ) ≠ ⟨0, 0, 0⟩ ∧
      GetCMProp_small_Ekin ⟨0, 0, 0⟩ (c24Part ℝ) ≠ 0 ∧
      (∀ p ∈ c24Part ℝ, p.pos.Cross (GetCMProp_gJ ⟨0, 0, 0⟩ (c24Part ℝ)) ≠ ⟨0, 0, 0⟩) ∧
      (GetCMProp_gJ ⟨0, 0, 0⟩ (c24Part ℝ)).Length Real.sqrt ≠ 0 ∧
      (∀ p ∈ c24Part ℝ, krotRdist Real.sqrt (GetCMProp_gJ ⟨0, 0, 0⟩ (c24Part ℝ)) p ≠ 0) ∧
      GetCMProp_large_Ekin ⟨0, 0, 0⟩ (c24Part ℝ) ≠ 0 ∧
      GetCMProp_small_Krot Real.sqrt ⟨0, 0, 0⟩ 0 (c24Part ℝ) =
        krotAsSpecified Real.sqrt ⟨0, 0, 0⟩ (GetCMProp_gJ ⟨0, 0, 0⟩ (c24Part ℝ)) (c24Part ℝ) ∧
      GetCMProp_large_Krot Real.sqrt ⟨0, 0, 0⟩ (c24Part ℝ) =
        GetCMProp_small_Krot Real.sqrt ⟨0, 0, 0⟩ 0 (c24Part ℝ) ∧
      0 ≤ GetCMProp_small_Krot Real.sqrt ⟨0, 0, 0⟩ 0 (c24Part ℝ) ∧
      GetCMProp_small_Krot Real.sqrt ⟨0, 0, 0⟩ 0 (c24Part ℝ) ≤ 1 :=
  have hgJ : GetCMProp_gJ (⟨0, 0, 0⟩ : CoordinateOver ℝ) (c24Part ℝ) = ⟨0, 0, -3⟩ := by
    simp [GetCMProp_gJ, c24Part, CoordinateOver.Cross, KinParticle.relVel]
    norm_num
  have hs : ∀ y : ℝ, 0 ≤ y → Real.sqrt y * Real.sqrt y = y := fun _ hy =>
    Real.mul_self_sqrt hy
  have hm : ∀ p ∈ c24Part ℝ, 0 < p.mass := by simp [c24Part]
  have hJ : GetCMProp_gJ (⟨0, 0, 0⟩ : CoordinateOver ℝ) (c24Part ℝ) ≠ ⟨0, 0, 0⟩ := by
    rw [hgJ]
    simp
  have hE : GetCMProp_small_Ekin (⟨0, 0, 0⟩ : CoordinateOver ℝ) (c24Part ℝ) ≠ 0 := by
    simp [GetCMProp_small_Ekin, c24Part, KinParticle.relVel]
  have hax : ∀ p ∈ c24Part ℝ,
      p.pos.Cross (GetCMProp_gJ (⟨0, 0, 0⟩ : CoordinateOver ℝ) (c24Part ℝ)) ≠ ⟨0, 0, 0⟩ := by
    rw [hgJ]
    simp [c24Part, CoordinateOver.Cross]
  ⟨hs, hm, hJ, hE, hax, C24_Krot_is_fraction Real.sqrt ⟨0, 0, 0⟩ (c24Part ℝ) hs hm hJ hE hax⟩

/-! ## C25: the bracket `[1.9, 1000]` holds one root of `mycNFW` -/

/-- The denominator of `mycNFW` is positive for a positive concentration. -/
theorem nfw_denominator_pos (c : ℝ) (hc : 0 < c) : 0 < Real.log (1 + c) - c / (1 + c) := by
  have h1 : (0 : ℝ) < 1 + c := by linarith
  have h := Real.log_lt_sub_one_of_pos (inv_pos.mpr h1) (by
    intro h
    have : (1 + c) = 1 := by
      have := congrArg (fun t => t⁻¹) h
      simpa using this
    linarith)
  rw [Real.log_inv] at h
  have h2 : c / (1 + c) = 1 - (1 + c)⁻¹ := by
    field_simp
  rw [h2]
  linarith

theorem log_29_10_gt : (106 / 100 : ℝ) < Real.log (29 / 10) := by
  have h : ((2 : ℝ) ^ 23) < (29 / 10) ^ 15 := by norm_num
  have h2 := Real.log_lt_log (by positivity) h
  rw [Real.log_pow, Real.log_pow] at h2
  have h3 := Real.log_two_gt_d9
  norm_num at h2 h3 ⊢
  linarith

theorem log_1001_lt : Real.log 1001 < (6932 / 1000 : ℝ) := by
  have h : (1001 : ℝ) < 2 ^ 10 := by norm_num
  have h2 := Real.log_lt_log (by norm_num) h
  rw [Real.log_pow] at h2
  have h3 := Real.log_two_lt_d9
  norm_num at h2 h3 ⊢
  linarith

theorem mycNFW_eq_div (V c : ℝ) (hc : 0 < c) :
    mycNFW Real.log c V = nfwNumerator Real.log V c / (Real.log (1 + c) - c / (1 + c)) := by
  have hf := ne_of_gt (nfw_denominator_pos c hc)
  unfold mycNFW nfwNumerator
  generalize Real.log (1 + c) - c / (1 + c) = d at hf
  field_simp
  ring

theorem mycNFW_pos_iff (V c : ℝ) (hc : 0 < c) :
    0 < mycNFW Real.log c V ↔ 0 < nfwNumerator Real.log V c := by
  rw [mycNFW_eq_div V c hc]
  exact div_pos_iff_of_pos_right (nfw_denominator_pos c hc)

theorem mycNFW_neg_iff (V c : ℝ) (hc : 0 < c) :
    mycNFW Real.log c V < 0 ↔ nfwNumerator Real.log V c < 0 := by
  rw [mycNFW_eq_div V c hc]
  have hf := nfw_denominator_pos c hc
  rw [div_neg_iff]
  constructor
  · rintro (⟨_, h⟩ | ⟨h, _⟩)
    · exact absurd h (not_lt.mpr (le_of_lt hf))
    · exact h
  · exact fun h => Or.inr ⟨h, hf⟩

theorem mycNFW_zero_iff (V c : ℝ) (hc : 0 < c) :
    mycNFW Real.log c V = 0 ↔ nfwNumerator Real.log V c = 0 := by
  rw [mycNFW_eq_div V c hc, div_eq_zero_iff]
  constructor
  · rintro (h | h)
    · exact h
    · exact absurd h (ne_of_gt (nfw_denominator_pos c hc))
  · exact Or.inl

theorem nfwNumerator_lo_pos (V : ℝ) (h1 : 105 / 100 < V) :
    0 < nfwNumerator Real.log V (19 / 10) := by
  unfold nfwNumerator
  have hlog := log_29_10_gt
  have h29 : (1 : ℝ) + 19 / 10 = 29 / 10 := by norm_num
  rw [h29]
  have hf : (40 / 100 : ℝ) < Real.log (29 / 10) - 19 / 10 / (29 / 10) := by
    norm_num
    linarith
  nlinarith

theorem nfwNumerator_hi_neg (V : ℝ) (h0 : 0 ≤ V) (h2 : V ≤ 36) :
    nfwNumerator Real.log V 1000 < 0 := by
  unfold nfwNumerator
  have hlog := log_1001_lt
  have h1001 : (1 : ℝ) + 1000 = 1001 := by norm_num
  have hpos := nfw_denominator_pos 1000 (by norm_num)
  rw [h1001] at hpos ⊢
  have hf : Real.log 1001 - 1000 / 1001 < (594 / 100 : ℝ) := by
    norm_num
    linarith
  nlinarith

theorem nfwNumerator_hasDerivAt (V c : ℝ) (hc : 0 < c) :
    HasDerivAt (nfwNumerator Real.log V) (V * (c / (1 + c) ^ 2) - 216 / 1000) c := by
  have hne : (1 : ℝ) + c ≠ 0 := by linarith
  have h1 : HasDerivAt (fun y : ℝ => 1 + y) 1 c := (hasDerivAt_id c).const_add 1
  have hlog := h1.log hne
  have hdiv := (hasDerivAt_id c).div h1 hne
  have hphi := ((hlog.sub hdiv).const_mul V).sub ((hasDerivAt_id c).const_mul (216 / 1000))
  have hfun : (fun y : ℝ => V * (Real.log (1 + y) - id y / (1 + y)) - 216 / 1000 * id y) =
      nfwNumerator Real.log V := by
    funext y
    simp [nfwNumerator]
  rw [hfun] at hphi
  convert hphi using 1
  simp only [id]
  field_simp
  ring

theorem nfwNumerator_concaveOn (V : ℝ) (h0 : 0 ≤ V) :
    ConcaveOn ℝ (Set.Icc (19 / 10 : ℝ) 1000) (nfwNumerator Real.log V) := by
  apply AntitoneOn.concaveOn_of_deriv (convex_Icc _ _)
  · intro c hc
    exact (nfwNumerator_hasDerivAt V c (by linarith [hc.1])).continuousAt.continuousWithinAt
  · intro c hc
    rw [interior_Icc] at hc
    exact (nfwNumerator_hasDerivAt V c
      (by linarith [hc.1])).differentiableAt.differentiableWithinAt
  · intro x hx y hy hxy
    rw [interior_Icc] at hx hy
    have hx0 : 0 < x := by linarith [hx.1]
    have hy0 : 0 < y := by linarith [hy.1]
    rw [(nfwNumerator_hasDerivAt V x hx0).deriv, (nfwNumerator_hasDerivAt V y hy0).deriv]
    have hfrac : y / (1 + y) ^ 2 ≤ x / (1 + x) ^ 2 := by
      rw [div_le_div_iff₀ (by positivity) (by positivity)]
      have hx1 : 1 ≤ x := by linarith [hx.1]
      have hy1 : 1 ≤ y := by linarith [hy.1]
      nlinarith [mul_nonneg (sub_nonneg.mpr hxy) (by nlinarith : 0 ≤ x * y - 1)]
    have := mul_le_mul_of_nonneg_left hfrac h0
    linarith

/-- A concave function that is positive at the start of an interval has no two roots in
it. -/
theorem concave_roots_not_lt (f : ℝ → ℝ) (a b : ℝ) (hf : ConcaveOn ℝ (Set.Icc a b) f)
    (ha : 0 < f a) (c1 c2 : ℝ) (h1 : c1 ∈ Set.Icc a b) (h2 : c2 ∈ Set.Icc a b)
    (hr1 : f c1 = 0) (hr2 : f c2 = 0) (hlt : c1 < c2) : False := by
  have hac1 : a < c1 := by
    rcases lt_or_eq_of_le h1.1 with h | h
    · exact h
    · rw [← h, ] at hr1
      linarith
  have hpos : 0 < c2 - a := by linarith
  have hab : a ≤ b := le_trans h1.1 h1.2
  have hcomb : (c2 - c1) / (c2 - a) * a + (c1 - a) / (c2 - a) * c2 = c1 := by
    field_simp
    ring
  have hsum : (c2 - c1) / (c2 - a) + (c1 - a) / (c2 - a) = 1 := by
    field_simp
  have h := hf.2 (Set.left_mem_Icc.mpr hab) h2
    (le_of_lt (div_pos (by linarith) hpos) : 0 ≤ (c2 - c1) / (c2 - a))
    (le_of_lt (div_pos (by linarith) hpos) : 0 ≤ (c1 - a) / (c2 - a)) hsum
  simp only [smul_eq_mul] at h
  rw [hcomb, hr1, hr2, mul_zero, add_zero] at h
  have : 0 < (c2 - c1) / (c2 - a) * f a := mul_pos (div_pos (by linarith) hpos) ha
  linarith

/-- C25: for every real `VmaxVvir2` on which the solver runs, `1.05 < VmaxVvir2 <= 36`, in
exact arithmetic `mycNFW(1.9) > 0` and `mycNFW(1000) < 0`, and `mycNFW` has exactly one root
in the bracket `[x_lo, x_hi] = [1.9, 1000]` of `GetConcentration`. -/
theorem C25_bracket_holds_one_root (VmaxVvir2 : ℝ) (h1 : 105 / 100 < VmaxVvir2)
    (h2 : VmaxVvir2 ≤ 36) :
    0 < mycNFW Real.log GetConcentration_x_lo VmaxVvir2 ∧
      mycNFW Real.log GetConcentration_x_hi VmaxVvir2 < 0 ∧
      ∃! c : ℝ, (GetConcentration_x_lo ≤ c ∧ c ≤ GetConcentration_x_hi) ∧
        mycNFW Real.log c VmaxVvir2 = 0 := by
  have h0 : 0 ≤ VmaxVvir2 := by linarith
  have hlo := nfwNumerator_lo_pos VmaxVvir2 h1
  have hhi := nfwNumerator_hi_neg VmaxVvir2 h0 h2
  have hconc := nfwNumerator_concaveOn VmaxVvir2 h0
  have hcont : ContinuousOn (nfwNumerator Real.log VmaxVvir2) (Set.Icc (19 / 10 : ℝ) 1000) :=
    fun c hc => (nfwNumerator_hasDerivAt VmaxVvir2 c
      (by linarith [hc.1])).continuousAt.continuousWithinAt
  unfold GetConcentration_x_lo GetConcentration_x_hi
  refine ⟨(mycNFW_pos_iff VmaxVvir2 _ (by norm_num)).mpr hlo,
    (mycNFW_neg_iff VmaxVvir2 _ (by norm_num)).mpr hhi, ?_⟩
  obtain ⟨c, hc, hroot⟩ := intermediate_value_Icc' (by norm_num : (19 / 10 : ℝ) ≤ 1000) hcont
    (⟨le_of_lt hhi, le_of_lt hlo⟩ : (0 : ℝ) ∈ Set.Icc _ _)
  refine ⟨c, ⟨⟨hc.1, hc.2⟩, (mycNFW_zero_iff VmaxVvir2 c (by linarith [hc.1])).mpr hroot⟩, ?_⟩
  rintro y ⟨⟨hy1, hy2⟩, hyroot⟩
  have hyr := (mycNFW_zero_iff VmaxVvir2 y (by linarith)).mp hyroot
  rcases lt_trichotomy y c with h | h | h
  · exact (concave_roots_not_lt _ _ _ hconc hlo y c ⟨hy1, hy2⟩ hc hyr hroot h).elim
  · exact h
  · exact (concave_roots_not_lt _ _ _ hconc hlo c y hc ⟨hy1, hy2⟩ hroot hyr h).elim

/-- Witness for C25: `VmaxVvir2 = 4`. -/
theorem C25_bracket_holds_one_root_witness :
    (105 / 100 : ℝ) < 4 ∧ (4 : ℝ) ≤ 36 ∧
      0 < mycNFW Real.log GetConcentration_x_lo (4 : ℝ) ∧
      mycNFW Real.log GetConcentration_x_hi (4 : ℝ) < 0 ∧
      ∃! c : ℝ, (GetConcentration_x_lo ≤ c ∧ c ≤ GetConcentration_x_hi) ∧
        mycNFW Real.log c 4 = 0 :=
  ⟨by norm_num, by norm_num, C25_bracket_holds_one_root 4 (by norm_num) (by norm_num)⟩

/-- The function runs over `ℚ` with the stand-in `log x = x - 1`:
`mycNFW(1) = 4 - 0.216/(1 - 1/2)` at `VmaxVvir2 = 4`. -/
theorem mycNFW_standIn : mycNFW logStandIn 1 4 = 446 / 125 := by
  decide!

end Velociraptor
